import Mathlib

/-!
# TcpServer: buffer, URL helpers, HTTP parser and server, event loop, timer wheel, connection

A shallow embedding of `ProtocolCode/Util.hpp`, `ServerCode/Buffer.hpp`,
`ProtocolCode/HttpRequest.hpp`, `ProtocolCode/HttpContext.hpp`, `ProtocolCode/HttpResponse.hpp`,
`ProtocolCode/HttpServer.hpp`, `ServerCode/Channel.hpp`, `ServerCode/LoopThreadPool.hpp`,
`ServerCode/EventLoop.hpp`, `ServerCode/TimerWheel.hpp` and `ServerCode/Connection.hpp`.

* a `char` is a byte (`Fin 256`); `schar` gives its value as a signed char;
* a `std::string` is a list of bytes;
* a member function that mutates `this` takes the object and returns the new one;
* a failed `assert`, an exception thrown by the standard library and undefined behaviour are
  values of `Exn`;
* what a call does to the file system, to the route handlers and to the connection is
  recorded as a list of `Event`s;
* the order in which a `std::unordered_map` is iterated is not fixed by the sources: it is a
  parameter (`Env.iterate`);
* a `shared_ptr<TimerTask>` is the number of the object in a heap of timer objects, and the
  object is alive while a vector of the wheel holds its number.
-/

set_option autoImplicit false

/-- A `char`: one byte. -/
abbrev Byte := Fin 256

/-- A `std::string`: a sequence of bytes. -/
abbrev Str := List Byte

/-- The bytes of an ASCII string literal. -/
def bytes (s : String) : Str := s.toList.map (fun c => Fin.ofNat c.toNat)

/-- The value of a `char` where `char` is signed: 0x80..0xFF are -128..-1. -/
def schar (c : Byte) : Int := if c.val < 128 then (c.val : Int) else (c.val : Int) - 256

/-- Conversion of an `int` to `char`: the value modulo 256. -/
def toChar (v : Int) : Byte := Fin.ofNat (v % 256).toNat

/-- What stops a call: a failed `assert`, an exception of the standard library
(`std::invalid_argument`, `std::out_of_range`, `std::bad_function_call`), or a step whose
behaviour the language leaves undefined (`back()` of an empty string). -/
inductive Exn where
  | assertion
  | invalid_argument
  | out_of_range
  | undefined
  | bad_function_call
  deriving DecidableEq

/-- `std::string::npos` is modelled by `none`. A position of `sep` in `s`, counted from the
start of `s`: the first index at which `sep` is a prefix of what remains. -/
def findFrom (sep : Str) : Str → Option Nat
  | [] => if sep = [] then some 0 else none
  | c :: t => if sep.isPrefixOf (c :: t) then some 0 else (findFrom sep t).map (· + 1)

/-- `std::string::find(sep, offset)`. -/
def strFind (src sep : Str) (offset : Nat) : Option Nat :=
  if offset ≤ src.length then (findFrom sep (src.drop offset)).map (· + offset) else none

/-- `std::string::substr(pos, len)`. -/
def substr (s : Str) (pos len : Nat) : Str := (s.drop pos).take len

/-- `::toupper` in the C locale. -/
def toupper (c : Byte) : Byte := if 97 ≤ c.val ∧ c.val ≤ 122 then Fin.ofNat (c.val - 32) else c

/-- `tolower` in the C locale (used by `std::regex::icase`). -/
def tolower (c : Byte) : Byte := if 65 ≤ c.val ∧ c.val ≤ 90 then Fin.ofNat (c.val + 32) else c

/-- `isalnum` in the C locale, on the promoted `int` value of the char. -/
def isalnum (c : Int) : Bool :=
  (48 ≤ c ∧ c ≤ 57) ∨ (65 ≤ c ∧ c ≤ 90) ∨ (97 ≤ c ∧ c ≤ 122)

/-- One upper-case hexadecimal digit. -/
def hexDigit (d : Nat) : Byte := if d < 10 then Fin.ofNat (48 + d) else Fin.ofNat (55 + d)

/-- The upper-case hexadecimal digits of `n`, most significant first (`fuel` digits at most). -/
def hexUpper : Nat → Nat → Str → Str
  | 0, _, acc => acc
  | fuel + 1, n, acc =>
    if n < 16 then hexDigit n :: acc else hexUpper fuel (n / 16) (hexDigit (n % 16) :: acc)

/-- `snprintf(tmp, size, "%%%02X", c)` followed by reading `tmp` as a C string: the `char` is
promoted to `int` and printed as an `unsigned int` (32 bits, at most 8 digits), at least two
digits wide, after a percent sign; `snprintf` keeps the first `size - 1` bytes. -/
def snprintfPct02X (size : Nat) (c : Byte) : Str :=
  let u : Nat := (schar c % 2 ^ 32).toNat
  let digits := hexUpper 8 u []
  let padded := List.replicate (2 - digits.length) (48 : Byte) ++ digits
  ((37 : Byte) :: padded).take (size - 1)

namespace Util

/-- The loop of `Util::Split`: `offset` is the loop variable, `arry` the output vector.
The test `pos == src.size()` inside the `npos` branch never holds. The first argument bounds
the number of iterations. -/
def SplitLoop (src sep : Str) : Nat → Nat → List Str → List Str
  | 0, _, arry => arry
  | fuel + 1, offset, arry =>
    if offset < src.length then
      match strFind src sep offset with
      | none => arry ++ [src.drop offset]
      | some pos =>
        if pos = offset then SplitLoop src sep fuel (pos + sep.length) arry
        else SplitLoop src sep fuel (pos + sep.length) (arry ++ [substr src offset (pos - offset)])
    else arry

/-- `Util::Split(src, sep, &arry)` called with an empty `arry`: the substrings put in `arry`.
Every iteration with a non-empty `sep` advances `offset`, so `src.size() + 1` iterations
are enough. -/
def Split (src sep : Str) : List Str := SplitLoop src sep (src.length + 1) 0 []

/-- `Util::UrlEncode`. -/
def UrlEncode : Str → Bool → Str
  | [], _ => []
  | c :: url, convert_space_to_plus =>
    if c = 46 ∨ c = 45 ∨ c = 95 ∨ c = 126 ∨ isalnum (schar c) = true then
      c :: UrlEncode url convert_space_to_plus
    else if c = 32 ∧ convert_space_to_plus = true then
      (43 : Byte) :: UrlEncode url convert_space_to_plus
    else
      snprintfPct02X 4 c ++ UrlEncode url convert_space_to_plus

/-- `Util::HEXTOI`: the returned `char`. -/
def HEXTOI (c : Byte) : Byte :=
  if schar c ≥ 48 ∧ schar c ≤ 57 then toChar (schar c - 48)
  else if schar c ≥ 97 ∧ schar c ≤ 122 then toChar (schar c - 97 + 10)
  else if schar c ≥ 65 ∧ schar c ≤ 90 then toChar (schar c - 65 + 10)
  else toChar (-1)

/-- `Util::UrlDecode`: the list is `url` from index `i` on; `(i + 2) < url.size()` says that
at least two more bytes follow `url[i]` (so the last branch of the inner match is never
taken). -/
def UrlDecode : Str → Bool → Str
  | [], _ => []
  | c :: rest, convert_plus_to_space =>
    if c = 43 ∧ convert_plus_to_space = true then
      (32 : Byte) :: UrlDecode rest convert_plus_to_space
    else if c = 37 ∧ 2 ≤ rest.length then
      match rest with
      | a :: b :: rest2 =>
        toChar (schar (HEXTOI a) * 16 + schar (HEXTOI b)) :: UrlDecode rest2 convert_plus_to_space
      | _ => []
    else c :: UrlDecode rest convert_plus_to_space

/-- The loop of `Util::ValidPath` over the sub-directories, `level` being the depth so far
(an `int` that never exceeds the number of sub-directories, so it is taken without wrapping). -/
def ValidPathLoop : List Str → Int → Bool
  | [], _ => true
  | dir :: subdir, level =>
    if dir = [46, 46] then
      if level - 1 < 0 then false else ValidPathLoop subdir (level - 1)
    else ValidPathLoop subdir (level + 1)

/-- `Util::ValidPath`. -/
def ValidPath (path : Str) : Bool := ValidPathLoop (Split path [47]) 0

end Util

/-! ## Buffer -/

/-- The class `Buffer`: the storage vector and the two offsets (`uint64_t`, far from wrapping:
every theorem below is about buffers with `_reader_idx ≤ _writer_idx ≤ _buffer.size()`). -/
structure Buffer where
  _buffer : List Byte
  _reader_idx : Nat
  _writer_idx : Nat
  deriving DecidableEq

/-- `std::copy(data, data + len, dest)` into a vector at offset `pos`. -/
def copyInto (v : List Byte) (pos : Nat) (data : List Byte) : List Byte :=
  v.take pos ++ data ++ v.drop (pos + data.length)

/-- `std::vector<char>::resize(n)`: new elements are zero. -/
def vectorResize (v : List Byte) (n : Nat) : List Byte :=
  v.take n ++ List.replicate (n - v.length) (0 : Byte)

/-- `memchr(p, c, n)` on the bytes `p[0..n)`: the offset of the first `c`. -/
def memchr (c : Byte) : List Byte → Option Nat
  | [] => none
  | x :: xs => if x = c then some 0 else (memchr c xs).map (· + 1)

namespace Buffer

/-- `BUFFER_DEFAULT_SIZE`. -/
def BUFFER_DEFAULT_SIZE : Nat := 1024

/-- The constructor `Buffer()`. -/
def new : Buffer := ⟨List.replicate BUFFER_DEFAULT_SIZE 0, 0, 0⟩

/-- `Buffer::TailIdleSize`. -/
def TailIdleSize (b : Buffer) : Nat := b._buffer.length - b._writer_idx

/-- `Buffer::HeadIdleSize`. -/
def HeadIdleSize (b : Buffer) : Nat := b._reader_idx

/-- `Buffer::ReadAbleSize`. -/
def ReadAbleSize (b : Buffer) : Nat := b._writer_idx - b._reader_idx

/-- The bytes at `ReadPosition()`, `len` of them. -/
def peek (b : Buffer) (len : Nat) : Str := (b._buffer.drop b._reader_idx).take len

/-- `Buffer::MoveReadOffset`. -/
def MoveReadOffset (b : Buffer) (len : Nat) : Except Exn Buffer :=
  if len = 0 then .ok b
  else if len ≤ b.ReadAbleSize then .ok { b with _reader_idx := b._reader_idx + len }
  else .error .assertion

/-- `Buffer::MoveWriteOffset`. -/
def MoveWriteOffset (b : Buffer) (len : Nat) : Except Exn Buffer :=
  if len ≤ b.TailIdleSize then .ok { b with _writer_idx := b._writer_idx + len }
  else .error .assertion

/-- `Buffer::EnsureWriteSpace`; the new size `_writer_idx + len` of the storage is the sum of
natural numbers (lengths are those of data in memory, so the `uint64_t` sum does not wrap). -/
def EnsureWriteSpace (b : Buffer) (len : Nat) : Buffer :=
  if b.TailIdleSize ≥ len then b
  else if len ≤ b.TailIdleSize + b.HeadIdleSize then
    let rsz := b.ReadAbleSize
    { _buffer := copyInto b._buffer 0 (b.peek rsz), _reader_idx := 0, _writer_idx := rsz }
  else
    { b with _buffer := vectorResize b._buffer (b._writer_idx + len) }

/-- `Buffer::Write(const void *data, uint64_t len)` and `Buffer::Write(const std::string &)`. -/
def Write (b : Buffer) (data : Str) : Buffer :=
  if data.length = 0 then b
  else
    let b1 := b.EnsureWriteSpace data.length
    { b1 with _buffer := copyInto b1._buffer b1._writer_idx data }

/-- `Buffer::WriteAndPush(const void *data, uint64_t len)` and
`Buffer::WriteAndPush(const std::string &)`. -/
def WriteAndPush (b : Buffer) (data : Str) : Except Exn Buffer :=
  (b.Write data).MoveWriteOffset data.length

/-- `Buffer::Read(uint64_t len)`, which returns a string. -/
def Read (b : Buffer) (len : Nat) : Except Exn Str :=
  if len ≤ b.ReadAbleSize then .ok (b.peek len) else .error .assertion

/-- `Buffer::ReadAndPop(uint64_t len)`, which returns a string. -/
def ReadAndPop (b : Buffer) (len : Nat) : Except Exn (Str × Buffer) :=
  if len ≤ b.ReadAbleSize then do
    let str ← b.Read len
    let b1 ← b.MoveReadOffset len
    pure (str, b1)
  else .error .assertion

/-- `Buffer::FindCRLF`: the distance of the found byte from `ReadPosition()`, `none` for
`NULL`. -/
def FindCRLF (b : Buffer) : Option Nat := memchr 10 (b.peek b.ReadAbleSize)

/-- `Buffer::GetLine`. -/
def GetLine (b : Buffer) : Except Exn Str :=
  match b.FindCRLF with
  | none => .ok []
  | some pos => b.Read (pos + 1)

/-- `Buffer::GetLineAndPop`. -/
def GetLineAndPop (b : Buffer) : Except Exn (Str × Buffer) := do
  let str ← b.GetLine
  let b1 ← b.MoveReadOffset str.length
  pure (str, b1)

/-- `Buffer::Clear`. -/
def Clear (b : Buffer) : Buffer := { b with _reader_idx := 0, _writer_idx := 0 }

/-- The invariant of the class: read offset ≤ write offset ≤ size of the storage. -/
def WF (b : Buffer) : Prop := b._reader_idx ≤ b._writer_idx ∧ b._writer_idx ≤ b._buffer.length

/-- The readable bytes: those between the two offsets. -/
def readable (b : Buffer) : Str := b.peek b.ReadAbleSize

end Buffer

/-! ## The regular expressions of `std::regex` that the request-line pattern uses -/

/-- A matcher of one character, for a `std::regex` built with `std::regex::icase`: characters
are compared after `tolower`. -/
inductive CharClass where
  /-- An ordinary character. -/
  | lit (c : Byte)
  /-- The dot: any character but LF and CR. -/
  | dot
  /-- A bracket expression `[...]` of characters. -/
  | set (cs : List Byte)
  /-- A negated bracket expression `[^...]` of characters. -/
  | notSet (cs : List Byte)
  deriving DecidableEq

/-- Whether a character of the input is matched. -/
def CharClass.test : CharClass → Byte → Bool
  | .lit c, x => tolower x = tolower c
  | .dot, x => x ≠ 10 ∧ x ≠ 13
  | .set cs, x => (cs.map tolower).contains (tolower x)
  | .notSet cs, x => !((cs.map tolower).contains (tolower x))

/-- The ECMAScript regular expressions built from one-character matchers, sequence,
alternation `a|b`, greedy `k*` on a one-character matcher, greedy `a?` and capturing groups. -/
inductive RE where
  | eps
  | one (k : CharClass)
  | star (k : CharClass)
  | seq (a b : RE)
  | alt (a b : RE)
  | opt (a : RE)
  | group (i : Nat) (a : RE)

/-- The sub-matches recorded so far: (group number, matched text), the latest first. -/
abbrev Caps := List (Nat × Str)

/-- The greedy star of a one-character matcher: the longest run first, then shorter ones. -/
def RE.starRun (k : CharClass) : Str → Caps → List (Str × Caps)
  | [], caps => [([], caps)]
  | c :: t, caps => (if k.test c then RE.starRun k t caps else []) ++ [(c :: t, caps)]

/-- The backtracking matcher: all the ways in which a prefix of the input is matched, in the
order in which backtracking tries them, each with the rest of the input and the sub-matches. -/
def RE.run : RE → Str → Caps → List (Str × Caps)
  | .eps, s, caps => [(s, caps)]
  | .one k, s, caps =>
    match s with
    | [] => []
    | c :: t => if k.test c then [(t, caps)] else []
  | .star k, s, caps => RE.starRun k s caps
  | .seq a b, s, caps => (RE.run a s caps).flatMap (fun r => RE.run b r.1 r.2)
  | .alt a b, s, caps => RE.run a s caps ++ RE.run b s caps
  | .opt a, s, caps => RE.run a s caps ++ [(s, caps)]
  | .group i a, s, caps =>
    (RE.run a s caps).map (fun r => (r.1, (i, s.take (s.length - r.1.length)) :: r.2))

/-- `std::regex_match(s, matches, e)`: the first way of matching the whole of `s`; `none` when
it returns false. -/
def regex_match (s : Str) (e : RE) : Option Caps :=
  ((e.run s []).find? (fun r => r.1.isEmpty)).map (fun r => r.2)

/-- The string of `matches[i]`: empty when the group did not take part in the match. -/
def subMatch (m : Caps) (i : Nat) : Str := (m.lookup i).getD []

/-- The regular expression of a word, character by character. -/
def RE.word : Str → RE
  | [] => .eps
  | [c] => .one (.lit c)
  | c :: cs => .seq (.one (.lit c)) (RE.word cs)

/-- The regular expression of `HttpContext::ParseHttpLine`, built with `std::regex::icase`:
`(GET|HEAD|POST|PUT|DELETE) ([^?]*)(?:\?(.*))? (HTTP/1\.[01])(?:\n|\r\n)?`. -/
def requestLineRegex : RE :=
  .seq (.group 1 (.alt (RE.word (bytes "GET")) (.alt (RE.word (bytes "HEAD"))
    (.alt (RE.word (bytes "POST")) (.alt (RE.word (bytes "PUT")) (RE.word (bytes "DELETE")))))))
  (.seq (.one (.lit 32))
  (.seq (.group 2 (.star (.notSet [63])))
  (.seq (.opt (.seq (.one (.lit 63)) (.group 3 (.star .dot))))
  (.seq (.one (.lit 32))
  (.seq (.group 4 (.seq (RE.word (bytes "HTTP/1")) (.seq (.one (.lit 46)) (.one (.set [48, 49])))))
    (.opt (.alt (.one (.lit 10)) (.seq (.one (.lit 13)) (.one (.lit 10))))))))))

/-! ## HttpRequest -/

/-- A `std::unordered_map<std::string, std::string>`: `insert` keeps an existing entry. -/
abbrev StrMap := List (Str × Str)

/-- `std::unordered_map::find`. -/
def StrMap.find (m : StrMap) (key : Str) : Option Str := m.lookup key

/-- `std::unordered_map::insert(std::make_pair(key, val))`. -/
def StrMap.insert (m : StrMap) (key val : Str) : StrMap :=
  match m.lookup key with
  | some _ => m
  | none => m ++ [(key, val)]

/-- The class `HttpRequest`; `_matches` holds the sub-matches of the route pattern. -/
structure HttpRequest where
  _method : Str
  _path : Str
  _version : Str
  _body : Str
  _matches : Caps
  _headers : StrMap
  _params : StrMap
  deriving DecidableEq

/-- `isspace` in the C locale. -/
def isspace (c : Byte) : Bool := c = 32 ∨ (9 ≤ c.val ∧ c.val ≤ 13)

/-- `isdigit`. -/
def isdigit (c : Byte) : Bool := 48 ≤ c.val ∧ c.val ≤ 57

/-- The value of a run of decimal digits. -/
def decimalValue (ds : Str) : Nat := ds.foldl (fun a d => 10 * a + (d.val - 48)) 0

/-- `std::stol(str)` (base 10, `long` of 64 bits): white space is skipped, a sign is optional,
then the longest run of digits is converted; without a digit it throws
`std::invalid_argument`, outside the range of `long` it throws `std::out_of_range`. -/
def stol (str : Str) : Except Exn Int :=
  let s1 := str.dropWhile isspace
  let neg : Bool := s1.head? = some 45
  let s2 := if s1.head? = some 45 ∨ s1.head? = some 43 then s1.tail else s1
  let ds := s2.takeWhile isdigit
  if ds = [] then .error .invalid_argument
  else
    let v : Int := if neg then - (decimalValue ds : Int) else (decimalValue ds : Int)
    if v < - 2 ^ 63 ∨ v > 2 ^ 63 - 1 then .error .out_of_range else .ok v

namespace HttpRequest

/-- The constructor `HttpRequest()`. -/
def new : HttpRequest :=
  { _method := [], _path := [], _version := bytes "HTTP/1.1", _body := [], _matches := [],
    _headers := [], _params := [] }

/-- `HttpRequest::ReSet`. -/
def ReSet (r : HttpRequest) : HttpRequest :=
  { r with _method := [], _path := [], _version := bytes "HTTP/1.1", _body := [],
           _matches := [], _headers := [], _params := [] }

/-- `HttpRequest::SetHeader`. -/
def SetHeader (r : HttpRequest) (key val : Str) : HttpRequest :=
  { r with _headers := r._headers.insert key val }

/-- `HttpRequest::HasHeader`. -/
def HasHeader (r : HttpRequest) (key : Str) : Bool := (r._headers.find key).isSome

/-- `HttpRequest::GetHeader`. -/
def GetHeader (r : HttpRequest) (key : Str) : Str := (r._headers.find key).getD []

/-- `HttpRequest::SetParam`. -/
def SetParam (r : HttpRequest) (key val : Str) : HttpRequest :=
  { r with _params := r._params.insert key val }

/-- `HttpRequest::HasParam`. -/
def HasParam (r : HttpRequest) (key : Str) : Bool := (r._params.find key).isSome

/-- `HttpRequest::GetParam`. -/
def GetParam (r : HttpRequest) (key : Str) : Str := (r._params.find key).getD []

/-- `HttpRequest::ContentLength`: the `long` of `std::stol` converted to `size_t`. -/
def ContentLength (r : HttpRequest) : Except Exn Nat :=
  if r.HasHeader (bytes "Content-Length") = false then .ok 0
  else do
    let v ← stol (r.GetHeader (bytes "Content-Length"))
    pure (v % 2 ^ 64).toNat

/-- `HttpRequest::Close`. -/
def Close (r : HttpRequest) : Bool :=
  if r.HasHeader (bytes "Connection") = true ∧ r.GetHeader (bytes "Connection") = bytes "keep-alive"
  then false else true

end HttpRequest

/-! ## HttpContext -/

/-- The enumeration `HttpRecvStatu`. -/
inductive HttpRecvStatu where
  | RECV_HTTP_ERROR
  | RECV_HTTP_LINE
  | RECV_HTTP_HEAD
  | RECV_HTTP_BODY
  | RECV_HTTP_OVER
  deriving DecidableEq

open HttpRecvStatu

/-- `MAX_LINE`. -/
def MAX_LINE : Nat := 8192

/-- The class `HttpContext`. -/
structure HttpContext where
  _resp_statu : Int
  _recv_statu : HttpRecvStatu
  _request : HttpRequest
  deriving DecidableEq

namespace HttpContext

/-- The constructor `HttpContext()`. -/
def new : HttpContext :=
  { _resp_statu := 200, _recv_statu := RECV_HTTP_LINE, _request := HttpRequest.new }

/-- `HttpContext::ReSet`. -/
def ReSet (c : HttpContext) : HttpContext :=
  { c with _resp_statu := 200, _recv_statu := RECV_HTTP_LINE, _request := c._request.ReSet }

/-- The two assignments made where parsing fails: state `RECV_HTTP_ERROR` and the status. -/
def fail (c : HttpContext) (statu : Int) : HttpContext :=
  { c with _recv_statu := RECV_HTTP_ERROR, _resp_statu := statu }

/-- The loop of `HttpContext::ParseHttpLine` over the pieces of the query string. -/
def ParseQuery : HttpContext → List Str → Bool × HttpContext
  | c, [] => (true, c)
  | c, str :: query_string_arry =>
    match strFind str [61] 0 with
    | none => (false, c.fail 400)
    | some pos =>
      let key := Util.UrlDecode (substr str 0 pos) true
      let val := Util.UrlDecode (str.drop (pos + 1)) true
      ParseQuery { c with _request := c._request.SetParam key val } query_string_arry

/-- `HttpContext::ParseHttpLine`. -/
def ParseHttpLine (c : HttpContext) (line : Str) : Bool × HttpContext :=
  match regex_match line requestLineRegex with
  | none => (false, c.fail 400)
  | some «matches» =>
    let c1 : HttpContext :=
      { c with _request :=
        { c._request with
          _method := (subMatch «matches» 1).map toupper
          _path := Util.UrlDecode (subMatch «matches» 2) false
          _version := subMatch «matches» 4 } }
    ParseQuery c1 (Util.Split (subMatch «matches» 3) [38])

/-- `HttpContext::RecvHttpLine`. -/
def RecvHttpLine (c : HttpContext) (buf : Buffer) : Except Exn (Bool × HttpContext × Buffer) :=
  if c._recv_statu ≠ RECV_HTTP_LINE then .ok (false, c, buf)
  else do
    let (line, buf) ← buf.GetLineAndPop
    if line.length = 0 then
      if buf.ReadAbleSize > MAX_LINE then pure (false, c.fail 414, buf)
      else pure (true, c, buf)
    else if line.length > MAX_LINE then pure (false, c.fail 414, buf)
    else
      let (ret, c) := c.ParseHttpLine line
      if ret = false then pure (false, c, buf)
      else pure (true, { c with _recv_statu := RECV_HTTP_HEAD }, buf)

/-- `HttpContext::ParseHttpHead`; `line` is not empty. -/
def ParseHttpHead (c : HttpContext) (line : Str) : Bool × HttpContext :=
  let line := if line.getLast? = some 10 then line.dropLast else line
  let line := if line.getLast? = some 13 then line.dropLast else line
  match strFind line [58, 32] 0 with
  | none => (false, c.fail 400)
  | some pos =>
    let key := substr line 0 pos
    let val := line.drop (pos + 2)
    (true, { c with _request := c._request.SetHeader key val })

/-- The `while (1)` loop of `HttpContext::RecvHttpHead`; the first argument bounds the number
of iterations. -/
def RecvHttpHeadLoop : Nat → HttpContext → Buffer → Except Exn (Bool × HttpContext × Buffer)
  | 0, c, buf => .ok (true, c, buf)
  | fuel + 1, c, buf => do
    let (line, buf) ← buf.GetLineAndPop
    if line.length = 0 then
      if buf.ReadAbleSize > MAX_LINE then pure (false, c.fail 414, buf)
      else pure (true, c, buf)
    else if line.length > MAX_LINE then pure (false, c.fail 414, buf)
    else if line = [10] ∨ line = [13, 10] then
      pure (true, { c with _recv_statu := RECV_HTTP_BODY }, buf)
    else
      let (ret, c) := c.ParseHttpHead line
      if ret = false then pure (false, c, buf)
      else RecvHttpHeadLoop fuel c buf

/-- `HttpContext::RecvHttpHead`. Every iteration of the loop that does not return takes a
line of at least one byte from the buffer, so `ReadAbleSize() + 1` iterations are enough. -/
def RecvHttpHead (c : HttpContext) (buf : Buffer) : Except Exn (Bool × HttpContext × Buffer) :=
  if c._recv_statu ≠ RECV_HTTP_HEAD then .ok (false, c, buf)
  else RecvHttpHeadLoop (buf.ReadAbleSize + 1) c buf

/-- `HttpContext::RecvHttpBody`; the lengths are `size_t` (64 bits). -/
def RecvHttpBody (c : HttpContext) (buf : Buffer) : Except Exn (Bool × HttpContext × Buffer) :=
  if c._recv_statu ≠ RECV_HTTP_BODY then .ok (false, c, buf)
  else do
    let content_length ← c._request.ContentLength
    if content_length = 0 then pure (true, { c with _recv_statu := RECV_HTTP_OVER }, buf)
    else
      let real_len := (content_length + 2 ^ 64 - c._request._body.length) % 2 ^ 64
      if buf.ReadAbleSize ≥ real_len then
        let body := c._request._body ++ buf.peek real_len
        let buf1 ← buf.MoveReadOffset real_len
        pure (true, { c with _request := { c._request with _body := body },
                             _recv_statu := RECV_HTTP_OVER }, buf1)
      else
        let body := c._request._body ++ buf.peek buf.ReadAbleSize
        let buf1 ← buf.MoveReadOffset buf.ReadAbleSize
        pure (true, { c with _request := { c._request with _body := body } }, buf1)

/-- `HttpContext::RecvHttpRequest`: the `switch` without `break`, so that the steps after
the one of the current state are run too. -/
def RecvHttpRequest (c : HttpContext) (buf : Buffer) : Except Exn (HttpContext × Buffer) :=
  match c._recv_statu with
  | RECV_HTTP_LINE => do
    let (_, c, buf) ← c.RecvHttpLine buf
    let (_, c, buf) ← c.RecvHttpHead buf
    let (_, c, buf) ← c.RecvHttpBody buf
    pure (c, buf)
  | RECV_HTTP_HEAD => do
    let (_, c, buf) ← c.RecvHttpHead buf
    let (_, c, buf) ← c.RecvHttpBody buf
    pure (c, buf)
  | RECV_HTTP_BODY => do
    let (_, c, buf) ← c.RecvHttpBody buf
    pure (c, buf)
  | _ => pure (c, buf)

end HttpContext


/-! ## HttpResponse -/

/-- The digits of `n`, most significant first; the first argument bounds the number of
digits. -/
def decimalDigits : Nat → Nat → Str
  | 0, _ => []
  | fuel + 1, n =>
    if n < 10 then [Fin.ofNat (48 + n)]
    else decimalDigits fuel (n / 10) ++ [Fin.ofNat (48 + n % 10)]

/-- `std::to_string` of an unsigned value (`size_t`): a number below `n + 1` has at most
`n + 1` digits. -/
def to_string_unsigned (n : Nat) : Str := decimalDigits (n + 1) n

/-- `std::to_string(int)`: a minus sign before the digits of a negative value. -/
def to_string (v : Int) : Str :=
  if v < 0 then 45 :: to_string_unsigned v.natAbs else to_string_unsigned v.toNat

/-- `std::string::find_last_of(c)`: the last position of the byte `c`, `none` for `npos`. -/
def find_last_of (c : Byte) : Str → Option Nat
  | [] => none
  | x :: t =>
    match find_last_of c t with
    | some i => some (i + 1)
    | none => if x = c then some 0 else none

/-- `Util::StatuDesc`. The table `_statu_msg` is defined in `statuANDmime.hpp`, which is not
among the sources at hand, and is taken as an argument. -/
def Util.StatuDesc (_statu_msg : List (Int × Str)) (statu : Int) : Str :=
  match _statu_msg.lookup statu with
  | some desc => desc
  | none => bytes "Unknow"

/-- `Util::ExtMime`. The table `_mime_msg` is defined in `statuANDmime.hpp`, which is not
among the sources at hand, and is taken as an argument. -/
def Util.ExtMime (_mime_msg : StrMap) (filename : Str) : Str :=
  match find_last_of 46 filename with
  | none => bytes "application/octet-stream"
  | some pos =>
    match _mime_msg.find (filename.drop pos) with
    | none => bytes "application/octet-stream"
    | some mime => mime

/-- The class `HttpResponse`. -/
structure HttpResponse where
  _statu : Int
  _redirect_flag : Bool
  _body : Str
  _redirect_url : Str
  _headers : StrMap
  deriving DecidableEq

namespace HttpResponse

/-- The constructor `HttpResponse(int statu)`. -/
def new (statu : Int) : HttpResponse :=
  { _statu := statu, _redirect_flag := false, _body := [], _redirect_url := [], _headers := [] }

/-- `HttpResponse::ReSet`. -/
def ReSet (r : HttpResponse) : HttpResponse :=
  { r with _statu := 200, _redirect_flag := false, _body := [], _redirect_url := [],
           _headers := [] }

/-- `HttpResponse::SetHeader`: `insert`, which keeps the value of a key that is present. -/
def SetHeader (r : HttpResponse) (key val : Str) : HttpResponse :=
  { r with _headers := r._headers.insert key val }

/-- `HttpResponse::HasHeader`. -/
def HasHeader (r : HttpResponse) (key : Str) : Bool := (r._headers.find key).isSome

/-- `HttpResponse::GetHeader`. -/
def GetHeader (r : HttpResponse) (key : Str) : Str := (r._headers.find key).getD []

/-- `HttpResponse::SetContent`. -/
def SetContent (r : HttpResponse) (body type : Str) : HttpResponse :=
  ({ r with _body := body }).SetHeader (bytes "Content-Type") type

/-- `HttpResponse::SetRedirect`. -/
def SetRedirect (r : HttpResponse) (url : Str) (statu : Int) : HttpResponse :=
  { r with _statu := statu, _redirect_flag := true, _redirect_url := url }

/-- `HttpResponse::Close`. -/
def Close (r : HttpResponse) : Bool :=
  if r.HasHeader (bytes "Connection") = true ∧ r.GetHeader (bytes "Connection") = bytes "keep-alive"
  then false else true

end HttpResponse

/-! ## HttpServer -/

/-- What a call does outside the request and the response: `stat` of a file
(`Util::IsRegular`), reading a file (`Util::ReadFile`), running the handler of entry `i` of
the route table given to `Dispatcher`, `conn->Send(data)` and `conn->Shutdown()`. -/
inductive Event where
  | IsRegular (filename : Str)
  | ReadFile (filename : Str)
  | Handler (i : Nat)
  | Send (data : Str)
  | Shutdown
  deriving DecidableEq

/-- What the code takes from outside the sources at hand: the tables `_statu_msg` and
`_mime_msg` of `statuANDmime.hpp`, the file system, and the order in which the standard
library iterates over a `std::unordered_map`. `IsRegular filename` is the answer of `stat`
(an existing regular file); `ReadFile filename buf` is the result of `Util::ReadFile` and the
content of `*buf` after the call (unchanged if the file cannot be opened, the file content if
all of it is read); `iterate m` is the sequence in which a range-based `for` over the map `m`
visits its entries: every entry once, in an order that the sources do not fix. -/
structure Env where
  _statu_msg : List (Int × Str)
  _mime_msg : StrMap
  IsRegular : Str → Bool
  ReadFile : Str → Str → Bool × Str
  iterate : (m : StrMap) → { l : StrMap // l.Perm m }

/-- A compiled `std::regex`, seen through `std::regex_match(path, matches, re)`: `none` if
the pattern does not match the whole text, else the sub-matches. -/
abbrev Regex := Str → Option Caps

/-- The type `Handler`: a handler reads the request and changes the response. -/
abbrev Handler := HttpRequest → HttpResponse → HttpResponse

/-- The type `Handlers`: the route table, in the order of registration. -/
abbrev Handlers := List (Regex × Handler)

/-- The class `HttpServer`: the four route tables and the directory of the static files. -/
structure HttpServer where
  _get_route : Handlers
  _post_route : Handlers
  _put_route : Handlers
  _delete_route : Handlers
  _basedir : Str

namespace HttpServer

/-- `HttpServer::ErrorHandler`. -/
def ErrorHandler (env : Env) (_req : HttpRequest) (rsp : HttpResponse) : HttpResponse :=
  let body : Str := bytes "<html>" ++ bytes "<head>" ++
    bytes "<meta http-equiv=\x27Content-Type\x27 content=\x27text/html;charset=utf-8\x27>" ++
    bytes "</head>" ++ bytes "<body>" ++ bytes "<h1>" ++ to_string rsp._statu ++ bytes " " ++
    Util.StatuDesc env._statu_msg rsp._statu ++ bytes "</h1>" ++ bytes "</body>" ++
    bytes "</html>"
  rsp.SetContent body (bytes "text/html")

/-- `HttpServer::WriteReponse`: the response with its headers completed, and the bytes given
to `conn->Send`. The loop over `_headers` visits the entries in the order `env.iterate` of
the `std::unordered_map`. -/
def WriteReponse (env : Env) (req : HttpRequest) (rsp : HttpResponse) : HttpResponse × Str :=
  let rsp := if req.Close = true then rsp.SetHeader (bytes "Connection") (bytes "close")
    else rsp.SetHeader (bytes "Connection") (bytes "keep-alive")
  let rsp := if (rsp._body.isEmpty = false ∧ rsp.HasHeader (bytes "Content-Length") = false)
    then rsp.SetHeader (bytes "Content-Length") (to_string_unsigned rsp._body.length) else rsp
  let rsp := if (rsp._body.isEmpty = false ∧ rsp.HasHeader (bytes "Content-Type") = false)
    then rsp.SetHeader (bytes "Content-Type") (bytes "application/octet-stream") else rsp
  let rsp := if rsp._redirect_flag = true
    then rsp.SetHeader (bytes "Location") rsp._redirect_url else rsp
  let rsp_str : Str := req._version ++ bytes " " ++ to_string rsp._statu ++ bytes " " ++
    Util.StatuDesc env._statu_msg rsp._statu ++ bytes "\r\n" ++
    ((env.iterate rsp._headers).val.map
      (fun head => head.1 ++ bytes ": " ++ head.2 ++ bytes "\r\n")).flatten ++
    bytes "\r\n" ++ rsp._body
  (rsp, rsp_str)

/-- The path of the file of a request, as `IsFileHandler` and `FileHandler` compute it:
`_basedir + req._path`, followed by `index.html` if the path ends in `/`; `back()` of an
empty path is undefined. -/
def req_path (srv : HttpServer) (req : HttpRequest) : Except Exn Str :=
  match req._path.getLast? with
  | none => .error .undefined
  | some c =>
    if c = 47 then .ok (srv._basedir ++ req._path ++ bytes "index.html")
    else .ok (srv._basedir ++ req._path)

/-- `HttpServer::IsFileHandler`. -/
def IsFileHandler (srv : HttpServer) (env : Env) (req : HttpRequest) :
    Except Exn (Bool × List Event) :=
  if srv._basedir.isEmpty then .ok (false, [])
  else if req._method ≠ bytes "GET" ∧ req._method ≠ bytes "HEAD" then .ok (false, [])
  else if Util.ValidPath req._path = false then .ok (false, [])
  else do
    let req_path ← srv.req_path req
    if env.IsRegular req_path = false then pure (false, [Event.IsRegular req_path])
    else pure (true, [Event.IsRegular req_path])

/-- `HttpServer::FileHandler`. -/
def FileHandler (srv : HttpServer) (env : Env) (req : HttpRequest) (rsp : HttpResponse) :
    Except Exn (HttpResponse × List Event) := do
  let req_path ← srv.req_path req
  let (ret, body) := env.ReadFile req_path rsp._body
  let rsp := { rsp with _body := body }
  if ret = false then pure (rsp, [Event.ReadFile req_path])
  else
    let mime := Util.ExtMime env._mime_msg req_path
    pure (rsp.SetHeader (bytes "Content-Type") mime, [Event.ReadFile req_path])

/-- The loop of `HttpServer::Dispatcher` from entry `i` of the table on: a failed
`std::regex_match` leaves `req._matches` empty, a successful one stores the sub-matches, and
the handler of the first entry that matches is run. -/
def DispatcherLoop (rsp : HttpResponse) :
    Handlers → Nat → HttpRequest → HttpRequest × HttpResponse × List Event
  | [], _, req => (req, { rsp with _statu := 404 }, [])
  | (re, functor) :: handlers, i, req =>
    match re req._path with
    | none => DispatcherLoop rsp handlers (i + 1) { req with _matches := [] }
    | some m =>
      let req := { req with _matches := m }
      (req, functor req rsp, [Event.Handler i])

/-- `HttpServer::Dispatcher`. -/
def Dispatcher (req : HttpRequest) (rsp : HttpResponse) (handlers : Handlers) :
    HttpRequest × HttpResponse × List Event :=
  DispatcherLoop rsp handlers 0 req

/-- `HttpServer::Route`. -/
def Route (srv : HttpServer) (env : Env) (req : HttpRequest) (rsp : HttpResponse) :
    Except Exn (HttpRequest × HttpResponse × List Event) := do
  let (is_file, ev) ← srv.IsFileHandler env req
  if is_file = true then
    let (rsp, ev1) ← srv.FileHandler env req rsp
    pure (req, rsp, ev ++ ev1)
  else if req._method = bytes "GET" ∨ req._method = bytes "HEAD" then
    let (req, rsp, ev1) := Dispatcher req rsp srv._get_route
    pure (req, rsp, ev ++ ev1)
  else if req._method = bytes "POST" then
    let (req, rsp, ev1) := Dispatcher req rsp srv._post_route
    pure (req, rsp, ev ++ ev1)
  else if req._method = bytes "PUT" then
    let (req, rsp, ev1) := Dispatcher req rsp srv._put_route
    pure (req, rsp, ev ++ ev1)
  else if req._method = bytes "DELETE" then
    let (req, rsp, ev1) := Dispatcher req rsp srv._delete_route
    pure (req, rsp, ev ++ ev1)
  else pure (req, { rsp with _statu := 405 }, ev)

end HttpServer

namespace HttpServer

/-- The `while` loop of `HttpServer::OnMessage` on the context and the input buffer of the
connection; the first argument bounds the number of iterations. `conn->Send` and
`conn->Shutdown` are recorded as events. The callback runs in the thread of the event loop,
so `Shutdown` runs `Connection::ShutdownInLoop` at once: if the input buffer still has
readable bytes, it calls the message callback, which is `OnMessage`, on that buffer again
before `OnMessage` goes on. What `ShutdownInLoop` does besides (the state of the
connection, the monitoring of write events, the queued release) does not come back into
`OnMessage`. -/
def OnMessageLoop (srv : HttpServer) (env : Env) :
    Nat → HttpContext → Buffer → Except Exn (HttpContext × Buffer × List Event)
  | 0, context, buffer => .ok (context, buffer, [])
  | fuel + 1, context, buffer =>
    if buffer.ReadAbleSize > 0 then do
      let (context, buffer) ← context.RecvHttpRequest buffer
      let rsp := HttpResponse.new context._resp_statu
      if context._resp_statu ≥ 400 then
        let rsp := ErrorHandler env context._request rsp
        let (_, rsp_str) := WriteReponse env context._request rsp
        let context := context.ReSet
        let buffer ← buffer.MoveReadOffset buffer.ReadAbleSize
        let (context, buffer, ev1) ←
          if buffer.ReadAbleSize > 0 then OnMessageLoop srv env fuel context buffer
          else pure (context, buffer, [])
        pure (context, buffer, [Event.Send rsp_str, Event.Shutdown] ++ ev1)
      else if context._recv_statu ≠ RECV_HTTP_OVER then pure (context, buffer, [])
      else
        let (req, rsp, ev) ← srv.Route env context._request rsp
        let (rsp, rsp_str) := WriteReponse env req rsp
        let context := ({ context with _request := req }).ReSet
        if rsp.Close = true then
          let (context, buffer, ev1) ←
            if buffer.ReadAbleSize > 0 then OnMessageLoop srv env fuel context buffer
            else pure (context, buffer, [])
          let (context, buffer, ev2) ← OnMessageLoop srv env fuel context buffer
          pure (context, buffer, ev ++ [Event.Send rsp_str, Event.Shutdown] ++ ev1 ++ ev2)
        else
          let (context, buffer, ev2) ← OnMessageLoop srv env fuel context buffer
          pure (context, buffer, ev ++ [Event.Send rsp_str] ++ ev2)
    else pure (context, buffer, [])

/-- `HttpServer::OnMessage`. An iteration that does not return ends with the context reset,
so the next one takes at least the request line from the buffer: `ReadAbleSize() + 2`
bounds the number of iterations. -/
def OnMessage (srv : HttpServer) (env : Env) (context : HttpContext) (buffer : Buffer) :
    Except Exn (HttpContext × Buffer × List Event) :=
  OnMessageLoop srv env (buffer.ReadAbleSize + 2) context buffer

end HttpServer

/-! ## Channel -/

/-- `EPOLLIN` of `<sys/epoll.h>`. -/
def EPOLLIN : Nat := 0x001

/-- `EPOLLPRI` of `<sys/epoll.h>`. -/
def EPOLLPRI : Nat := 0x002

/-- `EPOLLOUT` of `<sys/epoll.h>`. -/
def EPOLLOUT : Nat := 0x004

/-- `EPOLLERR` of `<sys/epoll.h>`. -/
def EPOLLERR : Nat := 0x008

/-- `EPOLLHUP` of `<sys/epoll.h>`. -/
def EPOLLHUP : Nat := 0x010

/-- `EPOLLRDHUP` of `<sys/epoll.h>`. -/
def EPOLLRDHUP : Nat := 0x2000

/-- The five callbacks of a `Channel`; a call of one of them is recorded by its name. -/
inductive Callback where
  | read
  | write
  | error
  | close
  | event
  deriving DecidableEq

/-- The class `Channel`: the masks are `uint32_t`; of each `std::function` member the model
keeps whether it holds a target (`if (_read_callback)`). -/
structure Channel where
  _fd : Int
  _events : Nat
  _revents : Nat
  _read_callback : Bool
  _write_callback : Bool
  _error_callback : Bool
  _close_callback : Bool
  _event_callback : Bool
  deriving DecidableEq

namespace Channel

/-- `Channel::SetREvents`. -/
def SetREvents (c : Channel) (events : Nat) : Channel := { c with _revents := events }

/-- `Channel::ReadAble`. -/
def ReadAble (c : Channel) : Bool := c._events &&& EPOLLIN ≠ 0

/-- `Channel::WriteAble`. -/
def WriteAble (c : Channel) : Bool := c._events &&& EPOLLOUT ≠ 0

/-- `Channel::HandleEvent`: the callbacks called, in the order of the calls. -/
def HandleEvent (c : Channel) : List Callback :=
  (if c._revents &&& EPOLLIN ≠ 0 ∨ c._revents &&& EPOLLRDHUP ≠ 0 ∨ c._revents &&& EPOLLPRI ≠ 0
    then (if c._read_callback then [Callback.read] else [])
    else []) ++
  (if c._revents &&& EPOLLOUT ≠ 0 then (if c._write_callback then [Callback.write] else [])
    else if c._revents &&& EPOLLERR ≠ 0 then
      (if c._error_callback then [Callback.error] else [])
    else if c._revents &&& EPOLLHUP ≠ 0 then
      (if c._close_callback then [Callback.close] else [])
    else []) ++
  (if c._event_callback then [Callback.event] else [])

end Channel

/-! ## LoopThreadPool -/

/-- The class `LoopThreadPool`; an `EventLoop *` is a number that names the loop, `_loops`
holds the loops of the threads (the vector `_threads` of the thread objects is left out). -/
structure LoopThreadPool where
  _thread_count : Int
  _next_idx : Int
  _baseloop : Nat
  _loops : List Nat
  deriving DecidableEq

namespace LoopThreadPool

/-- The constructor `LoopThreadPool(baseloop)`. -/
def new (baseloop : Nat) : LoopThreadPool :=
  { _thread_count := 0, _next_idx := 0, _baseloop := baseloop, _loops := [] }

/-- `LoopThreadPool::SetThreadCount`. -/
def SetThreadCount (p : LoopThreadPool) (count : Int) : LoopThreadPool :=
  { p with _thread_count := count }

/-- `LoopThreadPool::Create`; `GetLoop i` is the loop that the `i`-th new thread
publishes. -/
def Create (p : LoopThreadPool) (GetLoop : Nat → Nat) : LoopThreadPool :=
  if p._thread_count > 0 then
    { p with _loops := (List.range p._thread_count.toNat).map GetLoop }
  else p

/-- `LoopThreadPool::NextLoop`: the pool after the call and the loop returned. The `%` of
`int` truncates towards zero; an `int` that leaves its range and an index outside `_loops`
are undefined. -/
def NextLoop (p : LoopThreadPool) : Except Exn (LoopThreadPool × Nat) :=
  if p._thread_count = 0 then .ok (p, p._baseloop)
  else if p._next_idx + 1 > 2 ^ 31 - 1 then .error .undefined
  else
    let idx := Int.tmod (p._next_idx + 1) p._thread_count
    if idx < 0 then .error .undefined
    else
      match p._loops[idx.toNat]? with
      | none => .error .undefined
      | some loop => .ok ({ p with _next_idx := idx }, loop)

end LoopThreadPool

/-! ## EventLoop: the task queue -/

/-- The task queue of the class `EventLoop`; a `Functor` is a number that names the task. -/
structure EventLoop where
  _tasks : List Nat
  deriving DecidableEq

namespace EventLoop

/-- `EventLoop::QueueInLoop` (the write to the wake-up descriptor does not touch the
queue). -/
def QueueInLoop (l : EventLoop) (cb : Nat) : EventLoop := { l with _tasks := l._tasks ++ [cb] }

/-- The `for` loop of `EventLoop::RunAllTask` over the tasks swapped out of the queue: the
loop after it and the tasks run, in order. While the task `f` runs, the tasks `queued f` are
added to the queue by `QueueInLoop`, by the task itself or by another thread. -/
def runFunctors (queued : Nat → List Nat) : EventLoop → List Nat → EventLoop × List Nat
  | l, [] => (l, [])
  | l, f :: functor =>
    let l1 := (queued f).foldl QueueInLoop l
    let (l2, ran) := runFunctors queued l1 functor
    (l2, f :: ran)

/-- `EventLoop::RunAllTask`: the queue is swapped with an empty vector, then the tasks taken
are run. -/
def RunAllTask (queued : Nat → List Nat) (l : EventLoop) : EventLoop × List Nat :=
  let functor := l._tasks
  let l := { l with _tasks := [] }
  runFunctors queued l functor

/-- `EventLoop::RunInLoop`: in the thread of the loop the task runs at once, otherwise it is
queued. -/
def RunInLoop (queued : Nat → List Nat) (IsInLoop : Bool) (l : EventLoop) (cb : Nat) :
    EventLoop × List Nat :=
  if IsInLoop then ((queued cb).foldl QueueInLoop l, [cb])
  else (l.QueueInLoop cb, [])

end EventLoop

/-! ## TimerWheel -/

/-- The data of the class `TimerTask`; `_timeout` is a `uint32_t`. The callback `_task_cb`
is not data of the model: that it is called is recorded with the number of the object. -/
structure TimerTask where
  _id : Nat
  _timeout : Nat
  _canceled : Bool
  deriving DecidableEq

/-- The class `TimerWheel`. A `PtrTask` and a `WeakTask` are the number of the `TimerTask`
object they point to; `heap` holds the objects in the order of their creation, so that the
object of number `pt` is `heap[pt]`. An object lives as long as some vector of `_wheel`
holds a `PtrTask` to it. -/
structure TimerWheel where
  _tick : Nat
  _capacity : Nat
  _wheel : List (List Nat)
  _timers : List (Nat × Nat)
  heap : List TimerTask
  deriving DecidableEq

namespace TimerWheel

/-- The constructor `TimerWheel(loop)`: capacity 60, tick 0, 60 empty vectors. -/
def new : TimerWheel :=
  { _tick := 0, _capacity := 60, _wheel := List.replicate 60 [], _timers := [], heap := [] }

/-- No `PtrTask` to the object is left in the wheel (`std::weak_ptr::expired`). -/
def expired (w : TimerWheel) (pt : Nat) : Bool := w._wheel.all (fun slot => decide (pt ∉ slot))

/-- `std::weak_ptr::lock`: the `PtrTask`, or none if the object is gone. -/
def lock (w : TimerWheel) (weak : Nat) : Option Nat := if w.expired weak then none else some weak

/-- `_wheel[pos].push_back(pt)`. -/
def push_back (w : TimerWheel) (pos pt : Nat) : TimerWheel :=
  { w with _wheel := w._wheel.set pos (w._wheel.getD pos [] ++ [pt]) }

/-- `TimerWheel::RemoveTimer`: the entry of key `id`, of which a map has at most one, is
erased. -/
def RemoveTimer (w : TimerWheel) (id : Nat) : TimerWheel :=
  { w with _timers := w._timers.filter (fun e => e.1 ≠ id) }

/-- `TimerWheel::HasTimer`. -/
def HasTimer (w : TimerWheel) (id : Nat) : Bool := (w._timers.lookup id).isSome

/-- The `PtrTask`s of a cleared vector are destroyed from the first to the last. The object
of one that was the last `PtrTask` to it is destroyed: `~TimerTask` calls `_task_cb()`
unless the task is canceled, and then `_release()`, which is `RemoveTimer(id)`. The result
is the wheel afterwards and the objects whose task was called, in order. -/
def release : TimerWheel → List Nat → TimerWheel × List Nat
  | w, [] => (w, [])
  | w, pt :: rest =>
    if pt ∈ rest ∨ w.expired pt = false then release w rest
    else
      match w.heap[pt]? with
      | none => release w rest
      | some t =>
        let (w2, ran) := release (w.RemoveTimer t._id) rest
        (w2, if t._canceled = false then pt :: ran else ran)

/-- `TimerWheel::RunTimerTask`: the wheel afterwards and the objects whose task was
called. -/
def RunTimerTask (w : TimerWheel) : TimerWheel × List Nat :=
  let tick := (w._tick + 1) % w._capacity
  let slot := w._wheel.getD tick []
  release { w with _tick := tick, _wheel := w._wheel.set tick [] } slot

/-- `TimerWheel::OnTime`, `times` being what `ReadTimefd` returns. -/
def OnTime : TimerWheel → Nat → TimerWheel × List Nat
  | w, 0 => (w, [])
  | w, times + 1 =>
    let (w1, ran1) := w.RunTimerTask
    let (w2, ran2) := OnTime w1 times
    (w2, ran1 ++ ran2)

/-- `TimerWheel::TimerAddInLoop`: `_tick + delay` is computed in `unsigned int`, and
`_timers[id] = ...` replaces an entry of the same key. -/
def TimerAddInLoop (w : TimerWheel) (id delay : Nat) : TimerWheel :=
  let pt := w.heap.length
  let pos := ((w._tick + delay) % 2 ^ 32) % w._capacity
  let w1 : TimerWheel :=
    { w with heap := w.heap ++ [{ _id := id, _timeout := delay, _canceled := false }] }
  let w2 : TimerWheel := w1.push_back pos pt
  { w2 with _timers := w2._timers.filter (fun e => e.1 ≠ id) ++ [(id, pt)] }

/-- `TimerWheel::TimerRefreshInLoop`: `int delay = pt->DelayTime()` and `_tick + delay` are
`int`s; a timeout or a sum that does not fit an `int` is not given a meaning. -/
def TimerRefreshInLoop (w : TimerWheel) (id : Nat) : Except Exn TimerWheel :=
  match w._timers.lookup id with
  | none => .ok w
  | some weak =>
    match w.lock weak with
    | none => .ok w
    | some pt =>
      match w.heap[pt]? with
      | none => .error .undefined
      | some t =>
        if w._tick + t._timeout ≥ 2 ^ 31 then .error .undefined
        else .ok (w.push_back ((w._tick + t._timeout) % w._capacity) pt)

/-- `TimerWheel::TimerCancelInLoop`. -/
def TimerCancelInLoop (w : TimerWheel) (id : Nat) : TimerWheel :=
  match w._timers.lookup id with
  | none => w
  | some weak =>
    match w.lock weak with
    | none => w
    | some pt =>
      match w.heap[pt]? with
      | none => w
      | some t => { w with heap := w.heap.set pt { t with _canceled := true } }

end TimerWheel

/-! ## Connection -/

namespace Channel

/-- The constructor `Channel(loop, fd)`, and the five `Set...Callback` calls that the
constructor of `Connection` makes on it. -/
def ofConnection (fd : Int) : Channel :=
  { _fd := fd, _events := 0, _revents := 0, _read_callback := true, _write_callback := true,
    _error_callback := true, _close_callback := true, _event_callback := true }

/-- `Channel::EnableRead`; `Update()` passes the mask on to the poller of the loop, which the
model leaves out. -/
def EnableRead (c : Channel) : Channel := { c with _events := c._events ||| EPOLLIN }

/-- `Channel::EnableWrite`. -/
def EnableWrite (c : Channel) : Channel := { c with _events := c._events ||| EPOLLOUT }

/-- `Channel::DisableWrite`: `_events &= ~EPOLLOUT` on a `uint32_t`. -/
def DisableWrite (c : Channel) : Channel :=
  { c with _events := c._events &&& (0xFFFFFFFF ^^^ EPOLLOUT) }

end Channel

/-- The enumeration `ConnStatu`. -/
inductive ConnStatu where
  | DISCONNECTED
  | CONNECTING
  | CONNECTED
  | DISCONNECTING
  deriving DecidableEq

/-- What a member function of `Connection` does outside the object: `Send data` says that
`NonBlockSend` returned `data.length`, the socket having taken the bytes `data`; `Release` is
a call of `Connection::Release`, which queues `ReleaseInLoop` in the loop; `ChannelRemove` and
`SocketClose` are `_channel.Remove()` and `_socket.Close()`; the three `Timer...` are the
calls on the timer wheel of the loop; the others are the calls of the callbacks. -/
inductive ConnEvent where
  | Send (data : Str)
  | Release
  | ChannelRemove
  | SocketClose
  | TimerAdd (sec : Int)
  | TimerRefresh
  | TimerCancel
  | Connected
  | Message
  | Closed
  | ServerClosed
  | AnyEvent
  deriving DecidableEq

/-- The data of the class `Connection` that its member functions read and write, the socket
and the context apart. -/
structure Connection where
  _conn_id : Nat
  _enable_inactive_release : Bool
  _statu : ConnStatu
  _channel : Channel
  _in_buffer : Buffer
  _out_buffer : Buffer
  deriving DecidableEq

/-- A callback of a connection: it is handed the connection and may call its member
functions; the result is the connection it leaves and what these calls did outside the
object. -/
abbrev ConnCallback := Connection → Except Exn (Connection × List ConnEvent)

/-- The five `std::function` members of `Connection`; `none` is an empty one. -/
structure ConnCallbacks where
  _connected_callback : Option ConnCallback
  _message_callback : Option ConnCallback
  _closed_callback : Option ConnCallback
  _event_callback : Option ConnCallback
  _server_closed_callback : Option ConnCallback

namespace Connection

open ConnStatu

/-- The constructor `Connection(loop, conn_id, sockfd)`. -/
def new (conn_id : Nat) (sockfd : Int) : Connection :=
  { _conn_id := conn_id, _enable_inactive_release := false, _statu := CONNECTING,
    _channel := Channel.ofConnection sockfd, _in_buffer := Buffer.new,
    _out_buffer := Buffer.new }

/-- A call `cb(shared_from_this())`, recorded as `ev`; the call of an empty `std::function`
throws `std::bad_function_call`. -/
def call (cb : Option ConnCallback) (ev : ConnEvent) (c : Connection) :
    Except Exn (Connection × List ConnEvent) :=
  match cb with
  | none => .error .bad_function_call
  | some f => do
    let (c, ev1) ← f c
    pure (c, ev :: ev1)

/-- The guarded call `if (cb) cb(shared_from_this())`. -/
def callIf (cb : Option ConnCallback) (ev : ConnEvent) (c : Connection) :
    Except Exn (Connection × List ConnEvent) :=
  match cb with
  | none => .ok (c, [])
  | some f => do
    let (c, ev1) ← f c
    pure (c, ev :: ev1)

/-- `Connection::ShutdownInLoop`. -/
def ShutdownInLoop (cb : ConnCallbacks) (c : Connection) :
    Except Exn (Connection × List ConnEvent) := do
  let c := { c with _statu := DISCONNECTING }
  let (c, ev1) ←
    if c._in_buffer.ReadAbleSize > 0 then callIf cb._message_callback .Message c
    else pure (c, [])
  let c :=
    if c._out_buffer.ReadAbleSize > 0 then
      if c._channel.WriteAble = false then { c with _channel := c._channel.EnableWrite }
      else c
    else c
  if c._out_buffer.ReadAbleSize = 0 then pure (c, ev1 ++ [ConnEvent.Release])
  else pure (c, ev1)

/-- `Connection::HandleRead`; `recv` is what `NonBlockRecv` gives: `none` for a negative
return value, else the bytes received (none of them for the return value 0). -/
def HandleRead (cb : ConnCallbacks) (c : Connection) (recv : Option Str) :
    Except Exn (Connection × List ConnEvent) :=
  match recv with
  | none => ShutdownInLoop cb c
  | some buf => do
    let in_buffer ← c._in_buffer.WriteAndPush buf
    let c := { c with _in_buffer := in_buffer }
    if c._in_buffer.ReadAbleSize > 0 then call cb._message_callback .Message c
    else pure (c, [])

/-- `Connection::HandleWrite`; `sent` is what the call `send` of the socket gives: `none`
for a negative return value of `NonBlockSend`, else the number of bytes taken.
`NonBlockSend` returns 0 without that call when no byte is offered. -/
def HandleWrite (cb : ConnCallbacks) (c : Connection) (sent : Option Nat) :
    Except Exn (Connection × List ConnEvent) :=
  let ret : Option Nat := if c._out_buffer.ReadAbleSize = 0 then some 0 else sent
  match ret with
  | none => do
    let (c, ev1) ←
      if c._in_buffer.ReadAbleSize > 0 then call cb._message_callback .Message c
      else pure (c, [])
    pure (c, ev1 ++ [ConnEvent.Release])
  | some ret => do
    let data := c._out_buffer.peek ret
    let out_buffer ← c._out_buffer.MoveReadOffset ret
    let c := { c with _out_buffer := out_buffer }
    if c._out_buffer.ReadAbleSize = 0 then
      let c := { c with _channel := c._channel.DisableWrite }
      if c._statu = DISCONNECTING then pure (c, [ConnEvent.Send data, ConnEvent.Release])
      else pure (c, [ConnEvent.Send data])
    else pure (c, [ConnEvent.Send data])

/-- `Connection::HandleClose`. -/
def HandleClose (cb : ConnCallbacks) (c : Connection) :
    Except Exn (Connection × List ConnEvent) := do
  let (c, ev1) ←
    if c._in_buffer.ReadAbleSize > 0 then call cb._message_callback .Message c
    else pure (c, [])
  pure (c, ev1 ++ [ConnEvent.Release])

/-- `Connection::HandleError`. -/
def HandleError (cb : ConnCallbacks) (c : Connection) :
    Except Exn (Connection × List ConnEvent) := HandleClose cb c

/-- `Connection::HandleEvent`. -/
def HandleEvent (cb : ConnCallbacks) (c : Connection) :
    Except Exn (Connection × List ConnEvent) := do
  let ev0 := if c._enable_inactive_release = true then [ConnEvent.TimerRefresh] else []
  let (c, ev1) ← callIf cb._event_callback .AnyEvent c
  pure (c, ev0 ++ ev1)

/-- `Connection::EstablishedInLoop`. -/
def EstablishedInLoop (cb : ConnCallbacks) (c : Connection) :
    Except Exn (Connection × List ConnEvent) :=
  if c._statu ≠ CONNECTING then .error .assertion
  else
    let c := { c with _statu := CONNECTED }
    let c := { c with _channel := c._channel.EnableRead }
    callIf cb._connected_callback .Connected c

/-- `Connection::CancelInactiveReleaseInLoop`; `has_timer` is the answer of
`_loop->HasTimer(_conn_id)`. -/
def CancelInactiveReleaseInLoop (c : Connection) ( has_timer : Bool) :
    Connection × List ConnEvent :=
  let c := { c with _enable_inactive_release := false }
  if has_timer then (c, [ConnEvent.TimerCancel]) else (c, [])

/-- `Connection::EnableInactiveReleaseInLoop`. -/
def EnableInactiveReleaseInLoop (c : Connection) (sec : Int) ( has_timer : Bool) :
    Connection × List ConnEvent :=
  let c := { c with _enable_inactive_release := true }
  if has_timer then (c, [ConnEvent.TimerRefresh]) else (c, [ConnEvent.TimerAdd sec])

/-- `Connection::ReleaseInLoop`; `has_timer` is the answer of `_loop->HasTimer(_conn_id)`. -/
def ReleaseInLoop (cb : ConnCallbacks) (c : Connection) ( has_timer : Bool) :
    Except Exn (Connection × List ConnEvent) := do
  let c := { c with _statu := DISCONNECTED }
  let (c, ev1) := if has_timer then c.CancelInactiveReleaseInLoop has_timer else (c, [])
  let (c, ev2) ← callIf cb._closed_callback .Closed c
  let (c, ev3) ← callIf cb._server_closed_callback .ServerClosed c
  pure (c, [ConnEvent.ChannelRemove, ConnEvent.SocketClose] ++ ev1 ++ ev2 ++ ev3)

/-- `Connection::SendInLoop`; `Buffer::WriteAndPush(Buffer &)` appends the readable bytes of
`buf`. -/
def SendInLoop (c : Connection) (buf : Buffer) : Except Exn Connection :=
  if c._statu = DISCONNECTED then .ok c
  else do
    let out_buffer ← c._out_buffer.WriteAndPush (buf.peek buf.ReadAbleSize)
    let c := { c with _out_buffer := out_buffer }
    if c._channel.WriteAble = false then pure { c with _channel := c._channel.EnableWrite }
    else pure c

/-- `Connection::Send`, called in the thread of the loop, where `RunInLoop` runs
`SendInLoop` at once. -/
def Send (c : Connection) (data : Str) : Except Exn Connection := do
  let buf ← Buffer.new.WriteAndPush data
  c.SendInLoop buf

/-- The callback that the constructor of `Connection` binds to a callback of the channel:
`HandleRead`, `HandleWrite`, `HandleError`, `HandleClose`, `HandleEvent`. -/
def channelCallback (cb : ConnCallbacks) (recv : Option Str) (sent : Option Nat) :
    Callback → Connection → Except Exn (Connection × List ConnEvent)
  | .read, c => HandleRead cb c recv
  | .write, c => HandleWrite cb c sent
  | .error, c => HandleError cb c
  | .close, c => HandleClose cb c
  | .event, c => HandleEvent cb c

/-- The calls of a list of channel callbacks, one after the other. -/
def runCallbacks (cb : ConnCallbacks) (recv : Option Str) (sent : Option Nat) :
    List Callback → Connection → Except Exn (Connection × List ConnEvent)
  | [], c => .ok (c, [])
  | k :: ks, c => do
    let (c, ev1) ← channelCallback cb recv sent k c
    let (c, ev2) ← runCallbacks cb recv sent ks c
    pure (c, ev1 ++ ev2)

/-- One wake-up of the loop for the descriptor of the connection: the poller stores the
fired events with `SetREvents`, then `Channel::HandleEvent` calls the callbacks of the
channel. -/
def wakeup (cb : ConnCallbacks) (c : Connection) (revents : Nat) (recv : Option Str)
    (sent : Option Nat) : Except Exn (Connection × List ConnEvent) :=
  let c := { c with _channel := c._channel.SetREvents revents }
  runCallbacks cb recv sent c._channel.HandleEvent c

end Connection
/-! ## Definitions used to state the properties -/

deriving instance DecidableEq for Except

/-- The input buffer of a new connection once the bytes `s` have been received: a new
`Buffer` on which `WriteAndPush` was called with `s`. -/
def Buffer.received (s : Str) : Buffer :=
  match Buffer.new.WriteAndPush s with
  | .ok b => b
  | .error _ => Buffer.new

/-- The non-empty pieces into which the occurrences of the byte `sep` cut `s`. -/
def segments (sep : Byte) (s : Str) : List Str := (s.splitOn sep).filter (fun x => !x.isEmpty)

/-- What a path segment adds to the depth: `..` takes one off, any other segment adds one. -/
def depthStep (seg : Str) : Int := if seg = bytes ".." then -1 else 1

/-- The depth reached after the segments `segs`, starting from 0. -/
def runningDepth (segs : List Str) : Int := (segs.map depthStep).sum

/-- The buffer after its read offset has moved forward by `n`. -/
def Buffer.advance (b : Buffer) (n : Nat) : Buffer := { b with _reader_idx := b._reader_idx + n }

/-- What a regular expression denotes: `r.Den w caps caps2` says that `r` matches exactly the
text `w`, the sub-matches going from `caps` to `caps2`. -/
def RE.Den : RE → Str → Caps → Caps → Prop
  | .eps, w, c, c2 => w = [] ∧ c2 = c
  | .one k, w, c, c2 => ∃ x, w = [x] ∧ k.test x = true ∧ c2 = c
  | .star k, w, c, c2 => (∀ x ∈ w, k.test x = true) ∧ c2 = c
  | .seq a b, w, c, c2 => ∃ w1 w2 c1, w = w1 ++ w2 ∧ RE.Den a w1 c c1 ∧ RE.Den b w2 c1 c2
  | .alt a b, w, c, c2 => RE.Den a w c c2 ∨ RE.Den b w c c2
  | .opt a, w, c, c2 => RE.Den a w c c2 ∨ (w = [] ∧ c2 = c)
  | .group i a, w, c, c2 => ∃ c1, RE.Den a w c c1 ∧ c2 = (i, w) :: c1

/-- Two texts are equal up to the case of the ASCII letters. -/
def eqIgnoreCase (a b : Str) : Prop := a.map tolower = b.map tolower

/-- The part of a request line that holds the query: nothing, or `?` and the query. -/
def queryPart : Option Str → Str
  | none => []
  | some q => 63 :: q

/-- The request-line pattern `(GET|HEAD|POST|PUT|DELETE) <path>[?<query>] HTTP/1.0|1.1`,
optionally ended by LF or CRLF, letters in either case: `line` is made of the method `m`, a
space, the path `p` (any bytes but `?`), the optional query `q` after a `?` (any bytes but LF
and CR), a space, the version `v` and the line end `eol`. -/
def RequestLineParts (line m p : Str) (q : Option Str) (v eol : Str) : Prop :=
  line = m ++ 32 :: (p ++ (queryPart q ++ 32 :: (v ++ eol))) ∧
  (eqIgnoreCase m (bytes "GET") ∨ eqIgnoreCase m (bytes "HEAD") ∨
    eqIgnoreCase m (bytes "POST") ∨ eqIgnoreCase m (bytes "PUT") ∨
    eqIgnoreCase m (bytes "DELETE")) ∧
  (63 : Byte) ∉ p ∧
  (∀ t, q = some t → (10 : Byte) ∉ t ∧ (13 : Byte) ∉ t) ∧
  (eqIgnoreCase v (bytes "HTTP/1.0") ∨ eqIgnoreCase v (bytes "HTTP/1.1")) ∧
  (eol = [] ∨ eol = [10] ∨ eol = [13, 10])

/-- The line matches the request-line pattern. -/
def MatchesRequestLine (line : Str) : Prop :=
  ∃ m p q v eol, RequestLineParts line m p q v eol

/-- The sub-matches that the request-line pattern records for the parts of a line. -/
def capsOf (m p : Str) (q : Option Str) (v : Str) : Caps :=
  (4, v) :: ((match q with | none => [] | some t => [(3, t)]) ++ [(2, p), (1, m)])

/-- A complete line as `GetLineAndPop` cuts it: bytes other than LF, then one LF. -/
def CompleteLine (line : Str) : Prop := ∃ l0, line = l0 ++ [10] ∧ (10 : Byte) ∉ l0

/-- The non-empty `&`-separated components of the query of a request line. -/
def queryComponents (q : Option Str) : List Str := segments 38 (q.getD [])

/-- The name of a query component `k=v`: what stands before its first `=`. -/
def compKey (comp : Str) : Str := comp.takeWhile (fun x => x ≠ 61)

/-- The value of a query component `k=v`: what follows its first `=`. -/
def compVal (comp : Str) : Str := (comp.dropWhile (fun x => x ≠ 61)).drop 1

/-- The decoded (name, value) pairs of the components of a query, in order. -/
def decodedParams (q : Option Str) : List (Str × Str) :=
  (queryComponents q).map
    (fun comp => (Util.UrlDecode (compKey comp) true, Util.UrlDecode (compVal comp) true))

/-- The context after an accepted request line: method, path, version and parameters are
stored, nothing else changes. -/
def HttpContext.withLine (c : HttpContext) (m p : Str) (q : Option Str) (v : Str) : HttpContext :=
  { c with _request :=
    { c._request with
      _method := m.map toupper
      _path := Util.UrlDecode p false
      _version := v
      _params := (decodedParams q).foldl (fun ps kv => ps.insert kv.1 kv.2) c._request._params } }

/-- A hexadecimal digit. -/
def isxdigit (c : Byte) : Bool :=
  (48 ≤ c.val ∧ c.val ≤ 57) ∨ (65 ≤ c.val ∧ c.val ≤ 70) ∨ (97 ≤ c.val ∧ c.val ≤ 102)

/-- The text has a malformed URL escape: a `%` that is not followed by two hexadecimal
digits. -/
def malformedEscape (s : Str) : Prop :=
  ∃ i, s[i]? = some (37 : Byte) ∧
    ¬ ∃ a b, s[i + 1]? = some a ∧ s[i + 2]? = some b ∧ isxdigit a = true ∧ isxdigit b = true

/-- A request line `GET /aaa...a HTTP/1.1` ended by LF, with `n` letters `a`:
`n + 15` bytes. -/
def longRequestLine (n : Nat) : Str :=
  bytes "GET" ++ 32 :: ((47 :: List.replicate n 97) ++ ([] ++ 32 :: (bytes "HTTP/1.1" ++ [10])))

/-- The parser is called again after more bytes have arrived: `Connection::HandleRead` appends
them to the input buffer with `WriteAndPush`, and the message callback calls
`RecvHttpRequest` on that buffer. -/
def feed (s : HttpContext × Buffer) (chunk : Str) : Except Exn (HttpContext × Buffer) := do
  let buf ← s.2.WriteAndPush chunk
  s.1.RecvHttpRequest buf

/-- One such call for each of the chunks of bytes, in order. -/
def feedAll : HttpContext × Buffer → List Str → Except Exn (HttpContext × Buffer)
  | s, [] => .ok s
  | s, chunk :: chunks => do
    let s1 ← feed s chunk
    feedAll s1 chunks

/-- A call of `RecvHttpRequest` on the buffer as it is, then one call per chunk received
later. -/
def recvThenFeed (c : HttpContext) (buf : Buffer) (chunks : List Str) :
    Except Exn (HttpContext × Buffer) := do
  let s ← c.RecvHttpRequest buf
  feedAll s chunks

/-- The text `ds` is a decimal numeral, one or more digits, of the number `n`. -/
def IsDecimal (ds : Str) (n : Nat) : Prop :=
  ds ≠ [] ∧ (∀ d ∈ ds, 48 ≤ d.val ∧ d.val ≤ 57) ∧
    Nat.ofDigits 10 ((ds.map (fun d => d.val - 48)).reverse) = n

/-- The Content-Length of the headers `hdrs` is absent, with `n = 0`, or a decimal numeral
of `n`. -/
def ContentLengthIs (hdrs : StrMap) (n : Nat) : Prop :=
  (hdrs.find (bytes "Content-Length") = none ∧ n = 0) ∨
    ∃ ds, hdrs.find (bytes "Content-Length") = some ds ∧ IsDecimal ds n

/-- What holds between two calls while the body is received: the buffer is well formed, the
headers are those of the head, the body so far followed by the unread bytes is the stream
received after the blank line, and the state is Over with a body of `n` bytes or Body with a
shorter one. -/
def BodyInv (hdrs : StrMap) (n : Nat) (stream : Str) (s : HttpContext × Buffer) : Prop :=
  s.2.WF ∧ s.1._request._headers = hdrs ∧ s.1._request._body ++ s.2.readable = stream ∧
    ((s.1._recv_statu = RECV_HTTP_OVER ∧ s.1._request._body.length = n) ∨
      (s.1._recv_statu = RECV_HTTP_BODY ∧ s.1._request._body.length < n))


/-- Where a walk that starts at the base directory stands: `some d`, in the base directory
or `d` levels below it, or `none`, outside the base directory. A segment `.` stays in place,
a segment `..` moves to the parent, which is outside when the walk stands at the base
directory itself, and any other segment descends. -/
def resolveStep (loc : Option Nat) (seg : Str) : Option Nat :=
  match loc with
  | none => none
  | some d =>
    if seg = bytes "." then some d
    else if seg = bytes ".." then (if d = 0 then none else some (d - 1))
    else some (d + 1)

/-- The walk along the segments `segs`, from the base directory: `none` if it reaches a
location outside the base directory at some segment. -/
def resolve (segs : List Str) : Option Nat := segs.foldl resolveStep (some 0)

/-- An environment without table entries, in which exactly the file `name` exists, as a
regular file of content `content`, and in which a map is iterated in the order of
insertion. -/
def Env.singleFile (name content : Str) : Env :=
  { _statu_msg := [], _mime_msg := [],
    IsRegular := fun f => f = name,
    ReadFile := fun f buf => if f = name then (true, content) else (false, buf),
    iterate := fun m => ⟨m, List.Perm.refl m⟩ }

/-- A server with the base directory `basedir` and no route. -/
def HttpServer.static (basedir : Str) : HttpServer :=
  { _get_route := [], _post_route := [], _put_route := [], _delete_route := [],
    _basedir := basedir }

/-- A result of `Dispatcher`, with the events `ev` of the static-file check before its own. -/
def afterEvents (ev : List Event) (r : HttpRequest × HttpResponse × List Event) :
    HttpRequest × HttpResponse × List Event := (r.1, r.2.1, ev ++ r.2.2)

/-- The header entries of name `key`. -/
def StrMap.entries (m : StrMap) (key : Str) : StrMap := m.filter (fun h => h.1 = key)

/-- A map holds one entry per key. -/
def StrMap.Unique (m : StrMap) : Prop := (m.map Prod.fst).Nodup

/-- The line of a header in a serialized response. -/
def headerLine (head : Str × Str) : Str := head.1 ++ bytes ": " ++ head.2 ++ bytes "\r\n"

/-- The serialized response of status line `version code text`, header entries `hdrs` and
body `body`. -/
def serialized (version : Str) (statu : Int) (desc : Str) (hdrs : StrMap) (body : Str) : Str :=
  version ++ bytes " " ++ to_string statu ++ bytes " " ++ desc ++ bytes "\r\n" ++
    (hdrs.map headerLine).flatten ++ bytes "\r\n" ++ body

/-- The value of a header that a handler may have set: the handler's value if there is one,
else the value `dflt` that serialization supplies. -/
def headerOr (hdrs : StrMap) (key dflt : Str) : Str := (hdrs.find key).getD dflt

/-- The route table of a method: four tables keyed by GET, POST, PUT and DELETE, HEAD sharing
the table of GET; no table for another method. -/
def HttpServer.routeTable (srv : HttpServer) (method : Str) : Option Handlers :=
  if method = bytes "GET" ∨ method = bytes "HEAD" then some srv._get_route
  else if method = bytes "POST" then some srv._post_route
  else if method = bytes "PUT" then some srv._put_route
  else if method = bytes "DELETE" then some srv._delete_route
  else none

/-- The pattern of a route that is a literal text without special characters, compiled by
`std::regex(pattern)` as `HttpServer::Get` does, without `icase`: it matches that text only,
byte for byte, and the match has no group. -/
def literalPattern (pattern : Str) : Regex := fun s => if s = pattern then some [] else none

/-- A route table of three entries whose patterns are the literal texts `/a`, `/b` and `/b`;
the handler of each entry sets a body that names the entry. -/
def exampleRoutes : Handlers :=
  [ (literalPattern (bytes "/a"),
      fun _ rsp => rsp.SetContent (bytes "first") (bytes "text/plain")),
    (literalPattern (bytes "/b"),
      fun _ rsp => rsp.SetContent (bytes "second") (bytes "text/plain")),
    (literalPattern (bytes "/b"),
      fun _ rsp => rsp.SetContent (bytes "third") (bytes "text/plain")) ]

/-- A request of method `method` and path `path`, as the parser stores it. -/
def HttpRequest.of (method path : Str) : HttpRequest :=
  { HttpRequest.new with _method := method, _path := path }

/-- The server of the scenarios: base directory `./www`, and the three example routes in the
table of GET. -/
def exampleServer : HttpServer :=
  { HttpServer.static (bytes "./www") with _get_route := exampleRoutes }

/-- The file system of the scenarios: `./www/index.html` is the one file. -/
def exampleEnv : Env := Env.singleFile (bytes "./www/index.html") (bytes "<h1>hi</h1>")

/-- A response of body `abc` that redirects to `/new`, without headers. -/
def exampleRedirect : HttpResponse :=
  ({ HttpResponse.new 200 with _body := bytes "abc" }).SetRedirect (bytes "/new") 302

/-- A request whose head holds `Connection: keep-alive` and then a line without `: `. -/
def keepAliveThenBadLine : Str := bytes "GET / HTTP/1.1\r\nConnection: keep-alive\r\nX\r\n"

/-- The context in which the parser leaves `keepAliveThenBadLine`: state Error, status 400,
and the header that was parsed before the error. -/
def keepAliveThenBadLineContext : HttpContext :=
  { _resp_statu := 400, _recv_statu := HttpRecvStatu.RECV_HTTP_ERROR,
    _request := { HttpRequest.of (bytes "GET") (bytes "/") with
      _headers := [(bytes "Connection", bytes "keep-alive")] } }

/-- The flag Readable of a fired-event mask (`EPOLLIN`, bit 0). -/
def Fired.Readable (mask : Nat) : Bool := mask.testBit 0

/-- The flag Priority of a fired-event mask (`EPOLLPRI`, bit 1). -/
def Fired.Priority (mask : Nat) : Bool := mask.testBit 1

/-- The flag Writable of a fired-event mask (`EPOLLOUT`, bit 2). -/
def Fired.Writable (mask : Nat) : Bool := mask.testBit 2

/-- The flag Error of a fired-event mask (`EPOLLERR`, bit 3). -/
def Fired.Error (mask : Nat) : Bool := mask.testBit 3

/-- The flag Hangup of a fired-event mask (`EPOLLHUP`, bit 4). -/
def Fired.Hangup (mask : Nat) : Bool := mask.testBit 4

/-- The flag PeerHalfClose of a fired-event mask (`EPOLLRDHUP`, bit 13). -/
def Fired.PeerHalfClose (mask : Nat) : Bool := mask.testBit 13

/-- All five callbacks of the channel are set. -/
def Channel.AllSet (c : Channel) : Prop :=
  c._read_callback = true ∧ c._write_callback = true ∧ c._error_callback = true ∧
    c._close_callback = true ∧ c._event_callback = true

/-- The calls of `NextLoop` made `k` times in a row: the pool after them and the loops
returned, in order. -/
def LoopThreadPool.nextLoops : LoopThreadPool → Nat → Except Exn (LoopThreadPool × List Nat)
  | p, 0 => .ok (p, [])
  | p, k + 1 => do
    let (p1, loop) ← p.NextLoop
    let (p2, loops) ← LoopThreadPool.nextLoops p1 k
    pure (p2, loop :: loops)

/-- The pool has `N` created workers: the thread count is `N`, `_loops` holds `N` loops and
the index is one of `0 .. N - 1`. -/
def LoopThreadPool.Created (p : LoopThreadPool) (N : Nat) : Prop :=
  p._thread_count = (N : Int) ∧ p._loops.length = N ∧ 0 ≤ p._next_idx ∧ p._next_idx < (N : Int)

/-- The place of a parse state in the chain Line → Head → Body → Over (Error, which is not
on the chain, is given the place of Line). -/
def HttpRecvStatu.chainPos : HttpRecvStatu → Nat
  | .RECV_HTTP_ERROR => 0
  | .RECV_HTTP_LINE => 0
  | .RECV_HTTP_HEAD => 1
  | .RECV_HTTP_BODY => 2
  | .RECV_HTTP_OVER => 3

/-- The calls of `RecvHttpRequest` made `n` times in a row on the same context and buffer. -/
def recvTimes : Nat → HttpContext × Buffer → Except Exn (HttpContext × Buffer)
  | 0, s => .ok s
  | n + 1, s => do
    let s1 ← s.1.RecvHttpRequest s.2
    recvTimes n s1

/-- An operation on the timer wheel, run in the thread of its loop: `TimerAddInLoop`,
`TimerRefreshInLoop`, `TimerCancelInLoop`, or one tick advance (`RunTimerTask`). -/
inductive TimerOp where
  | add (id delay : Nat)
  | refresh (id : Nat)
  | cancel (id : Nat)
  | tick
  deriving DecidableEq

/-- One operation: the wheel afterwards and the objects whose task was called during it. -/
def TimerWheel.step (w : TimerWheel) : TimerOp → Except Exn (TimerWheel × List Nat)
  | .add id delay => .ok (w.TimerAddInLoop id delay, [])
  | .refresh id => (w.TimerRefreshInLoop id).map (fun w1 => (w1, []))
  | .cancel id => .ok (w.TimerCancelInLoop id, [])
  | .tick => .ok w.RunTimerTask

/-- A sequence of operations: the wheel afterwards and the objects whose task was called,
in order. -/
def TimerWheel.run : TimerWheel → List TimerOp → Except Exn (TimerWheel × List Nat)
  | w, [] => .ok (w, [])
  | w, op :: ops => do
    let (w1, ran1) ← w.step op
    let (w2, ran2) ← TimerWheel.run w1 ops
    pure (w2, ran1 ++ ran2)

/-- The number of tick advances in a sequence of operations. -/
def ticks (ops : List TimerOp) : Nat := ops.count TimerOp.tick

/-- The contract of `add`: the id is not in the id-index and the delay is one of 1 .. 60. -/
def TimerOp.Allowed (w : TimerWheel) : TimerOp → Prop
  | .add id delay => w.HasTimer id = false ∧ 0 < delay ∧ delay ≤ 60
  | _ => True

/-- The operation refreshes or cancels the timer object `pt`. -/
def TimerOp.Touches (w : TimerWheel) (pt : Nat) : TimerOp → Prop
  | .refresh id => w._timers.lookup id = some pt
  | .cancel id => w._timers.lookup id = some pt
  | _ => False

/-- Every operation of the sequence, run from `w` on, keeps to the contract of `add`. -/
def Admissible : TimerWheel → List TimerOp → Prop
  | _, [] => True
  | w, op :: ops => op.Allowed w ∧ ∀ w1 ran, w.step op = .ok (w1, ran) → Admissible w1 ops

/-- Every operation of the sequence, run from `w` on, keeps to the contract of `add`, and
none refreshes or cancels the timer object `pt`. -/
def Quiet (pt : Nat) : TimerWheel → List TimerOp → Prop
  | _, [] => True
  | w, op :: ops =>
    op.Allowed w ∧ ¬ op.Touches w pt ∧ ∀ w1 ran, w.step op = .ok (w1, ran) → Quiet pt w1 ops

/-- The invariant of the wheel: capacity 60, 60 vectors, tick below 60, and every `PtrTask`
in a vector points to an object of timeout at most 60 and sits in a vector that the tick
reaches within that many advances. -/
def TimerWheel.WF (w : TimerWheel) : Prop :=
  w._capacity = 60 ∧ w._wheel.length = 60 ∧ w._tick < 60 ∧
  ∀ q pt, pt ∈ w._wheel.getD q [] →
    ∃ t, w.heap[pt]? = some t ∧ t._timeout ≤ 60 ∧
      ∃ j, 1 ≤ j ∧ j ≤ t._timeout ∧ q = (w._tick + j) % 60

/-- The timer object `pt` is alive and not canceled, all `PtrTask`s to it sit in vectors
that the tick reaches within `r` advances, and one sits in the vector reached at the `r`-th
advance. -/
def TimerWheel.Due (w : TimerWheel) (pt r : Nat) : Prop :=
  1 ≤ r ∧ r ≤ 60 ∧ (∃ t, w.heap[pt]? = some t ∧ t._canceled = false) ∧
  (∀ q, pt ∈ w._wheel.getD q [] → ∃ j, 1 ≤ j ∧ j ≤ r ∧ q = (w._tick + j) % 60) ∧
  pt ∈ w._wheel.getD ((w._tick + r) % 60) []

/-- The wheel in the middle of `RunTimerTask`: the tick has moved and the vector it points
to is empty, the objects that lost their last `PtrTask` are not destroyed yet. -/
def TimerWheel.cleared (w : TimerWheel) : TimerWheel :=
  { w with _tick := (w._tick + 1) % w._capacity,
           _wheel := w._wheel.set ((w._tick + 1) % w._capacity) [] }

/-- A wheel on which a timer of id 7 and timeout 3 was added and one tick has passed. -/
def exampleWheel : TimerWheel := (TimerWheel.new.TimerAddInLoop 7 3).RunTimerTask.1

/-- The timer object of `exampleWheel`. -/
def exampleTimer : TimerTask := { _id := 7, _timeout := 3, _canceled := false }

/-! ## The parser as a function of the unread bytes -/

/-- The first line of `s`, its LF included, and what follows it; `none` when `s` has no
LF. -/
def cutLine (s : Str) : Option (Str × Str) :=
  match memchr 10 s with
  | none => none
  | some pos => some (s.take (pos + 1), s.drop (pos + 1))

/-- What `RecvHttpLine` does to the context and to the unread bytes `s` of a well-formed
buffer. -/
def HttpContext.lineStep (c : HttpContext) (s : Str) : HttpContext × Str :=
  if c._recv_statu ≠ RECV_HTTP_LINE then (c, s)
  else match cutLine s with
    | none => if s.length > MAX_LINE then (c.fail 414, s) else (c, s)
    | some (line, rest) =>
      if line.length > MAX_LINE then (c.fail 414, rest)
      else if (c.ParseHttpLine line).1 = false then ((c.ParseHttpLine line).2, rest)
      else ({ (c.ParseHttpLine line).2 with _recv_statu := RECV_HTTP_HEAD }, rest)

/-- What `RecvHttpHeadLoop` does to the context and to the unread bytes. -/
def HttpContext.headLoopStep : Nat → HttpContext → Str → HttpContext × Str
  | 0, c, s => (c, s)
  | fuel + 1, c, s =>
    match cutLine s with
    | none => if s.length > MAX_LINE then (c.fail 414, s) else (c, s)
    | some (line, rest) =>
      if line.length > MAX_LINE then (c.fail 414, rest)
      else if line = [10] ∨ line = [13, 10] then
        ({ c with _recv_statu := RECV_HTTP_BODY }, rest)
      else if (c.ParseHttpHead line).1 = false then ((c.ParseHttpHead line).2, rest)
      else HttpContext.headLoopStep fuel (c.ParseHttpHead line).2 rest

/-- What `RecvHttpHead` does to the context and to the unread bytes. -/
def HttpContext.headStep (c : HttpContext) (s : Str) : HttpContext × Str :=
  if c._recv_statu ≠ RECV_HTTP_HEAD then (c, s)
  else HttpContext.headLoopStep (s.length + 1) c s

/-- What `RecvHttpBody` does to the context and to the unread bytes. -/
def HttpContext.bodyStep (c : HttpContext) (s : Str) : Except Exn (HttpContext × Str) :=
  if c._recv_statu ≠ RECV_HTTP_BODY then .ok (c, s)
  else
    match c._request.ContentLength with
    | .error e => .error e
    | .ok content_length =>
      if content_length = 0 then .ok ({ c with _recv_statu := RECV_HTTP_OVER }, s)
      else
        let real_len := (content_length + 2 ^ 64 - c._request._body.length) % 2 ^ 64
        if s.length ≥ real_len then
          let body := c._request._body ++ s.take real_len
          .ok ({ c with _request := { c._request with _body := body },
                        _recv_statu := RECV_HTTP_OVER }, s.drop real_len)
        else
          let body := c._request._body ++ s
          .ok ({ c with _request := { c._request with _body := body } }, [])

/-- What `RecvHttpRequest` does to the context and to the unread bytes: the three steps in
turn, each of which leaves a context alone that is not in its state. -/
def HttpContext.recvStep (c : HttpContext) (s : Str) : Except Exn (HttpContext × Str) :=
  (c.lineStep s).1.headStep (c.lineStep s).2 |>.1.bodyStep
    ((c.lineStep s).1.headStep (c.lineStep s).2).2

/-- A header line of a request: the key, which has no `: ` in it or across its end, then
`: `, the value, and LF or CRLF; key and value have no LF, and a value before a bare LF does
not end in CR. -/
def RequestHeaderLine (h key val : Str) : Prop :=
  ∃ eol, h = key ++ bytes ": " ++ val ++ eol ∧ ¬ bytes ": " <:+: key ++ [58] ∧
    (10 : Byte) ∉ key ∧ (10 : Byte) ∉ val ∧
    (eol = [13, 10] ∨ (eol = [10] ∧ (key ++ bytes ": " ++ val).getLast? ≠ some 13))

/-- The header table after the header lines of the (key, value) pairs `kvs` were stored in a
new request, one `SetHeader` each. -/
def headersOf (kvs : List (Str × Str)) : StrMap :=
  kvs.foldl (fun m kv => m.insert kv.1 kv.2) []

/-! ## Sequences of buffer operations -/

/-- A call of a member function of `Buffer` that takes no pointer into the caller's memory:
the two `Write`s and `WriteAndPush`s take the bytes to write (`Write(Buffer &)` those readable
in the other buffer), `Read` and `ReadAndPop` are the overloads that return a string. -/
inductive BufferOp where
  | MoveReadOffset (len : Nat)
  | MoveWriteOffset (len : Nat)
  | EnsureWriteSpace (len : Nat)
  | Write (data : Str)
  | WriteAndPush (data : Str)
  | Read (len : Nat)
  | ReadAndPop (len : Nat)
  | GetLine
  | GetLineAndPop
  | Clear
  deriving DecidableEq

/-- The buffer after the call; a failed `assert` is an error. -/
def Buffer.apply (b : Buffer) : BufferOp → Except Exn Buffer
  | .MoveReadOffset len => b.MoveReadOffset len
  | .MoveWriteOffset len => b.MoveWriteOffset len
  | .EnsureWriteSpace len => .ok (b.EnsureWriteSpace len)
  | .Write data => .ok (b.Write data)
  | .WriteAndPush data => b.WriteAndPush data
  | .Read len => (b.Read len).map (fun _ => b)
  | .ReadAndPop len => (b.ReadAndPop len).map (fun r => r.2)
  | .GetLine => b.GetLine.map (fun _ => b)
  | .GetLineAndPop => b.GetLineAndPop.map (fun r => r.2)
  | .Clear => .ok b.Clear

/-- The buffer after a sequence of calls. -/
def Buffer.applyAll : Buffer → List BufferOp → Except Exn Buffer
  | b, [] => .ok b
  | b, op :: ops => do
    let b1 ← b.apply op
    Buffer.applyAll b1 ops

/-- The precondition that the function asserts: a length to read or to move the read offset
by is at most `ReadAbleSize()`, a length to move the write offset by is at most
`TailIdleSize()`. -/
def BufferOp.Pre (b : Buffer) : BufferOp → Prop
  | .MoveReadOffset len => len ≤ b.ReadAbleSize
  | .MoveWriteOffset len => len ≤ b.TailIdleSize
  | .Read len => len ≤ b.ReadAbleSize
  | .ReadAndPop len => len ≤ b.ReadAbleSize
  | _ => True

/-- Every call of the sequence, made from `b` on, is within its precondition. -/
def Buffer.Within : Buffer → List BufferOp → Prop
  | _, [] => True
  | b, op :: ops => op.Pre b ∧ ∀ b1, b.apply op = .ok b1 → Buffer.Within b1 ops

/-! ## The contexts that calls of `RecvHttpRequest` reach -/

/-- The contexts reachable from a new context, or from one on which `ReSet` was called, by
calls of `RecvHttpRequest` that return, each on any buffer. -/
inductive HttpContext.Reachable : HttpContext → Prop where
  | fresh : HttpContext.Reachable HttpContext.new
  | reset (c : HttpContext) : HttpContext.Reachable c.ReSet
  | recv (c c2 : HttpContext) (buf buf2 : Buffer) : HttpContext.Reachable c →
      c.RecvHttpRequest buf = .ok (c2, buf2) → HttpContext.Reachable c2

/-- From `c` to `c2` the status is kept and the state is Error after exactly if it was
before, or `c2` is in state Error with status 400 or 414. -/
def HttpContext.StatusStep (c c2 : HttpContext) : Prop :=
  (c2._resp_statu = c._resp_statu ∧
    (c2._recv_statu = RECV_HTTP_ERROR ↔ c._recv_statu = RECV_HTTP_ERROR)) ∨
  (c2._recv_statu = RECV_HTTP_ERROR ∧ (c2._resp_statu = 400 ∨ c2._resp_statu = 414))

/-- The status is 200 outside state Error, and 400 or 414 in state Error. -/
def HttpContext.StatusOK (c : HttpContext) : Prop :=
  (c._recv_statu ≠ RECV_HTTP_ERROR ∧ c._resp_statu = 200) ∨
  (c._recv_statu = RECV_HTTP_ERROR ∧ (c._resp_statu = 400 ∨ c._resp_statu = 414))

/-! ## The id-index of the timer wheel -/

/-- The id-index and the vectors of the wheel agree: an entry of the index points to an
object that is alive and has the id of the entry, and the id of every object that is alive
has an entry that points to it. -/
def TimerWheel.Indexed (w : TimerWheel) : Prop :=
  (∀ id pt, w._timers.lookup id = some pt →
    w.expired pt = false ∧ ∃ t, w.heap[pt]? = some t ∧ t._id = id) ∧
  (∀ pt t, w.expired pt = false → w.heap[pt]? = some t → w._timers.lookup t._id = some pt)

/-! ## Connection: operations, events of the loop, and what reaches the socket -/

/-- A call of `Send` or a write-ready event of a connection: `writable n` is the event in
which the socket takes `n` of the bytes offered. -/
inductive WriteOp where
  | send (data : Str)
  | writable (n : Nat)
  deriving DecidableEq

/-- The byte strings of the `send` calls of a sequence, one after the other. -/
def WriteOp.sends : List WriteOp → Str
  | [] => []
  | .send data :: ops => data ++ WriteOp.sends ops
  | .writable _ :: ops => WriteOp.sends ops

/-- In every write-ready event of the sequence the socket takes between 0 bytes and the
number offered, `pending` being the number of bytes waiting before the sequence. -/
def WriteOp.Accepted : Nat → List WriteOp → Prop
  | _, [] => True
  | pending, .send data :: ops => WriteOp.Accepted (pending + data.length) ops
  | pending, .writable n :: ops => n ≤ pending ∧ WriteOp.Accepted (pending - n) ops

/-- The bytes handed to the socket, in order: those of the `Send` entries of a trace. -/
def sentBytes : List ConnEvent → Str
  | [] => []
  | .Send data :: ev => data ++ sentBytes ev
  | _ :: ev => sentBytes ev

/-- One `Send` call or write-ready event on a connection, in the thread of its loop. -/
def Connection.writeStep (cb : ConnCallbacks) (c : Connection) :
    WriteOp → Except Exn (Connection × List ConnEvent)
  | .send data => do
    let c1 ← c.Send data
    pure (c1, [])
  | .writable n => c.HandleWrite cb (some n)

/-- A sequence of `Send` calls and write-ready events: the connection after them and the
trace of what they did. -/
def Connection.writeRun (cb : ConnCallbacks) :
    Connection → List WriteOp → Except Exn (Connection × List ConnEvent)
  | c, [] => .ok (c, [])
  | c, op :: ops => do
    let (c1, ev1) ← c.writeStep cb op
    let (c2, ev2) ← Connection.writeRun cb c1 ops
    pure (c2, ev1 ++ ev2)

/-- An operation on a connection or an event of its loop. `established`, `send`, `shutdown`
are the calls `Established`, `Send`, `Shutdown` made in the thread of the loop; `release` is
the call `Release`; `readable`, `writable`, `close`, `error`, `anyEvent` are the callbacks of
the channel with what the socket answers; `wakeup` is a whole wake-up for a fired mask;
`timer` is the firing of the idle timer, whose task is `Release`; `tasks` is `RunAllTask`,
which runs the queued `ReleaseInLoop` calls, with the answer of `HasTimer` at that time. -/
inductive ConnOp where
  | established
  | send (data : Str)
  | shutdown
  | release
  | readable (recv : Option Str)
  | writable (sent : Option Nat)
  | close
  | error
  | anyEvent
  | wakeup (revents : Nat) (recv : Option Str) (sent : Option Nat)
  | timer
  | tasks ( has_timer : Bool)
  deriving DecidableEq

/-- A connection in its loop: the object, the number of `ReleaseInLoop` calls waiting in the
task queue of the loop, and the trace so far. -/
structure ConnState where
  conn : Connection
  queued : Nat
  trace : List ConnEvent
  deriving DecidableEq

namespace ConnState

/-- A new connection: `Connection(loop, conn_id, sockfd)` and an empty task queue. -/
def start (conn_id : Nat) (sockfd : Int) : ConnState :=
  { conn := Connection.new conn_id sockfd, queued := 0, trace := [] }

/-- The state after a member function has run: every `Release` it made queued one
`ReleaseInLoop`. -/
def after (s : ConnState) (r : Connection × List ConnEvent) : ConnState :=
  { conn := r.1, queued := s.queued + r.2.count ConnEvent.Release, trace := s.trace ++ r.2 }

/-- The `n` queued `ReleaseInLoop` calls that `RunAllTask` took out of the queue, run one
after the other. -/
def releaseTasks (cb : ConnCallbacks) ( has_timer : Bool) : Nat → ConnState → Except Exn ConnState
  | 0, s => .ok s
  | n + 1, s => do
    let r ← s.conn.ReleaseInLoop cb has_timer
    releaseTasks cb has_timer n (s.after r)

/-- One operation or event. -/
def step (cb : ConnCallbacks) (s : ConnState) : ConnOp → Except Exn ConnState
  | .established => do
    let r ← s.conn.EstablishedInLoop cb
    pure (s.after r)
  | .send data => do
    let c ← s.conn.Send data
    pure (s.after (c, []))
  | .shutdown => do
    let r ← s.conn.ShutdownInLoop cb
    pure (s.after r)
  | .release => pure (s.after (s.conn, [ConnEvent.Release]))
  | .readable recv => do
    let r ← s.conn.HandleRead cb recv
    pure (s.after r)
  | .writable sent => do
    let r ← s.conn.HandleWrite cb sent
    pure (s.after r)
  | .close => do
    let r ← s.conn.HandleClose cb
    pure (s.after r)
  | .error => do
    let r ← s.conn.HandleError cb
    pure (s.after r)
  | .anyEvent => do
    let r ← s.conn.HandleEvent cb
    pure (s.after r)
  | .wakeup revents recv sent => do
    let r ← s.conn.wakeup cb revents recv sent
    pure (s.after r)
  | .timer => pure (s.after (s.conn, [ConnEvent.Release]))
  | .tasks has_timer => releaseTasks cb has_timer s.queued { s with queued := 0 }

/-- A sequence of operations and events. -/
def run (cb : ConnCallbacks) : ConnState → List ConnOp → Except Exn ConnState
  | s, [] => .ok s
  | s, op :: ops => do
    let s1 ← step cb s op
    run cb s1 ops

/-- The states of the connection along a sequence of operations and events, the one at the
start included; `none` when a call does not return. -/
def statuses (cb : ConnCallbacks) : ConnState → List ConnOp → Option (List ConnStatu)
  | s, [] => some [s.conn._statu]
  | s, op :: ops =>
    match step cb s op with
    | .error _ => none
    | .ok s1 => (statuses cb s1 ops).map (fun l => s.conn._statu :: l)

end ConnState

/-- No callback is set. -/
def ConnCallbacks.unset : ConnCallbacks :=
  { _connected_callback := none, _message_callback := none, _closed_callback := none,
    _event_callback := none, _server_closed_callback := none }

/-- Callbacks that return at once: the closed callback of a user and the close hook of the
server are set, and call no member function of the connection. -/
def ConnCallbacks.closing : ConnCallbacks :=
  { _connected_callback := none, _message_callback := none,
    _closed_callback := some (fun c => .ok (c, [])), _event_callback := none,
    _server_closed_callback := some (fun c => .ok (c, [])) }

/-- The place of a state on the chain Connecting → Connected → Disconnecting →
Disconnected. -/
def ConnStatu.chainPos : ConnStatu → Nat
  | .CONNECTING => 0
  | .CONNECTED => 1
  | .DISCONNECTING => 2
  | .DISCONNECTED => 3

/-! ## URL-decoding, as the specification reads it -/

/-- The value of a hexadecimal digit, `none` for any other character. -/
def hexValue (c : Byte) : Option Nat :=
  if 48 ≤ c.val ∧ c.val ≤ 57 then some (c.val - 48)
  else if 65 ≤ c.val ∧ c.val ≤ 70 then some (c.val - 55)
  else if 97 ≤ c.val ∧ c.val ≤ 102 then some (c.val - 87)
  else none

/-- The URL-decoding of a text in which every `%` that has two characters after it is followed
by two hexadecimal digits: `%HH` is the byte of value `HH`, a `%` with fewer than two
characters after it stays, `+` is a space if `plus` is set and stays if not, and every
other character stays. There is no decoding (`none`) when a `%` is followed by two characters
that are not both hexadecimal digits. -/
def urlDecoded (plus : Bool) : Str → Option Str
  | [] => some []
  | c :: rest =>
    if c = 37 ∧ 2 ≤ rest.length then
      match rest with
      | a :: b :: rest2 =>
        match hexValue a, hexValue b with
        | some x, some y =>
          (urlDecoded plus rest2).map (fun out => (Fin.ofNat (16 * x + y) : Byte) :: out)
        | _, _ => none
      | _ => none
    else if c = 43 ∧ plus = true then (urlDecoded plus rest).map (fun out => (32 : Byte) :: out)
    else (urlDecoded plus rest).map (fun out => c :: out)

/-- The components `comps` of a query decode to the (name, value) pairs `params`, in order:
the name of a component is the decoding of what stands before its first `=`, the value is the
decoding of what follows it, and `+` stands for a space in both. -/
def DecodedQuery (comps : List Str) (params : List (Str × Str)) : Prop :=
  List.Forall₂ (fun comp kv => urlDecoded true (compKey comp) = some kv.1 ∧
    urlDecoded true (compVal comp) = some kv.2) comps params

/-- The five method names of the request-line pattern, in upper case. -/
def methodNames : List Str :=
  [bytes "GET", bytes "HEAD", bytes "POST", bytes "PUT", bytes "DELETE"]
/-! ## Lemmas on strings, `find` and `Split` -/

theorem findFrom_single_none (c : Byte) (s : Str) : findFrom [c] s = none ↔ c ∉ s := by
  induction s with
  | nil => simp [findFrom]
  | cons x t ih =>
    by_cases h : c = x
    · subst h; simp [findFrom]
    · have h2 : ¬ x = c := fun e => h e.symm
      simp [findFrom, h, h2, ih]

theorem findFrom_single_some (c : Byte) (s : Str) (i : Nat) (h : findFrom [c] s = some i) :
    ∃ a b, s = a ++ c :: b ∧ c ∉ a ∧ a.length = i := by
  induction s generalizing i with
  | nil => simp [findFrom] at h
  | cons x t ih =>
    by_cases hx : c = x
    · subst hx
      simp [findFrom] at h
      exact ⟨[], t, by simp, by simp, by simp [h]⟩
    · have h2 : ¬ x = c := fun e => hx e.symm
      simp [findFrom, hx] at h
      obtain ⟨j, hj, rfl⟩ := h
      obtain ⟨a, b, hs, hna, hl⟩ := ih j hj
      exact ⟨x :: a, b, by simp [hs], by simp [hna, hx], by simp [hl]⟩

theorem segments_nil (c : Byte) : segments c [] = [] := by
  simp [segments]

theorem segments_no_sep (c : Byte) (s : Str) (hs : s ≠ []) (h : c ∉ s) : segments c s = [s] := by
  have : s.splitOn c = [s] := by
    apply List.splitOnP_eq_single
    intro x hx hxc
    simp at hxc
    subst hxc
    exact h hx
  simp [segments, this, hs]

theorem segments_first (c : Byte) (a b : Str) (h : c ∉ a) :
    segments c (a ++ c :: b) = (if a = [] then [] else [a]) ++ segments c b := by
  have : (a ++ c :: b).splitOn c = a :: b.splitOn c := by
    apply List.splitOnP_first
    · intro x hx hxc
      simp at hxc
      subst hxc
      exact h hx
    · simp
  by_cases ha : a = []
  · subst ha
    have this2 : (c :: b).splitOn c = [] :: b.splitOn c := by simpa using this
    simp [segments, this2]
  · simp [segments, this, ha]

theorem splitLoop_single (c : Byte) (src : Str) :
    ∀ (fuel offset : Nat) (arry : List Str), offset ≤ src.length → src.length - offset < fuel →
      Util.SplitLoop src [c] fuel offset arry = arry ++ segments c (src.drop offset) := by
  intro fuel
  induction fuel with
  | zero => intro offset arry _ h; omega
  | succ fuel ih =>
    intro offset arry hle hfuel
    unfold Util.SplitLoop
    by_cases hlt : offset < src.length
    · simp only [hlt, if_true, strFind, hle]
      cases hf : findFrom [c] (src.drop offset) with
      | none =>
        have hne : src.drop offset ≠ [] := by
          intro e
          have := congrArg List.length e
          simp at this
          omega
        simp [segments_no_sep c _ hne ((findFrom_single_none c _).1 hf)]
      | some i =>
        obtain ⟨a, b, hs, hna, hl⟩ := findFrom_single_some c _ i hf
        have hlen : (src.drop offset).length = a.length + (b.length + 1) := by
          rw [hs]; simp
        have hlen2 : src.length - offset = a.length + (b.length + 1) := by
          rw [← hlen]; simp
        have hb : src.drop (i + offset + 1) = b := by
          have : src.drop (i + offset + 1) = (src.drop offset).drop (i + 1) := by
            rw [List.drop_drop]; congr 1; omega
          rw [this, hs, ← hl]
          simp
        simp only [Option.map_some', List.length_singleton]
        by_cases hi : i = 0
        · subst hi
          have ha : a = [] := List.length_eq_zero.1 hl
          subst ha
          simp only [Nat.zero_add, if_true]
          rw [ih (offset + 1) arry (by omega) (by omega)]
          rw [hs]
          simp only [Nat.zero_add] at hb
          rw [hb]
          have h3 := segments_first c [] b (by simp)
          simp at h3
          simp [h3]
        · have hpos : ¬ (i + offset = offset) := by omega
          simp only [hpos, if_false]
          rw [ih (i + offset + 1) _ (by omega) (by omega)]
          rw [hb, hs, segments_first c a b hna]
          have ha : a ≠ [] := by
            intro e; subst e; simp at hl; omega
          have hsub : substr src offset i = a := by
            simp only [substr, hs, ← hl]
            simp
          simp [ha, hsub]
    · have : offset = src.length := by omega
      subst this
      simp [segments_nil]

theorem split_single (c : Byte) (src : Str) : Util.Split src [c] = segments c src := by
  unfold Util.Split
  rw [splitLoop_single c src _ 0 [] (by omega) (by omega)]
  simp

theorem validPathLoop_iff (segs : List Str) :
    ∀ level : Int, 0 ≤ level →
      (Util.ValidPathLoop segs level = true ↔
        ∀ k, k ≤ segs.length → 0 ≤ level + runningDepth (segs.take k)) := by
  induction segs with
  | nil =>
    intro level hl
    simp [Util.ValidPathLoop, runningDepth, hl]
  | cons dir subdir ih =>
    intro level hl
    have hdd : bytes ".." = [46, 46] := by decide
    unfold Util.ValidPathLoop
    by_cases hd : dir = [46, 46]
    · simp only [hd, if_true]
      by_cases hneg : level - 1 < 0
      · simp only [hneg, if_true]
        constructor
        · intro h; cases h
        · intro h
          have := h 1 (by simp)
          simp [runningDepth, depthStep, hdd] at this
          omega
      · simp only [hneg, if_false]
        rw [ih (level - 1) (by omega)]
        constructor
        · intro h k hk
          cases k with
          | zero => simp [runningDepth]; exact hl
          | succ k =>
            have := h k (by simpa using hk)
            simp [runningDepth, depthStep, hdd] at this ⊢
            omega
        · intro h k hk
          have := h (k + 1) (by simpa using hk)
          simp [runningDepth, depthStep, hdd] at this ⊢
          omega
    · simp only [hd, if_false]
      rw [ih (level + 1) (by omega)]
      constructor
      · intro h k hk
        cases k with
        | zero => simp [runningDepth]; exact hl
        | succ k =>
          have := h k (by simpa using hk)
          simp [runningDepth, depthStep, hdd, hd] at this ⊢
          omega
      · intro h k hk
        have := h (k + 1) (by simpa using hk)
        simp [runningDepth, depthStep, hdd, hd] at this ⊢
        omega

theorem urlDecode_plus_true (s : Str) :
    Util.UrlDecode (43 :: s) true = 32 :: Util.UrlDecode s true := by
  rcases s with _ | ⟨a, _ | ⟨b, s⟩⟩ <;> simp [Util.UrlDecode]

theorem urlDecode_plus_false (s : Str) :
    Util.UrlDecode (43 :: s) false = 43 :: Util.UrlDecode s false := by
  rcases s with _ | ⟨a, _ | ⟨b, s⟩⟩ <;> simp [Util.UrlDecode]

theorem urlDecode_percent (a b : Byte) (s : Str) (f : Bool) :
    Util.UrlDecode (37 :: a :: b :: s) f =
      toChar (schar (Util.HEXTOI a) * 16 + schar (Util.HEXTOI b)) :: Util.UrlDecode s f := by
  simp [Util.UrlDecode]

theorem urlDecode_other (c : Byte) (s : Str) (f : Bool) (h1 : c ≠ 37) (h2 : c ≠ 43) :
    Util.UrlDecode (c :: s) f = c :: Util.UrlDecode s f := by
  rcases s with _ | ⟨a, _ | ⟨b, s⟩⟩ <;> simp [Util.UrlDecode, h1, h2]

theorem snprintf_ascii : ∀ c : Byte, c.val < 128 ∨ c = 255 →
    snprintfPct02X 4 c = [37, hexDigit (c.val / 16), hexDigit (c.val % 16)] ∧
    toChar (schar (Util.HEXTOI (hexDigit (c.val / 16))) * 16 +
      schar (Util.HEXTOI (hexDigit (c.val % 16)))) = c := by
  decide!

theorem unreserved_ne : ∀ c : Byte,
    (c = 46 ∨ c = 45 ∨ c = 95 ∨ c = 126 ∨ isalnum (schar c) = true) → c ≠ 37 ∧ c ≠ 43 := by
  decide!

/-- The round trip holds for the bytes that `UrlEncode` encodes correctly: 0x00..0x7F, and
0xFF. -/
theorem urlDecode_urlEncode_ascii (s : Str) (q : Bool)
    (h : ∀ c ∈ s, c.val < 128 ∨ c = 255) : Util.UrlDecode (Util.UrlEncode s q) q = s := by
  induction s with
  | nil => simp [Util.UrlEncode, Util.UrlDecode]
  | cons c s ih =>
    have ih2 := ih (fun x hx => h x (List.mem_cons_of_mem _ hx))
    have hc := h c (List.mem_cons_self _ _)
    unfold Util.UrlEncode
    by_cases h1 : c = 46 ∨ c = 45 ∨ c = 95 ∨ c = 126 ∨ isalnum (schar c) = true
    · rw [if_pos h1]
      obtain ⟨n1, n2⟩ := unreserved_ne c h1
      rw [urlDecode_other c _ q n1 n2, ih2]
    · rw [if_neg h1]
      by_cases h2 : c = 32 ∧ q = true
      · rw [if_pos h2]
        obtain ⟨rfl, rfl⟩ := h2
        rw [urlDecode_plus_true, ih2]
      · rw [if_neg h2]
        obtain ⟨e1, e2⟩ := snprintf_ascii c hc
        rw [e1]
        simp only [List.cons_append, List.nil_append]
        rw [urlDecode_percent, e2, ih2]

/-! ## Lemmas on `Buffer` -/

theorem memchr_none (c : Byte) (s : Str) : memchr c s = none ↔ c ∉ s := by
  induction s with
  | nil => simp [memchr]
  | cons x t ih =>
    by_cases h : x = c
    · subst h; simp [memchr]
    · have h2 : ¬ c = x := fun e => h e.symm
      simp [memchr, h, h2, ih]

theorem memchr_first (c : Byte) (a t : Str) (h : c ∉ a) :
    memchr c (a ++ c :: t) = some a.length := by
  induction a with
  | nil => simp [memchr]
  | cons x a ih =>
    have hx : ¬ x = c := by
      intro e; subst e; simp at h
    have ha : c ∉ a := by
      intro e; exact h (List.mem_cons_of_mem _ e)
    simp [memchr, hx, ih ha]

theorem Buffer.readable_length (b : Buffer) (hwf : b.WF) :
    b.readable.length = b._writer_idx - b._reader_idx := by
  obtain ⟨h1, h2⟩ := hwf
  simp [Buffer.readable, Buffer.peek, Buffer.ReadAbleSize]
  omega

theorem Buffer.peek_eq_take (b : Buffer) (len : Nat) (h : len ≤ b.ReadAbleSize) :
    b.peek len = b.readable.take len := by
  simp [Buffer.readable, Buffer.peek, List.take_take, h]

theorem Buffer.advance_zero (b : Buffer) : b.advance 0 = b := by
  cases b; simp [Buffer.advance]

theorem Buffer.advance_spec (b : Buffer) (n : Nat) (hwf : b.WF) (h : n ≤ b.ReadAbleSize) :
    (b.advance n).WF ∧ (b.advance n).readable = b.readable.drop n := by
  obtain ⟨h1, h2⟩ := hwf
  simp only [Buffer.ReadAbleSize] at h
  refine ⟨⟨by simp [Buffer.advance]; omega, by simpa [Buffer.advance] using h2⟩, ?_⟩
  simp only [Buffer.readable, Buffer.peek, Buffer.advance, Buffer.ReadAbleSize]
  rw [List.drop_take, List.drop_drop]
  congr 1
  omega

theorem Buffer.moveReadOffset_eq (b : Buffer) (n : Nat) (h : n ≤ b.ReadAbleSize) :
    b.MoveReadOffset n = .ok (b.advance n) := by
  unfold Buffer.MoveReadOffset
  by_cases h0 : n = 0
  · subst h0; simp [Buffer.advance_zero]
  · simp [h0, h, Buffer.advance]

theorem Buffer.getLineAndPop_none (b : Buffer) (h : (10 : Byte) ∉ b.readable) :
    b.GetLineAndPop = .ok ([], b) := by
  have hm : memchr 10 (b.peek b.ReadAbleSize) = none := (memchr_none _ _).2 h
  simp [Buffer.GetLineAndPop, Buffer.GetLine, Buffer.FindCRLF, hm, Buffer.MoveReadOffset,
    bind, Except.bind, pure, Except.pure]

theorem Buffer.getLineAndPop_line (b : Buffer) (l0 rest : Str) (hwf : b.WF)
    (hr : b.readable = l0 ++ 10 :: rest) (h10 : (10 : Byte) ∉ l0) :
    b.GetLineAndPop = .ok (l0 ++ [10], b.advance (l0.length + 1)) := by
  have hm : memchr 10 (b.peek b.ReadAbleSize) = some l0.length := by
    have := memchr_first 10 l0 rest h10
    rw [← hr] at this
    exact this
  have hlen := Buffer.readable_length b hwf
  rw [hr] at hlen
  simp at hlen
  have hle : l0.length + 1 ≤ b.ReadAbleSize := by
    simp only [Buffer.ReadAbleSize]; omega
  have hpeek : b.peek (l0.length + 1) = l0 ++ [10] := by
    rw [Buffer.peek_eq_take b _ hle, hr]
    simp [List.take_append_eq_append_take]
  have hmv := Buffer.moveReadOffset_eq b (l0.length + 1) hle
  simp [Buffer.GetLineAndPop, Buffer.GetLine, Buffer.FindCRLF, hm, Buffer.Read, hle, hpeek,
    bind, Except.bind, pure, Except.pure, hmv]

theorem Buffer.ensureWriteSpace_spec (b : Buffer) (len : Nat) (hwf : b.WF) :
    (b.EnsureWriteSpace len).WF ∧ (b.EnsureWriteSpace len).readable = b.readable ∧
      len ≤ (b.EnsureWriteSpace len).TailIdleSize := by
  obtain ⟨h1, h2⟩ := hwf
  unfold Buffer.EnsureWriteSpace
  by_cases hA : b.TailIdleSize ≥ len
  · rw [if_pos hA]
    exact ⟨⟨h1, h2⟩, rfl, hA⟩
  · rw [if_neg hA]
    by_cases hB : len ≤ b.TailIdleSize + b.HeadIdleSize
    · rw [if_pos hB]
      simp only [Buffer.TailIdleSize, Buffer.HeadIdleSize] at hA hB
      simp only [Buffer.ReadAbleSize]
      have hpl : (b.peek (b._writer_idx - b._reader_idx)).length =
          b._writer_idx - b._reader_idx := by
        simp [Buffer.peek]; omega
      have hcl : (copyInto b._buffer 0 (b.peek (b._writer_idx - b._reader_idx))).length =
          b._buffer.length := by
        simp [copyInto, hpl]; omega
      refine ⟨⟨by simp, ?_⟩, ?_, ?_⟩
      · simp only [hcl, Buffer.ReadAbleSize]; omega
      · simp only [Buffer.readable, Buffer.ReadAbleSize, copyInto, Nat.sub_zero]
        simp only [Buffer.peek, List.take_zero, List.nil_append, List.drop_zero, Nat.zero_add]
        rw [List.take_append_of_le_length (by simp; omega)]
        simp
      · simp only [Buffer.TailIdleSize, hcl, Buffer.ReadAbleSize]; omega
    · rw [if_neg hB]
      simp only [Buffer.TailIdleSize, Buffer.HeadIdleSize] at hA hB
      have hres : vectorResize b._buffer (b._writer_idx + len) =
          b._buffer ++ List.replicate (b._writer_idx + len - b._buffer.length) 0 := by
        simp only [vectorResize]
        rw [List.take_of_length_le (by omega)]
      refine ⟨⟨h1, ?_⟩, ?_, ?_⟩
      · simp [hres]; omega
      · simp only [Buffer.readable, Buffer.peek, Buffer.ReadAbleSize, hres]
        rw [List.drop_append_of_le_length (by omega)]
        rw [List.take_append_of_le_length (by simp; omega)]
      · simp [Buffer.TailIdleSize, hres]; omega

theorem Buffer.writeAndPush_spec (b : Buffer) (data : Str) (hwf : b.WF) :
    ∃ b2, b.WriteAndPush data = .ok b2 ∧ b2.WF ∧ b2.readable = b.readable ++ data := by
  unfold Buffer.WriteAndPush Buffer.Write
  by_cases hd : data.length = 0
  · have : data = [] := List.length_eq_zero.1 hd
    subst this
    refine ⟨b, ?_, hwf, by simp⟩
    cases b
    simp [Buffer.MoveWriteOffset]
  · simp only [hd, if_false]
    obtain ⟨⟨w1, w2⟩, hrd, htail⟩ := Buffer.ensureWriteSpace_spec b data.length hwf
    generalize b.EnsureWriteSpace data.length = b1 at w1 w2 hrd htail
    simp only [Buffer.TailIdleSize] at htail
    have hlen : (copyInto b1._buffer b1._writer_idx data).length = b1._buffer.length := by
      simp [copyInto]; omega
    refine ⟨⟨copyInto b1._buffer b1._writer_idx data, b1._reader_idx,
      b1._writer_idx + data.length⟩, ?_, ⟨?_, ?_⟩, ?_⟩
    · simp [Buffer.MoveWriteOffset, Buffer.TailIdleSize, hlen, htail]
    · simp; omega
    · simp [hlen]; omega
    · rw [← hrd]
      simp only [Buffer.readable, Buffer.peek, Buffer.ReadAbleSize, copyInto]
      rw [List.append_assoc, List.drop_append_of_le_length (by simp; omega)]
      rw [List.take_append_eq_append_take]
      rw [List.take_of_length_le (by simp; omega)]
      rw [List.drop_take]
      congr 1
      rw [List.take_append_of_le_length (by simp; omega)]
      rw [List.take_of_length_le (by simp; omega)]

/-! ## The backtracking matcher finds exactly what the regular expression denotes -/

theorem mem_starRun (k : CharClass) (s : Str) (caps : Caps) (rest : Str) (caps2 : Caps) :
    (rest, caps2) ∈ RE.starRun k s caps ↔
      caps2 = caps ∧ ∃ w, s = w ++ rest ∧ ∀ x ∈ w, k.test x = true := by
  induction s with
  | nil =>
    simp only [RE.starRun, List.mem_singleton, Prod.mk.injEq]
    constructor
    · rintro ⟨rfl, rfl⟩
      exact ⟨rfl, [], by simp, by simp⟩
    · rintro ⟨rfl, w, hw, _⟩
      have := List.append_eq_nil.1 hw.symm
      exact ⟨this.2, rfl⟩
  | cons c t ih =>
    simp only [RE.starRun, List.mem_append, List.mem_singleton, Prod.mk.injEq]
    constructor
    · rintro (h | ⟨rfl, rfl⟩)
      · by_cases hk : k.test c = true
        · simp only [hk, if_true] at h
          obtain ⟨rfl, w, rfl, hw⟩ := ih.1 h
          refine ⟨rfl, c :: w, by simp, ?_⟩
          intro x hx
          rcases List.mem_cons.1 hx with rfl | hx
          · exact hk
          · exact hw x hx
        · simp [hk] at h
      · exact ⟨rfl, [], by simp, by simp⟩
    · rintro ⟨rfl, w, hw, hall⟩
      cases w with
      | nil => right; simp at hw; exact ⟨hw.symm, rfl⟩
      | cons x w =>
        simp at hw
        obtain ⟨rfl, rfl⟩ := hw
        left
        have hk : k.test c = true := hall c (by simp)
        simp only [hk, if_true]
        exact ih.2 ⟨rfl, w, rfl, fun y hy => hall y (List.mem_cons_of_mem _ hy)⟩

theorem RE.run_sound (r : RE) : ∀ (s : Str) (caps : Caps) (rest : Str) (caps2 : Caps),
    (rest, caps2) ∈ r.run s caps → ∃ w, s = w ++ rest ∧ r.Den w caps caps2 := by
  induction r with
  | eps =>
    intro s caps rest caps2 h
    simp [RE.run] at h
    exact ⟨[], by simp [h.1], by simp [RE.Den, h.2]⟩
  | one k =>
    intro s caps rest caps2 h
    cases s with
    | nil => simp [RE.run] at h
    | cons c t =>
      by_cases hk : k.test c = true
      · simp [RE.run, hk] at h
        exact ⟨[c], by simp [h.1], c, rfl, hk, h.2⟩
      · simp [RE.run, hk] at h
  | star k =>
    intro s caps rest caps2 h
    obtain ⟨rfl, w, hw, hall⟩ := (mem_starRun k s caps rest caps2).1 h
    exact ⟨w, hw, hall, rfl⟩
  | seq a b iha ihb =>
    intro s caps rest caps2 h
    simp only [RE.run, List.mem_flatMap] at h
    obtain ⟨⟨mid, c1⟩, h1, h2⟩ := h
    obtain ⟨w1, rfl, d1⟩ := iha _ _ _ _ h1
    obtain ⟨w2, rfl, d2⟩ := ihb _ _ _ _ h2
    exact ⟨w1 ++ w2, by simp, w1, w2, c1, rfl, d1, d2⟩
  | alt a b iha ihb =>
    intro s caps rest caps2 h
    simp only [RE.run, List.mem_append] at h
    rcases h with h | h
    · obtain ⟨w, hw, d⟩ := iha _ _ _ _ h
      exact ⟨w, hw, Or.inl d⟩
    · obtain ⟨w, hw, d⟩ := ihb _ _ _ _ h
      exact ⟨w, hw, Or.inr d⟩
  | opt a iha =>
    intro s caps rest caps2 h
    simp only [RE.run, List.mem_append, List.mem_singleton, Prod.mk.injEq] at h
    rcases h with h | ⟨rfl, rfl⟩
    · obtain ⟨w, hw, d⟩ := iha _ _ _ _ h
      exact ⟨w, hw, Or.inl d⟩
    · exact ⟨[], by simp, Or.inr ⟨rfl, rfl⟩⟩
  | group i a iha =>
    intro s caps rest caps2 h
    simp only [RE.run, List.mem_map, Prod.mk.injEq] at h
    obtain ⟨⟨r1, c1⟩, h1, rfl, rfl⟩ := h
    obtain ⟨w, rfl, d⟩ := iha _ _ _ _ h1
    refine ⟨w, rfl, c1, d, ?_⟩
    simp

theorem RE.run_complete (r : RE) : ∀ (w : Str) (caps caps2 : Caps), r.Den w caps caps2 →
    ∀ rest, (rest, caps2) ∈ r.run (w ++ rest) caps := by
  induction r with
  | eps =>
    intro w caps caps2 h rest
    obtain ⟨rfl, rfl⟩ := h
    simp [RE.run]
  | one k =>
    intro w caps caps2 h rest
    obtain ⟨x, rfl, hk, rfl⟩ := h
    simp [RE.run, hk]
  | star k =>
    intro w caps caps2 h rest
    obtain ⟨hall, rfl⟩ := h
    exact (mem_starRun k _ _ _ _).2 ⟨rfl, w, rfl, hall⟩
  | seq a b iha ihb =>
    intro w caps caps2 h rest
    obtain ⟨w1, w2, c1, rfl, d1, d2⟩ := h
    simp only [RE.run, List.mem_flatMap]
    refine ⟨(w2 ++ rest, c1), ?_, ihb _ _ _ d2 rest⟩
    have := iha _ _ _ d1 (w2 ++ rest)
    simpa using this
  | alt a b iha ihb =>
    intro w caps caps2 h rest
    simp only [RE.run, List.mem_append]
    rcases h with h | h
    · exact Or.inl (iha _ _ _ h rest)
    · exact Or.inr (ihb _ _ _ h rest)
  | opt a iha =>
    intro w caps caps2 h rest
    simp only [RE.run, List.mem_append, List.mem_singleton]
    rcases h with h | ⟨rfl, rfl⟩
    · exact Or.inl (iha _ _ _ h rest)
    · right; simp
  | group i a iha =>
    intro w caps caps2 h rest
    obtain ⟨c1, d, rfl⟩ := h
    simp only [RE.run, List.mem_map, Prod.mk.injEq]
    exact ⟨(rest, c1), iha _ _ _ d rest, rfl, by simp⟩

theorem regex_match_sound (s : Str) (e : RE) (caps : Caps) (h : regex_match s e = some caps) :
    e.Den s [] caps := by
  unfold regex_match at h
  simp only [Option.map_eq_some'] at h
  obtain ⟨⟨rest, c⟩, hf, rfl⟩ := h
  have hp := List.find?_some hf
  have hm := List.mem_of_find?_eq_some hf
  simp at hp
  subst hp
  obtain ⟨w, hw, d⟩ := e.run_sound _ _ _ _ hm
  simp at hw
  subst hw
  exact d

theorem regex_match_complete (s : Str) (e : RE) (caps : Caps) (h : e.Den s [] caps) :
    ∃ caps2, regex_match s e = some caps2 := by
  have hm := e.run_complete _ _ _ h []
  simp only [List.append_nil] at hm
  unfold regex_match
  cases hf : (e.run s []).find? (fun r => r.1.isEmpty) with
  | none =>
    have := List.find?_eq_none.1 hf _ hm
    simp at this
  | some r => exact ⟨r.2, rfl⟩

/-! ## The request-line pattern -/

theorem test_lit_space : ∀ y : Byte, (CharClass.lit 32).test y = true ↔ y = 32 := by
  set_option maxRecDepth 100000 in decide

theorem test_lit_question : ∀ y : Byte, (CharClass.lit 63).test y = true ↔ y = 63 := by
  set_option maxRecDepth 100000 in decide

theorem test_lit_lf : ∀ y : Byte, (CharClass.lit 10).test y = true ↔ y = 10 := by
  set_option maxRecDepth 100000 in decide

theorem test_lit_cr : ∀ y : Byte, (CharClass.lit 13).test y = true ↔ y = 13 := by
  set_option maxRecDepth 100000 in decide

theorem test_lit_period : ∀ y : Byte, (CharClass.lit 46).test y = true ↔ y = 46 := by
  set_option maxRecDepth 100000 in decide

theorem test_set_01 : ∀ y : Byte, (CharClass.set [48, 49]).test y = true ↔ y = 48 ∨ y = 49 := by
  set_option maxRecDepth 100000 in decide

theorem test_notSet_question : ∀ y : Byte, (CharClass.notSet [63]).test y = true ↔ y ≠ 63 := by
  set_option maxRecDepth 100000 in decide

theorem test_dot (y : Byte) : CharClass.dot.test y = true ↔ y ≠ 10 ∧ y ≠ 13 := by
  simp [CharClass.test]

theorem den_word (w : Str) : ∀ (s : Str) (c c2 : Caps),
    (RE.word w).Den s c c2 ↔ eqIgnoreCase s w ∧ c2 = c := by
  induction w with
  | nil =>
    intro s c c2
    simp [RE.word, RE.Den, eqIgnoreCase]
  | cons x t ih =>
    intro s c c2
    cases t with
    | nil =>
      simp only [RE.word, RE.Den, eqIgnoreCase, CharClass.test, decide_eq_true_eq, List.map]
      constructor
      · rintro ⟨y, rfl, hy, rfl⟩
        simp [hy]
      · rintro ⟨h, rfl⟩
        cases s with
        | nil => simp at h
        | cons y s =>
          simp at h
          obtain ⟨hy, rfl⟩ := h
          exact ⟨y, rfl, hy, rfl⟩
    | cons x2 t =>
      simp only [RE.word, RE.Den, ih, eqIgnoreCase, CharClass.test, decide_eq_true_eq]
      constructor
      · rintro ⟨w1, w2, c1, rfl, ⟨y, rfl, hy, rfl⟩, h2, rfl⟩
        simp [hy, h2]
      · rintro ⟨h, rfl⟩
        cases s with
        | nil => simp at h
        | cons y s =>
          simp only [List.map, List.cons.injEq] at h
          exact ⟨[y], s, c2, rfl, ⟨y, rfl, h.1, rfl⟩, by simpa using h.2, rfl⟩

theorem den_seq (a b : RE) (w : Str) (c c2 : Caps) :
    (RE.seq a b).Den w c c2 ↔ ∃ w1 w2 c1, w = w1 ++ w2 ∧ a.Den w1 c c1 ∧ b.Den w2 c1 c2 :=
  Iff.rfl

theorem den_alt (a b : RE) (w : Str) (c c2 : Caps) :
    (RE.alt a b).Den w c c2 ↔ a.Den w c c2 ∨ b.Den w c c2 :=
  Iff.rfl

theorem den_opt (a : RE) (w : Str) (c c2 : Caps) :
    (RE.opt a).Den w c c2 ↔ a.Den w c c2 ∨ (w = [] ∧ c2 = c) :=
  Iff.rfl

theorem den_group (i : Nat) (a : RE) (w : Str) (c c2 : Caps) :
    (RE.group i a).Den w c c2 ↔ ∃ c1, a.Den w c c1 ∧ c2 = (i, w) :: c1 :=
  Iff.rfl

theorem den_one (k : CharClass) (w : Str) (c c2 : Caps) :
    (RE.one k).Den w c c2 ↔ ∃ x, w = [x] ∧ k.test x = true ∧ c2 = c :=
  Iff.rfl

theorem den_star (k : CharClass) (w : Str) (c c2 : Caps) :
    (RE.star k).Den w c c2 ↔ (∀ x ∈ w, k.test x = true) ∧ c2 = c :=
  Iff.rfl

theorem den_space (w : Str) (c c2 : Caps) :
    (RE.one (.lit 32)).Den w c c2 ↔ w = [32] ∧ c2 = c := by
  simp only [den_one, test_lit_space]
  constructor
  · rintro ⟨x, rfl, rfl, rfl⟩; exact ⟨rfl, rfl⟩
  · rintro ⟨rfl, rfl⟩; exact ⟨32, rfl, rfl, rfl⟩

theorem den_method (w : Str) (c c2 : Caps) :
    (RE.group 1 (.alt (RE.word (bytes "GET")) (.alt (RE.word (bytes "HEAD"))
      (.alt (RE.word (bytes "POST")) (.alt (RE.word (bytes "PUT"))
        (RE.word (bytes "DELETE"))))))).Den w c c2 ↔
      (eqIgnoreCase w (bytes "GET") ∨ eqIgnoreCase w (bytes "HEAD") ∨
        eqIgnoreCase w (bytes "POST") ∨ eqIgnoreCase w (bytes "PUT") ∨
        eqIgnoreCase w (bytes "DELETE")) ∧ c2 = (1, w) :: c := by
  simp only [den_group, den_alt, den_word]
  constructor
  · rintro ⟨c1, h, rfl⟩
    rcases h with ⟨h, rfl⟩ | ⟨h, rfl⟩ | ⟨h, rfl⟩ | ⟨h, rfl⟩ | ⟨h, rfl⟩
    · exact ⟨Or.inl h, rfl⟩
    · exact ⟨Or.inr (Or.inl h), rfl⟩
    · exact ⟨Or.inr (Or.inr (Or.inl h)), rfl⟩
    · exact ⟨Or.inr (Or.inr (Or.inr (Or.inl h))), rfl⟩
    · exact ⟨Or.inr (Or.inr (Or.inr (Or.inr h))), rfl⟩
  · rintro ⟨h, rfl⟩
    refine ⟨c, ?_, rfl⟩
    rcases h with h | h | h | h | h
    · exact Or.inl ⟨h, rfl⟩
    · exact Or.inr (Or.inl ⟨h, rfl⟩)
    · exact Or.inr (Or.inr (Or.inl ⟨h, rfl⟩))
    · exact Or.inr (Or.inr (Or.inr (Or.inl ⟨h, rfl⟩)))
    · exact Or.inr (Or.inr (Or.inr (Or.inr ⟨h, rfl⟩)))

theorem den_path (w : Str) (c c2 : Caps) :
    (RE.group 2 (.star (.notSet [63]))).Den w c c2 ↔ (63 : Byte) ∉ w ∧ c2 = (2, w) :: c := by
  simp only [den_group, den_star, test_notSet_question]
  constructor
  · rintro ⟨c1, ⟨h, rfl⟩, rfl⟩
    exact ⟨fun hm => h 63 hm rfl, rfl⟩
  · rintro ⟨h, rfl⟩
    exact ⟨c, ⟨fun x hx e => h (e ▸ hx), rfl⟩, rfl⟩

theorem den_query (w : Str) (c c2 : Caps) :
    (RE.opt (.seq (.one (.lit 63)) (.group 3 (.star .dot)))).Den w c c2 ↔
      ∃ q, w = queryPart q ∧ (∀ t, q = some t → (10 : Byte) ∉ t ∧ (13 : Byte) ∉ t) ∧
        c2 = (match q with | none => [] | some t => [(3, t)]) ++ c := by
  simp only [den_opt, den_seq, den_group, den_star, den_one, test_lit_question, test_dot]
  constructor
  · rintro (⟨w1, w2, c1, rfl, ⟨x, rfl, rfl, rfl⟩, c3, ⟨h, rfl⟩, rfl⟩ | ⟨rfl, rfl⟩)
    · refine ⟨some w2, rfl, ?_, rfl⟩
      intro t ht
      cases ht
      exact ⟨fun hm => (h 10 hm).1 rfl, fun hm => (h 13 hm).2 rfl⟩
    · exact ⟨none, rfl, by simp, rfl⟩
  · rintro ⟨q, rfl, hq, rfl⟩
    cases q with
    | none => right; exact ⟨rfl, rfl⟩
    | some t =>
      left
      obtain ⟨h10, h13⟩ := hq t rfl
      refine ⟨[63], t, c, rfl, ⟨63, rfl, rfl, rfl⟩, c, ⟨?_, rfl⟩, rfl⟩
      intro x hx
      exact ⟨fun e => h10 (e ▸ hx), fun e => h13 (e ▸ hx)⟩

theorem eqIgnoreCase_append_two (w x : Str) (a b : Byte) (ha : ∀ y : Byte, tolower y = a ↔ y = a)
    (hb : ∀ y : Byte, tolower y = b ↔ y = b) :
    eqIgnoreCase w (x ++ [a, b]) ↔ ∃ h, w = h ++ [a, b] ∧ eqIgnoreCase h x := by
  have haa : tolower a = a := (ha a).2 rfl
  have hbb : tolower b = b := (hb b).2 rfl
  unfold eqIgnoreCase
  constructor
  · intro h
    rw [List.map_append, List.map_eq_append_iff] at h
    obtain ⟨w1, w2, rfl, h1, h2⟩ := h
    refine ⟨w1, ?_, h1⟩
    cases w2 with
    | nil => simp at h2
    | cons y1 w2 =>
      cases w2 with
      | nil => simp at h2
      | cons y2 w2 =>
        simp [haa, hbb] at h2
        obtain ⟨e1, e2, e3⟩ := h2
        rw [(ha y1).1 e1, (hb y2).1 e2, e3]
  · rintro ⟨h, rfl, hh⟩
    simp [hh, haa, hbb]

theorem tolower_eq_period : ∀ y : Byte, tolower y = 46 ↔ y = 46 := by
  set_option maxRecDepth 100000 in decide

theorem tolower_eq_zero : ∀ y : Byte, tolower y = 48 ↔ y = 48 := by
  set_option maxRecDepth 100000 in decide

theorem tolower_eq_one : ∀ y : Byte, tolower y = 49 ↔ y = 49 := by
  set_option maxRecDepth 100000 in decide

theorem den_version (w : Str) (c c2 : Caps) :
    (RE.group 4 (.seq (RE.word (bytes "HTTP/1"))
      (.seq (.one (.lit 46)) (.one (.set [48, 49]))))).Den w c c2 ↔
      (eqIgnoreCase w (bytes "HTTP/1.0") ∨ eqIgnoreCase w (bytes "HTTP/1.1")) ∧
        c2 = (4, w) :: c := by
  have e0 : bytes "HTTP/1.0" = bytes "HTTP/1" ++ [46, 48] := by decide
  have e1 : bytes "HTTP/1.1" = bytes "HTTP/1" ++ [46, 49] := by decide
  rw [e0, e1, eqIgnoreCase_append_two _ _ _ _ tolower_eq_period tolower_eq_zero,
    eqIgnoreCase_append_two _ _ _ _ tolower_eq_period tolower_eq_one]
  simp only [den_group, den_seq, den_one, den_word, test_lit_period, test_set_01]
  constructor
  · rintro ⟨c1, ⟨w1, w2, c3, rfl, ⟨h, rfl⟩, w3, w4, c4, rfl, ⟨x, rfl, rfl, rfl⟩,
      y, rfl, hy, rfl⟩, rfl⟩
    refine ⟨?_, rfl⟩
    rcases hy with rfl | rfl
    · exact Or.inl ⟨w1, rfl, h⟩
    · exact Or.inr ⟨w1, rfl, h⟩
  · rintro ⟨h, rfl⟩
    refine ⟨c, ?_, rfl⟩
    rcases h with ⟨h, rfl, hh⟩ | ⟨h, rfl, hh⟩
    · exact ⟨h, [46, 48], c, rfl, ⟨hh, rfl⟩, [46], [48], c, rfl, ⟨46, rfl, rfl, rfl⟩,
        48, rfl, Or.inl rfl, rfl⟩
    · exact ⟨h, [46, 49], c, rfl, ⟨hh, rfl⟩, [46], [49], c, rfl, ⟨46, rfl, rfl, rfl⟩,
        49, rfl, Or.inr rfl, rfl⟩

theorem den_eol (w : Str) (c c2 : Caps) :
    (RE.opt (.alt (.one (.lit 10)) (.seq (.one (.lit 13)) (.one (.lit 10))))).Den w c c2 ↔
      (w = [] ∨ w = [10] ∨ w = [13, 10]) ∧ c2 = c := by
  simp only [den_opt, den_alt, den_seq, den_one, test_lit_lf, test_lit_cr]
  constructor
  · rintro ((⟨x, rfl, rfl, rfl⟩ | ⟨w1, w2, c1, rfl, ⟨x, rfl, rfl, rfl⟩, y, rfl, rfl, rfl⟩) |
      ⟨rfl, rfl⟩)
    · exact ⟨Or.inr (Or.inl rfl), rfl⟩
    · exact ⟨Or.inr (Or.inr rfl), rfl⟩
    · exact ⟨Or.inl rfl, rfl⟩
  · rintro ⟨h, rfl⟩
    rcases h with rfl | rfl | rfl
    · exact Or.inr ⟨rfl, rfl⟩
    · exact Or.inl (Or.inl ⟨10, rfl, rfl, rfl⟩)
    · exact Or.inl (Or.inr ⟨[13], [10], _, rfl, ⟨13, rfl, rfl, rfl⟩, 10, rfl, rfl, rfl⟩)

theorem den_requestLine (line : Str) (caps : Caps) :
    requestLineRegex.Den line [] caps ↔
      ∃ m p q v eol, RequestLineParts line m p q v eol ∧ caps = capsOf m p q v := by
  simp only [requestLineRegex, den_seq, den_method, den_space, den_path, den_query,
    den_version, den_eol]
  constructor
  · rintro ⟨m, r1, c1, rfl, ⟨hm, rfl⟩, sp, r2, c2, rfl, ⟨rfl, rfl⟩, p, r3, c3, rfl,
      ⟨hp, rfl⟩, qp, r4, c4, rfl, ⟨q, rfl, hq, rfl⟩, sp2, r5, c5, rfl, ⟨rfl, rfl⟩,
      v, eol, c6, rfl, ⟨hv, rfl⟩, heol, rfl⟩
    refine ⟨m, p, q, v, eol, ⟨by simp, hm, hp, hq, hv, heol⟩, ?_⟩
    cases q <;> simp [capsOf]
  · rintro ⟨m, p, q, v, eol, ⟨rfl, hm, hp, hq, hv, heol⟩, rfl⟩
    refine ⟨m, _, _, rfl, ⟨hm, rfl⟩, [32], _, _, rfl, ⟨rfl, rfl⟩, p, _, _, rfl, ⟨hp, rfl⟩,
      queryPart q, _, _, rfl, ⟨q, rfl, hq, rfl⟩, [32], _, _, rfl, ⟨rfl, rfl⟩, v, eol, _, rfl,
      ⟨hv, rfl⟩, heol, ?_⟩
    cases q <;> simp [capsOf]

theorem first_split_unique (c : Byte) : ∀ (a a2 b b2 : Str), c ∉ a → c ∉ a2 →
    a ++ c :: b = a2 ++ c :: b2 → a = a2 ∧ b = b2 := by
  intro a
  induction a with
  | nil =>
    intro a2 b b2 _ h2 h
    cases a2 with
    | nil => simpa using h
    | cons y a2 =>
      simp at h
      exact absurd (h.1 ▸ List.mem_cons_self _ _) h2
  | cons x a ih =>
    intro a2 b b2 h1 h2 h
    cases a2 with
    | nil =>
      simp at h
      exact absurd (h.1 ▸ List.mem_cons_self _ _) h1
    | cons y a2 =>
      simp only [List.cons_append, List.cons.injEq] at h
      obtain ⟨rfl, h⟩ := h
      obtain ⟨rfl, rfl⟩ := ih a2 b b2 (fun hm => h1 (List.mem_cons_of_mem _ hm))
        (fun hm => h2 (List.mem_cons_of_mem _ hm)) h
      exact ⟨rfl, rfl⟩

theorem last_split_unique (c : Byte) (a a2 b b2 : Str) (h1 : c ∉ b) (h2 : c ∉ b2)
    (h : a ++ c :: b = a2 ++ c :: b2) : a = a2 ∧ b = b2 := by
  have hr := congrArg List.reverse h
  simp only [List.reverse_append, List.reverse_cons, List.append_assoc, List.singleton_append]
    at hr
  obtain ⟨e1, e2⟩ := first_split_unique c b.reverse b2.reverse a.reverse a2.reverse
    (by simpa using h1) (by simpa using h2) hr
  exact ⟨List.reverse_injective e2, List.reverse_injective e1⟩

theorem not_mem_of_eqIgnoreCase (a b : Str) (c : Byte) (h : eqIgnoreCase a b)
    (hc : tolower c ∉ b.map tolower) : c ∉ a := by
  intro hm
  apply hc
  rw [← h]
  exact List.mem_map_of_mem _ hm

theorem parts_unique (line m p : Str) (q : Option Str) (v eol m2 p2 : Str) (q2 : Option Str)
    (v2 eol2 : Str) (h : RequestLineParts line m p q v eol)
    (h2 : RequestLineParts line m2 p2 q2 v2 eol2) :
    m = m2 ∧ p = p2 ∧ q = q2 ∧ v = v2 ∧ eol = eol2 := by
  obtain ⟨hl, hm, hp, hq, hv, he⟩ := h
  obtain ⟨hl2, hm2, hp2, hq2, hv2, he2⟩ := h2
  have sp_m : ∀ x : Str, (eqIgnoreCase x (bytes "GET") ∨ eqIgnoreCase x (bytes "HEAD") ∨
      eqIgnoreCase x (bytes "POST") ∨ eqIgnoreCase x (bytes "PUT") ∨
      eqIgnoreCase x (bytes "DELETE")) → (32 : Byte) ∉ x := by
    intro x hx
    rcases hx with hx | hx | hx | hx | hx <;>
      exact not_mem_of_eqIgnoreCase _ _ _ hx (by decide)
  have sp_v : ∀ x : Str, (eqIgnoreCase x (bytes "HTTP/1.0") ∨ eqIgnoreCase x (bytes "HTTP/1.1")) →
      (32 : Byte) ∉ x ∧ x.length = 8 := by
    intro x hx
    rcases hx with hx | hx
    · refine ⟨not_mem_of_eqIgnoreCase _ _ _ hx (by decide), ?_⟩
      have := congrArg List.length hx
      simpa [bytes] using this
    · refine ⟨not_mem_of_eqIgnoreCase _ _ _ hx (by decide), ?_⟩
      have := congrArg List.length hx
      simpa [bytes] using this
  have sp_e : ∀ x : Str, (x = [] ∨ x = [10] ∨ x = [13, 10]) → (32 : Byte) ∉ x := by
    intro x hx
    rcases hx with rfl | rfl | rfl <;> decide
  rw [hl] at hl2
  obtain ⟨rfl, hr⟩ := first_split_unique 32 m m2 _ _ (sp_m m hm) (sp_m m2 hm2) hl2
  have hr2 : (p ++ queryPart q) ++ 32 :: (v ++ eol) = (p2 ++ queryPart q2) ++ 32 :: (v2 ++ eol2) := by
    simpa using hr
  obtain ⟨hpq, hve⟩ := last_split_unique 32 _ _ _ _
    (by simp [(sp_v v hv).1, sp_e eol he]) (by simp [(sp_v v2 hv2).1, sp_e eol2 he2]) hr2
  obtain ⟨rfl, rfl⟩ := List.append_inj hve (by rw [(sp_v v hv).2, (sp_v v2 hv2).2])
  refine ⟨rfl, ?_, ?_, rfl, rfl⟩
  · cases q with
    | none =>
      cases q2 with
      | none => simpa [queryPart] using hpq
      | some t2 =>
        simp only [queryPart, List.append_nil] at hpq
        exact absurd (hpq ▸ (by simp : (63 : Byte) ∈ p2 ++ 63 :: t2)) hp
    | some t =>
      cases q2 with
      | none =>
        simp only [queryPart, List.append_nil] at hpq
        exact absurd (hpq ▸ (by simp : (63 : Byte) ∈ p ++ 63 :: t)) hp2
      | some t2 => exact (first_split_unique 63 p p2 t t2 hp hp2 hpq).1
  · cases q with
    | none =>
      cases q2 with
      | none => rfl
      | some t2 =>
        simp only [queryPart, List.append_nil] at hpq
        exact absurd (hpq ▸ (by simp : (63 : Byte) ∈ p2 ++ 63 :: t2)) hp
    | some t =>
      cases q2 with
      | none =>
        simp only [queryPart, List.append_nil] at hpq
        exact absurd (hpq ▸ (by simp : (63 : Byte) ∈ p ++ 63 :: t)) hp2
      | some t2 => rw [(first_split_unique 63 p p2 t t2 hp hp2 hpq).2]

theorem regex_match_parts (line m p : Str) (q : Option Str) (v eol : Str)
    (h : RequestLineParts line m p q v eol) :
    regex_match line requestLineRegex = some (capsOf m p q v) := by
  obtain ⟨caps2, hc⟩ := regex_match_complete line requestLineRegex _
    ((den_requestLine line _).2 ⟨m, p, q, v, eol, h, rfl⟩)
  obtain ⟨m2, p2, q2, v2, eol2, h2, rfl⟩ := (den_requestLine line _).1
    (regex_match_sound _ _ _ hc)
  obtain ⟨rfl, rfl, rfl, rfl, rfl⟩ := parts_unique _ _ _ _ _ _ _ _ _ _ _ h h2
  exact hc

theorem regex_match_none (line : Str) (h : ¬ MatchesRequestLine line) :
    regex_match line requestLineRegex = none := by
  cases hc : regex_match line requestLineRegex with
  | none => rfl
  | some caps =>
    obtain ⟨m, p, q, v, eol, hp, _⟩ := (den_requestLine line _).1 (regex_match_sound _ _ _ hc)
    exact absurd ⟨m, p, q, v, eol, hp⟩ h

theorem subMatch_capsOf (m p : Str) (q : Option Str) (v : Str) :
    subMatch (capsOf m p q v) 1 = m ∧ subMatch (capsOf m p q v) 2 = p ∧
      subMatch (capsOf m p q v) 3 = q.getD [] ∧ subMatch (capsOf m p q v) 4 = v := by
  cases q <;> simp [subMatch, capsOf, List.lookup]

/-! ## `ParseHttpLine` and `RecvHttpLine` -/

theorem strFind_zero (s sep : Str) : strFind s sep 0 = findFrom sep s := by
  simp [strFind]

theorem compKey_compVal (a b : Str) (h : (61 : Byte) ∉ a) :
    compKey (a ++ 61 :: b) = a ∧ compVal (a ++ 61 :: b) = b := by
  induction a with
  | nil => simp [compKey, compVal]
  | cons x a ih =>
    have hx : x ≠ 61 := by
      intro e; subst e; simp at h
    have ha : (61 : Byte) ∉ a := fun hm => h (List.mem_cons_of_mem _ hm)
    have i := ih ha
    simp [compKey, compVal] at i ⊢
    simp [hx, i]

theorem parseQuery_ok (comps : List Str) : ∀ (c : HttpContext),
    (∀ comp ∈ comps, (61 : Byte) ∈ comp) →
    HttpContext.ParseQuery c comps = (true, { c with _request := { c._request with
      _params := (comps.map (fun comp => (Util.UrlDecode (compKey comp) true,
        Util.UrlDecode (compVal comp) true))).foldl (fun ps kv => ps.insert kv.1 kv.2)
          c._request._params } }) := by
  induction comps with
  | nil => intro c _; simp [HttpContext.ParseQuery]
  | cons str comps ih =>
    intro c h
    have hs : (61 : Byte) ∈ str := h str (List.mem_cons_self _ _)
    unfold HttpContext.ParseQuery
    rw [strFind_zero]
    cases hf : findFrom [61] str with
    | none => exact absurd hs ((findFrom_single_none 61 str).1 hf)
    | some pos =>
      obtain ⟨a, b, rfl, hna, rfl⟩ := findFrom_single_some 61 str pos hf
      obtain ⟨k1, k2⟩ := compKey_compVal a b hna
      simp only []
      rw [ih _ (fun comp hc => h comp (List.mem_cons_of_mem _ hc))]
      simp [substr, HttpRequest.SetParam, k1, k2]

theorem parseQuery_bad (comps : List Str) : ∀ (c : HttpContext),
    (∃ comp ∈ comps, (61 : Byte) ∉ comp) →
    (HttpContext.ParseQuery c comps).1 = false ∧
      (HttpContext.ParseQuery c comps).2._recv_statu = RECV_HTTP_ERROR ∧
      (HttpContext.ParseQuery c comps).2._resp_statu = 400 := by
  induction comps with
  | nil => intro c h; simp at h
  | cons str comps ih =>
    intro c h
    unfold HttpContext.ParseQuery
    rw [strFind_zero]
    cases hf : findFrom [61] str with
    | none => simp [HttpContext.fail]
    | some pos =>
      simp only []
      apply ih
      obtain ⟨comp, hc, hn⟩ := h
      rcases List.mem_cons.1 hc with rfl | hc
      · exact absurd hf (by rw [(findFrom_single_none 61 comp).2 hn]; simp)
      · exact ⟨comp, hc, hn⟩

theorem parseHttpLine_nomatch (c : HttpContext) (line : Str) (h : ¬ MatchesRequestLine line) :
    c.ParseHttpLine line = (false, c.fail 400) := by
  simp [HttpContext.ParseHttpLine, regex_match_none line h]

theorem parseHttpLine_parts (c : HttpContext) (line m p : Str) (q : Option Str) (v eol : Str)
    (h : RequestLineParts line m p q v eol) :
    c.ParseHttpLine line = HttpContext.ParseQuery
      { c with _request := { c._request with
          _method := m.map toupper
          _path := Util.UrlDecode p false
          _version := v } } (queryComponents q) := by
  obtain ⟨s1, s2, s3, s4⟩ := subMatch_capsOf m p q v
  simp [HttpContext.ParseHttpLine, regex_match_parts line m p q v eol h, s1, s2, s3, s4,
    split_single, queryComponents]

theorem parseHttpLine_ok (c : HttpContext) (line m p : Str) (q : Option Str) (v eol : Str)
    (h : RequestLineParts line m p q v eol)
    (hq : ∀ comp ∈ queryComponents q, (61 : Byte) ∈ comp) :
    c.ParseHttpLine line = (true, c.withLine m p q v) := by
  rw [parseHttpLine_parts c line m p q v eol h, parseQuery_ok _ _ hq]
  simp [HttpContext.withLine, decodedParams]

theorem parseHttpLine_bad (c : HttpContext) (line m p : Str) (q : Option Str) (v eol : Str)
    (h : RequestLineParts line m p q v eol)
    (hq : ∃ comp ∈ queryComponents q, (61 : Byte) ∉ comp) :
    (c.ParseHttpLine line).1 = false ∧
      (c.ParseHttpLine line).2._recv_statu = RECV_HTTP_ERROR ∧
      (c.ParseHttpLine line).2._resp_statu = 400 := by
  rw [parseHttpLine_parts c line m p q v eol h]
  exact parseQuery_bad _ _ hq

theorem recvHttpLine_complete (c : HttpContext) (buf : Buffer) (line rest : Str)
    (hs : c._recv_statu = RECV_HTTP_LINE) (hwf : buf.WF) (hr : buf.readable = line ++ rest)
    (hl : CompleteLine line) :
    c.RecvHttpLine buf = .ok
      (if line.length > MAX_LINE then (false, c.fail 414, buf.advance line.length)
       else if (c.ParseHttpLine line).1 = false then
         (false, (c.ParseHttpLine line).2, buf.advance line.length)
       else (true, { (c.ParseHttpLine line).2 with _recv_statu := RECV_HTTP_HEAD },
         buf.advance line.length)) := by
  obtain ⟨l0, rfl, h10⟩ := hl
  have hg := Buffer.getLineAndPop_line buf l0 rest hwf (by simpa using hr) h10
  unfold HttpContext.RecvHttpLine
  simp only [hs, ne_eq, not_true_eq_false, if_false, hg, bind, Except.bind, pure, Except.pure]
  simp only [List.length_append, List.length_singleton, Nat.add_one_ne_zero, if_false]
  by_cases h1 : l0.length + 1 > MAX_LINE
  · simp [h1]
  · simp only [h1, if_false]
    by_cases h2 : (c.ParseHttpLine (l0 ++ [10])).1 = false
    · simp [h2]
    · simp [h2]

theorem recvHttpLine_incomplete (c : HttpContext) (buf : Buffer)
    (hs : c._recv_statu = RECV_HTTP_LINE) (h : (10 : Byte) ∉ buf.readable) :
    c.RecvHttpLine buf = .ok
      (if buf.ReadAbleSize > MAX_LINE then (false, c.fail 414, buf) else (true, c, buf)) := by
  unfold HttpContext.RecvHttpLine
  simp only [hs, ne_eq, not_true_eq_false, if_false, Buffer.getLineAndPop_none buf h, bind,
    Except.bind, pure, Except.pure]
  by_cases h1 : buf.ReadAbleSize > MAX_LINE <;> simp [h1]

theorem strMap_insert_find (m : StrMap) (k v k2 : Str) :
    (m.insert k v).find k2 = (m.find k2).or (if k2 = k then some v else none) := by
  unfold StrMap.insert StrMap.find
  cases hk : List.lookup k m with
  | some x =>
    simp only []
    by_cases e : k2 = k
    · subst e; simp [hk]
    · simp [e]
  | none =>
    simp only []
    rw [List.lookup_append]
    by_cases e : k2 = k
    · subst e; simp [List.lookup_cons]
    · have e2 : (k2 == k) = false := by simpa using e
      simp [List.lookup_cons, e, e2]

theorem foldl_insert_find (kvs : List (Str × Str)) : ∀ (m0 : StrMap) (k : Str),
    (kvs.foldl (fun ps kv => ps.insert kv.1 kv.2) m0).find k =
      (m0.find k).or (kvs.lookup k) := by
  induction kvs with
  | nil => intro m0 k; simp
  | cons kv kvs ih =>
    intro m0 k
    obtain ⟨k1, v1⟩ := kv
    simp only [List.foldl_cons]
    rw [ih, strMap_insert_find]
    by_cases e : k = k1
    · subst e
      cases m0.find k <;> simp
    · have e2 : (k == k1) = false := by simpa using e
      cases m0.find k <;> simp [List.lookup_cons, e, e2]

theorem lookup_first (kvs : List (Str × Str)) (i : Nat) (hi : i < kvs.length)
    (hfirst : ∀ j (hj : j < i), (kvs[j]).1 ≠ (kvs[i]).1) :
    kvs.lookup (kvs[i]).1 = some (kvs[i]).2 := by
  rw [List.lookup_eq_some_iff]
  refine ⟨kvs.take i, kvs.drop (i + 1), ?_, ?_⟩
  · simp
  · intro pr hp
    obtain ⟨j, hj, rfl⟩ := List.mem_iff_getElem.1 hp
    simp only [List.length_take] at hj
    have hji : j < i := by omega
    simp only [List.getElem_take]
    have := hfirst j hji
    simpa [bne_iff_ne] using fun e => this e.symm

theorem Buffer.received_spec (s : Str) :
    (Buffer.received s).WF ∧ (Buffer.received s).readable = s := by
  have hwf : Buffer.new.WF := by
    simp [Buffer.WF, Buffer.new]
  have hrd : Buffer.new.readable = [] := by
    simp [Buffer.readable, Buffer.peek, Buffer.ReadAbleSize, Buffer.new]
  obtain ⟨b2, e, w2, r2⟩ := Buffer.writeAndPush_spec Buffer.new s hwf
  simp only [Buffer.received, e]
  exact ⟨w2, by simpa [hrd] using r2⟩

theorem mem_segments (c : Byte) (s comp : Str) :
    comp ∈ segments c s ↔ comp ∈ s.splitOn c ∧ comp ≠ [] := by
  simp [segments]

/-- What `RecvHttpLine` does with a complete line of at most `MAX_LINE` bytes. -/
theorem recvHttpLine_cases (c : HttpContext) (buf : Buffer) (line rest : Str)
    (hs : c._recv_statu = RECV_HTTP_LINE) (hwf : buf.WF) (hr : buf.readable = line ++ rest)
    (hl : CompleteLine line) (hlen : line.length ≤ 8192) :
    (¬ MatchesRequestLine line →
      c.RecvHttpLine buf = .ok (false, c.fail 400, buf.advance line.length)) ∧
    (∀ m p q v eol, RequestLineParts line m p q v eol →
      (∃ comp ∈ queryComponents q, (61 : Byte) ∉ comp) →
      ∃ c2, c.RecvHttpLine buf = .ok (false, c2, buf.advance line.length) ∧
        c2._recv_statu = RECV_HTTP_ERROR ∧ c2._resp_statu = 400) ∧
    (∀ m p q v eol, RequestLineParts line m p q v eol →
      (∀ comp ∈ queryComponents q, (61 : Byte) ∈ comp) →
      c.RecvHttpLine buf = .ok (true,
        { c.withLine m p q v with _recv_statu := RECV_HTTP_HEAD }, buf.advance line.length)) := by
  have hnl : ¬ line.length > MAX_LINE := by simp [MAX_LINE]; omega
  have hrec := recvHttpLine_complete c buf line rest hs hwf hr hl
  simp only [hnl, if_false] at hrec
  refine ⟨?_, ?_, ?_⟩
  · intro hm
    rw [hrec, parseHttpLine_nomatch c line hm]
    simp
  · intro m p q v eol hp hq
    obtain ⟨b1, b2, b3⟩ := parseHttpLine_bad c line m p q v eol hp hq
    rw [hrec]
    simp only [b1, if_true]
    exact ⟨_, rfl, b2, b3⟩
  · intro m p q v eol hp hq
    rw [hrec, parseHttpLine_ok c line m p q v eol hp hq]
    simp

theorem longRequestLine_spec (n : Nat) :
    RequestLineParts (longRequestLine n) (bytes "GET") (47 :: List.replicate n 97) none
      (bytes "HTTP/1.1") [10] ∧
    CompleteLine (longRequestLine n) ∧ (longRequestLine n).length = n + 15 ∧
    (∀ comp ∈ queryComponents none, (61 : Byte) ∈ comp) := by
  have h3 : (bytes "GET").length = 3 := by decide
  have h8 : (bytes "HTTP/1.1").length = 8 := by decide
  have g10 : (10 : Byte) ∉ bytes "GET" := by decide
  have v10 : (10 : Byte) ∉ bytes "HTTP/1.1" := by decide
  refine ⟨⟨rfl, Or.inl rfl, ?_, by simp, Or.inr rfl, Or.inr (Or.inl rfl)⟩, ?_, ?_, ?_⟩
  · simp [List.mem_replicate]
  · refine ⟨bytes "GET" ++ 32 :: ((47 :: List.replicate n 97) ++ (32 :: bytes "HTTP/1.1")),
      by simp [longRequestLine], ?_⟩
    simp [List.mem_replicate, g10, v10]
  · simp [longRequestLine, h3, h8]; omega
  · simp [queryComponents, segments_nil]

theorem replicate_letter_spec (n : Nat) :
    (10 : Byte) ∉ List.replicate n (97 : Byte) ∧ (List.replicate n (97 : Byte)).length = n := by
  simp [List.mem_replicate]

/-! ## `ParseHttpHead` and `RecvHttpHead` -/

theorem findFrom_none_iff (sep : Str) (s : Str) : findFrom sep s = none ↔ ¬ sep <:+: s := by
  induction s with
  | nil =>
    by_cases h : sep = []
    · simp [findFrom, h]
    · simp [findFrom, h]
  | cons c t ih =>
    unfold findFrom
    by_cases hp : sep.isPrefixOf (c :: t) = true
    · have hp2 : sep <+: c :: t := List.isPrefixOf_iff_prefix.1 hp
      simp only [hp, if_true]
      constructor
      · intro h; cases h
      · intro h; exact absurd hp2.isInfix h
    · have hp2 : ¬ sep <+: c :: t := fun h => hp (List.isPrefixOf_iff_prefix.2 h)
      simp only [hp, List.infix_cons_iff, hp2, false_or]
      simpa using ih

theorem findFrom_first (sep : Str) (b : Str) : ∀ a : Str, ¬ sep <:+: a ++ sep.dropLast →
    findFrom sep (a ++ sep ++ b) = some a.length := by
  intro a
  induction a with
  | nil =>
    intro h
    cases sep with
    | nil => exact absurd List.nil_infix h
    | cons x sep2 =>
      have hp : (x :: sep2).isPrefixOf (x :: (sep2 ++ b)) = true :=
        List.isPrefixOf_iff_prefix.2 ⟨b, by simp⟩
      simp [findFrom, hp]
  | cons c a ih =>
    intro h
    have hne : sep ≠ [] := by
      intro e; subst e; exact h List.nil_infix
    have hsep : sep = sep.dropLast ++ [sep.getLast hne] :=
      (List.dropLast_append_getLast hne).symm
    have hnp : ¬ sep <+: c :: (a ++ sep ++ b) := by
      intro hp
      have h2 : (c :: a ++ sep.dropLast) <+: c :: (a ++ sep ++ b) := by
        refine ⟨[sep.getLast hne] ++ b, ?_⟩
        conv => rhs; rw [hsep]
        simp
      have hlen : sep.length ≤ (c :: a ++ sep.dropLast).length := by
        simp
        have := congrArg List.length hsep
        simp at this
        omega
      exact h (List.prefix_of_prefix_length_le hp h2 hlen).isInfix
    have hnp2 : ¬ sep.isPrefixOf (c :: (a ++ sep ++ b)) = true :=
      fun e => hnp (List.isPrefixOf_iff_prefix.1 e)
    have ih2 := ih (fun hi => h (by
      rw [List.cons_append, List.infix_cons_iff]
      exact Or.inr hi))
    have e : (c :: a) ++ sep ++ b = c :: (a ++ sep ++ b) := by simp
    rw [e]
    unfold findFrom
    simp only [hnp2, if_false, ih2, Option.map_some', List.length_cons]
    simp

theorem parseHttpHead_no_sep (c : HttpContext) (line : Str) (h : ¬ bytes ": " <:+: line) :
    c.ParseHttpHead line = (false, c.fail 400) := by
  have hb : bytes ": " = [58, 32] := by decide
  rw [hb] at h
  unfold HttpContext.ParseHttpHead
  simp only []
  generalize hl1 : (if line.getLast? = some 10 then line.dropLast else line) = line1
  generalize hl2 : (if line1.getLast? = some 13 then line1.dropLast else line1) = line2
  have p1 : line1 <+: line := by
    rw [← hl1]
    split
    · exact List.dropLast_prefix _
    · exact List.prefix_refl _
  have p2 : line2 <+: line1 := by
    rw [← hl2]
    split
    · exact List.dropLast_prefix _
    · exact List.prefix_refl _
  have hn : findFrom [58, 32] line2 = none := by
    rw [findFrom_none_iff]
    intro hi
    exact h (hi.trans (p2.trans p1).isInfix)
  rw [strFind_zero, hn]

theorem parseHttpHead_sep (c : HttpContext) (key val eol : Str)
    (hfirst : ¬ bytes ": " <:+: key ++ [58])
    (heol : eol = [13, 10] ∨
      (eol = [10] ∧ (key ++ bytes ": " ++ val).getLast? ≠ some 13)) :
    c.ParseHttpHead (key ++ bytes ": " ++ val ++ eol) =
      (true, { c with _request := c._request.SetHeader key val }) := by
  have hb : bytes ": " = [58, 32] := by decide
  rw [hb] at hfirst heol ⊢
  have hstrip : (let line := key ++ [58, 32] ++ val ++ eol
      let line1 := if line.getLast? = some 10 then line.dropLast else line
      if line1.getLast? = some 13 then line1.dropLast else line1) = key ++ [58, 32] ++ val := by
    rcases heol with rfl | ⟨rfl, h13⟩
    · have e : key ++ [58, 32] ++ val ++ [13, 10] = (key ++ [58, 32] ++ val ++ [13]) ++ [10] := by
        simp
      simp only [e, List.getLast?_concat, if_true, List.dropLast_concat]
    · simp only [List.getLast?_concat, if_true, List.dropLast_concat, h13, if_false]
  have hf : findFrom [58, 32] (key ++ [58, 32] ++ val) = some key.length :=
    findFrom_first [58, 32] val key (by simpa using hfirst)
  unfold HttpContext.ParseHttpHead
  simp only [] at hstrip ⊢
  rw [hstrip, strFind_zero, hf]
  simp [substr]

theorem split_at_newline (s : Str) (h : (10 : Byte) ∈ s) :
    ∃ l0 rest, s = l0 ++ 10 :: rest ∧ (10 : Byte) ∉ l0 := by
  cases hf : findFrom [10] s with
  | none => exact absurd h ((findFrom_single_none 10 s).1 hf)
  | some i =>
    obtain ⟨a, b, hab, hna, _⟩ := findFrom_single_some 10 s i hf
    exact ⟨a, b, hab, hna⟩

theorem headLoop_incomplete (fuel : Nat) (c : HttpContext) (buf : Buffer)
    (h : (10 : Byte) ∉ buf.readable) :
    HttpContext.RecvHttpHeadLoop (fuel + 1) c buf = .ok
      (if buf.ReadAbleSize > MAX_LINE then (false, c.fail 414, buf) else (true, c, buf)) := by
  unfold HttpContext.RecvHttpHeadLoop
  simp only [Buffer.getLineAndPop_none buf h, bind, Except.bind, pure, Except.pure]
  by_cases h1 : buf.ReadAbleSize > MAX_LINE <;> simp [h1]

theorem headLoop_line (fuel : Nat) (c : HttpContext) (buf : Buffer) (line rest : Str)
    (hwf : buf.WF) (hr : buf.readable = line ++ rest) (hl : CompleteLine line) :
    HttpContext.RecvHttpHeadLoop (fuel + 1) c buf =
      if line.length > MAX_LINE then .ok (false, c.fail 414, buf.advance line.length)
      else if line = [10] ∨ line = [13, 10] then
        .ok (true, { c with _recv_statu := RECV_HTTP_BODY }, buf.advance line.length)
      else if (c.ParseHttpHead line).1 = false then
        .ok (false, (c.ParseHttpHead line).2, buf.advance line.length)
      else HttpContext.RecvHttpHeadLoop fuel (c.ParseHttpHead line).2
        (buf.advance line.length) := by
  obtain ⟨l0, rfl, h10⟩ := hl
  have hg := Buffer.getLineAndPop_line buf l0 rest hwf (by simpa using hr) h10
  have hlen : (l0 ++ [10]).length = l0.length + 1 := by simp
  rw [HttpContext.RecvHttpHeadLoop]
  simp only [hg, bind, Except.bind, pure, Except.pure, hlen, Nat.add_one_ne_zero, if_false]

theorem headLoop_fuel : ∀ (f1 f2 : Nat) (c : HttpContext) (buf : Buffer), buf.WF →
    buf.readable.length < f1 → buf.readable.length < f2 →
    HttpContext.RecvHttpHeadLoop f1 c buf = HttpContext.RecvHttpHeadLoop f2 c buf := by
  intro f1
  induction f1 with
  | zero => intro f2 c buf _ h; omega
  | succ f1 ih =>
    intro f2 c buf hwf h1 h2
    cases f2 with
    | zero => omega
    | succ f2 =>
      by_cases h10 : (10 : Byte) ∈ buf.readable
      · obtain ⟨l0, rest, hr, hn⟩ := split_at_newline _ h10
        have hr2 : buf.readable = (l0 ++ [10]) ++ rest := by simpa using hr
        have hl : CompleteLine (l0 ++ [10]) := ⟨l0, rfl, hn⟩
        rw [headLoop_line f1 c buf _ rest hwf hr2 hl, headLoop_line f2 c buf _ rest hwf hr2 hl]
        have hlen := congrArg List.length hr2
        simp only [List.length_append, List.length_singleton] at hlen
        have hle : (l0 ++ [10]).length ≤ buf.ReadAbleSize := by
          have := Buffer.readable_length buf hwf
          simp only [Buffer.ReadAbleSize, List.length_append, List.length_singleton]
          omega
        obtain ⟨w2, r2⟩ := Buffer.advance_spec buf (l0 ++ [10]).length hwf hle
        have hrl : (buf.advance (l0 ++ [10]).length).readable.length = rest.length := by
          rw [r2, hr2]; simp
        have key := ih f2 (c.ParseHttpHead (l0 ++ [10])).2 (buf.advance (l0 ++ [10]).length) w2
          (by rw [hrl]; omega) (by rw [hrl]; omega)
        rw [key]
      · rw [headLoop_incomplete f1 c buf h10, headLoop_incomplete f2 c buf h10]

theorem recvHttpHead_line (c : HttpContext) (buf : Buffer) (line rest : Str)
    (hs : c._recv_statu = RECV_HTTP_HEAD) (hwf : buf.WF) (hr : buf.readable = line ++ rest)
    (hl : CompleteLine line) :
    (buf.advance line.length).WF ∧ (buf.advance line.length).readable = rest ∧
    c.RecvHttpHead buf =
      if line.length > MAX_LINE then .ok (false, c.fail 414, buf.advance line.length)
      else if line = [10] ∨ line = [13, 10] then
        .ok (true, { c with _recv_statu := RECV_HTTP_BODY }, buf.advance line.length)
      else if (c.ParseHttpHead line).1 = false then
        .ok (false, (c.ParseHttpHead line).2, buf.advance line.length)
      else HttpContext.RecvHttpHeadLoop ((buf.advance line.length).ReadAbleSize + 1)
        (c.ParseHttpHead line).2 (buf.advance line.length) := by
  have hrl := Buffer.readable_length buf hwf
  have hlen := congrArg List.length hr
  simp only [List.length_append] at hlen
  have hle : line.length ≤ buf.ReadAbleSize := by
    simp only [Buffer.ReadAbleSize]; omega
  obtain ⟨w2, r2⟩ := Buffer.advance_spec buf line.length hwf hle
  have r3 : (buf.advance line.length).readable = rest := by rw [r2, hr]; simp
  have hrl2 := Buffer.readable_length _ w2
  refine ⟨w2, r3, ?_⟩
  unfold HttpContext.RecvHttpHead
  simp only [hs, ne_eq, not_true_eq_false, if_false]
  rw [headLoop_line _ c buf line rest hwf hr hl]
  have hpos : 0 < line.length := by
    obtain ⟨l0, rfl, _⟩ := hl; simp
  rw [headLoop_fuel buf.ReadAbleSize ((buf.advance line.length).ReadAbleSize + 1) _ _ w2
    (by rw [r3]; simp only [Buffer.ReadAbleSize]; omega)
    (by simp only [Buffer.ReadAbleSize]; omega)]

/-! ## `ContentLength` and `RecvHttpBody` -/

theorem digit_facts : ∀ d : Byte, 48 ≤ d.val ∧ d.val ≤ 57 →
    isdigit d = true ∧ isspace d = false ∧ d ≠ 45 ∧ d ≠ 43 := by
  decide!

theorem decimalValue_foldl (ds : Str) : ∀ a : Nat,
    ds.foldl (fun a d => 10 * a + (d.val - 48)) a =
      a * 10 ^ ds.length + Nat.ofDigits 10 ((ds.map (fun d => d.val - 48)).reverse) := by
  induction ds with
  | nil => intro a; simp
  | cons d ds ih =>
    intro a
    simp only [List.foldl_cons, ih, List.map_cons, List.reverse_cons, Nat.ofDigits_append,
      List.length_reverse, List.length_map, List.length_cons, Nat.ofDigits_singleton]
    ring

theorem decimalValue_eq (ds : Str) :
    decimalValue ds = Nat.ofDigits 10 ((ds.map (fun d => d.val - 48)).reverse) := by
  simp [decimalValue, decimalValue_foldl]

theorem stol_decimal (ds : Str) (n : Nat) (h : IsDecimal ds n) :
    stol ds = if n > 2 ^ 63 - 1 then .error .out_of_range else .ok (n : Int) := by
  obtain ⟨hne, hd, hv⟩ := h
  rw [← decimalValue_eq] at hv
  cases ds with
  | nil => exact absurd rfl hne
  | cons d ds =>
    obtain ⟨_, f2, f3, f4⟩ := digit_facts d (hd d (List.mem_cons_self _ _))
    have hall : ∀ x ∈ d :: ds, isdigit x = true := fun x hx => (digit_facts x (hd x hx)).1
    have htw : (d :: ds).takeWhile isdigit = d :: ds := List.takeWhile_eq_self_iff.2 hall
    have hdw : (d :: ds).dropWhile isspace = d :: ds := by
      simp [List.dropWhile, f2]
    unfold stol
    simp only [hdw, List.head?_cons, Option.some.injEq, f3, f4, or_self, if_false, htw,
      hv, decide_False, Bool.false_eq_true]
    simp only [reduceCtorEq, if_false]
    by_cases hbig : n > 2 ^ 63 - 1
    · have : ((n : Int) < - 2 ^ 63 ∨ (n : Int) > 2 ^ 63 - 1) := by
        right; omega
      rw [if_pos this, if_pos hbig]
    · have : ¬ ((n : Int) < - 2 ^ 63 ∨ (n : Int) > 2 ^ 63 - 1) := by
        omega
      rw [if_neg this, if_neg hbig]

theorem contentLength_of (r : HttpRequest) (n : Nat) (h : ContentLengthIs r._headers n) :
    r.ContentLength = if n > 2 ^ 63 - 1 then .error .out_of_range else .ok n := by
  unfold HttpRequest.ContentLength HttpRequest.HasHeader HttpRequest.GetHeader
  rcases h with ⟨h0, rfl⟩ | ⟨ds, hf, hd⟩
  · simp [h0]
  · simp only [hf, Option.isSome_some, Bool.true_eq_false, if_false, Option.getD_some,
      stol_decimal ds n hd]
    by_cases hbig : n > 2 ^ 63 - 1
    · rw [if_pos hbig, if_pos hbig]
      rfl
    · rw [if_neg hbig, if_neg hbig]
      have h1 : ((n : Int) % 2 ^ 64) = n := Int.emod_eq_of_lt (by omega) (by omega)
      simp only [bind, Except.bind, pure, Except.pure, h1, Int.toNat_ofNat]

theorem recvHttpBody_step (c : HttpContext) (buf : Buffer) (n : Nat)
    (hs : c._recv_statu = RECV_HTTP_BODY) (hwf : buf.WF)
    (hcl : c._request.ContentLength = .ok n) (hn : n < 2 ^ 63)
    (hb : c._request._body.length < n ∨ (n = 0 ∧ c._request._body = [])) :
    ∃ c2 buf2, c.RecvHttpBody buf = .ok (true, c2, buf2) ∧
      BodyInv c._request._headers n (c._request._body ++ buf.readable) (c2, buf2) := by
  have hrl := Buffer.readable_length buf hwf
  unfold HttpContext.RecvHttpBody
  simp only [hs, ne_eq, not_true_eq_false, if_false, hcl, bind, Except.bind, pure, Except.pure]
  by_cases h0 : n = 0
  · subst h0
    have hbody : c._request._body = [] := by
      rcases hb with h | ⟨_, h⟩
      · omega
      · exact h
    simp only [if_true]
    exact ⟨_, _, rfl, hwf, rfl, rfl, Or.inl ⟨rfl, by simp [hbody]⟩⟩
  · have hlt : c._request._body.length < n := by
      rcases hb with h | ⟨h, _⟩
      · exact h
      · exact absurd h h0
    have hreal : (n + 2 ^ 64 - c._request._body.length) % 2 ^ 64 =
        n - c._request._body.length := by
      have e : n + 2 ^ 64 - c._request._body.length =
          (n - c._request._body.length) + 2 ^ 64 := by omega
      rw [e, Nat.add_mod_right, Nat.mod_eq_of_lt (by omega)]
    simp only [h0, if_false, hreal]
    by_cases hge : buf.ReadAbleSize ≥ n - c._request._body.length
    · simp only [hge, if_true, Buffer.moveReadOffset_eq buf _ hge]
      obtain ⟨w2, r2⟩ := Buffer.advance_spec buf _ hwf hge
      refine ⟨_, _, rfl, w2, rfl, ?_, Or.inl ⟨rfl, ?_⟩⟩
      · simp only [r2, Buffer.peek_eq_take buf _ hge, List.append_assoc,
          List.take_append_drop]
      · simp only [Buffer.peek_eq_take buf _ hge, List.length_append, List.length_take, hrl]
        simp only [Buffer.ReadAbleSize] at hge
        omega
    · simp only [hge, if_false, Buffer.moveReadOffset_eq buf _ (le_refl _)]
      obtain ⟨w2, r2⟩ := Buffer.advance_spec buf _ hwf (le_refl _)
      refine ⟨_, _, rfl, w2, rfl, ?_, Or.inr ⟨rfl, ?_⟩⟩
      · simp only [r2, Buffer.peek_eq_take buf _ (le_refl _), List.append_assoc,
          List.take_append_drop]
      · simp only [Buffer.peek_eq_take buf _ (le_refl _), List.length_append,
          List.length_take, hrl]
        simp only [Buffer.ReadAbleSize] at hge ⊢
        omega

theorem recvHttpRequest_body_state (c : HttpContext) (buf : Buffer) (ret : Bool)
    (c2 : HttpContext) (buf2 : Buffer) (hs : c._recv_statu = RECV_HTTP_BODY)
    (h : c.RecvHttpBody buf = .ok (ret, c2, buf2)) : c.RecvHttpRequest buf = .ok (c2, buf2) := by
  unfold HttpContext.RecvHttpRequest
  simp only [hs, h, bind, Except.bind, pure, Except.pure]

theorem recvHttpRequest_over_state (c : HttpContext) (buf : Buffer)
    (hs : c._recv_statu = RECV_HTTP_OVER) : c.RecvHttpRequest buf = .ok (c, buf) := by
  unfold HttpContext.RecvHttpRequest
  simp only [hs, pure, Except.pure]

theorem recvHttpRequest_blank (c : HttpContext) (buf : Buffer) (blank after : Str)
    (hs : c._recv_statu = RECV_HTTP_HEAD) (hwf : buf.WF) (hr : buf.readable = blank ++ after)
    (hblank : blank = [10] ∨ blank = [13, 10]) :
    (buf.advance blank.length).WF ∧ (buf.advance blank.length).readable = after ∧
    c.RecvHttpRequest buf =
      (({ c with _recv_statu := RECV_HTTP_BODY } : HttpContext).RecvHttpBody
        (buf.advance blank.length)).map (fun r => (r.2.1, r.2.2)) := by
  have hl : CompleteLine blank := by
    rcases hblank with rfl | rfl
    · exact ⟨[], rfl, by simp⟩
    · exact ⟨[13], rfl, by decide⟩
  have hlen : ¬ blank.length > MAX_LINE := by
    rcases hblank with rfl | rfl <;> decide
  obtain ⟨w2, r2, hrec⟩ := recvHttpHead_line c buf blank after hs hwf hr hl
  simp only [hlen, hblank, if_false, if_true] at hrec
  refine ⟨w2, r2, ?_⟩
  unfold HttpContext.RecvHttpRequest
  simp only [hs, hrec, bind, Except.bind, pure, Except.pure]
  cases ({ c with _recv_statu := RECV_HTTP_BODY } : HttpContext).RecvHttpBody
    (buf.advance blank.length) <;> rfl

theorem feed_step (hdrs : StrMap) (n : Nat) (stream chunk : Str) (s : HttpContext × Buffer)
    (hcl : ∀ r : HttpRequest, r._headers = hdrs → r.ContentLength = .ok n) (hn : n < 2 ^ 63)
    (hinv : BodyInv hdrs n stream s) :
    ∃ s2, feed s chunk = .ok s2 ∧ BodyInv hdrs n (stream ++ chunk) s2 := by
  obtain ⟨c, buf⟩ := s
  obtain ⟨hwf, hh, hst, hstate⟩ := hinv
  simp only at hwf hh hst hstate
  obtain ⟨b1, hw, w1, r1⟩ := Buffer.writeAndPush_spec buf chunk hwf
  unfold feed
  simp only [hw, bind, Except.bind]
  rcases hstate with ⟨hover, hlen⟩ | ⟨hbody, hlen⟩
  · rw [recvHttpRequest_over_state c b1 hover]
    refine ⟨_, rfl, w1, hh, ?_, Or.inl ⟨hover, hlen⟩⟩
    simp only [r1, ← hst, List.append_assoc]
  · obtain ⟨c2, buf2, e, hinv2⟩ := recvHttpBody_step c b1 n hbody w1 (hcl _ hh) hn (Or.inl hlen)
    rw [recvHttpRequest_body_state c b1 true c2 buf2 hbody e]
    refine ⟨_, rfl, ?_⟩
    rw [hh, r1, ← List.append_assoc, hst] at hinv2
    exact hinv2

theorem feedAll_inv (hdrs : StrMap) (n : Nat)
    (hcl : ∀ r : HttpRequest, r._headers = hdrs → r.ContentLength = .ok n) (hn : n < 2 ^ 63)
    (chunks : List Str) : ∀ (stream : Str) (s : HttpContext × Buffer),
    BodyInv hdrs n stream s →
    ∃ s2, feedAll s chunks = .ok s2 ∧ BodyInv hdrs n (stream ++ chunks.flatten) s2 := by
  induction chunks with
  | nil =>
    intro stream s hinv
    exact ⟨s, rfl, by simpa using hinv⟩
  | cons chunk chunks ih =>
    intro stream s hinv
    obtain ⟨s1, e1, hinv1⟩ := feed_step hdrs n stream chunk s hcl hn hinv
    obtain ⟨s2, e2, hinv2⟩ := ih _ s1 hinv1
    refine ⟨s2, ?_, by simpa using hinv2⟩
    simp only [feedAll, e1, bind, Except.bind, e2]

theorem isDecimal_five : IsDecimal (bytes "5") 5 := by
  have e : bytes "5" = [53] := by decide
  rw [e]
  refine ⟨by simp, ?_, ?_⟩
  · intro d hd
    simp at hd
    subst hd
    decide
  · simp [Nat.ofDigits]
    rfl

/-! ## More lemmas on `Buffer` -/

theorem Buffer.readAndPop_spec (b : Buffer) (n : Nat) (h : n ≤ b.ReadAbleSize) :
    b.ReadAndPop n = .ok (b.readable.take n, b.advance n) := by
  have hmv := Buffer.moveReadOffset_eq b n h
  have hpk := Buffer.peek_eq_take b n h
  simp [Buffer.ReadAndPop, Buffer.Read, h, hmv, hpk, bind, Except.bind, pure, Except.pure]

theorem Buffer.write_cursors (b : Buffer) (x : Str) (h : b._reader_idx = b._writer_idx) :
    (b.Write x).ReadAbleSize = 0 := by
  unfold Buffer.Write
  by_cases hd : x.length = 0
  · simp [hd, Buffer.ReadAbleSize, h]
  · simp only [hd, if_false]
    unfold Buffer.EnsureWriteSpace
    by_cases hA : b.TailIdleSize ≥ x.length
    · simp [hA, Buffer.ReadAbleSize, h]
    · rw [if_neg hA]
      by_cases hB : x.length ≤ b.TailIdleSize + b.HeadIdleSize
      · simp [hB, Buffer.ReadAbleSize, h]
      · simp [hB, Buffer.ReadAbleSize, h]
/-! ## Lemmas on `HttpServer` -/

theorem dispatcherLoop_none (rsp : HttpResponse) (handlers : Handlers) :
    ∀ (k : Nat) (req : HttpRequest), (∀ e ∈ handlers, e.1 req._path = none) →
      HttpServer.DispatcherLoop rsp handlers k req =
        (if handlers.isEmpty then req else { req with _matches := [] },
          { rsp with _statu := 404 }, []) := by
  induction handlers with
  | nil => intro k req _; simp [HttpServer.DispatcherLoop]
  | cons e rest ih =>
    intro k req h
    obtain ⟨re, functor⟩ := e
    have h0 : re req._path = none := h (re, functor) (List.mem_cons_self _ _)
    have hr : ∀ e ∈ rest, e.1 ({ req with _matches := [] } : HttpRequest)._path = none :=
      fun e he => h e (List.mem_cons_of_mem _ he)
    simp only [HttpServer.DispatcherLoop, h0]
    rw [ih (k + 1) _ hr]
    cases rest <;> simp

theorem dispatcherLoop_first (rsp : HttpResponse) (handlers : Handlers) :
    ∀ (k : Nat) (req : HttpRequest) (i : Nat) (h : i < handlers.length) (m : Caps),
      (handlers.get ⟨i, h⟩).1 req._path = some m →
      (∀ j (hj : j < i), (handlers.get ⟨j, Nat.lt_trans hj h⟩).1 req._path = none) →
      HttpServer.DispatcherLoop rsp handlers k req =
        ({ req with _matches := m },
          (handlers.get ⟨i, h⟩).2 { req with _matches := m } rsp, [Event.Handler (k + i)]) := by
  induction handlers with
  | nil => intro k req i h; simp at h
  | cons e rest ih =>
    intro k req i h m hm hbefore
    obtain ⟨re, functor⟩ := e
    cases i with
    | zero =>
      have h0 : re req._path = some m := by simpa using hm
      simp [HttpServer.DispatcherLoop, h0]
    | succ i =>
      have h0 : re req._path = none := by
        simpa using hbefore 0 (Nat.succ_pos i)
      have hi : i < rest.length := by simpa using h
      have hm2 : (rest.get ⟨i, hi⟩).1 ({ req with _matches := [] } : HttpRequest)._path =
          some m := by simpa using hm
      have hb2 : ∀ j (hj : j < i), (rest.get ⟨j, Nat.lt_trans hj hi⟩).1
          ({ req with _matches := [] } : HttpRequest)._path = none := by
        intro j hj
        simpa using hbefore (j + 1) (Nat.succ_lt_succ hj)
      simp only [HttpServer.DispatcherLoop, h0]
      rw [ih (k + 1) _ i hi m hm2 hb2]
      simp [Nat.add_assoc, Nat.add_comm 1 i]

theorem dispatcherLoop_events (rsp : HttpResponse) (handlers : Handlers) :
    ∀ (k : Nat) (req : HttpRequest),
      ∀ e ∈ (HttpServer.DispatcherLoop rsp handlers k req).2.2, ∃ i, e = Event.Handler i := by
  induction handlers with
  | nil => intro k req e he; simp [HttpServer.DispatcherLoop] at he
  | cons x rest ih =>
    intro k req e he
    obtain ⟨re, functor⟩ := x
    cases h0 : re req._path with
    | none =>
      simp only [HttpServer.DispatcherLoop, h0] at he
      exact ih _ _ e he
    | some m =>
      simp only [HttpServer.DispatcherLoop, h0, List.mem_singleton] at he
      exact ⟨k, he⟩

theorem isFileHandler_early (srv : HttpServer) (env : Env) (req : HttpRequest)
    (h : srv._basedir = [] ∨ (req._method ≠ bytes "GET" ∧ req._method ≠ bytes "HEAD") ∨
      Util.ValidPath req._path = false) :
    srv.IsFileHandler env req = .ok (false, []) := by
  unfold HttpServer.IsFileHandler
  by_cases h1 : srv._basedir = []
  · simp [h1]
  · have e1 : srv._basedir.isEmpty = false := by
      cases hb : srv._basedir with
      | nil => exact absurd hb h1
      | cons a l => rfl
    rw [e1]
    simp only [Bool.false_eq_true, if_false]
    by_cases h2 : req._method ≠ bytes "GET" ∧ req._method ≠ bytes "HEAD"
    · rw [if_pos h2]
    · rw [if_neg h2]
      rcases h with h | h | h
      · exact absurd h h1
      · exact absurd h h2
      · rw [if_pos h]

theorem isFileHandler_events (srv : HttpServer) (env : Env) (req : HttpRequest) (b : Bool)
    (ev : List Event) (h : srv.IsFileHandler env req = .ok (b, ev)) :
    (b = false ∧ ev = []) ∨
      ∃ p, srv.req_path req = .ok p ∧ ev = [Event.IsRegular p] ∧ b = env.IsRegular p := by
  unfold HttpServer.IsFileHandler at h
  by_cases h1 : srv._basedir.isEmpty = true
  · rw [if_pos h1] at h
    injection h with h
    injection h with hb hev
    exact Or.inl ⟨hb.symm, hev.symm⟩
  · rw [if_neg h1] at h
    by_cases h2 : req._method ≠ bytes "GET" ∧ req._method ≠ bytes "HEAD"
    · rw [if_pos h2] at h
      injection h with h
      injection h with hb hev
      exact Or.inl ⟨hb.symm, hev.symm⟩
    · rw [if_neg h2] at h
      by_cases h3 : Util.ValidPath req._path = false
      · rw [if_pos h3] at h
        injection h with h
        injection h with hb hev
        exact Or.inl ⟨hb.symm, hev.symm⟩
      · rw [if_neg h3] at h
        cases hp : srv.req_path req with
        | error e => simp [hp, bind, Except.bind] at h
        | ok p =>
          right
          refine ⟨p, rfl, ?_⟩
          by_cases hr : env.IsRegular p = false
          · simp [hp, bind, Except.bind, hr, pure, Except.pure] at h
            simp [h, hr]
          · simp [hp, bind, Except.bind, hr, pure, Except.pure] at h
            simp at hr
            simp [h, hr]

theorem route_not_file (srv : HttpServer) (env : Env) (req : HttpRequest) (rsp : HttpResponse)
    (ev : List Event) (h : srv.IsFileHandler env req = .ok (false, ev)) :
    srv.Route env req rsp = .ok (match srv.routeTable req._method with
      | some handlers => afterEvents ev (HttpServer.Dispatcher req rsp handlers)
      | none => (req, { rsp with _statu := 405 }, ev)) := by
  unfold HttpServer.Route HttpServer.routeTable
  simp only [h, bind, Except.bind, Bool.false_eq_true, if_false, pure, Except.pure]
  by_cases g : req._method = bytes "GET" ∨ req._method = bytes "HEAD"
  · simp only [if_pos g]; rfl
  · simp only [if_neg g]
    by_cases p : req._method = bytes "POST"
    · simp only [if_pos p]; rfl
    · simp only [if_neg p]
      by_cases u : req._method = bytes "PUT"
      · simp only [if_pos u]; rfl
      · simp only [if_neg u]
        by_cases d : req._method = bytes "DELETE"
        · simp only [if_pos d]; rfl
        · simp only [if_neg d]

theorem route_file (srv : HttpServer) (env : Env) (req : HttpRequest) (rsp : HttpResponse)
    (ev : List Event) (h : srv.IsFileHandler env req = .ok (true, ev)) :
    ∃ p, srv.req_path req = .ok p ∧ env.IsRegular p = true ∧
      srv.Route env req rsp = .ok (req,
        (if (env.ReadFile p rsp._body).1 = false
          then { rsp with _body := (env.ReadFile p rsp._body).2 }
          else ({ rsp with _body := (env.ReadFile p rsp._body).2 }).SetHeader
            (bytes "Content-Type") (Util.ExtMime env._mime_msg p)),
        [Event.IsRegular p, Event.ReadFile p]) := by
  rcases isFileHandler_events srv env req true ev h with ⟨hb, _⟩ | ⟨p, hp, hev, hb⟩
  · exact absurd hb (by decide)
  · refine ⟨p, hp, hb.symm, ?_⟩
    unfold HttpServer.Route HttpServer.FileHandler
    simp only [h, hp, bind, Except.bind, if_true, pure, Except.pure, hev]
    by_cases hr : (env.ReadFile p rsp._body).1 = false
    · simp [hr]
    · simp [hr]

/-! ## Lemmas on the headers of a response -/

theorem find_insert_ne (m : StrMap) (k v k2 : Str) (h : k2 ≠ k) :
    (m.insert k v).find k2 = m.find k2 := by
  rw [strMap_insert_find, if_neg h]
  cases m.find k2 <;> rfl

theorem find_insert_self (m : StrMap) (k v : Str) :
    (m.insert k v).find k = some ((m.find k).getD v) := by
  rw [strMap_insert_find, if_pos rfl]
  cases m.find k <;> rfl

theorem find_none_iff (m : StrMap) (k : Str) : m.find k = none ↔ k ∉ m.map Prod.fst := by
  induction m with
  | nil => simp [StrMap.find]
  | cons a t ih =>
    obtain ⟨a1, a2⟩ := a
    simp only [StrMap.find] at ih
    by_cases e : k = a1
    · subst e; simp [StrMap.find, List.lookup_cons]
    · have e2 : (k == a1) = false := by simpa using e
      simp only [StrMap.find, List.lookup_cons, e2, List.map_cons, List.mem_cons, e, false_or]
      exact ih

theorem unique_insert (m : StrMap) (k v : Str) (h : m.Unique) : (m.insert k v).Unique := by
  unfold StrMap.insert
  cases hk : List.lookup k m with
  | some x => exact h
  | none =>
    have hn : k ∉ m.map Prod.fst := (find_none_iff m k).1 hk
    simp only [StrMap.Unique, List.map_append, List.map_cons, List.map_nil]
    rw [List.nodup_append]
    refine ⟨h, by simp, ?_⟩
    intro a ha hb
    simp at hb
    subst hb
    exact hn ha

theorem entries_of_find (m : StrMap) (k v : Str) (hu : m.Unique) (h : m.find k = some v) :
    m.entries k = [(k, v)] := by
  induction m with
  | nil => simp [StrMap.find] at h
  | cons a t ih =>
    obtain ⟨a1, a2⟩ := a
    simp only [StrMap.Unique, List.map_cons, List.nodup_cons] at hu
    obtain ⟨hu1, hu2⟩ := hu
    by_cases e : k = a1
    · subst e
      have hv : a2 = v := by simpa [StrMap.find, List.lookup_cons] using h
      subst hv
      have hnil : List.filter (fun h => decide (h.1 = k)) t = [] := by
        rw [List.filter_eq_nil_iff]
        intro x hx hk
        apply hu1
        have : x.1 = k := by simpa using hk
        rw [← this]
        exact List.mem_map_of_mem _ hx
      simp [StrMap.entries, List.filter_cons, hnil]
    · have e2 : (k == a1) = false := by simpa using e
      have e3 : ¬ a1 = k := fun x => e x.symm
      have ht : StrMap.find t k = some v := by
        simpa [StrMap.find, List.lookup_cons, e2] using h
      have := ih hu2 ht
      simp only [StrMap.entries] at this
      simp [StrMap.entries, List.filter_cons, e3, this]

theorem decimalDigits_spec : ∀ (fuel n : Nat), n < fuel → IsDecimal (decimalDigits fuel n) n := by
  intro fuel
  induction fuel with
  | zero => intro n h; omega
  | succ fuel ih =>
    intro n h
    unfold decimalDigits
    by_cases h10 : n < 10
    · rw [if_pos h10]
      have hv : (Fin.ofNat (48 + n) : Byte).val = 48 + n := by
        simp only [Fin.ofNat, Nat.succ_eq_add_one]; omega
      refine ⟨by simp, ?_, ?_⟩
      · intro d hd
        simp only [List.mem_singleton] at hd
        subst hd
        rw [hv]; omega
      · simp [hv]
    · rw [if_neg h10]
      have hlt : n / 10 < fuel := by omega
      obtain ⟨_, hd, hval⟩ := ih (n / 10) hlt
      have hv : (Fin.ofNat (48 + n % 10) : Byte).val = 48 + n % 10 := by
        simp only [Fin.ofNat, Nat.succ_eq_add_one]; omega
      refine ⟨by simp, ?_, ?_⟩
      · intro d hd0
        rcases List.mem_append.1 hd0 with hd1 | hd1
        · exact hd d hd1
        · simp only [List.mem_singleton] at hd1
          subst hd1
          rw [hv]; omega
      · simp only [List.map_append, List.map_cons, List.map_nil, List.reverse_append,
          List.reverse_cons, List.reverse_nil, List.nil_append, List.singleton_append,
          Nat.ofDigits_cons, hv, hval]
        omega

theorem to_string_unsigned_spec (n : Nat) : IsDecimal (to_string_unsigned n) n :=
  decimalDigits_spec (n + 1) n (Nat.lt_succ_self n)

theorem header_names_ne :
    bytes "Connection" ≠ bytes "Content-Length" ∧ bytes "Connection" ≠ bytes "Content-Type" ∧
    bytes "Connection" ≠ bytes "Location" ∧ bytes "Content-Length" ≠ bytes "Content-Type" ∧
    bytes "Content-Length" ≠ bytes "Location" ∧ bytes "Content-Type" ≠ bytes "Location" := by
  decide

theorem option_getD_of_ne_none (o : Option Str) (x : Str) (h : ¬ o = none) :
    o = some (o.getD x) := by
  cases o with
  | none => exact absurd rfl h
  | some v => rfl

theorem entries_iterate (env : Env) (m : StrMap) (k v : Str) (hu : m.Unique)
    (h : m.find k = some v) : (env.iterate m).val.entries k = [(k, v)] := by
  have hp : ((env.iterate m).val.entries k).Perm (m.entries k) :=
    List.Perm.filter _ (env.iterate m).property
  rw [entries_of_find m k v hu h] at hp
  exact List.perm_singleton.1 hp

theorem writeReponse_out (env : Env) (req : HttpRequest) (rsp : HttpResponse) :
    (HttpServer.WriteReponse env req rsp).2 =
      serialized req._version rsp._statu (Util.StatuDesc env._statu_msg rsp._statu)
        (env.iterate (HttpServer.WriteReponse env req rsp).1._headers).val rsp._body := by
  unfold HttpServer.WriteReponse
  simp only [HttpResponse.SetHeader, HttpResponse.HasHeader, serialized]
  split_ifs <;> rfl

theorem writeReponse_unique (env : Env) (req : HttpRequest) (rsp : HttpResponse)
    (hu : rsp._headers.Unique) : (HttpServer.WriteReponse env req rsp).1._headers.Unique := by
  unfold HttpServer.WriteReponse
  simp only [HttpResponse.SetHeader, HttpResponse.HasHeader]
  split_ifs <;> simp only [] <;> repeat (first | exact hu | apply unique_insert)

theorem writeReponse_connection (env : Env) (req : HttpRequest) (rsp : HttpResponse) :
    (HttpServer.WriteReponse env req rsp).1._headers.find (bytes "Connection") =
      some (headerOr rsp._headers (bytes "Connection")
        (if req.Close = true then bytes "close" else bytes "keep-alive")) := by
  obtain ⟨n1, n2, n3, _, _, _⟩ := header_names_ne
  unfold HttpServer.WriteReponse
  simp only [HttpResponse.SetHeader, HttpResponse.HasHeader, headerOr]
  split_ifs <;> simp [find_insert_ne, find_insert_self, n1, n2, n3]

theorem writeReponse_content_length (env : Env) (req : HttpRequest) (rsp : HttpResponse)
    (hb : rsp._body ≠ []) :
    (HttpServer.WriteReponse env req rsp).1._headers.find (bytes "Content-Length") =
      some (headerOr rsp._headers (bytes "Content-Length")
        (to_string_unsigned rsp._body.length)) := by
  obtain ⟨n1, n2, n3, n4, n5, n6⟩ := header_names_ne
  have hbe : rsp._body.isEmpty = false := by
    cases h : rsp._body with
    | nil => exact absurd h hb
    | cons a l => rfl
  unfold HttpServer.WriteReponse
  simp only [HttpResponse.SetHeader, HttpResponse.HasHeader, headerOr, hbe]
  split_ifs <;>
    simp_all [find_insert_ne, find_insert_self, n1, n2, n3, n4, n5, n6, Ne.symm n1, Ne.symm n2,
      Ne.symm n3, Ne.symm n4, Ne.symm n5, Ne.symm n6] <;>
    exact option_getD_of_ne_none _ _ (by assumption)

theorem writeReponse_content_type (env : Env) (req : HttpRequest) (rsp : HttpResponse)
    (hb : rsp._body ≠ []) :
    (HttpServer.WriteReponse env req rsp).1._headers.find (bytes "Content-Type") =
      some (headerOr rsp._headers (bytes "Content-Type")
        (bytes "application/octet-stream")) := by
  obtain ⟨n1, n2, n3, n4, n5, n6⟩ := header_names_ne
  have hbe : rsp._body.isEmpty = false := by
    cases h : rsp._body with
    | nil => exact absurd h hb
    | cons a l => rfl
  unfold HttpServer.WriteReponse
  simp only [HttpResponse.SetHeader, HttpResponse.HasHeader, headerOr, hbe]
  split_ifs <;>
    simp_all [find_insert_ne, find_insert_self, n1, n2, n3, n4, n5, n6, Ne.symm n1, Ne.symm n2,
      Ne.symm n3, Ne.symm n4, Ne.symm n5, Ne.symm n6] <;>
    exact option_getD_of_ne_none _ _ (by assumption)

theorem writeReponse_location (env : Env) (req : HttpRequest) (rsp : HttpResponse)
    (hf : rsp._redirect_flag = true) :
    (HttpServer.WriteReponse env req rsp).1._headers.find (bytes "Location") =
      some (headerOr rsp._headers (bytes "Location") rsp._redirect_url) := by
  obtain ⟨n1, n2, n3, n4, n5, n6⟩ := header_names_ne
  unfold HttpServer.WriteReponse
  simp only [HttpResponse.SetHeader, HttpResponse.HasHeader, headerOr, hf]
  split_ifs <;>
    simp_all [find_insert_ne, find_insert_self, n1, n2, n3, n4, n5, n6, Ne.symm n1, Ne.symm n2,
      Ne.symm n3, Ne.symm n4, Ne.symm n5, Ne.symm n6]

theorem request_close_iff (req : HttpRequest) :
    (if req.Close = true then bytes "close" else bytes "keep-alive") =
      (if req._headers.find (bytes "Connection") = some (bytes "keep-alive")
        then bytes "keep-alive" else bytes "close") := by
  unfold HttpRequest.Close HttpRequest.HasHeader HttpRequest.GetHeader
  cases h : req._headers.find (bytes "Connection") with
  | none => simp
  | some v =>
    by_cases e : v = bytes "keep-alive"
    · simp [e]
    · simp [e]

theorem find_insert_of_some (m : StrMap) (k v k2 x : Str) (h : m.find k2 = some x) :
    (m.insert k v).find k2 = some x := by
  rw [strMap_insert_find, h]
  rfl

theorem writeReponse_find_kept (env : Env) (req : HttpRequest) (rsp : HttpResponse) (k x : Str)
    (h : rsp._headers.find k = some x) :
    (HttpServer.WriteReponse env req rsp).1._headers.find k = some x := by
  unfold HttpServer.WriteReponse
  simp only [HttpResponse.SetHeader, HttpResponse.HasHeader]
  split_ifs <;> simp only [] <;> repeat (first | exact h | apply find_insert_of_some)

theorem errorHandler_headers (env : Env) (req : HttpRequest) (statu : Int) :
    (HttpServer.ErrorHandler env req (HttpResponse.new statu))._headers =
      [(bytes "Content-Type", bytes "text/html")] := rfl

theorem errorHandler_statu (env : Env) (req : HttpRequest) (rsp : HttpResponse) :
    (HttpServer.ErrorHandler env req rsp)._statu = rsp._statu := rfl

/-! ## Lemmas on `OnMessage` -/

theorem Buffer.advance_all (b : Buffer) : (b.advance b.ReadAbleSize).ReadAbleSize = 0 := by
  simp only [Buffer.advance, Buffer.ReadAbleSize]
  omega

theorem Buffer.received_size (s : Str) : (Buffer.received s).ReadAbleSize = s.length := by
  obtain ⟨w, r⟩ := Buffer.received_spec s
  have := Buffer.readable_length _ w
  rw [r] at this
  simp only [Buffer.ReadAbleSize]
  omega

theorem onMessageLoop_error (srv : HttpServer) (env : Env) (fuel : Nat)
    (context c : HttpContext) (buffer b : Buffer) (hr : 0 < buffer.ReadAbleSize)
    (h : context.RecvHttpRequest buffer = .ok (c, b)) (h400 : c._resp_statu ≥ 400) :
    srv.OnMessageLoop env (fuel + 1) context buffer =
      .ok (c.ReSet, b.advance b.ReadAbleSize,
        [Event.Send (HttpServer.WriteReponse env c._request
          (HttpServer.ErrorHandler env c._request (HttpResponse.new c._resp_statu))).2,
         Event.Shutdown]) := by
  have hmv := Buffer.moveReadOffset_eq b b.ReadAbleSize (Nat.le_refl _)
  have h0 := Buffer.advance_all b
  have hn : ¬ (b.advance b.ReadAbleSize).ReadAbleSize > 0 := by omega
  unfold HttpServer.OnMessageLoop
  simp only [gt_iff_lt, hr, if_true, h, bind, Except.bind, h400, hmv]
  simp only [gt_iff_lt] at hn
  simp [hn, pure, Except.pure]

theorem onMessage_error (srv : HttpServer) (env : Env) (context c : HttpContext)
    (buffer b : Buffer) (hr : 0 < buffer.ReadAbleSize)
    (h : context.RecvHttpRequest buffer = .ok (c, b)) (h400 : c._resp_statu ≥ 400) :
    srv.OnMessage env context buffer =
      .ok (c.ReSet, b.advance b.ReadAbleSize,
        [Event.Send (HttpServer.WriteReponse env c._request
          (HttpServer.ErrorHandler env c._request (HttpResponse.new c._resp_statu))).2,
         Event.Shutdown]) :=
  onMessageLoop_error srv env (buffer.ReadAbleSize + 1) context c buffer b hr h h400

/-! ## Lemmas on `Channel`, `LoopThreadPool` and the task queue -/

theorem and_flag_ne_zero (m k : Nat) : m &&& 2 ^ k ≠ 0 ↔ m.testBit k = true := by
  rw [Nat.and_two_pow]
  cases h : m.testBit k
  · simp
  · simp [Nat.pos_iff_ne_zero.1 (Nat.two_pow_pos k)]

theorem epoll_flags (m : Nat) :
    (m &&& EPOLLIN ≠ 0 ↔ Fired.Readable m = true) ∧
    (m &&& EPOLLPRI ≠ 0 ↔ Fired.Priority m = true) ∧
    (m &&& EPOLLOUT ≠ 0 ↔ Fired.Writable m = true) ∧
    (m &&& EPOLLERR ≠ 0 ↔ Fired.Error m = true) ∧
    (m &&& EPOLLHUP ≠ 0 ↔ Fired.Hangup m = true) ∧
    (m &&& EPOLLRDHUP ≠ 0 ↔ Fired.PeerHalfClose m = true) :=
  ⟨and_flag_ne_zero m 0, and_flag_ne_zero m 1, and_flag_ne_zero m 2, and_flag_ne_zero m 3,
    and_flag_ne_zero m 4, and_flag_ne_zero m 13⟩

theorem foldl_queueInLoop (cbs : List Nat) : ∀ l : EventLoop,
    (cbs.foldl EventLoop.QueueInLoop l)._tasks = l._tasks ++ cbs := by
  induction cbs with
  | nil => intro l; simp
  | cons cb cbs ih => intro l; simp [ih, EventLoop.QueueInLoop]

theorem runFunctors_spec (queued : Nat → List Nat) (functor : List Nat) : ∀ l : EventLoop,
    EventLoop.runFunctors queued l functor =
      ({ _tasks := l._tasks ++ (functor.map queued).flatten }, functor) := by
  induction functor with
  | nil => intro l; simp [EventLoop.runFunctors]
  | cons f fs ih =>
    intro l
    simp only [EventLoop.runFunctors, ih, foldl_queueInLoop, List.map_cons, List.flatten_cons,
      List.append_assoc]

theorem nextLoop_created (p : LoopThreadPool) (N : Nat) (hN : 0 < N) (hmax : N ≤ 2 ^ 31 - 1)
    (h : p.Created N) :
    p.NextLoop = .ok ({ p with _next_idx := (((p._next_idx.toNat + 1) % N : Nat) : Int) },
      p._loops.getD ((p._next_idx.toNat + 1) % N) 0) := by
  obtain ⟨h1, h2, h3, h4⟩ := h
  obtain ⟨i, hi⟩ := Int.eq_ofNat_of_zero_le h3
  have hiN : i < N := by rw [hi] at h4; exact_mod_cast h4
  have hne : ¬ p._thread_count = 0 := by rw [h1]; exact_mod_cast (Nat.pos_iff_ne_zero.1 hN)
  have hov : ¬ p._next_idx + 1 > 2 ^ 31 - 1 := by
    rw [hi]
    omega
  have htm : Int.tmod (p._next_idx + 1) p._thread_count = (((i + 1) % N : Nat) : Int) := by
    rw [hi, h1, Int.tmod_eq_emod (by positivity) (by positivity)]
    norm_cast
  have hlt : (i + 1) % N < p._loops.length := by rw [h2]; exact Nat.mod_lt _ hN
  unfold LoopThreadPool.NextLoop
  rw [if_neg hne, if_neg hov]
  simp only [htm]
  have hnn : ¬ (((i + 1) % N : Nat) : Int) < 0 := by omega
  rw [if_neg hnn]
  simp only [Int.toNat_ofNat, hi]
  rw [List.getElem?_eq_getElem hlt]
  simp [List.getD_eq_getElem?_getD, List.getElem?_eq_getElem hlt]

theorem nextLoop_created_inv (p : LoopThreadPool) (N : Nat) (hN : 0 < N) (h : p.Created N) :
    ({ p with _next_idx := (((p._next_idx.toNat + 1) % N : Nat) : Int) } :
      LoopThreadPool).Created N := by
  obtain ⟨h1, h2, _, _⟩ := h
  refine ⟨h1, h2, by simp only; omega, ?_⟩
  have := Nat.mod_lt (p._next_idx.toNat + 1) hN
  simp only
  exact_mod_cast this

theorem nextLoops_created (N : Nat) (hN : 0 < N) (hmax : N ≤ 2 ^ 31 - 1) : ∀ (k : Nat)
    (p : LoopThreadPool), p.Created N →
    ∃ p2, p.nextLoops k = .ok (p2,
        (List.range k).map (fun j => p._loops.getD ((p._next_idx.toNat + 1 + j) % N) 0)) ∧
      p2.Created N ∧ p2._loops = p._loops ∧ p2._baseloop = p._baseloop ∧
      p2._next_idx.toNat = (p._next_idx.toNat + k) % N := by
  intro k
  induction k with
  | zero =>
    intro p h
    obtain ⟨_, _, h3, h4⟩ := h
    refine ⟨p, rfl, ⟨by assumption, by assumption, h3, h4⟩, rfl, rfl, ?_⟩
    have : p._next_idx.toNat < N := by omega
    simp [Nat.mod_eq_of_lt this]
  | succ k ih =>
    intro p h
    have h1 := nextLoop_created p N hN hmax h
    have h2 := nextLoop_created_inv p N hN h
    obtain ⟨p2, e, c2, l2, b2, i2⟩ := ih _ h2
    refine ⟨p2, ?_, c2, l2, b2, ?_⟩
    · simp only [LoopThreadPool.nextLoops, h1, e, bind, Except.bind, pure, Except.pure]
      rw [List.range_succ_eq_map]
      simp only [List.map_cons, List.map_map, Int.toNat_ofNat, Nat.add_zero]
      congr 3
      apply List.map_congr_left
      intro j _
      simp only [Function.comp]
      congr 1
      rw [Nat.add_assoc, Nat.mod_add_mod]
      congr 1
      omega
    · rw [i2]
      simp only [Int.toNat_ofNat]
      rw [Nat.mod_add_mod]
      congr 1
      omega

theorem rotation_eq (loops : List Nat) (i : Nat) :
    (List.range loops.length).map (fun j => loops.getD ((i + 1 + j) % loops.length) 0) =
      loops.rotate (i + 1) := by
  apply List.ext_getElem
  · simp
  · intro j h1 h2
    simp only [List.length_map, List.length_range] at h1
    have hpos : 0 < loops.length := by omega
    have hlt : (i + 1 + j) % loops.length < loops.length := Nat.mod_lt _ hpos
    rw [List.getElem_rotate]
    simp only [List.getElem_map, List.getElem_range]
    rw [List.getD_eq_getElem?_getD, List.getElem?_eq_getElem hlt]
    simp only [Option.getD_some]
    congr 1
    rw [Nat.add_comm]

/-! ## The parse state never moves backwards -/

theorem parseQuery_state (comps : List Str) : ∀ c : HttpContext,
    (HttpContext.ParseQuery c comps).2._recv_statu = c._recv_statu ∨
      (HttpContext.ParseQuery c comps).2._recv_statu = RECV_HTTP_ERROR := by
  induction comps with
  | nil => intro c; simp [HttpContext.ParseQuery]
  | cons str rest ih =>
    intro c
    unfold HttpContext.ParseQuery
    cases h : strFind str [61] 0 with
    | none => simp [HttpContext.fail]
    | some pos => simpa using ih _

theorem parseHttpLine_state (c : HttpContext) (line : Str) :
    (c.ParseHttpLine line).2._recv_statu = c._recv_statu ∨
      (c.ParseHttpLine line).2._recv_statu = RECV_HTTP_ERROR := by
  unfold HttpContext.ParseHttpLine
  cases h : regex_match line requestLineRegex with
  | none => simp [HttpContext.fail]
  | some m => simpa using parseQuery_state _ _

theorem parseHttpHead_state (c : HttpContext) (line : Str) :
    (c.ParseHttpHead line).2._recv_statu = c._recv_statu ∨
      (c.ParseHttpHead line).2._recv_statu = RECV_HTTP_ERROR := by
  unfold HttpContext.ParseHttpHead
  simp only []
  split <;> simp [HttpContext.fail]

theorem recvHttpLine_state (c c2 : HttpContext) (buf buf2 : Buffer) (ret : Bool)
    (h : c.RecvHttpLine buf = .ok (ret, c2, buf2)) :
    (c._recv_statu ≠ RECV_HTTP_LINE → c2 = c ∧ buf2 = buf) ∧
    (c2._recv_statu = c._recv_statu ∨ c2._recv_statu = RECV_HTTP_ERROR ∨
      (c._recv_statu = RECV_HTTP_LINE ∧ c2._recv_statu = RECV_HTTP_HEAD)) := by
  unfold HttpContext.RecvHttpLine at h
  by_cases hs : c._recv_statu ≠ RECV_HTTP_LINE
  · rw [if_pos hs] at h
    injection h with h
    injection h with h1 h2
    injection h2 with h2 h3
    subst h2 h3
    exact ⟨fun _ => ⟨rfl, rfl⟩, Or.inl rfl⟩
  · rw [if_neg hs] at h
    have hs2 : c._recv_statu = RECV_HTTP_LINE := by simpa using hs
    refine ⟨fun x => absurd x hs, ?_⟩
    cases hg : buf.GetLineAndPop with
    | error e => simp [hg, bind, Except.bind] at h
    | ok r =>
      obtain ⟨line, b1⟩ := r
      simp only [hg, bind, Except.bind, pure, Except.pure] at h
      by_cases h0 : line.length = 0
      · rw [if_pos h0] at h
        by_cases h1 : b1.ReadAbleSize > MAX_LINE
        · rw [if_pos h1] at h
          injection h with h
          injection h with _ h2
          injection h2 with h2 _
          subst h2
          exact Or.inr (Or.inl rfl)
        · rw [if_neg h1] at h
          injection h with h
          injection h with _ h2
          injection h2 with h2 _
          subst h2
          exact Or.inl rfl
      · rw [if_neg h0] at h
        by_cases h1 : line.length > MAX_LINE
        · rw [if_pos h1] at h
          injection h with h
          injection h with _ h2
          injection h2 with h2 _
          subst h2
          exact Or.inr (Or.inl rfl)
        · rw [if_neg h1] at h
          by_cases h2 : (c.ParseHttpLine line).1 = false
          · simp only [h2, if_true] at h
            injection h with h
            injection h with _ h3
            injection h3 with h3 _
            subst h3
            rcases parseHttpLine_state c line with e | e
            · exact Or.inl e
            · exact Or.inr (Or.inl e)
          · simp only [h2, if_false] at h
            injection h with h
            injection h with _ h3
            injection h3 with h3 _
            subst h3
            exact Or.inr (Or.inr ⟨hs2, rfl⟩)

theorem headLoop_state : ∀ (fuel : Nat) (c c2 : HttpContext) (buf buf2 : Buffer) (ret : Bool),
    HttpContext.RecvHttpHeadLoop fuel c buf = .ok (ret, c2, buf2) →
    c2._recv_statu = c._recv_statu ∨ c2._recv_statu = RECV_HTTP_ERROR ∨
      c2._recv_statu = RECV_HTTP_BODY := by
  intro fuel
  induction fuel with
  | zero =>
    intro c c2 buf buf2 ret h
    simp only [HttpContext.RecvHttpHeadLoop] at h
    injection h with h
    injection h with _ h2
    injection h2 with h2 _
    subst h2
    exact Or.inl rfl
  | succ fuel ih =>
    intro c c2 buf buf2 ret h
    unfold HttpContext.RecvHttpHeadLoop at h
    cases hg : buf.GetLineAndPop with
    | error e => simp [hg, bind, Except.bind] at h
    | ok r =>
      obtain ⟨line, b1⟩ := r
      simp only [hg, bind, Except.bind, pure, Except.pure] at h
      by_cases h0 : line.length = 0
      · rw [if_pos h0] at h
        by_cases h1 : b1.ReadAbleSize > MAX_LINE
        · rw [if_pos h1] at h
          injection h with h
          injection h with _ h2
          injection h2 with h2 _
          subst h2
          exact Or.inr (Or.inl rfl)
        · rw [if_neg h1] at h
          injection h with h
          injection h with _ h2
          injection h2 with h2 _
          subst h2
          exact Or.inl rfl
      · rw [if_neg h0] at h
        by_cases h1 : line.length > MAX_LINE
        · rw [if_pos h1] at h
          injection h with h
          injection h with _ h2
          injection h2 with h2 _
          subst h2
          exact Or.inr (Or.inl rfl)
        · rw [if_neg h1] at h
          by_cases hb : line = [10] ∨ line = [13, 10]
          · rw [if_pos hb] at h
            injection h with h
            injection h with _ h2
            injection h2 with h2 _
            subst h2
            exact Or.inr (Or.inr rfl)
          · rw [if_neg hb] at h
            by_cases h2 : (c.ParseHttpHead line).1 = false
            · simp only [h2, if_true] at h
              injection h with h
              injection h with _ h3
              injection h3 with h3 _
              subst h3
              rcases parseHttpHead_state c line with e | e
              · exact Or.inl e
              · exact Or.inr (Or.inl e)
            · simp only [h2, if_false] at h
              rcases ih _ _ _ _ _ h with e | e | e
              · rcases parseHttpHead_state c line with e2 | e2
                · exact Or.inl (e.trans e2)
                · exact Or.inr (Or.inl (e.trans e2))
              · exact Or.inr (Or.inl e)
              · exact Or.inr (Or.inr e)

theorem recvHttpHead_state (c c2 : HttpContext) (buf buf2 : Buffer) (ret : Bool)
    (h : c.RecvHttpHead buf = .ok (ret, c2, buf2)) :
    (c._recv_statu ≠ RECV_HTTP_HEAD → c2 = c ∧ buf2 = buf) ∧
    (c2._recv_statu = c._recv_statu ∨ c2._recv_statu = RECV_HTTP_ERROR ∨
      (c._recv_statu = RECV_HTTP_HEAD ∧ c2._recv_statu = RECV_HTTP_BODY)) := by
  unfold HttpContext.RecvHttpHead at h
  by_cases hs : c._recv_statu ≠ RECV_HTTP_HEAD
  · rw [if_pos hs] at h
    injection h with h
    injection h with h1 h2
    injection h2 with h2 h3
    subst h2 h3
    exact ⟨fun _ => ⟨rfl, rfl⟩, Or.inl rfl⟩
  · rw [if_neg hs] at h
    have hs2 : c._recv_statu = RECV_HTTP_HEAD := by simpa using hs
    refine ⟨fun x => absurd x hs, ?_⟩
    rcases headLoop_state _ _ _ _ _ _ h with e | e | e
    · exact Or.inl e
    · exact Or.inr (Or.inl e)
    · exact Or.inr (Or.inr ⟨hs2, e⟩)

theorem recvHttpBody_state (c c2 : HttpContext) (buf buf2 : Buffer) (ret : Bool)
    (h : c.RecvHttpBody buf = .ok (ret, c2, buf2)) :
    (c._recv_statu ≠ RECV_HTTP_BODY → c2 = c ∧ buf2 = buf) ∧
    (c2._recv_statu = c._recv_statu ∨
      (c._recv_statu = RECV_HTTP_BODY ∧ c2._recv_statu = RECV_HTTP_OVER)) := by
  unfold HttpContext.RecvHttpBody at h
  by_cases hs : c._recv_statu ≠ RECV_HTTP_BODY
  · rw [if_pos hs] at h
    injection h with h
    injection h with h1 h2
    injection h2 with h2 h3
    subst h2 h3
    exact ⟨fun _ => ⟨rfl, rfl⟩, Or.inl rfl⟩
  · rw [if_neg hs] at h
    have hs2 : c._recv_statu = RECV_HTTP_BODY := by simpa using hs
    refine ⟨fun x => absurd x hs, ?_⟩
    cases hcl : c._request.ContentLength with
    | error e => simp [hcl, bind, Except.bind] at h
    | ok n =>
      simp only [hcl, bind, Except.bind, pure, Except.pure] at h
      by_cases h0 : n = 0
      · rw [if_pos h0] at h
        injection h with h
        injection h with _ h2
        injection h2 with h2 _
        subst h2
        exact Or.inr ⟨hs2, rfl⟩
      · rw [if_neg h0] at h
        split at h
        · split at h
          · cases h
          · injection h with h
            injection h with _ h2
            injection h2 with h2 _
            subst h2
            exact Or.inr ⟨hs2, rfl⟩
        · split at h
          · cases h
          · injection h with h
            injection h with _ h2
            injection h2 with h2 _
            subst h2
            exact Or.inl rfl

theorem recvHttpRequest_state (c c2 : HttpContext) (buf buf2 : Buffer)
    (h : c.RecvHttpRequest buf = .ok (c2, buf2)) :
    c2._recv_statu = RECV_HTTP_ERROR ∨
      c._recv_statu.chainPos ≤ c2._recv_statu.chainPos := by
  unfold HttpContext.RecvHttpRequest at h
  cases hs : c._recv_statu with
  | RECV_HTTP_ERROR => exact Or.inr (Nat.zero_le _)
  | RECV_HTTP_OVER =>
    simp only [hs, pure, Except.pure] at h
    injection h with h
    injection h with h1 _
    subst h1
    rw [hs]; exact Or.inr (Nat.le_refl _)
  | RECV_HTTP_LINE => exact Or.inr (Nat.zero_le _)
  | RECV_HTTP_HEAD =>
    simp only [hs, bind, Except.bind, pure, Except.pure] at h
    cases h1 : c.RecvHttpHead buf with
    | error e => simp [h1] at h
    | ok r1 =>
      obtain ⟨ret1, c1, b1⟩ := r1
      simp only [h1] at h
      cases h2 : c1.RecvHttpBody b1 with
      | error e => simp [h2] at h
      | ok r2 =>
        obtain ⟨ret2, c3, b3⟩ := r2
        simp only [h2] at h
        injection h with h
        injection h with h3 _
        subst h3
        obtain ⟨_, a1⟩ := recvHttpHead_state _ _ _ _ _ h1
        obtain ⟨_, a2⟩ := recvHttpBody_state _ _ _ _ _ h2
        rw [hs] at a1
        rcases a2 with a2 | ⟨a2, a3⟩
        · rw [a2]
          rcases a1 with a1 | a1 | ⟨_, a1⟩
          · rw [a1]; exact Or.inr (Nat.le_refl _)
          · exact Or.inl a1
          · rw [a1]; exact Or.inr (by decide)
        · rw [a3]; exact Or.inr (by decide)
  | RECV_HTTP_BODY =>
    simp only [hs, bind, Except.bind, pure, Except.pure] at h
    cases h2 : c.RecvHttpBody buf with
    | error e => simp [h2] at h
    | ok r2 =>
      obtain ⟨ret2, c3, b3⟩ := r2
      simp only [h2] at h
      injection h with h
      injection h with h3 _
      subst h3
      obtain ⟨_, a2⟩ := recvHttpBody_state _ _ _ _ _ h2
      rw [hs] at a2
      rcases a2 with a2 | ⟨_, a3⟩
      · rw [a2]; exact Or.inr (Nat.le_refl _)
      · rw [a3]; exact Or.inr (by decide)

/-! ## Lemmas on `TimerWheel` -/

theorem getD_set_slot (l : List (List Nat)) (i j : Nat) (a : List Nat) :
    (l.set i a).getD j [] = if i = j ∧ i < l.length then a else l.getD j [] := by
  simp only [List.getD_eq_getElem?_getD, List.getElem?_set]
  by_cases h : i = j
  · subst h
    by_cases h2 : i < l.length
    · simp [h2]
    · simp [h2, List.getElem?_eq_none (Nat.le_of_not_lt h2)]
  · simp [h]

theorem TimerWheel.expired_false_iff (w : TimerWheel) (pt : Nat) :
    w.expired pt = false ↔ ∃ q, pt ∈ w._wheel.getD q [] := by
  unfold TimerWheel.expired
  rw [Bool.eq_false_iff, Ne, List.all_eq_true]
  constructor
  · intro h
    by_contra hc
    apply h
    intro slot hs
    obtain ⟨q, hq, rfl⟩ := List.mem_iff_getElem.1 hs
    simp only [decide_eq_true_eq]
    intro hm
    apply hc
    refine ⟨q, ?_⟩
    rw [List.getD_eq_getElem?_getD, List.getElem?_eq_getElem hq]
    exact hm
  · rintro ⟨q, hq⟩ h
    by_cases hlt : q < w._wheel.length
    · rw [List.getD_eq_getElem?_getD, List.getElem?_eq_getElem hlt] at hq
      have := h _ (List.getElem_mem hlt)
      simp only [Option.getD_some] at hq
      simp [hq] at this
    · rw [List.getD_eq_getElem?_getD, List.getElem?_eq_none (Nat.le_of_not_lt hlt)] at hq
      simp at hq

theorem TimerWheel.release_fields (slot : List Nat) : ∀ w : TimerWheel,
    (w.release slot).1._tick = w._tick ∧ (w.release slot).1._capacity = w._capacity ∧
    (w.release slot).1._wheel = w._wheel ∧ (w.release slot).1.heap = w.heap := by
  induction slot with
  | nil => intro w; simp [TimerWheel.release]
  | cons pt rest ih =>
    intro w
    unfold TimerWheel.release
    split
    · exact ih w
    · split
      · exact ih w
      · rename_i t ht
        have := ih (w.RemoveTimer t._id)
        simpa [TimerWheel.RemoveTimer] using this

theorem TimerWheel.release_ran (slot : List Nat) : ∀ (w : TimerWheel),
    (∀ pt ∈ (w.release slot).2, pt ∈ slot ∧ w.expired pt = true ∧
      ∃ t, w.heap[pt]? = some t ∧ t._canceled = false) ∧
    (w.release slot).2.Nodup := by
  induction slot with
  | nil => intro w; simp [TimerWheel.release]
  | cons pt rest ih =>
    intro w
    unfold TimerWheel.release
    split
    · obtain ⟨a, b⟩ := ih w
      exact ⟨fun x hx => ⟨List.mem_cons_of_mem _ (a x hx).1, (a x hx).2⟩, b⟩
    · rename_i hcond
      have hcond2 : pt ∉ rest ∧ w.expired pt = true := by
        constructor
        · intro hm; exact hcond (Or.inl hm)
        · cases he : w.expired pt
          · exact absurd (Or.inr he) hcond
          · rfl
      split
      · obtain ⟨a, b⟩ := ih w
        exact ⟨fun x hx => ⟨List.mem_cons_of_mem _ (a x hx).1, (a x hx).2⟩, b⟩
      · rename_i t ht
        obtain ⟨a, b⟩ := ih (w.RemoveTimer t._id)
        have a2 : ∀ x ∈ ((w.RemoveTimer t._id).release rest).2, x ∈ pt :: rest ∧
            w.expired x = true ∧ ∃ t, w.heap[x]? = some t ∧ t._canceled = false :=
          fun x hx => ⟨List.mem_cons_of_mem _ (a x hx).1, (a x hx).2⟩
        by_cases hc : t._canceled = false
        · simp only [hc, if_true]
          constructor
          · intro x hx
            rcases List.mem_cons.1 hx with rfl | hx
            · exact ⟨List.mem_cons_self _ _, hcond2.2, t, ht, hc⟩
            · exact a2 x hx
          · rw [List.nodup_cons]
            exact ⟨fun hm => hcond2.1 (a pt hm).1, b⟩
        · simp only [hc, if_false]
          exact ⟨a2, b⟩

theorem lookup_filter_none (l : List (Nat × Nat)) (id k : Nat)
    (h : k = id ∨ l.lookup k = none) : (l.filter (fun e => e.1 ≠ id)).lookup k = none := by
  rw [List.lookup_eq_none_iff]
  intro p hp
  rw [List.mem_filter] at hp
  obtain ⟨hp1, hp2⟩ := hp
  rcases h with h | h
  · subst h
    have hp3 : p.1 ≠ k := by simpa using hp2
    simp only [bne_iff_ne, ne_eq]
    exact fun e => hp3 e.symm
  · rw [List.lookup_eq_none_iff] at h
    exact h p hp1

theorem TimerWheel.release_lookup_none (slot : List Nat) : ∀ (w : TimerWheel) (k : Nat),
    w._timers.lookup k = none → (w.release slot).1._timers.lookup k = none := by
  induction slot with
  | nil => intro w k h; simpa [TimerWheel.release] using h
  | cons pt rest ih =>
    intro w k h
    unfold TimerWheel.release
    split
    · exact ih w k h
    · split
      · exact ih w k h
      · rename_i t ht
        exact ih (w.RemoveTimer t._id) k (lookup_filter_none _ _ _ (Or.inr h))

theorem TimerWheel.release_fires (slot : List Nat) : ∀ (w : TimerWheel) (pt : Nat)
    (t : TimerTask), pt ∈ slot → w.expired pt = true → w.heap[pt]? = some t →
    (t._canceled = false → pt ∈ (w.release slot).2) ∧
    (w.release slot).1._timers.lookup t._id = none := by
  induction slot with
  | nil => intro w pt t h; simp at h
  | cons x rest ih =>
    intro w pt t hmem hexp hheap
    unfold TimerWheel.release
    split
    · rename_i hcond
      have hin : pt ∈ rest := by
        rcases List.mem_cons.1 hmem with rfl | h
        · rcases hcond with h | h
          · exact h
          · rw [hexp] at h; cases h
        · exact h
      exact ih w pt t hin hexp hheap
    · rename_i hcond
      split
      · rename_i hnone
        have hin : pt ∈ rest := by
          rcases List.mem_cons.1 hmem with rfl | h
          · rw [hheap] at hnone; cases hnone
          · exact h
        exact ih w pt t hin hexp hheap
      · rename_i tx htx
        by_cases hx : pt = x
        · subst hx
          rw [hheap] at htx
          injection htx with htx
          subst htx
          refine ⟨fun hc => by simp [hc], ?_⟩
          exact TimerWheel.release_lookup_none rest _ _
            (lookup_filter_none _ _ _ (Or.inl rfl))
        · have hin : pt ∈ rest := by
            rcases List.mem_cons.1 hmem with h | h
            · exact absurd h hx
            · exact h
          obtain ⟨a, b⟩ := ih (w.RemoveTimer tx._id) pt t hin hexp hheap
          refine ⟨fun hc => ?_, b⟩
          by_cases hcx : tx._canceled = false
          · simp only [hcx, if_true]
            exact List.mem_cons_of_mem _ (a hc)
          · simp only [hcx, if_false]
            exact a hc

theorem TimerWheel.mem_push_back (w : TimerWheel) (pos pt q x : Nat) :
    x ∈ (w.push_back pos pt)._wheel.getD q [] ↔
      x ∈ w._wheel.getD q [] ∨ (pos = q ∧ pos < w._wheel.length ∧ x = pt) := by
  simp only [TimerWheel.push_back, getD_set_slot]
  by_cases h : pos = q ∧ pos < w._wheel.length
  · rw [if_pos h]
    obtain ⟨rfl, h2⟩ := h
    simp [h2]
  · rw [if_neg h]
    constructor
    · exact Or.inl
    · rintro (h1 | ⟨h1, h2, _⟩)
      · exact h1
      · exact absurd ⟨h1, h2⟩ h

theorem TimerWheel.tick_fields (w : TimerWheel) :
    w.RunTimerTask.1._tick = (w._tick + 1) % w._capacity ∧
    w.RunTimerTask.1._capacity = w._capacity ∧
    w.RunTimerTask.1._wheel = w._wheel.set ((w._tick + 1) % w._capacity) [] ∧
    w.RunTimerTask.1.heap = w.heap := by
  unfold TimerWheel.RunTimerTask
  exact TimerWheel.release_fields _ _

theorem TimerWheel.mem_tick (w : TimerWheel) (q x : Nat)
    (hlen : (w._tick + 1) % w._capacity < w._wheel.length) :
    x ∈ w.RunTimerTask.1._wheel.getD q [] ↔
      q ≠ (w._tick + 1) % w._capacity ∧ x ∈ w._wheel.getD q [] := by
  rw [(TimerWheel.tick_fields w).2.2.1, getD_set_slot]
  by_cases h : (w._tick + 1) % w._capacity = q
  · simp [h, hlen, h ▸ hlen]
  · have h2 : ¬ q = (w._tick + 1) % w._capacity := fun e => h e.symm
    simp [h, h2]

theorem TimerWheel.add_fields (w : TimerWheel) (id delay : Nat) :
    (w.TimerAddInLoop id delay)._tick = w._tick ∧
    (w.TimerAddInLoop id delay)._capacity = w._capacity ∧
    (w.TimerAddInLoop id delay)._wheel.length = w._wheel.length ∧
    (w.TimerAddInLoop id delay).heap =
      w.heap ++ [{ _id := id, _timeout := delay, _canceled := false }] ∧
    (∀ q x, x ∈ (w.TimerAddInLoop id delay)._wheel.getD q [] ↔
      x ∈ w._wheel.getD q [] ∨
        ((w._tick + delay) % 2 ^ 32 % w._capacity = q ∧
          (w._tick + delay) % 2 ^ 32 % w._capacity < w._wheel.length ∧ x = w.heap.length)) := by
  refine ⟨rfl, rfl, ?_, rfl, ?_⟩
  · simp [TimerWheel.TimerAddInLoop, TimerWheel.push_back]
  · intro q x
    exact TimerWheel.mem_push_back _ _ _ _ _

theorem TimerWheel.cancel_cases (w : TimerWheel) (id : Nat) :
    w.TimerCancelInLoop id = w ∨
    ∃ pt t, w._timers.lookup id = some pt ∧ w.expired pt = false ∧ w.heap[pt]? = some t ∧
      w.TimerCancelInLoop id = { w with heap := w.heap.set pt { t with _canceled := true } } := by
  unfold TimerWheel.TimerCancelInLoop
  cases h1 : w._timers.lookup id with
  | none => exact Or.inl rfl
  | some weak =>
    dsimp only
    unfold TimerWheel.lock
    cases he : w.expired weak with
    | true => exact Or.inl rfl
    | false =>
      simp only [Bool.false_eq_true, if_false]
      cases h3 : w.heap[weak]? with
      | none => exact Or.inl rfl
      | some t => exact Or.inr ⟨weak, t, rfl, he, h3, rfl⟩

theorem TimerWheel.cancel_fields (w : TimerWheel) (id : Nat) :
    (w.TimerCancelInLoop id)._tick = w._tick ∧
    (w.TimerCancelInLoop id)._capacity = w._capacity ∧
    (w.TimerCancelInLoop id)._wheel = w._wheel ∧
    (w.TimerCancelInLoop id)._timers = w._timers ∧
    (w.TimerCancelInLoop id).heap.length = w.heap.length ∧
    (∀ x t, w.heap[x]? = some t →
      ∃ t2, (w.TimerCancelInLoop id).heap[x]? = some t2 ∧ t2._id = t._id ∧
        t2._timeout = t._timeout ∧ (t._canceled = true → t2._canceled = true) ∧
        (¬ (w._timers.lookup id = some x) → t2 = t)) := by
  rcases TimerWheel.cancel_cases w id with e | ⟨pt, t0, h1, he, h3, e⟩
  · rw [e]
    exact ⟨rfl, rfl, rfl, rfl, rfl, fun x t h => ⟨t, h, rfl, rfl, fun a => a, fun _ => rfl⟩⟩
  · rw [e]
    refine ⟨rfl, rfl, rfl, rfl, by simp, ?_⟩
    intro x t hx
    simp only [List.getElem?_set]
    by_cases e2 : pt = x
    · subst e2
      rw [hx] at h3
      injection h3 with h3
      subst h3
      have hlt : pt < w.heap.length := by
        by_contra hc
        rw [List.getElem?_eq_none (Nat.le_of_not_lt hc)] at hx
        cases hx
      simp only [if_true, hlt]
      exact ⟨_, rfl, rfl, rfl, fun _ => rfl, fun hne => absurd h1 hne⟩
    · simp only [e2, if_false]
      exact ⟨t, hx, rfl, rfl, fun a => a, fun _ => rfl⟩

theorem TimerWheel.refresh_cases (w : TimerWheel) (id : Nat) :
    w.TimerRefreshInLoop id = .ok w ∨
    (∃ pt t, w._timers.lookup id = some pt ∧ w.expired pt = false ∧ w.heap[pt]? = some t ∧
      ((w._tick + t._timeout ≥ 2 ^ 31 ∧ w.TimerRefreshInLoop id = .error .undefined) ∨
        (w._tick + t._timeout < 2 ^ 31 ∧ w.TimerRefreshInLoop id =
          .ok (w.push_back ((w._tick + t._timeout) % w._capacity) pt)))) ∨
    (∃ pt, w._timers.lookup id = some pt ∧ w.expired pt = false ∧ w.heap[pt]? = none ∧
      w.TimerRefreshInLoop id = .error .undefined) := by
  unfold TimerWheel.TimerRefreshInLoop
  cases h1 : w._timers.lookup id with
  | none => exact Or.inl rfl
  | some weak =>
    dsimp only
    unfold TimerWheel.lock
    cases he : w.expired weak with
    | true => exact Or.inl rfl
    | false =>
      simp only [Bool.false_eq_true, if_false]
      cases h3 : w.heap[weak]? with
      | none => exact Or.inr (Or.inr ⟨weak, rfl, he, h3, rfl⟩)
      | some t =>
        dsimp only
        refine Or.inr (Or.inl ⟨weak, t, rfl, he, h3, ?_⟩)
        by_cases hb : w._tick + t._timeout ≥ 2 ^ 31
        · exact Or.inl ⟨hb, by simp only [hb, if_true]⟩
        · exact Or.inr ⟨by omega, by simp only [hb, if_false]⟩

/-! ## The invariant of the timer wheel -/

theorem heap_lt_of_some (heap : List TimerTask) (x : Nat) (t : TimerTask)
    (h : heap[x]? = some t) : x < heap.length := by
  by_contra hc
  rw [List.getElem?_eq_none (Nat.le_of_not_lt hc)] at h
  cases h

theorem TimerWheel.wf_add (w : TimerWheel) (id delay : Nat) (hwf : w.WF) (h0 : 0 < delay)
    (h60 : delay ≤ 60) : (w.TimerAddInLoop id delay).WF := by
  obtain ⟨hc, hl, ht, hs⟩ := hwf
  obtain ⟨f1, f2, f3, f4, f5⟩ := TimerWheel.add_fields w id delay
  refine ⟨by rw [f2, hc], by rw [f3, hl], by rw [f1]; exact ht, ?_⟩
  intro q x hx
  rw [f5] at hx
  rw [f4, f1]
  rcases hx with hx | ⟨hq, _, rfl⟩
  · obtain ⟨t, e1, e2, e3⟩ := hs q x hx
    refine ⟨t, ?_, e2, e3⟩
    rw [List.getElem?_append_left (heap_lt_of_some _ _ _ e1)]
    exact e1
  · refine ⟨{ _id := id, _timeout := delay, _canceled := false }, ?_, h60, delay, h0,
      Nat.le_refl _, ?_⟩
    · simp
    · rw [← hq, hc]
      have : (w._tick + delay) % 2 ^ 32 = w._tick + delay := by
        apply Nat.mod_eq_of_lt
        have : (2 : Nat) ^ 32 = 4294967296 := by norm_num
        omega
      rw [this]

theorem TimerWheel.wf_refresh (w : TimerWheel) (id : Nat) (hwf : w.WF) :
    ∃ w1, w.TimerRefreshInLoop id = .ok w1 ∧ w1.WF ∧ w1._tick = w._tick ∧ w1.heap = w.heap ∧
      w1._timers = w._timers ∧
      (w1 = w ∨ ∃ pt t, w._timers.lookup id = some pt ∧ w.expired pt = false ∧
        w.heap[pt]? = some t ∧ w1 = w.push_back ((w._tick + t._timeout) % 60) pt) := by
  obtain ⟨hc, hl, ht, hs⟩ := hwf
  rcases TimerWheel.refresh_cases w id with e | ⟨pt, t, h1, he, h3, e⟩ | ⟨pt, h1, he, h3, _⟩
  · exact ⟨w, e, ⟨hc, hl, ht, hs⟩, rfl, rfl, rfl, Or.inl rfl⟩
  · obtain ⟨q0, hq0⟩ := (TimerWheel.expired_false_iff w pt).1 he
    obtain ⟨t0, e1, e2, j, j1, j2, _⟩ := hs q0 pt hq0
    rw [h3] at e1
    injection e1 with e1
    subst e1
    have hsmall : ¬ w._tick + t._timeout ≥ 2 ^ 31 := by
      have : (2 : Nat) ^ 31 = 2147483648 := by norm_num
      omega
    rcases e with ⟨hb, _⟩ | ⟨_, e⟩
    · exact absurd hb hsmall
    · rw [hc] at e
      refine ⟨_, e, ⟨hc, by simp [TimerWheel.push_back, hl], ht, ?_⟩, rfl, rfl, rfl,
        Or.inr ⟨pt, t, h1, he, h3, rfl⟩⟩
      intro q x hx
      rw [TimerWheel.mem_push_back] at hx
      rcases hx with hx | ⟨hq, _, rfl⟩
      · exact hs q x hx
      · exact ⟨t, h3, e2, t._timeout, by omega, Nat.le_refl _, hq.symm⟩
  · obtain ⟨q0, hq0⟩ := (TimerWheel.expired_false_iff w pt).1 he
    obtain ⟨t0, e1, _⟩ := hs q0 pt hq0
    rw [h3] at e1
    cases e1

theorem TimerWheel.wf_cancel (w : TimerWheel) (id : Nat) (hwf : w.WF) :
    (w.TimerCancelInLoop id).WF := by
  obtain ⟨hc, hl, ht, hs⟩ := hwf
  obtain ⟨f1, f2, f3, _, _, f6⟩ := TimerWheel.cancel_fields w id
  refine ⟨by rw [f2, hc], by rw [f3, hl], by rw [f1]; exact ht, ?_⟩
  intro q x hx
  rw [f3] at hx
  obtain ⟨t, e1, e2, e3⟩ := hs q x hx
  obtain ⟨t2, g1, _, g3, _, _⟩ := f6 x t e1
  rw [f1]
  exact ⟨t2, g1, by rw [g3]; exact e2, by rw [g3]; exact e3⟩

theorem TimerWheel.wf_tick (w : TimerWheel) (hwf : w.WF) : w.RunTimerTask.1.WF := by
  obtain ⟨hc, hl, ht, hs⟩ := hwf
  obtain ⟨f1, f2, f3, f4⟩ := TimerWheel.tick_fields w
  have hlen : (w._tick + 1) % w._capacity < w._wheel.length := by
    rw [hc, hl]; omega
  refine ⟨by rw [f2, hc], by rw [f3]; simpa using hl, by rw [f1, hc]; omega, ?_⟩
  intro q x hx
  rw [TimerWheel.mem_tick w q x hlen] at hx
  obtain ⟨hq, hx⟩ := hx
  obtain ⟨t, e1, e2, j, j1, j2, j3⟩ := hs q x hx
  rw [f4, f1]
  rw [hc] at hq ⊢
  refine ⟨t, e1, e2, j - 1, ?_, by omega, ?_⟩
  · by_contra hj
    have : j = 1 := by omega
    subst this
    exact hq j3
  · have : j ≠ 1 := by
      intro e; subst e; exact hq j3
    omega

theorem TimerWheel.wf_new : TimerWheel.new.WF := by
  refine ⟨rfl, by simp [TimerWheel.new], by simp [TimerWheel.new], ?_⟩
  intro q x hx
  exfalso
  simp only [TimerWheel.new, List.getD_eq_getElem?_getD, List.getElem?_replicate] at hx
  split at hx <;> simp at hx

theorem TimerWheel.wf_step (w : TimerWheel) (op : TimerOp) (hwf : w.WF) (ha : op.Allowed w) :
    ∃ w1 ran, w.step op = .ok (w1, ran) ∧ w1.WF := by
  cases op with
  | add id delay => exact ⟨_, _, rfl, TimerWheel.wf_add w id delay hwf ha.2.1 ha.2.2⟩
  | refresh id =>
    obtain ⟨w1, e, h1, _⟩ := TimerWheel.wf_refresh w id hwf
    exact ⟨w1, [], by simp [TimerWheel.step, e, Except.map], h1⟩
  | cancel id => exact ⟨_, _, rfl, TimerWheel.wf_cancel w id hwf⟩
  | tick => exact ⟨_, _, rfl, TimerWheel.wf_tick w hwf⟩

/-! ## When the task of a timer is called -/

theorem TimerWheel.due_step (w : TimerWheel) (pt r : Nat) (op : TimerOp) (hwf : w.WF)
    (hd : w.Due pt r) (hne : op ≠ TimerOp.tick) (ha : op.Allowed w) (ht : ¬ op.Touches w pt) :
    ∃ w1, w.step op = .ok (w1, []) ∧ w1.WF ∧ w1.Due pt r := by
  obtain ⟨r1, r2, ⟨t, ht1, ht2⟩, hslots, hin⟩ := hd
  have hlt := heap_lt_of_some _ _ _ ht1
  cases op with
  | tick => exact absurd rfl hne
  | add id delay =>
    obtain ⟨f1, f2, f3, f4, f5⟩ := TimerWheel.add_fields w id delay
    refine ⟨_, rfl, TimerWheel.wf_add w id delay hwf ha.2.1 ha.2.2, r1, r2, ⟨t, ?_, ht2⟩, ?_, ?_⟩
    · rw [f4, List.getElem?_append_left hlt]; exact ht1
    · intro q hq
      rw [f5] at hq
      rw [f1]
      rcases hq with hq | ⟨_, _, e⟩
      · exact hslots q hq
      · omega
    · rw [f5, f1]; exact Or.inl hin
  | refresh id =>
    obtain ⟨w1, e, h1, g1, g2, _, g4⟩ := TimerWheel.wf_refresh w id hwf
    refine ⟨w1, by simp [TimerWheel.step, e, Except.map], h1, r1, r2, ⟨t, by rw [g2]; exact ht1,
      ht2⟩, ?_, ?_⟩
    · intro q hq
      rw [g1]
      rcases g4 with rfl | ⟨pt2, t2, k1, _, _, rfl⟩
      · exact hslots q hq
      · rw [TimerWheel.mem_push_back] at hq
        rcases hq with hq | ⟨_, _, e2⟩
        · exact hslots q hq
        · subst e2
          exact absurd k1 ht
    · rw [g1]
      rcases g4 with rfl | ⟨pt2, t2, _, _, _, rfl⟩
      · exact hin
      · rw [TimerWheel.mem_push_back]; exact Or.inl hin
  | cancel id =>
    obtain ⟨f1, f2, f3, _, _, f6⟩ := TimerWheel.cancel_fields w id
    obtain ⟨t2, g1, _, _, _, g5⟩ := f6 pt t ht1
    have : t2 = t := g5 ht
    subst this
    refine ⟨_, rfl, TimerWheel.wf_cancel w id hwf, r1, r2, ⟨t2, g1, ht2⟩, ?_, ?_⟩
    · intro q hq
      rw [f3] at hq
      rw [f1]
      exact hslots q hq
    · rw [f3, f1]; exact hin

theorem TimerWheel.due_tick_early (w : TimerWheel) (pt r : Nat) (hwf : w.WF)
    (hd : w.Due pt r) (hr : 1 < r) :
    pt ∉ w.RunTimerTask.2 ∧ w.RunTimerTask.1.Due pt (r - 1) := by
  obtain ⟨hc, hl, htk, _⟩ := hwf
  obtain ⟨r1, r2, ⟨t, ht1, ht2⟩, hslots, hin⟩ := hd
  obtain ⟨f1, f2, f3, f4⟩ := TimerWheel.tick_fields w
  have hlen : (w._tick + 1) % w._capacity < w._wheel.length := by
    rw [hc, hl]; omega
  have hin2 : pt ∈ w.RunTimerTask.1._wheel.getD ((w._tick + r) % 60) [] := by
    rw [TimerWheel.mem_tick w _ _ hlen, hc]
    exact ⟨by omega, hin⟩
  constructor
  · intro hm
    have hm2 : pt ∈ (w.cleared.release (w._wheel.getD ((w._tick + 1) % w._capacity) [])).2 := hm
    obtain ⟨_, he, _⟩ := (TimerWheel.release_ran _ _).1 pt hm2
    have hf : w.cleared.expired pt = false := by
      rw [TimerWheel.expired_false_iff]
      refine ⟨(w._tick + r) % 60, ?_⟩
      have : w.cleared._wheel = w.RunTimerTask.1._wheel := f3.symm
      rw [this]
      exact hin2
    rw [hf] at he
    cases he
  · refine ⟨by omega, by omega, ⟨t, by rw [f4]; exact ht1, ht2⟩, ?_, ?_⟩
    · intro q hq
      rw [TimerWheel.mem_tick w _ _ hlen, hc] at hq
      obtain ⟨hq1, hq2⟩ := hq
      obtain ⟨j, j1, j2, j3⟩ := hslots q hq2
      rw [f1, hc]
      have : j ≠ 1 := by
        intro e; subst e; exact hq1 j3
      exact ⟨j - 1, by omega, by omega, by omega⟩
    · rw [f1, hc]
      have : ((w._tick + 1) % 60 + (r - 1)) % 60 = (w._tick + r) % 60 := by omega
      rw [this]
      exact hin2

theorem TimerWheel.due_tick_fire (w : TimerWheel) (pt : Nat) (hwf : w.WF) (hd : w.Due pt 1) :
    w.RunTimerTask.2.count pt = 1 ∧ w.RunTimerTask.1.expired pt = true ∧
    ∀ t, w.heap[pt]? = some t → w.RunTimerTask.1._timers.lookup t._id = none := by
  obtain ⟨hc, hl, htk, _⟩ := hwf
  obtain ⟨_, _, ⟨t, ht1, ht2⟩, hslots, hin⟩ := hd
  obtain ⟨f1, f2, f3, f4⟩ := TimerWheel.tick_fields w
  have hlen : (w._tick + 1) % w._capacity < w._wheel.length := by
    rw [hc, hl]; omega
  have hexp : w.RunTimerTask.1.expired pt = true := by
    cases he : w.RunTimerTask.1.expired pt with
    | true => rfl
    | false =>
      obtain ⟨q, hq⟩ := (TimerWheel.expired_false_iff _ pt).1 he
      rw [TimerWheel.mem_tick w _ _ hlen, hc] at hq
      obtain ⟨j, j1, j2, j3⟩ := hslots q hq.2
      have : j = 1 := by omega
      subst this
      exact absurd j3 hq.1
  have hexp2 : w.cleared.expired pt = true := by
    have : w.RunTimerTask.1.expired pt = w.cleared.expired pt := by
      unfold TimerWheel.expired
      rw [f3]
      rfl
    rw [← this]; exact hexp
  have hin2 : pt ∈ w._wheel.getD ((w._tick + 1) % w._capacity) [] := by
    rw [hc]; exact hin
  have key := TimerWheel.release_fires (w._wheel.getD ((w._tick + 1) % w._capacity) [])
    w.cleared pt t hin2 hexp2 ht1
  have hnd := (TimerWheel.release_ran (w._wheel.getD ((w._tick + 1) % w._capacity) [])
    w.cleared).2
  refine ⟨?_, hexp, ?_⟩
  · exact List.count_eq_one_of_mem hnd (key.1 ht2)
  · intro t2 h2
    rw [ht1] at h2
    injection h2 with h2
    subst h2
    exact key.2

theorem ticks_cons (op : TimerOp) (ops : List TimerOp) :
    ticks (op :: ops) = ticks ops + (if op = TimerOp.tick then 1 else 0) := by
  unfold ticks
  rw [List.count_cons]
  by_cases h : op = TimerOp.tick
  · simp [h]
  · simp [h]

theorem TimerWheel.quiet_run (pt : Nat) (ops : List TimerOp) : ∀ (w : TimerWheel) (r : Nat),
    w.WF → w.Due pt r → Quiet pt w ops → ticks ops < r →
    ∃ w1 ran, w.run ops = .ok (w1, ran) ∧ pt ∉ ran ∧ w1.WF ∧ w1.Due pt (r - ticks ops) := by
  induction ops with
  | nil =>
    intro w r hwf hd _ _
    exact ⟨w, [], rfl, by simp, hwf, by simpa [ticks] using hd⟩
  | cons op ops ih =>
    intro w r hwf hd hq hk
    obtain ⟨ha, hnt, hrest⟩ := hq
    rw [ticks_cons] at hk ⊢
    by_cases hop : op = TimerOp.tick
    · subst hop
      simp only [if_true] at hk ⊢
      have hr : 1 < r := by omega
      obtain ⟨a, b⟩ := TimerWheel.due_tick_early w pt r hwf hd hr
      have hstep : w.step TimerOp.tick = .ok (w.RunTimerTask.1, w.RunTimerTask.2) := rfl
      obtain ⟨w2, ran2, e2, n2, wf2, d2⟩ := ih _ (r - 1) (TimerWheel.wf_tick w hwf) b
        (hrest _ _ hstep) (by omega)
      refine ⟨w2, w.RunTimerTask.2 ++ ran2, ?_, ?_, wf2, ?_⟩
      · simp only [TimerWheel.run, hstep, e2, bind, Except.bind, pure, Except.pure]
      · simp only [List.mem_append, not_or]; exact ⟨a, n2⟩
      · have : r - 1 - ticks ops = r - (ticks ops + 1) := by omega
        rw [← this]; exact d2
    · simp only [hop, if_false, Nat.add_zero] at hk ⊢
      obtain ⟨w1, hstep, wf1, d1⟩ := TimerWheel.due_step w pt r op hwf hd hop ha hnt
      obtain ⟨w2, ran2, e2, n2, wf2, d2⟩ := ih w1 r wf1 d1 (hrest _ _ hstep) hk
      refine ⟨w2, ran2, ?_, n2, wf2, d2⟩
      simp only [TimerWheel.run, hstep, e2, bind, Except.bind, pure, Except.pure,
        List.nil_append]

theorem TimerWheel.refresh_alive (w : TimerWheel) (id pt : Nat) (t : TimerTask) (hwf : w.WF)
    (hidx : w._timers.lookup id = some pt) (halive : w.expired pt = false)
    (hheap : w.heap[pt]? = some t) :
    w.TimerRefreshInLoop id = .ok (w.push_back ((w._tick + t._timeout) % 60) pt) := by
  obtain ⟨q0, hq0⟩ := (TimerWheel.expired_false_iff w pt).1 halive
  obtain ⟨t0, e1, e2, _⟩ := hwf.2.2.2 q0 pt hq0
  rw [hheap] at e1
  injection e1 with e1
  subst e1
  have hsmall : ¬ w._tick + t._timeout ≥ 2 ^ 31 := by
    have : (2 : Nat) ^ 31 = 2147483648 := by norm_num
    have := hwf.2.2.1
    omega
  unfold TimerWheel.TimerRefreshInLoop
  rw [hidx]
  dsimp only
  unfold TimerWheel.lock
  rw [halive]
  simp only [Bool.false_eq_true, if_false]
  rw [hheap]
  dsimp only
  rw [if_neg hsmall, hwf.1]

/-! ## The life of a timer object -/

theorem TimerWheel.mem_tick_before (w : TimerWheel) (q x : Nat)
    (h : x ∈ w.RunTimerTask.1._wheel.getD q []) : x ∈ w._wheel.getD q [] := by
  rw [(TimerWheel.tick_fields w).2.2.1, getD_set_slot] at h
  split at h
  · simp at h
  · exact h

theorem TimerWheel.tick_ran (w : TimerWheel) (x : Nat) (h : x ∈ w.RunTimerTask.2) :
    w.expired x = false ∧ w.RunTimerTask.1.expired x = true ∧
    ∃ t, w.heap[x]? = some t ∧ t._canceled = false := by
  have h2 : x ∈ (w.cleared.release (w._wheel.getD ((w._tick + 1) % w._capacity) [])).2 := h
  obtain ⟨a, b, c⟩ := (TimerWheel.release_ran _ _).1 x h2
  refine ⟨(TimerWheel.expired_false_iff w x).2 ⟨_, a⟩, ?_, c⟩
  have : w.RunTimerTask.1.expired x = w.cleared.expired x := by
    unfold TimerWheel.expired
    rw [(TimerWheel.tick_fields w).2.2.1]
    rfl
  rw [this]; exact b

theorem TimerWheel.step_canceled (w w1 : TimerWheel) (op : TimerOp) (ran : List Nat)
    (pt : Nat) (t : TimerTask) (h : w.step op = .ok (w1, ran)) (ht : w.heap[pt]? = some t)
    (hc : t._canceled = true) :
    (∃ t1, w1.heap[pt]? = some t1 ∧ t1._canceled = true) ∧ pt ∉ ran := by
  cases op with
  | add id delay =>
    simp only [TimerWheel.step] at h
    injection h with h
    injection h with h1 h2
    subst h1 h2
    refine ⟨⟨t, ?_, hc⟩, by simp⟩
    rw [(TimerWheel.add_fields w id delay).2.2.2.1,
      List.getElem?_append_left (heap_lt_of_some _ _ _ ht)]
    exact ht
  | refresh id =>
    simp only [TimerWheel.step] at h
    rcases TimerWheel.refresh_cases w id with e | ⟨pt2, t2, _, _, _, e⟩ | ⟨pt2, _, _, _, e⟩
    · rw [e] at h
      injection h with h
      injection h with h1 h2
      subst h1 h2
      exact ⟨⟨t, ht, hc⟩, by simp⟩
    · rcases e with ⟨_, e⟩ | ⟨_, e⟩
      · rw [e] at h; cases h
      · rw [e] at h
        injection h with h
        injection h with h1 h2
        subst h1 h2
        exact ⟨⟨t, ht, hc⟩, by simp⟩
    · rw [e] at h; cases h
  | cancel id =>
    simp only [TimerWheel.step] at h
    injection h with h
    injection h with h1 h2
    subst h1 h2
    obtain ⟨t2, g1, _, _, g4, _⟩ := (TimerWheel.cancel_fields w id).2.2.2.2.2 pt t ht
    exact ⟨⟨t2, g1, g4 hc⟩, by simp⟩
  | tick =>
    simp only [TimerWheel.step] at h
    injection h with h
    have h1 : w1 = w.RunTimerTask.1 := by rw [h]
    have h2 : ran = w.RunTimerTask.2 := by rw [h]
    subst h1 h2
    refine ⟨⟨t, by rw [(TimerWheel.tick_fields w).2.2.2]; exact ht, hc⟩, ?_⟩
    intro hm
    obtain ⟨_, _, t2, e1, e2⟩ := TimerWheel.tick_ran w pt hm
    rw [ht] at e1
    injection e1 with e1
    subst e1
    rw [hc] at e2
    cases e2

theorem TimerWheel.run_canceled (ops : List TimerOp) : ∀ (w w1 : TimerWheel) (ran : List Nat)
    (pt : Nat) (t : TimerTask), w.run ops = .ok (w1, ran) → w.heap[pt]? = some t →
    t._canceled = true → (∃ t1, w1.heap[pt]? = some t1 ∧ t1._canceled = true) ∧ pt ∉ ran := by
  induction ops with
  | nil =>
    intro w w1 ran pt t h ht hc
    simp only [TimerWheel.run] at h
    injection h with h
    injection h with h1 h2
    subst h1 h2
    exact ⟨⟨t, ht, hc⟩, by simp⟩
  | cons op ops ih =>
    intro w w1 ran pt t h ht hc
    simp only [TimerWheel.run, bind, Except.bind] at h
    cases hs : w.step op with
    | error e => rw [hs] at h; cases h
    | ok r =>
      obtain ⟨wa, rana⟩ := r
      rw [hs] at h
      dsimp only at h
      cases hr : wa.run ops with
      | error e => rw [hr] at h; cases h
      | ok r2 =>
        obtain ⟨wb, ranb⟩ := r2
        rw [hr] at h
        simp only [pure, Except.pure] at h
        injection h with h
        injection h with h1 h2
        subst h1 h2
        obtain ⟨⟨ta, a1, a2⟩, a3⟩ := TimerWheel.step_canceled w wa op rana pt t hs ht hc
        obtain ⟨b1, b2⟩ := ih wa wb ranb pt ta hr a1 a2
        exact ⟨b1, by simp only [List.mem_append, not_or]; exact ⟨a3, b2⟩⟩

theorem TimerWheel.step_dead (w w1 : TimerWheel) (op : TimerOp) (ran : List Nat)
    (pt : Nat) (t : TimerTask) (h : w.step op = .ok (w1, ran)) (ht : w.heap[pt]? = some t)
    (hd : w.expired pt = true) :
    w1.heap[pt]? = some t ∧ w1.expired pt = true ∧ pt ∉ ran := by
  have hnot : ∀ q, pt ∉ w._wheel.getD q [] := by
    intro q hq
    have := (TimerWheel.expired_false_iff w pt).2 ⟨q, hq⟩
    rw [hd] at this
    cases this
  have hexp : ∀ w2 : TimerWheel, (∀ q, pt ∈ w2._wheel.getD q [] → pt ∈ w._wheel.getD q []) →
      w2.expired pt = true := by
    intro w2 hsub
    cases he : w2.expired pt with
    | true => rfl
    | false =>
      obtain ⟨q, hq⟩ := (TimerWheel.expired_false_iff w2 pt).1 he
      exact absurd (hsub q hq) (hnot q)
  cases op with
  | add id delay =>
    simp only [TimerWheel.step] at h
    injection h with h
    injection h with h1 h2
    subst h1 h2
    obtain ⟨f1, f2, f3, f4, f5⟩ := TimerWheel.add_fields w id delay
    refine ⟨?_, ?_, by simp⟩
    · rw [f4, List.getElem?_append_left (heap_lt_of_some _ _ _ ht)]
      exact ht
    · apply hexp
      intro q hq
      rw [f5] at hq
      rcases hq with hq | ⟨_, _, e⟩
      · exact hq
      · have := heap_lt_of_some _ _ _ ht
        omega
  | refresh id =>
    simp only [TimerWheel.step] at h
    rcases TimerWheel.refresh_cases w id with e | ⟨pt2, t2, _, k2, _, e⟩ | ⟨pt2, _, _, _, e⟩
    · rw [e] at h
      injection h with h
      injection h with h1 h2
      subst h1 h2
      exact ⟨ht, hd, by simp⟩
    · rcases e with ⟨_, e⟩ | ⟨_, e⟩
      · rw [e] at h; cases h
      · rw [e] at h
        injection h with h
        injection h with h1 h2
        subst h1 h2
        refine ⟨ht, ?_, by simp⟩
        apply hexp
        intro q hq
        rw [TimerWheel.mem_push_back] at hq
        rcases hq with hq | ⟨_, _, e2⟩
        · exact hq
        · subst e2
          rw [hd] at k2
          cases k2
    · rw [e] at h; cases h
  | cancel id =>
    simp only [TimerWheel.step] at h
    injection h with h
    injection h with h1 h2
    subst h1 h2
    obtain ⟨_, _, f3, _, _, f6⟩ := TimerWheel.cancel_fields w id
    refine ⟨?_, ?_, by simp⟩
    · rcases TimerWheel.cancel_cases w id with e | ⟨pt2, t2, _, k2, _, e⟩
      · rw [e]; exact ht
      · rw [e]
        simp only [List.getElem?_set]
        have hne : pt2 ≠ pt := by
          intro e2; subst e2
          rw [hd] at k2
          cases k2
        simp only [hne, if_false]
        exact ht
    · apply hexp
      intro q hq
      rw [f3] at hq
      exact hq
  | tick =>
    simp only [TimerWheel.step] at h
    injection h with h
    have h1 : w1 = w.RunTimerTask.1 := by rw [h]
    have h2 : ran = w.RunTimerTask.2 := by rw [h]
    subst h1 h2
    refine ⟨by rw [(TimerWheel.tick_fields w).2.2.2]; exact ht, ?_, ?_⟩
    · apply hexp
      intro q hq
      exact TimerWheel.mem_tick_before w q pt hq
    · intro hm
      have := (TimerWheel.tick_ran w pt hm).1
      rw [hd] at this
      cases this

theorem TimerWheel.run_dead (ops : List TimerOp) : ∀ (w w1 : TimerWheel) (ran : List Nat)
    (pt : Nat) (t : TimerTask), w.run ops = .ok (w1, ran) → w.heap[pt]? = some t →
    w.expired pt = true → w1.heap[pt]? = some t ∧ w1.expired pt = true ∧ pt ∉ ran := by
  induction ops with
  | nil =>
    intro w w1 ran pt t h ht hd
    simp only [TimerWheel.run] at h
    injection h with h
    injection h with h1 h2
    subst h1 h2
    exact ⟨ht, hd, by simp⟩
  | cons op ops ih =>
    intro w w1 ran pt t h ht hd
    simp only [TimerWheel.run, bind, Except.bind] at h
    cases hs : w.step op with
    | error e => rw [hs] at h; cases h
    | ok r =>
      obtain ⟨wa, rana⟩ := r
      rw [hs] at h
      dsimp only at h
      cases hr : wa.run ops with
      | error e => rw [hr] at h; cases h
      | ok r2 =>
        obtain ⟨wb, ranb⟩ := r2
        rw [hr] at h
        simp only [pure, Except.pure] at h
        injection h with h
        injection h with h1 h2
        subst h1 h2
        obtain ⟨a1, a2, a3⟩ := TimerWheel.step_dead w wa op rana pt t hs ht hd
        obtain ⟨b1, b2, b3⟩ := ih wa wb ranb pt t hr a1 a2
        exact ⟨b1, b2, by simp only [List.mem_append, not_or]; exact ⟨a3, b3⟩⟩

theorem TimerWheel.run_append (a : List TimerOp) : ∀ (w : TimerWheel) (b : List TimerOp),
    w.run (a ++ b) = (w.run a).bind (fun r => (r.1.run b).bind (fun r2 =>
      .ok (r2.1, r.2 ++ r2.2))) := by
  induction a with
  | nil =>
    intro w b
    simp only [List.nil_append, TimerWheel.run, Except.bind]
    cases w.run b with
    | error e => rfl
    | ok r => simp
  | cons op a ih =>
    intro w b
    rw [List.cons_append]
    simp only [TimerWheel.run, bind, Except.bind]
    cases w.step op with
    | error e => rfl
    | ok r =>
      dsimp only
      rw [ih]
      cases r.1.run a with
      | error e => rfl
      | ok r2 =>
        simp only [Except.bind, pure, Except.pure]
        cases r2.1.run b with
        | error e => rfl
        | ok r3 => simp [List.append_assoc]

theorem quiet_admissible (pt : Nat) (ops : List TimerOp) : ∀ w : TimerWheel,
    Quiet pt w ops → Admissible w ops := by
  induction ops with
  | nil => intro w _; trivial
  | cons op ops ih =>
    intro w h
    exact ⟨h.1, fun w1 ran e => ih w1 (h.2.2 w1 ran e)⟩

theorem quiet_append (pt : Nat) (a : List TimerOp) : ∀ (w : TimerWheel) (b : List TimerOp),
    Quiet pt w (a ++ b) →
    Quiet pt w a ∧ ∀ w1 ran, w.run a = .ok (w1, ran) → Quiet pt w1 b := by
  induction a with
  | nil =>
    intro w b h
    refine ⟨trivial, ?_⟩
    intro w1 ran e
    simp only [TimerWheel.run] at e
    injection e with e
    injection e with e1 _
    subst e1
    exact h
  | cons op a ih =>
    intro w b h
    obtain ⟨h1, h2, h3⟩ := h
    refine ⟨⟨h1, h2, fun w1 ran e => (ih w1 b (h3 w1 ran e)).1⟩, ?_⟩
    intro w1 ran e
    simp only [TimerWheel.run, bind, Except.bind] at e
    cases hs : w.step op with
    | error x => rw [hs] at e; cases e
    | ok r =>
      obtain ⟨wa, rana⟩ := r
      rw [hs] at e
      dsimp only at e
      cases hr : wa.run a with
      | error x => rw [hr] at e; cases e
      | ok r2 =>
        obtain ⟨wb, ranb⟩ := r2
        rw [hr] at e
        simp only [pure, Except.pure] at e
        injection e with e
        injection e with e1 _
        subst e1
        exact (ih wa b (h3 wa rana hs)).2 wb ranb hr

theorem TimerWheel.run_inv (ops : List TimerOp) : ∀ w : TimerWheel, w.WF → Admissible w ops →
    ∃ w1 ran, w.run ops = .ok (w1, ran) ∧ w1.WF ∧ ran.Nodup ∧
      ∀ x ∈ ran, w1.expired x = true ∧ ∃ t, w1.heap[x]? = some t ∧ t._canceled = false := by
  induction ops with
  | nil =>
    intro w hwf _
    exact ⟨w, [], rfl, hwf, List.nodup_nil, by simp⟩
  | cons op ops ih =>
    intro w hwf ha
    obtain ⟨wa, rana, hs, wfa⟩ := TimerWheel.wf_step w op hwf ha.1
    obtain ⟨wb, ranb, hr, wfb, ndb, hb⟩ := ih wa wfa (ha.2 wa rana hs)
    have hrana : ∀ x ∈ rana, wa.expired x = true ∧ ∃ t, wa.heap[x]? = some t ∧
        t._canceled = false := by
      intro x hx
      cases op with
      | add id delay =>
        simp only [TimerWheel.step] at hs
        injection hs with hs
        injection hs with _ h2
        subst h2
        simp at hx
      | refresh id =>
        simp only [TimerWheel.step] at hs
        cases hrf : w.TimerRefreshInLoop id with
        | error e => rw [hrf] at hs; cases hs
        | ok w2 =>
          rw [hrf] at hs
          simp only [Except.map] at hs
          injection hs with hs
          injection hs with _ h2
          subst h2
          simp at hx
      | cancel id =>
        simp only [TimerWheel.step] at hs
        injection hs with hs
        injection hs with _ h2
        subst h2
        simp at hx
      | tick =>
        simp only [TimerWheel.step] at hs
        injection hs with hs
        have h1 : wa = w.RunTimerTask.1 := by rw [hs]
        have h2 : rana = w.RunTimerTask.2 := by rw [hs]
        subst h1 h2
        obtain ⟨_, b, t, c1, c2⟩ := TimerWheel.tick_ran w x hx
        exact ⟨b, t, by rw [(TimerWheel.tick_fields w).2.2.2]; exact c1, c2⟩
    have hnd : rana.Nodup := by
      cases op with
      | add id delay =>
        simp only [TimerWheel.step] at hs
        injection hs with hs
        injection hs with _ h2
        subst h2
        exact List.nodup_nil
      | refresh id =>
        simp only [TimerWheel.step] at hs
        cases hrf : w.TimerRefreshInLoop id with
        | error e => rw [hrf] at hs; cases hs
        | ok w2 =>
          rw [hrf] at hs
          simp only [Except.map] at hs
          injection hs with hs
          injection hs with _ h2
          subst h2
          exact List.nodup_nil
      | cancel id =>
        simp only [TimerWheel.step] at hs
        injection hs with hs
        injection hs with _ h2
        subst h2
        exact List.nodup_nil
      | tick =>
        simp only [TimerWheel.step] at hs
        injection hs with hs
        have h2 : rana = w.RunTimerTask.2 := by rw [hs]
        subst h2
        exact (TimerWheel.release_ran _ _).2
    refine ⟨wb, rana ++ ranb, ?_, wfb, ?_, ?_⟩
    · simp only [TimerWheel.run, hs, hr, bind, Except.bind, pure, Except.pure]
    · rw [List.nodup_append]
      refine ⟨hnd, ndb, ?_⟩
      intro x hx1 hx2
      obtain ⟨e1, t, e2, _⟩ := hrana x hx1
      exact (TimerWheel.run_dead ops wa wb ranb x t hr e2 e1).2.2 hx2
    · intro x hx
      rcases List.mem_append.1 hx with hx | hx
      · obtain ⟨e1, t, e2, e3⟩ := hrana x hx
        obtain ⟨a1, a2, _⟩ := TimerWheel.run_dead ops wa wb ranb x t hr e2 e1
        exact ⟨a2, t, a1, e3⟩
      · exact hb x hx

theorem split_ticks (ops : List TimerOp) : ∀ r : Nat, 1 ≤ r → r ≤ ticks ops →
    ∃ p1 p2, ops = p1 ++ TimerOp.tick :: p2 ∧ ticks p1 = r - 1 := by
  induction ops with
  | nil => intro r h1 h2; simp [ticks] at h2; omega
  | cons op ops ih =>
    intro r h1 h2
    rw [ticks_cons] at h2
    by_cases hop : op = TimerOp.tick
    · subst hop
      simp only [if_true] at h2
      by_cases hr : r = 1
      · subst hr
        exact ⟨[], ops, rfl, rfl⟩
      · obtain ⟨p1, p2, e, k⟩ := ih (r - 1) (by omega) (by omega)
        refine ⟨TimerOp.tick :: p1, p2, by rw [e]; rfl, ?_⟩
        rw [ticks_cons]
        simp only [if_true]
        omega
    · simp only [hop, if_false, Nat.add_zero] at h2
      obtain ⟨p1, p2, e, k⟩ := ih r h1 h2
      refine ⟨op :: p1, p2, by rw [e]; rfl, ?_⟩
      rw [ticks_cons]
      simp only [hop, if_false, Nat.add_zero]
      exact k

theorem TimerWheel.due_exists (w : TimerWheel) (pt : Nat) (t : TimerTask) (hwf : w.WF)
    (halive : w.expired pt = false) (hheap : w.heap[pt]? = some t)
    (hnc : t._canceled = false) : ∃ r, w.Due pt r := by
  obtain ⟨q0, hq0⟩ := (TimerWheel.expired_false_iff w pt).1 halive
  obtain ⟨t0, _, e2, j0, j1, j2, j3⟩ := hwf.2.2.2 q0 pt hq0
  have hP : pt ∈ w._wheel.getD ((w._tick + j0) % 60) [] := by rw [← j3]; exact hq0
  have hj60 : j0 ≤ 60 := by omega
  refine ⟨Nat.findGreatest (fun j => pt ∈ w._wheel.getD ((w._tick + j) % 60) []) 60, ?_,
    Nat.findGreatest_le 60, ⟨t, hheap, hnc⟩, ?_, ?_⟩
  · exact Nat.le_trans j1 (Nat.le_findGreatest hj60 hP)
  · intro q hq
    obtain ⟨t1, _, f2, j, k1, k2, k3⟩ := hwf.2.2.2 q pt hq
    have hPj : pt ∈ w._wheel.getD ((w._tick + j) % 60) [] := by rw [← k3]; exact hq
    exact ⟨j, k1, Nat.le_findGreatest (by omega) hPj, k3⟩
  · exact Nat.findGreatest_spec (P := fun j => pt ∈ w._wheel.getD ((w._tick + j) % 60) [])
      hj60 hP

/-! ## Dropping the last `PtrTask`, and the objects that have run -/

theorem TimerWheel.tick_last (w : TimerWheel) (pt : Nat)
    (hlen : (w._tick + 1) % w._capacity < w._wheel.length)
    (h1 : w.expired pt = false) (h2 : w.RunTimerTask.1.expired pt = true) :
    pt ∈ w._wheel.getD ((w._tick + 1) % w._capacity) [] ∧ w.cleared.expired pt = true := by
  constructor
  · obtain ⟨q, hq⟩ := (TimerWheel.expired_false_iff w pt).1 h1
    by_cases e : q = (w._tick + 1) % w._capacity
    · rw [← e]; exact hq
    · have h3 := (TimerWheel.expired_false_iff w.RunTimerTask.1 pt).2
        ⟨q, (TimerWheel.mem_tick w q pt hlen).2 ⟨e, hq⟩⟩
      rw [h2] at h3
      cases h3
  · have : w.RunTimerTask.1.expired pt = w.cleared.expired pt := by
      unfold TimerWheel.expired
      rw [(TimerWheel.tick_fields w).2.2.1]
      rfl
    rw [← this]; exact h2

theorem TimerWheel.tick_drop (w : TimerWheel) (pt : Nat) (t : TimerTask) (hwf : w.WF)
    (h1 : w.expired pt = false) (h2 : w.RunTimerTask.1.expired pt = true)
    (ht : w.heap[pt]? = some t) :
    w.RunTimerTask.1._timers.lookup t._id = none ∧
    (t._canceled = false → pt ∈ w.RunTimerTask.2) := by
  have hlen : (w._tick + 1) % w._capacity < w._wheel.length := by
    rw [hwf.1, hwf.2.1]; omega
  obtain ⟨a, b⟩ := TimerWheel.tick_last w pt hlen h1 h2
  have key := TimerWheel.release_fires (w._wheel.getD ((w._tick + 1) % w._capacity) [])
    w.cleared pt t a b ht
  exact ⟨key.2, key.1⟩

theorem TimerWheel.step_heap (w w1 : TimerWheel) (op : TimerOp) (ran : List Nat)
    (pt : Nat) (t : TimerTask) (h : w.step op = .ok (w1, ran)) (ht : w.heap[pt]? = some t) :
    ∃ t1, w1.heap[pt]? = some t1 ∧ t1._id = t._id ∧ t1._timeout = t._timeout := by
  cases op with
  | add id delay =>
    simp only [TimerWheel.step] at h
    injection h with h
    injection h with h1 h2
    subst h1 h2
    refine ⟨t, ?_, rfl, rfl⟩
    rw [(TimerWheel.add_fields w id delay).2.2.2.1,
      List.getElem?_append_left (heap_lt_of_some _ _ _ ht)]
    exact ht
  | refresh id =>
    simp only [TimerWheel.step] at h
    rcases TimerWheel.refresh_cases w id with e | ⟨pt2, t2, _, _, _, e⟩ | ⟨pt2, _, _, _, e⟩
    · rw [e] at h
      injection h with h
      injection h with h1 h2
      subst h1 h2
      exact ⟨t, ht, rfl, rfl⟩
    · rcases e with ⟨_, e⟩ | ⟨_, e⟩
      · rw [e] at h; cases h
      · rw [e] at h
        injection h with h
        injection h with h1 h2
        subst h1 h2
        exact ⟨t, ht, rfl, rfl⟩
    · rw [e] at h; cases h
  | cancel id =>
    simp only [TimerWheel.step] at h
    injection h with h
    injection h with h1 h2
    subst h1 h2
    obtain ⟨t2, g1, g2, g3, _, _⟩ := (TimerWheel.cancel_fields w id).2.2.2.2.2 pt t ht
    exact ⟨t2, g1, g2, g3⟩
  | tick =>
    simp only [TimerWheel.step] at h
    injection h with h
    have h1 : w1 = w.RunTimerTask.1 := by rw [h]
    subst h1
    exact ⟨t, by rw [(TimerWheel.tick_fields w).2.2.2]; exact ht, rfl, rfl⟩

theorem TimerWheel.run_heap (ops : List TimerOp) : ∀ (w w1 : TimerWheel) (ran : List Nat)
    (pt : Nat) (t : TimerTask), w.run ops = .ok (w1, ran) → w.heap[pt]? = some t →
    ∃ t1, w1.heap[pt]? = some t1 ∧ t1._id = t._id ∧ t1._timeout = t._timeout := by
  induction ops with
  | nil =>
    intro w w1 ran pt t h ht
    simp only [TimerWheel.run] at h
    injection h with h
    injection h with h1 h2
    subst h1
    exact ⟨t, ht, rfl, rfl⟩
  | cons op ops ih =>
    intro w w1 ran pt t h ht
    simp only [TimerWheel.run, bind, Except.bind] at h
    cases hs : w.step op with
    | error x => rw [hs] at h; cases h
    | ok r =>
      obtain ⟨wa, rana⟩ := r
      rw [hs] at h
      dsimp only at h
      cases hr : wa.run ops with
      | error x => rw [hr] at h; cases h
      | ok r2 =>
        obtain ⟨wb, ranb⟩ := r2
        rw [hr] at h
        simp only [pure, Except.pure] at h
        injection h with h
        injection h with h1 h2
        subst h1
        obtain ⟨ta, a1, a2, a3⟩ := TimerWheel.step_heap w wa op rana pt t hs ht
        obtain ⟨tb, b1, b2, b3⟩ := ih wa wb ranb pt ta hr a1
        exact ⟨tb, b1, by rw [b2, a2], by rw [b3, a3]⟩

theorem TimerWheel.step_fired (w w1 : TimerWheel) (op : TimerOp) (ran : List Nat)
    (pt : Nat) (t1 : TimerTask) (hwf : w.WF) (h : w.step op = .ok (w1, ran))
    (ht : w1.heap[pt]? = some t1) (hd : w1.expired pt = true) (hc : t1._canceled = false) :
    pt ∈ ran ∨ ∃ t, w.heap[pt]? = some t ∧ w.expired pt = true ∧ t._canceled = false := by
  have hdead : (∀ q, pt ∈ w._wheel.getD q [] → ∃ q1, pt ∈ w1._wheel.getD q1 []) →
      w.expired pt = true := by
    intro hsub
    cases he : w.expired pt with
    | true => rfl
    | false =>
      obtain ⟨q, hq⟩ := (TimerWheel.expired_false_iff w pt).1 he
      have := (TimerWheel.expired_false_iff w1 pt).2 (hsub q hq)
      rw [hd] at this
      cases this
  cases op with
  | add id delay =>
    simp only [TimerWheel.step] at h
    injection h with h
    injection h with h1 h2
    subst h1 h2
    obtain ⟨f1, f2, f3, f4, f5⟩ := TimerWheel.add_fields w id delay
    right
    by_cases hlt : pt < w.heap.length
    · rw [f4, List.getElem?_append_left hlt] at ht
      exact ⟨t1, ht, hdead (fun q hq => ⟨q, (f5 q pt).2 (Or.inl hq)⟩), hc⟩
    · exfalso
      have hlt2 := heap_lt_of_some _ _ _ ht
      rw [f4] at hlt2
      simp only [List.length_append, List.length_singleton] at hlt2
      have hpt : pt = w.heap.length := by omega
      have hpos : (w._tick + delay) % 2 ^ 32 % w._capacity < w._wheel.length := by
        rw [hwf.1, hwf.2.1]
        exact Nat.mod_lt _ (by norm_num)
      have := (TimerWheel.expired_false_iff _ pt).2
        ⟨_, (f5 _ pt).2 (Or.inr ⟨rfl, hpos, hpt⟩)⟩
      rw [hd] at this
      cases this
  | refresh id =>
    simp only [TimerWheel.step] at h
    rcases TimerWheel.refresh_cases w id with e | ⟨pt2, t2, _, _, _, e⟩ | ⟨pt2, _, _, _, e⟩
    · rw [e] at h
      injection h with h
      injection h with h1 h2
      subst h1 h2
      exact Or.inr ⟨t1, ht, hd, hc⟩
    · rcases e with ⟨_, e⟩ | ⟨_, e⟩
      · rw [e] at h; cases h
      · rw [e] at h
        injection h with h
        injection h with h1 h2
        subst h1 h2
        exact Or.inr ⟨t1, ht,
          hdead (fun q hq => ⟨q, (TimerWheel.mem_push_back _ _ _ _ _).2 (Or.inl hq)⟩), hc⟩
    · rw [e] at h; cases h
  | cancel id =>
    simp only [TimerWheel.step] at h
    injection h with h
    injection h with h1 h2
    subst h1 h2
    obtain ⟨_, _, g3, _, g5, g6⟩ := TimerWheel.cancel_fields w id
    right
    have hlt := heap_lt_of_some _ _ _ ht
    rw [g5] at hlt
    obtain ⟨t2, k1, _, _, k4, _⟩ := g6 pt (w.heap[pt]) (List.getElem?_eq_getElem hlt)
    rw [ht] at k1
    injection k1 with k1
    subst k1
    refine ⟨_, List.getElem?_eq_getElem hlt, hdead (fun q hq => ⟨q, by rw [g3]; exact hq⟩), ?_⟩
    cases hcc : (w.heap[pt])._canceled with
    | false => rfl
    | true => rw [k4 hcc] at hc; cases hc
  | tick =>
    simp only [TimerWheel.step] at h
    injection h with h
    have h1 : w1 = w.RunTimerTask.1 := by rw [h]
    have h2 : ran = w.RunTimerTask.2 := by rw [h]
    subst h1 h2
    rw [(TimerWheel.tick_fields w).2.2.2] at ht
    cases he : w.expired pt with
    | true => exact Or.inr ⟨t1, ht, rfl, hc⟩
    | false => exact Or.inl ((TimerWheel.tick_drop w pt t1 hwf he hd ht).2 hc)

theorem TimerWheel.run_fired (ops : List TimerOp) : ∀ (w w1 : TimerWheel) (ran : List Nat)
    (pt : Nat) (t1 : TimerTask), w.WF → Admissible w ops → w.run ops = .ok (w1, ran) →
    w1.heap[pt]? = some t1 → w1.expired pt = true → t1._canceled = false →
    pt ∈ ran ∨ ∃ t, w.heap[pt]? = some t ∧ w.expired pt = true ∧ t._canceled = false := by
  induction ops with
  | nil =>
    intro w w1 ran pt t1 _ _ h ht hd hc
    simp only [TimerWheel.run] at h
    injection h with h
    injection h with h1 h2
    subst h1
    exact Or.inr ⟨t1, ht, hd, hc⟩
  | cons op ops ih =>
    intro w w1 ran pt t1 hwf ha h ht hd hc
    simp only [TimerWheel.run, bind, Except.bind] at h
    cases hs : w.step op with
    | error x => rw [hs] at h; cases h
    | ok r =>
      obtain ⟨wa, rana⟩ := r
      rw [hs] at h
      dsimp only at h
      cases hr : wa.run ops with
      | error x => rw [hr] at h; cases h
      | ok r2 =>
        obtain ⟨wb, ranb⟩ := r2
        rw [hr] at h
        simp only [pure, Except.pure] at h
        injection h with h
        injection h with h1 h2
        subst h1 h2
        obtain ⟨wa2, rana2, hs2, wfa⟩ := TimerWheel.wf_step w op hwf ha.1
        rw [hs] at hs2
        injection hs2 with hs2
        injection hs2 with e1 e2
        subst e1
        rcases ih wa wb ranb pt t1 wfa (ha.2 wa rana hs) hr ht hd hc with k | ⟨t, k1, k2, k3⟩
        · exact Or.inl (List.mem_append.2 (Or.inr k))
        · rcases TimerWheel.step_fired w wa op rana pt t hwf hs k1 k2 k3 with k | k
          · exact Or.inl (List.mem_append.2 (Or.inl k))
          · exact Or.inr k

theorem TimerWheel.due_run (pt : Nat) (post : List TimerOp) (w : TimerWheel) (r : Nat)
    (hwf : w.WF) (hd : w.Due pt r) (hq : Quiet pt w post) :
    ∃ w2 ran2, w.run post = .ok (w2, ran2) ∧
      ran2.count pt = if ticks post < r then 0 else 1 := by
  by_cases hk : ticks post < r
  · obtain ⟨w2, ran2, e, hn, _, _⟩ := TimerWheel.quiet_run pt post w r hwf hd hq hk
    exact ⟨w2, ran2, e, by simp only [hk, if_true]; exact List.count_eq_zero_of_not_mem hn⟩
  · simp only [hk, if_false]
    obtain ⟨p1, p2, e, k⟩ := split_ticks post r hd.1 (by omega)
    subst e
    obtain ⟨q1, q2⟩ := quiet_append pt p1 w (TimerOp.tick :: p2) hq
    obtain ⟨wa, rana, ea, hna, wfa, da⟩ :=
      TimerWheel.quiet_run pt p1 w r hwf hd q1 (by have := hd.1; omega)
    have hr1 : r - ticks p1 = 1 := by have := hd.1; omega
    rw [hr1] at da
    obtain ⟨c1, c2, _⟩ := TimerWheel.due_tick_fire wa pt wfa da
    have q3 := q2 wa rana ea
    have q4 : Quiet pt wa.RunTimerTask.1 p2 :=
      q3.2.2 wa.RunTimerTask.1 wa.RunTimerTask.2 rfl
    obtain ⟨wb, ranb, eb, _, _, _⟩ := TimerWheel.run_inv p2 wa.RunTimerTask.1
      (TimerWheel.wf_tick wa wfa) (quiet_admissible pt p2 _ q4)
    obtain ⟨t, ht, _⟩ := da.2.2.1
    have hdead := TimerWheel.run_dead p2 wa.RunTimerTask.1 wb ranb pt t eb
      (by rw [(TimerWheel.tick_fields wa).2.2.2]; exact ht) c2
    refine ⟨wb, rana ++ (wa.RunTimerTask.2 ++ ranb), ?_, ?_⟩
    · rw [TimerWheel.run_append, ea]
      simp only [Except.bind, TimerWheel.run, TimerWheel.step, bind, eb, pure, Except.pure]
    · rw [List.count_append, List.count_append, List.count_eq_zero_of_not_mem hna, c1,
        List.count_eq_zero_of_not_mem hdead.2.2]

/-! ## The parser depends on the buffer through its unread bytes only -/

theorem cutLine_none (s : Str) (h : (10 : Byte) ∉ s) : cutLine s = none := by
  unfold cutLine
  rw [(memchr_none 10 s).2 h]

theorem cutLine_some (l0 rest : Str) (h : (10 : Byte) ∉ l0) :
    cutLine (l0 ++ 10 :: rest) = some (l0 ++ [10], rest) := by
  unfold cutLine
  rw [memchr_first 10 l0 rest h]
  have e : l0 ++ 10 :: rest = (l0 ++ [10]) ++ rest := by simp
  have hl : l0.length + 1 = (l0 ++ [10]).length := by simp
  dsimp only
  rw [e, hl, List.take_left', List.drop_left'] <;> rfl

theorem cutLine_cases (s : Str) :
    ((10 : Byte) ∉ s ∧ cutLine s = none) ∨
    ∃ l0 rest, s = l0 ++ 10 :: rest ∧ (10 : Byte) ∉ l0 ∧ cutLine s = some (l0 ++ [10], rest) := by
  by_cases h : (10 : Byte) ∈ s
  · obtain ⟨l0, rest, hr, hn⟩ := split_at_newline s h
    exact Or.inr ⟨l0, rest, hr, hn, by rw [hr]; exact cutLine_some l0 rest hn⟩
  · exact Or.inl ⟨h, cutLine_none s h⟩

theorem Buffer.readAbleSize_eq (b : Buffer) (hwf : b.WF) : b.ReadAbleSize = b.readable.length := by
  rw [Buffer.readable_length b hwf]
  rfl

theorem Buffer.advance_line (buf : Buffer) (l0 rest : Str) (hwf : buf.WF)
    (hr : buf.readable = l0 ++ 10 :: rest) :
    (buf.advance (l0 ++ [10]).length).WF ∧ (buf.advance (l0 ++ [10]).length).readable = rest := by
  have hle : (l0 ++ [10]).length ≤ buf.ReadAbleSize := by
    rw [Buffer.readAbleSize_eq buf hwf, hr]
    simp
  obtain ⟨w2, r2⟩ := Buffer.advance_spec buf (l0 ++ [10]).length hwf hle
  refine ⟨w2, ?_⟩
  rw [r2, hr]
  simp

theorem recvHttpLine_stream (c : HttpContext) (buf : Buffer) (hwf : buf.WF) :
    ∃ ret b2, c.RecvHttpLine buf = .ok (ret, (c.lineStep buf.readable).1, b2) ∧ b2.WF ∧
      b2.readable = (c.lineStep buf.readable).2 := by
  by_cases hs : c._recv_statu = RECV_HTTP_LINE
  · rcases cutLine_cases buf.readable with ⟨h, e⟩ | ⟨l0, rest, hr, hn, e⟩
    · rw [recvHttpLine_incomplete c buf hs h]
      simp only [HttpContext.lineStep, hs, ne_eq, not_true_eq_false, if_false, e,
        Buffer.readAbleSize_eq buf hwf]
      split
      · exact ⟨false, buf, rfl, hwf, rfl⟩
      · exact ⟨true, buf, rfl, hwf, rfl⟩
    · have hr2 : buf.readable = (l0 ++ [10]) ++ rest := by simpa using hr
      obtain ⟨w2, r2⟩ := Buffer.advance_line buf l0 rest hwf hr
      rw [recvHttpLine_complete c buf _ rest hs hwf hr2 ⟨l0, rfl, hn⟩]
      simp only [HttpContext.lineStep, hs, ne_eq, not_true_eq_false, if_false, e]
      split
      · exact ⟨false, _, rfl, w2, r2⟩
      · split
        · exact ⟨false, _, rfl, w2, r2⟩
        · exact ⟨true, _, rfl, w2, r2⟩
  · refine ⟨false, buf, ?_, hwf, ?_⟩
    · simp only [HttpContext.RecvHttpLine, HttpContext.lineStep, hs, ne_eq, not_false_eq_true,
        if_true]
    · simp only [HttpContext.lineStep, hs, ne_eq, not_false_eq_true, if_true]

theorem headLoop_stream : ∀ (fuel : Nat) (c : HttpContext) (buf : Buffer), buf.WF →
    ∃ ret b2, HttpContext.RecvHttpHeadLoop fuel c buf =
        .ok (ret, (HttpContext.headLoopStep fuel c buf.readable).1, b2) ∧ b2.WF ∧
      b2.readable = (HttpContext.headLoopStep fuel c buf.readable).2 := by
  intro fuel
  induction fuel with
  | zero =>
    intro c buf hwf
    exact ⟨true, buf, rfl, hwf, rfl⟩
  | succ fuel ih =>
    intro c buf hwf
    rcases cutLine_cases buf.readable with ⟨h, e⟩ | ⟨l0, rest, hr, hn, e⟩
    · rw [headLoop_incomplete fuel c buf h]
      simp only [HttpContext.headLoopStep, e, Buffer.readAbleSize_eq buf hwf]
      split
      · exact ⟨false, buf, rfl, hwf, rfl⟩
      · exact ⟨true, buf, rfl, hwf, rfl⟩
    · have hr2 : buf.readable = (l0 ++ [10]) ++ rest := by simpa using hr
      obtain ⟨w2, r2⟩ := Buffer.advance_line buf l0 rest hwf hr
      rw [headLoop_line fuel c buf _ rest hwf hr2 ⟨l0, rfl, hn⟩]
      simp only [HttpContext.headLoopStep, e]
      split
      · exact ⟨false, _, rfl, w2, r2⟩
      · split
        · exact ⟨true, _, rfl, w2, r2⟩
        · split
          · exact ⟨false, _, rfl, w2, r2⟩
          · have key := ih (c.ParseHttpHead (l0 ++ [10])).2 _ w2
            rw [r2] at key
            exact key

theorem recvHttpHead_stream (c : HttpContext) (buf : Buffer) (hwf : buf.WF) :
    ∃ ret b2, c.RecvHttpHead buf = .ok (ret, (c.headStep buf.readable).1, b2) ∧ b2.WF ∧
      b2.readable = (c.headStep buf.readable).2 := by
  by_cases hs : c._recv_statu = RECV_HTTP_HEAD
  · simp only [HttpContext.RecvHttpHead, HttpContext.headStep, hs, ne_eq, not_true_eq_false,
      if_false, Buffer.readAbleSize_eq buf hwf]
    exact headLoop_stream _ c buf hwf
  · refine ⟨false, buf, ?_, hwf, ?_⟩
    · simp only [HttpContext.RecvHttpHead, HttpContext.headStep, hs, ne_eq, not_false_eq_true,
        if_true]
    · simp only [HttpContext.headStep, hs, ne_eq, not_false_eq_true, if_true]

theorem recvHttpBody_stream (c : HttpContext) (buf : Buffer) (hwf : buf.WF) :
    (∀ e, c.bodyStep buf.readable = .error e → c.RecvHttpBody buf = .error e) ∧
    (∀ c2 s2, c.bodyStep buf.readable = .ok (c2, s2) →
      ∃ ret b2, c.RecvHttpBody buf = .ok (ret, c2, b2) ∧ b2.WF ∧ b2.readable = s2) := by
  have hsz := Buffer.readAbleSize_eq buf hwf
  by_cases hs : c._recv_statu = RECV_HTTP_BODY
  · simp only [HttpContext.RecvHttpBody, HttpContext.bodyStep, hs, ne_eq, not_true_eq_false,
      if_false, bind, Except.bind]
    cases hcl : c._request.ContentLength with
    | error x =>
      exact ⟨fun e h => by simpa using h, fun c2 s2 h => by simp at h⟩
    | ok n =>
      dsimp only
      by_cases h0 : n = 0
      · simp only [h0, if_true, pure, Except.pure]
        refine ⟨fun e h => by simp at h, ?_⟩
        intro c2 s2 h
        injection h with h
        injection h with h1 h2
        subst h1 h2
        exact ⟨true, buf, rfl, hwf, rfl⟩
      · simp only [h0, if_false, pure, Except.pure, hsz]
        by_cases hge : buf.readable.length ≥ (n + 2 ^ 64 - c._request._body.length) % 2 ^ 64
        · simp only [hge, if_true]
          have hle : (n + 2 ^ 64 - c._request._body.length) % 2 ^ 64 ≤ buf.ReadAbleSize := by
            rw [hsz]; exact hge
          rw [Buffer.moveReadOffset_eq buf _ hle, Buffer.peek_eq_take buf _ hle]
          obtain ⟨w2, r2⟩ := Buffer.advance_spec buf _ hwf hle
          refine ⟨fun e h => by simp at h, ?_⟩
          intro c2 s2 h
          injection h with h
          injection h with h1 h2
          subst h1 h2
          exact ⟨true, _, rfl, w2, r2⟩
        · simp only [hge, if_false]
          have hle : buf.readable.length ≤ buf.ReadAbleSize := by rw [hsz]
          rw [Buffer.moveReadOffset_eq buf _ hle, Buffer.peek_eq_take buf _ hle, List.take_length]
          obtain ⟨w2, r2⟩ := Buffer.advance_spec buf _ hwf hle
          refine ⟨fun e h => by simp at h, ?_⟩
          intro c2 s2 h
          injection h with h
          injection h with h1 h2
          subst h1 h2
          refine ⟨true, _, rfl, w2, ?_⟩
          rw [r2]
          simp
  · simp only [HttpContext.RecvHttpBody, HttpContext.bodyStep, hs, ne_eq, not_false_eq_true,
      if_true]
    refine ⟨fun e h => by simp at h, ?_⟩
    intro c2 s2 h
    injection h with h
    injection h with h1 h2
    subst h1 h2
    exact ⟨false, buf, rfl, hwf, rfl⟩

theorem lineStep_noop (c : HttpContext) (s : Str) (h : c._recv_statu ≠ RECV_HTTP_LINE) :
    c.lineStep s = (c, s) := by
  simp only [HttpContext.lineStep, h, ne_eq, not_false_eq_true, if_true]

theorem headStep_noop (c : HttpContext) (s : Str) (h : c._recv_statu ≠ RECV_HTTP_HEAD) :
    c.headStep s = (c, s) := by
  simp only [HttpContext.headStep, h, ne_eq, not_false_eq_true, if_true]

theorem bodyStep_noop (c : HttpContext) (s : Str) (h : c._recv_statu ≠ RECV_HTTP_BODY) :
    c.bodyStep s = .ok (c, s) := by
  simp only [HttpContext.bodyStep, h, ne_eq, not_false_eq_true, if_true]

theorem recvHttpRequest_chain (c : HttpContext) (buf : Buffer) :
    c.RecvHttpRequest buf =
      (c.RecvHttpLine buf).bind (fun r1 => (r1.2.1.RecvHttpHead r1.2.2).bind (fun r2 =>
        (r2.2.1.RecvHttpBody r2.2.2).bind (fun r3 => .ok (r3.2.1, r3.2.2)))) := by
  cases hs : c._recv_statu
  · simp [HttpContext.RecvHttpRequest, HttpContext.RecvHttpLine, HttpContext.RecvHttpHead,
      HttpContext.RecvHttpBody, hs, Except.bind, pure, Except.pure]
  · simp only [HttpContext.RecvHttpRequest, hs]
    rfl
  · simp only [HttpContext.RecvHttpRequest, HttpContext.RecvHttpLine, hs, ne_eq, reduceCtorEq,
      not_false_eq_true, if_true, Except.bind]
    rfl
  · simp only [HttpContext.RecvHttpRequest, HttpContext.RecvHttpLine, HttpContext.RecvHttpHead,
      hs, ne_eq, reduceCtorEq, not_false_eq_true, if_true, Except.bind]
    rfl
  · simp [HttpContext.RecvHttpRequest, HttpContext.RecvHttpLine, HttpContext.RecvHttpHead,
      HttpContext.RecvHttpBody, hs, Except.bind, pure, Except.pure]

theorem recvHttpRequest_stream (c : HttpContext) (buf : Buffer) (hwf : buf.WF) :
    (∀ e, c.recvStep buf.readable = .error e → c.RecvHttpRequest buf = .error e) ∧
    (∀ c2 s2, c.recvStep buf.readable = .ok (c2, s2) →
      ∃ b2, c.RecvHttpRequest buf = .ok (c2, b2) ∧ b2.WF ∧ b2.readable = s2) := by
  obtain ⟨ret1, b1, e1, w1, r1⟩ := recvHttpLine_stream c buf hwf
  obtain ⟨ret2, b2, e2, w2, r2⟩ := recvHttpHead_stream (c.lineStep buf.readable).1 b1 w1
  obtain ⟨k1, k2⟩ := recvHttpBody_stream ((c.lineStep buf.readable).1.headStep b1.readable).1 b2 w2
  rw [r1] at e2 k1 k2 r2
  rw [r2] at k1 k2
  rw [recvHttpRequest_chain, e1]
  simp only [Except.bind, e2]
  constructor
  · intro e h
    rw [k1 e h]
  · intro c2 s2 h
    obtain ⟨ret3, b3, e3, w3, r3⟩ := k2 c2 s2 h
    rw [e3]
    exact ⟨b3, rfl, w3, r3⟩

theorem feed_stream (c : HttpContext) (buf : Buffer) (chunk : Str) (hwf : buf.WF) :
    (∀ e, c.recvStep (buf.readable ++ chunk) = .error e → feed (c, buf) chunk = .error e) ∧
    (∀ c2 s2, c.recvStep (buf.readable ++ chunk) = .ok (c2, s2) →
      ∃ b2, feed (c, buf) chunk = .ok (c2, b2) ∧ b2.WF ∧ b2.readable = s2) := by
  obtain ⟨b1, e1, w1, r1⟩ := Buffer.writeAndPush_spec buf chunk hwf
  obtain ⟨k1, k2⟩ := recvHttpRequest_stream c b1 w1
  rw [r1] at k1 k2
  simp only [feed, e1, bind, Except.bind]
  exact ⟨k1, k2⟩

/-! ## Resuming the parser after more bytes have arrived -/

theorem parseQuery_flag (comps : List Str) : ∀ c : HttpContext,
    ((HttpContext.ParseQuery c comps).1 = false →
      (HttpContext.ParseQuery c comps).2._recv_statu = RECV_HTTP_ERROR) ∧
    (¬ (HttpContext.ParseQuery c comps).1 = false →
      (HttpContext.ParseQuery c comps).2._recv_statu = c._recv_statu) := by
  induction comps with
  | nil => intro c; simp [HttpContext.ParseQuery]
  | cons x xs ih =>
    intro c
    unfold HttpContext.ParseQuery
    split
    · simp [HttpContext.fail]
    · exact ih _

theorem parseHttpLine_flag (c : HttpContext) (line : Str) :
    ((c.ParseHttpLine line).1 = false →
      (c.ParseHttpLine line).2._recv_statu = RECV_HTTP_ERROR) ∧
    (¬ (c.ParseHttpLine line).1 = false →
      (c.ParseHttpLine line).2._recv_statu = c._recv_statu) := by
  unfold HttpContext.ParseHttpLine
  split
  · simp [HttpContext.fail]
  · exact parseQuery_flag _ _

theorem parseHttpHead_flag (c : HttpContext) (line : Str) :
    ((c.ParseHttpHead line).1 = false →
      (c.ParseHttpHead line).2._recv_statu = RECV_HTTP_ERROR) ∧
    (¬ (c.ParseHttpHead line).1 = false →
      (c.ParseHttpHead line).2._recv_statu = c._recv_statu) := by
  unfold HttpContext.ParseHttpHead
  simp only []
  split <;> simp [HttpContext.fail]

theorem cutLine_append (s t line rest : Str) (h : cutLine s = some (line, rest)) :
    cutLine (s ++ t) = some (line, rest ++ t) := by
  rcases cutLine_cases s with ⟨_, e⟩ | ⟨l0, rest0, hr, hn, e⟩
  · rw [e] at h; cases h
  · rw [e] at h
    injection h with h
    injection h with h1 h2
    subst h1 h2
    rw [hr, List.append_assoc, List.cons_append]
    exact cutLine_some l0 _ hn

theorem cutLine_length (s line rest : Str) (h : cutLine s = some (line, rest)) :
    s.length = line.length + rest.length ∧ 0 < line.length := by
  rcases cutLine_cases s with ⟨_, e⟩ | ⟨l0, rest0, hr, hn, e⟩
  · rw [e] at h; cases h
  · rw [e] at h
    injection h with h
    injection h with h1 h2
    subst h1 h2
    rw [hr]
    simp
    omega

theorem cutLine_short (p u line rest : Str) (h10 : (10 : Byte) ∉ p)
    (h : cutLine (p ++ u) = some (line, rest)) : p.length < line.length := by
  rcases cutLine_cases (p ++ u) with ⟨_, e⟩ | ⟨l0, rest0, hr, hn, e⟩
  · rw [e] at h; cases h
  · rw [e] at h
    injection h with h
    injection h with h1 h2
    subst h1 h2
    rcases List.append_eq_append_iff.1 hr with ⟨a, ha, _⟩ | ⟨a, ha, hb⟩
    · rw [ha]; simp
    · cases a with
      | nil => rw [ha]; simp
      | cons x a =>
        rw [List.cons_append] at hb
        injection hb with hb1 _
        exfalso
        apply h10
        rw [ha, ← hb1]
        simp

theorem lineStep_none (c : HttpContext) (s : Str) (hs : c._recv_statu = RECV_HTTP_LINE)
    (e : cutLine s = none) :
    c.lineStep s = if s.length > MAX_LINE then (c.fail 414, s) else (c, s) := by
  simp only [HttpContext.lineStep, hs, ne_eq, not_true_eq_false, if_false, e]

theorem lineStep_some (c : HttpContext) (s line rest : Str)
    (hs : c._recv_statu = RECV_HTTP_LINE) (e : cutLine s = some (line, rest)) :
    c.lineStep s =
      if line.length > MAX_LINE then (c.fail 414, rest)
      else if (c.ParseHttpLine line).1 = false then ((c.ParseHttpLine line).2, rest)
      else ({ (c.ParseHttpLine line).2 with _recv_statu := RECV_HTTP_HEAD }, rest) := by
  simp only [HttpContext.lineStep, hs, ne_eq, not_true_eq_false, if_false, e]

theorem headLoopStep_none (fuel : Nat) (c : HttpContext) (s : Str) (e : cutLine s = none) :
    HttpContext.headLoopStep (fuel + 1) c s =
      if s.length > MAX_LINE then (c.fail 414, s) else (c, s) := by
  simp only [HttpContext.headLoopStep, e]

theorem headLoopStep_some (fuel : Nat) (c : HttpContext) (s line rest : Str)
    (e : cutLine s = some (line, rest)) :
    HttpContext.headLoopStep (fuel + 1) c s =
      if line.length > MAX_LINE then (c.fail 414, rest)
      else if line = [10] ∨ line = [13, 10] then
        ({ c with _recv_statu := RECV_HTTP_BODY }, rest)
      else if (c.ParseHttpHead line).1 = false then ((c.ParseHttpHead line).2, rest)
      else HttpContext.headLoopStep fuel (c.ParseHttpHead line).2 rest := by
  simp only [HttpContext.headLoopStep, e]

theorem lineStep_state (c : HttpContext) (s : Str) :
    (c.lineStep s).1._recv_statu = c._recv_statu ∨
    (c.lineStep s).1._recv_statu = RECV_HTTP_ERROR ∨
    (c._recv_statu = RECV_HTTP_LINE ∧ (c.lineStep s).1._recv_statu = RECV_HTTP_HEAD) := by
  by_cases hs : c._recv_statu = RECV_HTTP_LINE
  · cases e : cutLine s with
    | none =>
      rw [lineStep_none c s hs e]
      split
      · exact Or.inr (Or.inl rfl)
      · exact Or.inl rfl
    | some r =>
      obtain ⟨line, rest⟩ := r
      rw [lineStep_some c s line rest hs e]
      split
      · exact Or.inr (Or.inl rfl)
      · split
        · rename_i hf
          exact Or.inr (Or.inl ((parseHttpLine_flag c line).1 hf))
        · exact Or.inr (Or.inr ⟨hs, rfl⟩)
  · rw [lineStep_noop c s hs]
    exact Or.inl rfl

theorem lineStep_resume (c : HttpContext) (s t : Str)
    (h : (c.lineStep s).1._recv_statu ≠ RECV_HTTP_ERROR) :
    c.lineStep (s ++ t) = (c.lineStep s).1.lineStep ((c.lineStep s).2 ++ t) := by
  by_cases hs : c._recv_statu = RECV_HTTP_LINE
  · cases e : cutLine s with
    | none =>
      rw [lineStep_none c s hs e] at h ⊢
      split at h
      · exact absurd rfl h
      · rename_i hlen
        rw [if_neg hlen]
    | some r =>
      obtain ⟨line, rest⟩ := r
      rw [lineStep_some c s line rest hs e] at h ⊢
      rw [lineStep_some c (s ++ t) line (rest ++ t) hs (cutLine_append s t line rest e)]
      split at h
      · exact absurd rfl h
      · rename_i h1
        rw [if_neg h1, if_neg h1]
        split at h
        · rename_i hf
          exact absurd ((parseHttpLine_flag c line).1 hf) h
        · rename_i h2
          rw [if_neg h2, if_neg h2]
          rw [lineStep_noop _ _ (by simp)]
  · rw [lineStep_noop c s hs, lineStep_noop c (s ++ t) hs]

theorem lineStep_prefix (c : HttpContext) (p u : Str)
    (h : (c.lineStep (p ++ u)).1._recv_statu ≠ RECV_HTTP_ERROR) :
    (c.lineStep p).1._recv_statu ≠ RECV_HTTP_ERROR := by
  by_cases hs : c._recv_statu = RECV_HTTP_LINE
  · cases e : cutLine p with
    | none =>
      have h10 : (10 : Byte) ∉ p := by
        rcases cutLine_cases p with ⟨a, _⟩ | ⟨_, _, _, _, e2⟩
        · exact a
        · rw [e] at e2; cases e2
      have hlen : ¬ p.length > MAX_LINE := by
        cases e2 : cutLine (p ++ u) with
        | none =>
          rw [lineStep_none c _ hs e2] at h
          split at h
          · exact absurd rfl h
          · rename_i hl
            simp only [List.length_append] at hl
            omega
        | some r =>
          obtain ⟨line, rest⟩ := r
          rw [lineStep_some c _ line rest hs e2] at h
          split at h
          · exact absurd rfl h
          · rename_i hl
            have := cutLine_short p u line rest h10 e2
            omega
      rw [lineStep_none c p hs e, if_neg hlen, hs]
      simp
    | some r =>
      obtain ⟨line, rest⟩ := r
      rw [lineStep_some c _ line (rest ++ u) hs (cutLine_append p u line rest e)] at h
      rw [lineStep_some c p line rest hs e]
      split at h
      · exact absurd rfl h
      · rename_i h1
        rw [if_neg h1]
        split at h
        · rename_i hf
          exact absurd ((parseHttpLine_flag c line).1 hf) h
        · rename_i h2
          rw [if_neg h2]
          simp
  · rw [lineStep_noop c _ hs] at h
    rw [lineStep_noop c _ hs]
    exact h

theorem headLoopStep_fuel : ∀ (f1 f2 : Nat) (c : HttpContext) (s : Str),
    s.length < f1 → s.length < f2 →
    HttpContext.headLoopStep f1 c s = HttpContext.headLoopStep f2 c s := by
  intro f1
  induction f1 with
  | zero => intro f2 c s h; omega
  | succ f1 ih =>
    intro f2 c s h1 h2
    cases f2 with
    | zero => omega
    | succ f2 =>
      cases e : cutLine s with
      | none => rw [headLoopStep_none f1 c s e, headLoopStep_none f2 c s e]
      | some r =>
        obtain ⟨line, rest⟩ := r
        rw [headLoopStep_some f1 c s line rest e, headLoopStep_some f2 c s line rest e]
        have hl := cutLine_length s line rest e
        rw [ih f2 (c.ParseHttpHead line).2 rest (by omega) (by omega)]

theorem headStep_eq (c : HttpContext) (s : Str) (fuel : Nat)
    (hs : c._recv_statu = RECV_HTTP_HEAD) (hf : s.length < fuel) :
    c.headStep s = HttpContext.headLoopStep fuel c s := by
  simp only [HttpContext.headStep, hs, ne_eq, not_true_eq_false, if_false]
  exact headLoopStep_fuel _ _ c s (by omega) hf

theorem headLoopStep_state : ∀ (fuel : Nat) (c : HttpContext) (s : Str),
    (HttpContext.headLoopStep fuel c s).1._recv_statu = c._recv_statu ∨
    (HttpContext.headLoopStep fuel c s).1._recv_statu = RECV_HTTP_ERROR ∨
    (HttpContext.headLoopStep fuel c s).1._recv_statu = RECV_HTTP_BODY := by
  intro fuel
  induction fuel with
  | zero => intro c s; exact Or.inl rfl
  | succ fuel ih =>
    intro c s
    cases e : cutLine s with
    | none =>
      rw [headLoopStep_none fuel c s e]
      split
      · exact Or.inr (Or.inl rfl)
      · exact Or.inl rfl
    | some r =>
      obtain ⟨line, rest⟩ := r
      rw [headLoopStep_some fuel c s line rest e]
      split
      · exact Or.inr (Or.inl rfl)
      · split
        · exact Or.inr (Or.inr rfl)
        · split
          · rename_i hf
            exact Or.inr (Or.inl ((parseHttpHead_flag c line).1 hf))
          · rename_i hf
            rcases ih (c.ParseHttpHead line).2 rest with k | k | k
            · exact Or.inl (by rw [k, (parseHttpHead_flag c line).2 hf])
            · exact Or.inr (Or.inl k)
            · exact Or.inr (Or.inr k)

theorem headStep_state (c : HttpContext) (s : Str) :
    (c.headStep s).1._recv_statu = c._recv_statu ∨
    (c.headStep s).1._recv_statu = RECV_HTTP_ERROR ∨
    (c._recv_statu = RECV_HTTP_HEAD ∧ (c.headStep s).1._recv_statu = RECV_HTTP_BODY) := by
  by_cases hs : c._recv_statu = RECV_HTTP_HEAD
  · rw [headStep_eq c s _ hs (Nat.lt_succ_self _)]
    rcases headLoopStep_state (s.length + 1) c s with k | k | k
    · exact Or.inl k
    · exact Or.inr (Or.inl k)
    · exact Or.inr (Or.inr ⟨hs, k⟩)
  · rw [headStep_noop c s hs]
    exact Or.inl rfl

theorem headLoopStep_resume : ∀ (fuel : Nat) (c : HttpContext) (s t : Str),
    c._recv_statu = RECV_HTTP_HEAD → s.length < fuel →
    (HttpContext.headLoopStep fuel c s).1._recv_statu ≠ RECV_HTTP_ERROR →
    c.headStep (s ++ t) = (HttpContext.headLoopStep fuel c s).1.headStep
      ((HttpContext.headLoopStep fuel c s).2 ++ t) := by
  intro fuel
  induction fuel with
  | zero => intro c s t _ h; omega
  | succ fuel ih =>
    intro c s t hs hf h
    cases e : cutLine s with
    | none =>
      rw [headLoopStep_none fuel c s e] at h ⊢
      split at h
      · exact absurd rfl h
      · rename_i hlen
        rw [if_neg hlen]
    | some r =>
      obtain ⟨line, rest⟩ := r
      have hl := cutLine_length s line rest e
      rw [headLoopStep_some fuel c s line rest e] at h ⊢
      rw [headStep_eq c (s ++ t) ((s ++ t).length + 1) hs (Nat.lt_succ_self _),
        headLoopStep_some _ c (s ++ t) line (rest ++ t) (cutLine_append s t line rest e)]
      split at h
      · exact absurd rfl h
      · rename_i h1
        rw [if_neg h1, if_neg h1]
        split at h
        · rename_i h2
          rw [if_pos h2, if_pos h2, headStep_noop _ _ (by simp)]
        · rename_i h2
          rw [if_neg h2, if_neg h2]
          split at h
          · rename_i hf2
            exact absurd ((parseHttpHead_flag c line).1 hf2) h
          · rename_i h3
            rw [if_neg h3, if_neg h3]
            have hs2 : (c.ParseHttpHead line).2._recv_statu = RECV_HTTP_HEAD := by
              rw [(parseHttpHead_flag c line).2 h3, hs]
            rw [← ih (c.ParseHttpHead line).2 rest t hs2 (by omega) h]
            rw [headStep_eq _ (rest ++ t) (s ++ t).length hs2
              (by simp only [List.length_append]; omega)]

theorem headStep_resume (c : HttpContext) (s t : Str)
    (h : (c.headStep s).1._recv_statu ≠ RECV_HTTP_ERROR) :
    c.headStep (s ++ t) = (c.headStep s).1.headStep ((c.headStep s).2 ++ t) := by
  by_cases hs : c._recv_statu = RECV_HTTP_HEAD
  · rw [headStep_eq c s _ hs (Nat.lt_succ_self _)] at h ⊢
    exact headLoopStep_resume _ c s t hs (Nat.lt_succ_self _) h
  · rw [headStep_noop c s hs]

theorem headLoopStep_prefix : ∀ (fuel : Nat) (c : HttpContext) (p u : Str),
    c._recv_statu = RECV_HTTP_HEAD → p.length < fuel →
    (c.headStep (p ++ u)).1._recv_statu ≠ RECV_HTTP_ERROR →
    (HttpContext.headLoopStep fuel c p).1._recv_statu ≠ RECV_HTTP_ERROR := by
  intro fuel
  induction fuel with
  | zero => intro c p u _ h; omega
  | succ fuel ih =>
    intro c p u hs hf h
    rw [headStep_eq c (p ++ u) ((p ++ u).length + 1) hs (Nat.lt_succ_self _)] at h
    cases e : cutLine p with
    | none =>
      have h10 : (10 : Byte) ∉ p := by
        rcases cutLine_cases p with ⟨a, _⟩ | ⟨_, _, _, _, e2⟩
        · exact a
        · rw [e] at e2; cases e2
      have hlen : ¬ p.length > MAX_LINE := by
        cases e2 : cutLine (p ++ u) with
        | none =>
          rw [headLoopStep_none _ c _ e2] at h
          split at h
          · exact absurd rfl h
          · rename_i hl
            simp only [List.length_append] at hl
            omega
        | some r =>
          obtain ⟨line, rest⟩ := r
          rw [headLoopStep_some _ c _ line rest e2] at h
          split at h
          · exact absurd rfl h
          · rename_i hl
            have := cutLine_short p u line rest h10 e2
            omega
      rw [headLoopStep_none fuel c p e, if_neg hlen, hs]
      simp
    | some r =>
      obtain ⟨line, rest⟩ := r
      have hl := cutLine_length p line rest e
      rw [headLoopStep_some _ c _ line (rest ++ u) (cutLine_append p u line rest e)] at h
      rw [headLoopStep_some fuel c p line rest e]
      split at h
      · exact absurd rfl h
      · rename_i h1
        rw [if_neg h1]
        split at h
        · rename_i h2
          rw [if_pos h2]
          simp
        · rename_i h2
          rw [if_neg h2]
          split at h
          · rename_i hf2
            exact absurd ((parseHttpHead_flag c line).1 hf2) h
          · rename_i h3
            rw [if_neg h3]
            have hs2 : (c.ParseHttpHead line).2._recv_statu = RECV_HTTP_HEAD := by
              rw [(parseHttpHead_flag c line).2 h3, hs]
            apply ih (c.ParseHttpHead line).2 rest u hs2 (by omega)
            rw [headStep_eq _ (rest ++ u) (p ++ u).length hs2
              (by simp only [List.length_append]; omega)]
            exact h

theorem headStep_prefix (c : HttpContext) (p u : Str)
    (h : (c.headStep (p ++ u)).1._recv_statu ≠ RECV_HTTP_ERROR) :
    (c.headStep p).1._recv_statu ≠ RECV_HTTP_ERROR := by
  by_cases hs : c._recv_statu = RECV_HTTP_HEAD
  · rw [headStep_eq c p _ hs (Nat.lt_succ_self _)]
    exact headLoopStep_prefix _ c p u hs (Nat.lt_succ_self _) h
  · rw [headStep_noop c _ hs] at h
    rw [headStep_noop c _ hs]
    exact h

theorem bodyStep_state (c c1 : HttpContext) (s s1 : Str) (h : c.bodyStep s = .ok (c1, s1)) :
    c1._recv_statu = c._recv_statu ∨
    (c._recv_statu = RECV_HTTP_BODY ∧ c1._recv_statu = RECV_HTTP_OVER) := by
  by_cases hs : c._recv_statu = RECV_HTTP_BODY
  · simp only [HttpContext.bodyStep, hs, ne_eq, not_true_eq_false, if_false] at h
    cases hcl : c._request.ContentLength with
    | error x => rw [hcl] at h; cases h
    | ok n =>
      rw [hcl] at h
      dsimp only at h
      split at h
      · injection h with h
        injection h with h1 _
        subst h1
        exact Or.inr ⟨hs, rfl⟩
      · split at h
        · injection h with h
          injection h with h1 _
          subst h1
          exact Or.inr ⟨hs, rfl⟩
        · injection h with h
          injection h with h1 _
          subst h1
          exact Or.inl hs.symm
  · rw [bodyStep_noop c s hs] at h
    injection h with h
    injection h with h1 _
    subst h1
    exact Or.inl rfl

theorem bodyStep_prefix (c c3 : HttpContext) (p u s3 : Str)
    (h : c.bodyStep (p ++ u) = .ok (c3, s3)) : ∃ c1 s1, c.bodyStep p = .ok (c1, s1) := by
  by_cases hs : c._recv_statu = RECV_HTTP_BODY
  · simp only [HttpContext.bodyStep, hs, ne_eq, not_true_eq_false, if_false] at h ⊢
    cases hcl : c._request.ContentLength with
    | error x => rw [hcl] at h; cases h
    | ok n =>
      dsimp only
      split
      · exact ⟨_, _, rfl⟩
      · split
        · exact ⟨_, _, rfl⟩
        · exact ⟨_, _, rfl⟩
  · rw [bodyStep_noop c p hs]
    exact ⟨_, _, rfl⟩

theorem bodyStep_resume (c c1 : HttpContext) (s s1 t : Str)
    (h : c.bodyStep s = .ok (c1, s1)) : c.bodyStep (s ++ t) = c1.bodyStep (s1 ++ t) := by
  by_cases hs : c._recv_statu = RECV_HTTP_BODY
  · simp only [HttpContext.bodyStep, hs, ne_eq, not_true_eq_false, if_false] at h ⊢
    cases hcl : c._request.ContentLength with
    | error x => rw [hcl] at h; cases h
    | ok n =>
      rw [hcl] at h
      dsimp only at h ⊢
      have h64 : (2 : Nat) ^ 64 = 18446744073709551616 := by norm_num
      by_cases h0 : n = 0
      · rw [if_pos h0] at h ⊢
        injection h with h
        injection h with h1 h2
        subst h1 h2
        simp
      · rw [if_neg h0] at h ⊢
        by_cases hge : s.length ≥ (n + 2 ^ 64 - c._request._body.length) % 2 ^ 64
        · rw [if_pos hge] at h
          rw [if_pos (by simp only [List.length_append]; omega)]
          injection h with h
          injection h with h1 h2
          subst h1 h2
          rw [List.take_append_of_le_length hge, List.drop_append_of_le_length hge]
          simp
        · rw [if_neg hge] at h
          injection h with h
          injection h with h1 h2
          subst h1 h2
          have hcl2 : ({ c._request with _body := c._request._body ++ s } :
              HttpRequest).ContentLength = .ok n := hcl
          simp only [hs, ne_eq, not_true_eq_false, if_false, hcl2, h0, List.nil_append,
            List.length_append]
          have hr : (n + 2 ^ 64 - (c._request._body.length + s.length)) % 2 ^ 64 =
              (n + 2 ^ 64 - c._request._body.length) % 2 ^ 64 - s.length := by
            rw [h64] at hge ⊢
            omega
          rw [hr]
          by_cases hge2 : s.length + t.length ≥
              (n + 2 ^ 64 - c._request._body.length) % 2 ^ 64
          · rw [if_pos hge2, if_pos (by omega)]
            rw [List.take_append_eq_append_take, List.drop_append_eq_append_drop,
              List.take_of_length_le (by omega), List.drop_of_length_le (by omega)]
            simp
          · rw [if_neg hge2, if_neg (by omega)]
            simp
  · rw [bodyStep_noop c s hs] at h
    injection h with h
    injection h with h1 h2
    subst h1 h2
    rfl

theorem recvStep_eq (c : HttpContext) (s : Str) :
    c.recvStep s = ((c.lineStep s).1.headStep (c.lineStep s).2).1.bodyStep
      ((c.lineStep s).1.headStep (c.lineStep s).2).2 := rfl

theorem recvStep_line (c : HttpContext) (s : Str)
    (h : (c.lineStep s).1._recv_statu = RECV_HTTP_LINE) :
    c.recvStep s = .ok (c.lineStep s) := by
  rw [recvStep_eq, headStep_noop _ _ (by rw [h]; simp), bodyStep_noop _ _ (by rw [h]; simp)]

theorem recvStep_head (c : HttpContext) (s : Str) (h : c._recv_statu = RECV_HTTP_HEAD) :
    c.recvStep s = (c.headStep s).1.bodyStep (c.headStep s).2 := by
  rw [recvStep_eq, lineStep_noop c s (by rw [h]; simp)]

theorem recvStep_body (c : HttpContext) (s : Str)
    (h1 : c._recv_statu ≠ RECV_HTTP_LINE) (h2 : c._recv_statu ≠ RECV_HTTP_HEAD) :
    c.recvStep s = c.bodyStep s := by
  rw [recvStep_eq, lineStep_noop c s h1, headStep_noop c s h2]

theorem recvStep_error (c : HttpContext) (s : Str) (h : c._recv_statu = RECV_HTTP_ERROR) :
    c.recvStep s = .ok (c, s) := by
  rw [recvStep_body c s (by rw [h]; simp) (by rw [h]; simp), bodyStep_noop c s (by rw [h]; simp)]

theorem recvStep_over (c : HttpContext) (s : Str) (h : c._recv_statu = RECV_HTTP_OVER) :
    c.recvStep s = .ok (c, s) := by
  rw [recvStep_body c s (by rw [h]; simp) (by rw [h]; simp), bodyStep_noop c s (by rw [h]; simp)]

theorem recvStep_stages (c c3 : HttpContext) (s s3 : Str) (h : c.recvStep s = .ok (c3, s3))
    (hne : c3._recv_statu ≠ RECV_HTTP_ERROR) :
    (c.lineStep s).1._recv_statu ≠ RECV_HTTP_ERROR ∧
    ((c.lineStep s).1.headStep (c.lineStep s).2).1._recv_statu ≠ RECV_HTTP_ERROR := by
  rw [recvStep_eq] at h
  have h2 : ((c.lineStep s).1.headStep (c.lineStep s).2).1._recv_statu ≠ RECV_HTTP_ERROR := by
    intro e
    rw [bodyStep_noop _ _ (by rw [e]; simp)] at h
    injection h with h
    injection h with h1 _
    rw [← h1] at hne
    exact hne e
  refine ⟨?_, h2⟩
  intro e
  rw [headStep_noop _ _ (by rw [e]; simp)] at h2
  exact h2 e

theorem recvStep_resume (c c3 : HttpContext) (s s3 t : Str) (h : c.recvStep s = .ok (c3, s3))
    (hne : c3._recv_statu ≠ RECV_HTTP_ERROR) : c.recvStep (s ++ t) = c3.recvStep (s3 ++ t) := by
  obtain ⟨n1, n2⟩ := recvStep_stages c c3 s s3 h hne
  have l1 := lineStep_resume c s t n1
  by_cases p1 : (c.lineStep s).1._recv_statu = RECV_HTTP_LINE
  · rw [recvStep_line c s p1] at h
    injection h with h
    rw [recvStep_eq, l1, h]
    rfl
  · rw [lineStep_noop _ _ p1] at l1
    have l2 := headStep_resume (c.lineStep s).1 (c.lineStep s).2 t n2
    rw [recvStep_eq] at h
    by_cases p2 : ((c.lineStep s).1.headStep (c.lineStep s).2).1._recv_statu = RECV_HTTP_HEAD
    · rw [bodyStep_noop _ _ (by rw [p2]; simp)] at h
      injection h with h
      injection h with h1 h2
      rw [recvStep_eq c (s ++ t), l1]
      dsimp only
      rw [l2, h1, h2]
      have p3 : c3._recv_statu = RECV_HTTP_HEAD := by rw [← h1]; exact p2
      rw [recvStep_head c3 _ p3]
    · rw [headStep_noop _ _ p2] at l2
      have l3 := bodyStep_resume _ c3 _ s3 t h
      rw [recvStep_eq c (s ++ t), l1]
      dsimp only
      rw [l2]
      dsimp only
      rw [l3]
      have q1 : ((c.lineStep s).1.headStep (c.lineStep s).2).1._recv_statu ≠ RECV_HTTP_LINE := by
        rcases headStep_state (c.lineStep s).1 (c.lineStep s).2 with k | k | ⟨_, k⟩
        · rw [k]; exact p1
        · rw [k]; simp
        · rw [k]; simp
      have q3 : c3._recv_statu ≠ RECV_HTTP_LINE ∧ c3._recv_statu ≠ RECV_HTTP_HEAD := by
        rcases bodyStep_state _ c3 _ s3 h with k | ⟨_, k⟩
        · rw [k]; exact ⟨q1, p2⟩
        · rw [k]; simp
      rw [recvStep_body c3 _ q3.1 q3.2]

theorem recvStep_prefix (c c3 : HttpContext) (p u s3 : Str)
    (h : c.recvStep (p ++ u) = .ok (c3, s3)) (hne : c3._recv_statu ≠ RECV_HTTP_ERROR) :
    ∃ c1 s1, c.recvStep p = .ok (c1, s1) ∧ c1._recv_statu ≠ RECV_HTTP_ERROR := by
  obtain ⟨n1, n2⟩ := recvStep_stages c c3 (p ++ u) s3 h hne
  have m1 := lineStep_prefix c p u n1
  have l1 := lineStep_resume c p u m1
  by_cases p1 : (c.lineStep p).1._recv_statu = RECV_HTTP_LINE
  · exact ⟨_, _, recvStep_line c p p1, m1⟩
  · rw [lineStep_noop _ _ p1] at l1
    rw [l1] at n2
    dsimp only at n2
    have m2 := headStep_prefix _ _ _ n2
    have l2 := headStep_resume (c.lineStep p).1 (c.lineStep p).2 u m2
    by_cases p2 : ((c.lineStep p).1.headStep (c.lineStep p).2).1._recv_statu = RECV_HTTP_HEAD
    · refine ⟨((c.lineStep p).1.headStep (c.lineStep p).2).1,
        ((c.lineStep p).1.headStep (c.lineStep p).2).2, ?_, m2⟩
      rw [recvStep_eq, bodyStep_noop _ _ (by rw [p2]; simp)]
    · rw [headStep_noop _ _ p2] at l2
      rw [recvStep_eq, l1] at h
      dsimp only at h
      rw [l2] at h
      dsimp only at h
      obtain ⟨c1, s1, e⟩ := bodyStep_prefix _ c3 _ u s3 h
      refine ⟨c1, s1, by rw [recvStep_eq]; exact e, ?_⟩
      rcases bodyStep_state _ c1 _ s1 e with k | ⟨_, k⟩
      · rw [k]; exact m2
      · rw [k]; simp

/-! ## Feeding a stream in chunks -/

theorem Buffer.new_spec : Buffer.new.WF ∧ Buffer.new.readable = [] := by
  constructor
  · simp [Buffer.WF, Buffer.new]
  · simp [Buffer.readable, Buffer.peek, Buffer.ReadAbleSize, Buffer.new]

theorem recvStep_new_nil : HttpContext.new.recvStep [] = .ok (HttpContext.new, []) := by
  have h : HttpContext.new.lineStep [] = (HttpContext.new, []) := by
    rw [lineStep_none HttpContext.new [] rfl (cutLine_none [] (by simp))]
    simp [MAX_LINE]
  rw [recvStep_line HttpContext.new [] (by rw [h]; rfl), h]

theorem recvStep_idem (c c3 : HttpContext) (s s3 : Str) (h : c.recvStep s = .ok (c3, s3))
    (hne : c3._recv_statu ≠ RECV_HTTP_ERROR) : c3.recvStep s3 = .ok (c3, s3) := by
  have := recvStep_resume c c3 s s3 [] h hne
  rw [List.append_nil, List.append_nil, h] at this
  exact this.symm

theorem feedAll_stream (chunks : List Str) : ∀ (c0 c : HttpContext) (b0 : Buffer) (sf : Str),
    b0.WF → c0.recvStep b0.readable = .ok (c0, b0.readable) →
    c0.recvStep (b0.readable ++ chunks.flatten) = .ok (c, sf) →
    c._recv_statu ≠ RECV_HTTP_ERROR →
    ∃ b2, feedAll (c0, b0) chunks = .ok (c, b2) ∧ b2.WF ∧ b2.readable = sf := by
  induction chunks with
  | nil =>
    intro c0 c b0 sf hwf hid h _
    rw [List.flatten_nil, List.append_nil, hid] at h
    injection h with h
    injection h with h1 h2
    subst h1 h2
    exact ⟨b0, rfl, hwf, rfl⟩
  | cons t ts ih =>
    intro c0 c b0 sf hwf _ h hne
    rw [List.flatten_cons, ← List.append_assoc] at h
    obtain ⟨c1, s1, e1, ne1⟩ := recvStep_prefix c0 c _ _ sf h hne
    obtain ⟨b1, f1, w1, r1⟩ := (feed_stream c0 b0 t hwf).2 c1 s1 e1
    have hres := recvStep_resume c0 c1 _ s1 ts.flatten e1 ne1
    rw [h] at hres
    have hid1 := recvStep_idem c0 c1 _ s1 e1 ne1
    rw [← r1] at hid1 hres
    obtain ⟨b2, f2, w2, r2⟩ := ih c1 c b1 sf w1 hid1 hres.symm hne
    refine ⟨b2, ?_, w2, r2⟩
    simp only [feedAll, f1, bind, Except.bind]
    exact f2

theorem feed_new_stream (stream : Str) (c : HttpContext) (b : Buffer)
    (h : feed (HttpContext.new, Buffer.new) stream = .ok (c, b)) :
    HttpContext.new.recvStep stream = .ok (c, b.readable) := by
  obtain ⟨k1, k2⟩ := feed_stream HttpContext.new Buffer.new stream Buffer.new_spec.1
  rw [Buffer.new_spec.2, List.nil_append] at k1 k2
  cases e : HttpContext.new.recvStep stream with
  | error x => rw [k1 x e] at h; cases h
  | ok r =>
    obtain ⟨c2, s2⟩ := r
    obtain ⟨b2, f, _, r2⟩ := k2 c2 s2 e
    rw [f] at h
    injection h with h
    injection h with h1 h2
    subst h1 h2
    rw [r2]

/-! ## A whole request at the front of the unread bytes -/

theorem cutLine_complete (line rest : Str) (h : CompleteLine line) :
    cutLine (line ++ rest) = some (line, rest) := by
  obtain ⟨l0, rfl, hn⟩ := h
  rw [List.append_assoc, List.singleton_append]
  exact cutLine_some l0 rest hn

theorem lineStep_accept (c : HttpContext) (line rest m p : Str) (q : Option Str) (v eol : Str)
    (hs : c._recv_statu = RECV_HTTP_LINE) (hline : CompleteLine line)
    (hlen : line.length ≤ 8192) (hparts : RequestLineParts line m p q v eol)
    (hq : ∀ comp ∈ queryComponents q, (61 : Byte) ∈ comp) :
    c.lineStep (line ++ rest) =
      ({ c.withLine m p q v with _recv_statu := RECV_HTTP_HEAD }, rest) := by
  rw [lineStep_some c _ line rest hs (cutLine_complete line rest hline),
    parseHttpLine_ok c line m p q v eol hparts hq]
  rw [if_neg (by simp only [MAX_LINE]; omega)]
  simp

theorem requestHeaderLine_facts (h key val : Str) (hh : RequestHeaderLine h key val) :
    CompleteLine h ∧ h ≠ [10] ∧ h ≠ [13, 10] ∧
    ∀ c : HttpContext, c.ParseHttpHead h =
      (true, { c with _request := c._request.SetHeader key val }) := by
  obtain ⟨eol, rfl, hfirst, hk, hv, heol⟩ := hh
  have hlen : 3 ≤ (key ++ bytes ": " ++ val ++ eol).length := by
    have : (bytes ": ").length = 2 := by decide
    have : 1 ≤ eol.length := by
      rcases heol with e | ⟨e, _⟩ <;> rw [e] <;> simp
    simp only [List.length_append]
    omega
  have hsep : (10 : Byte) ∉ bytes ": " := by decide
  refine ⟨?_, ?_, ?_, fun c => parseHttpHead_sep c key val eol hfirst heol⟩
  · rcases heol with e | ⟨e, _⟩
    · refine ⟨key ++ bytes ": " ++ val ++ [13], by rw [e]; simp, ?_⟩
      simp only [List.mem_append, not_or]
      exact ⟨⟨⟨hk, hsep⟩, hv⟩, by decide⟩
    · refine ⟨key ++ bytes ": " ++ val, by rw [e], ?_⟩
      simp only [List.mem_append, not_or]
      exact ⟨⟨hk, hsep⟩, hv⟩
  · intro e
    rw [e] at hlen
    simp at hlen
  · intro e
    rw [e] at hlen
    simp at hlen

theorem headStep_headers (hs : List Str) (kvs : List (Str × Str))
    (hhs : List.Forall₂ (fun h kv => RequestHeaderLine h kv.1 kv.2 ∧ h.length ≤ 8192) hs kvs) :
    ∀ (c : HttpContext) (rest : Str), c._recv_statu = RECV_HTTP_HEAD →
    c.headStep (hs.flatten ++ rest) =
      ({ c with _request :=
          { c._request with
            _headers := kvs.foldl (fun m kv => m.insert kv.1 kv.2) c._request._headers } } :
        HttpContext).headStep rest := by
  induction hhs with
  | nil => intro c rest _; rfl
  | @cons h kv hs kvs hd _ ih =>
    intro c rest hst
    obtain ⟨hline, hlen⟩ := hd
    obtain ⟨hcl, hb1, hb2, hparse⟩ := requestHeaderLine_facts h kv.1 kv.2 hline
    rw [List.flatten_cons, List.append_assoc,
      headStep_eq c _ ((h ++ (hs.flatten ++ rest)).length + 1) hst (Nat.lt_succ_self _),
      headLoopStep_some _ c _ h _ (cutLine_complete h _ hcl)]
    rw [if_neg (by simp only [MAX_LINE]; omega), if_neg (by simp [hb1, hb2]), hparse c]
    simp only [Bool.true_eq_false, if_false]
    have hl := (cutLine_length _ h _ (cutLine_complete h (hs.flatten ++ rest) hcl)).2
    rw [← headStep_eq ({ c with _request := c._request.SetHeader kv.1 kv.2 })
      (hs.flatten ++ rest) (h ++ (hs.flatten ++ rest)).length hst
      (by simp only [List.length_append] at hl ⊢; omega)]
    exact ih ({ c with _request := c._request.SetHeader kv.1 kv.2 }) rest hst

theorem headStep_blank (c : HttpContext) (blank rest : Str)
    (hs : c._recv_statu = RECV_HTTP_HEAD) (hblank : blank = [10] ∨ blank = [13, 10]) :
    c.headStep (blank ++ rest) = ({ c with _recv_statu := RECV_HTTP_BODY }, rest) := by
  have hcl : CompleteLine blank := by
    rcases hblank with e | e
    · exact ⟨[], by rw [e]; rfl, by simp⟩
    · exact ⟨[13], by rw [e]; rfl, by decide⟩
  rw [headStep_eq c _ ((blank ++ rest).length + 1) hs (Nat.lt_succ_self _),
    headLoopStep_some _ c _ blank rest (cutLine_complete blank rest hcl)]
  have hlen : ¬ blank.length > MAX_LINE := by
    rcases hblank with e | e <;> rw [e] <;> simp [MAX_LINE]
  rw [if_neg hlen, if_pos hblank]

theorem bodyStep_exact (c : HttpContext) (body t : Str) (n : Nat)
    (hs : c._recv_statu = RECV_HTTP_BODY) (hb : c._request._body = [])
    (hcl : ContentLengthIs c._request._headers n) (hn : n < 2 ^ 63) (hbody : body.length = n) :
    c.bodyStep (body ++ t) =
      .ok ({ c with _request := { c._request with _body := body },
                    _recv_statu := RECV_HTTP_OVER }, t) := by
  have h63 : (2 : Nat) ^ 63 = 9223372036854775808 := by norm_num
  have h64 : (2 : Nat) ^ 64 = 18446744073709551616 := by norm_num
  have hc : c._request.ContentLength = .ok n := by
    rw [contentLength_of c._request n hcl, if_neg (by omega)]
  simp only [HttpContext.bodyStep, hs, ne_eq, not_true_eq_false, if_false, hc]
  rw [hb]
  by_cases h0 : n = 0
  · rw [if_pos h0]
    have : body = [] := List.length_eq_zero.1 (by omega)
    subst this
    cases c with
    | mk a b r =>
      cases r
      simp only at hb
      simp [hb]
  · rw [if_neg h0]
    have hr : (n + 2 ^ 64 - ([] : Str).length) % 2 ^ 64 = body.length := by
      rw [h64, hbody, List.length_nil]
      rw [h63] at hn
      omega
    rw [hr, if_pos (by rw [List.length_append]; omega), List.take_left' rfl,
      List.drop_left' rfl, List.nil_append]

/-! ## The invariant of the buffer -/

theorem Buffer.write_spec (b : Buffer) (data : Str) (hwf : b.WF) :
    (b.Write data).WF ∧ (b.Write data).readable = b.readable ∧
      data.length ≤ (b.Write data).TailIdleSize := by
  unfold Buffer.Write
  by_cases hd : data.length = 0
  · rw [if_pos hd]
    exact ⟨hwf, rfl, by omega⟩
  · rw [if_neg hd]
    obtain ⟨⟨w1, w2⟩, hrd, htail⟩ := Buffer.ensureWriteSpace_spec b data.length hwf
    generalize b.EnsureWriteSpace data.length = b1 at w1 w2 hrd htail
    simp only [Buffer.TailIdleSize] at htail
    have hlen : (copyInto b1._buffer b1._writer_idx data).length = b1._buffer.length := by
      simp [copyInto]; omega
    refine ⟨⟨w1, by simp only [hlen]; exact w2⟩, ?_, ?_⟩
    · rw [← hrd]
      simp only [Buffer.readable, Buffer.peek, Buffer.ReadAbleSize, copyInto]
      rw [List.append_assoc, List.drop_append_of_le_length (by simp; omega),
        List.take_append_of_le_length (by simp; omega), List.drop_take, List.take_take]
      congr 1
      omega
    · simp only [Buffer.TailIdleSize, hlen]
      exact htail

theorem Buffer.apply_wf (b b2 : Buffer) (op : BufferOp) (hwf : b.WF)
    (h : b.apply op = .ok b2) : b2.WF := by
  obtain ⟨h1, h2⟩ := hwf
  cases op with
  | MoveReadOffset len =>
    simp only [Buffer.apply, Buffer.MoveReadOffset] at h
    split at h
    · cases h; exact ⟨h1, h2⟩
    · split at h
      · rename_i hl
        cases h
        simp only [Buffer.ReadAbleSize] at hl
        exact ⟨by simp only; omega, h2⟩
      · cases h
  | MoveWriteOffset len =>
    simp only [Buffer.apply, Buffer.MoveWriteOffset] at h
    split at h
    · rename_i hl
      cases h
      simp only [Buffer.TailIdleSize] at hl
      exact ⟨by simp only; omega, by simp only; omega⟩
    · cases h
  | EnsureWriteSpace len =>
    simp only [Buffer.apply] at h
    cases h
    exact (Buffer.ensureWriteSpace_spec b len ⟨h1, h2⟩).1
  | Write data =>
    simp only [Buffer.apply] at h
    cases h
    exact (Buffer.write_spec b data ⟨h1, h2⟩).1
  | WriteAndPush data =>
    simp only [Buffer.apply] at h
    obtain ⟨b3, e, w3, _⟩ := Buffer.writeAndPush_spec b data ⟨h1, h2⟩
    rw [e] at h
    cases h
    exact w3
  | Read len =>
    simp only [Buffer.apply] at h
    cases hr : b.Read len with
    | error x => rw [hr] at h; cases h
    | ok s => rw [hr] at h; cases h; exact ⟨h1, h2⟩
  | ReadAndPop len =>
    simp only [Buffer.apply] at h
    by_cases hl : len ≤ b.ReadAbleSize
    · rw [Buffer.readAndPop_spec b len hl] at h
      cases h
      exact (Buffer.advance_spec b len ⟨h1, h2⟩ hl).1
    · simp only [Buffer.ReadAndPop, hl, if_false, Except.map] at h
      cases h
  | GetLine =>
    simp only [Buffer.apply] at h
    cases hr : b.GetLine with
    | error x => rw [hr] at h; cases h
    | ok s => rw [hr] at h; cases h; exact ⟨h1, h2⟩
  | GetLineAndPop =>
    simp only [Buffer.apply] at h
    rcases cutLine_cases b.readable with ⟨hn, _⟩ | ⟨l0, rest, hr, hn, _⟩
    · rw [Buffer.getLineAndPop_none b hn] at h
      cases h
      exact ⟨h1, h2⟩
    · rw [Buffer.getLineAndPop_line b l0 rest ⟨h1, h2⟩ hr hn] at h
      cases h
      have := (Buffer.advance_line b l0 rest ⟨h1, h2⟩ hr).1
      simpa using this
  | Clear =>
    simp only [Buffer.apply] at h
    cases h
    exact ⟨Nat.le_refl _, Nat.zero_le _⟩

theorem Buffer.apply_returns (b : Buffer) (op : BufferOp) (hwf : b.WF) (hpre : op.Pre b) :
    ∃ b2, b.apply op = .ok b2 := by
  cases op with
  | MoveReadOffset len => exact ⟨_, Buffer.moveReadOffset_eq b len hpre⟩
  | MoveWriteOffset len =>
    have hp : len ≤ b.TailIdleSize := hpre
    exact ⟨{ b with _writer_idx := b._writer_idx + len },
      by simp only [Buffer.apply, Buffer.MoveWriteOffset, hp, if_true]⟩
  | EnsureWriteSpace len => exact ⟨_, rfl⟩
  | Write data => exact ⟨_, rfl⟩
  | WriteAndPush data =>
    obtain ⟨b3, e, _, _⟩ := Buffer.writeAndPush_spec b data hwf
    exact ⟨b3, e⟩
  | Read len =>
    have hp : len ≤ b.ReadAbleSize := hpre
    exact ⟨b, by simp only [Buffer.apply, Buffer.Read, hp, if_true, Except.map]⟩
  | ReadAndPop len =>
    have hp : len ≤ b.ReadAbleSize := hpre
    exact ⟨b.advance len,
      by simp only [Buffer.apply, Buffer.readAndPop_spec b len hp, Except.map]⟩
  | GetLine =>
    refine ⟨b, ?_⟩
    simp only [Buffer.apply]
    rcases cutLine_cases b.readable with ⟨hn, _⟩ | ⟨l0, rest, hr, hn, _⟩
    · have : b.FindCRLF = none := (memchr_none 10 _).2 hn
      simp only [Buffer.GetLine, this, Except.map]
    · have hf : b.FindCRLF = some l0.length := by
        simp only [Buffer.FindCRLF]
        have : b.peek b.ReadAbleSize = b.readable := rfl
        rw [this, hr]
        exact memchr_first 10 l0 rest hn
      have hle : l0.length + 1 ≤ b.ReadAbleSize := by
        rw [Buffer.readAbleSize_eq b hwf, hr]
        simp
      simp only [Buffer.GetLine, hf, Buffer.Read, hle, if_true, Except.map]
  | GetLineAndPop =>
    simp only [Buffer.apply]
    rcases cutLine_cases b.readable with ⟨hn, _⟩ | ⟨l0, rest, hr, hn, _⟩
    · exact ⟨_, by rw [Buffer.getLineAndPop_none b hn]; rfl⟩
    · exact ⟨_, by rw [Buffer.getLineAndPop_line b l0 rest hwf hr hn]; rfl⟩
  | Clear => exact ⟨_, rfl⟩

theorem Buffer.applyAll_wf (ops : List BufferOp) : ∀ b : Buffer, b.WF →
    (∀ b2, b.applyAll ops = .ok b2 → b2.WF) ∧
    (Buffer.Within b ops → ∃ b2, b.applyAll ops = .ok b2) := by
  induction ops with
  | nil =>
    intro b hwf
    exact ⟨fun b2 h => by cases h; exact hwf, fun _ => ⟨b, rfl⟩⟩
  | cons op ops ih =>
    intro b hwf
    constructor
    · intro b2 h
      simp only [Buffer.applyAll, bind, Except.bind] at h
      cases h1 : b.apply op with
      | error x => rw [h1] at h; cases h
      | ok b1 =>
        rw [h1] at h
        exact (ih b1 (Buffer.apply_wf b b1 op hwf h1)).1 b2 h
    · intro hw
      obtain ⟨b1, h1⟩ := Buffer.apply_returns b op hwf hw.1
      obtain ⟨b2, h2⟩ := (ih b1 (Buffer.apply_wf b b1 op hwf h1)).2 (hw.2 b1 h1)
      exact ⟨b2, by simp only [Buffer.applyAll, bind, Except.bind, h1]; exact h2⟩

/-! ## `OnMessage` when the route step does not return -/

theorem onMessageLoop_route_error (srv : HttpServer) (env : Env) (fuel : Nat)
    (context c : HttpContext) (buffer b : Buffer) (e : Exn) (hr : 0 < buffer.ReadAbleSize)
    (h : context.RecvHttpRequest buffer = .ok (c, b)) (h400 : ¬ c._resp_statu ≥ 400)
    (hover : c._recv_statu = RECV_HTTP_OVER)
    (hroute : srv.Route env c._request (HttpResponse.new c._resp_statu) = .error e) :
    srv.OnMessageLoop env (fuel + 1) context buffer = .error e := by
  unfold HttpServer.OnMessageLoop
  simp only [gt_iff_lt, hr, if_true, h, bind, Except.bind, h400, if_false, hover, ne_eq,
    not_true_eq_false, hroute]

/-! ## The status and the parse state -/

theorem statusStep_refl (c : HttpContext) : c.StatusStep c := Or.inl ⟨rfl, Iff.rfl⟩

theorem statusStep_trans (a b c : HttpContext) (h1 : a.StatusStep b) (h2 : b.StatusStep c) :
    a.StatusStep c := by
  rcases h1 with ⟨e1, i1⟩ | ⟨s1, t1⟩
  · rcases h2 with ⟨e2, i2⟩ | h2
    · exact Or.inl ⟨e2.trans e1, i2.trans i1⟩
    · exact Or.inr h2
  · rcases h2 with ⟨e2, i2⟩ | h2
    · exact Or.inr ⟨i2.2 s1, by rw [e2]; exact t1⟩
    · exact Or.inr h2

theorem statusStep_fail (c : HttpContext) (statu : Int) (h : statu = 400 ∨ statu = 414) :
    c.StatusStep (c.fail statu) := Or.inr ⟨rfl, h⟩

theorem statusOK_step (c c2 : HttpContext) (h : c.StatusOK) (hs : c.StatusStep c2) :
    c2.StatusOK := by
  rcases hs with ⟨e, i⟩ | hs
  · rcases h with ⟨a, b⟩ | ⟨a, b⟩
    · exact Or.inl ⟨fun x => a (i.1 x), by rw [e]; exact b⟩
    · exact Or.inr ⟨i.2 a, by rw [e]; exact b⟩
  · exact Or.inr hs

theorem parseQuery_status (comps : List Str) : ∀ c : HttpContext,
    c.StatusStep (HttpContext.ParseQuery c comps).2 := by
  induction comps with
  | nil => intro c; exact statusStep_refl c
  | cons str rest ih =>
    intro c
    unfold HttpContext.ParseQuery
    cases h : strFind str [61] 0 with
    | none => exact statusStep_fail c 400 (Or.inl rfl)
    | some pos => exact ih _

theorem parseHttpLine_status (c : HttpContext) (line : Str) :
    c.StatusStep (c.ParseHttpLine line).2 := by
  unfold HttpContext.ParseHttpLine
  cases h : regex_match line requestLineRegex with
  | none => exact statusStep_fail c 400 (Or.inl rfl)
  | some m => exact parseQuery_status _ _

theorem parseHttpHead_status (c : HttpContext) (line : Str) :
    c.StatusStep (c.ParseHttpHead line).2 := by
  unfold HttpContext.ParseHttpHead
  simp only []
  split
  · exact statusStep_fail c 400 (Or.inl rfl)
  · exact statusStep_refl c

theorem recvHttpLine_status (c c2 : HttpContext) (buf buf2 : Buffer) (ret : Bool)
    (h : c.RecvHttpLine buf = .ok (ret, c2, buf2)) : c.StatusStep c2 := by
  unfold HttpContext.RecvHttpLine at h
  by_cases hs : c._recv_statu ≠ RECV_HTTP_LINE
  · rw [if_pos hs] at h
    injection h with h
    injection h with h1 h2
    injection h2 with h2 h3
    subst h2
    exact statusStep_refl c
  · rw [if_neg hs] at h
    have hs2 : c._recv_statu = RECV_HTTP_LINE := by simpa using hs
    cases hg : buf.GetLineAndPop with
    | error e => simp [hg, bind, Except.bind] at h
    | ok r =>
      obtain ⟨line, b1⟩ := r
      simp only [hg, bind, Except.bind, pure, Except.pure] at h
      by_cases h0 : line.length = 0
      · rw [if_pos h0] at h
        by_cases h1 : b1.ReadAbleSize > MAX_LINE
        · rw [if_pos h1] at h
          injection h with h
          injection h with _ h2
          injection h2 with h2 _
          subst h2
          exact statusStep_fail c 414 (Or.inr rfl)
        · rw [if_neg h1] at h
          injection h with h
          injection h with _ h2
          injection h2 with h2 _
          subst h2
          exact statusStep_refl c
      · rw [if_neg h0] at h
        by_cases h1 : line.length > MAX_LINE
        · rw [if_pos h1] at h
          injection h with h
          injection h with _ h2
          injection h2 with h2 _
          subst h2
          exact statusStep_fail c 414 (Or.inr rfl)
        · rw [if_neg h1] at h
          by_cases h2 : (c.ParseHttpLine line).1 = false
          · simp only [h2, if_true] at h
            injection h with h
            injection h with _ h3
            injection h3 with h3 _
            subst h3
            exact parseHttpLine_status c line
          · simp only [h2, if_false] at h
            injection h with h
            injection h with _ h3
            injection h3 with h3 _
            subst h3
            have hst := (parseHttpLine_flag c line).2 h2
            rcases parseHttpLine_status c line with ⟨e, i⟩ | ⟨s, _⟩
            · refine Or.inl ⟨e, ?_⟩
              rw [hs2]
              simp
            · rw [hst, hs2] at s
              cases s

theorem headLoop_status : ∀ (fuel : Nat) (c c2 : HttpContext) (buf buf2 : Buffer) (ret : Bool),
    c._recv_statu = RECV_HTTP_HEAD →
    HttpContext.RecvHttpHeadLoop fuel c buf = .ok (ret, c2, buf2) → c.StatusStep c2 := by
  intro fuel
  induction fuel with
  | zero =>
    intro c c2 buf buf2 ret _ h
    simp only [HttpContext.RecvHttpHeadLoop] at h
    injection h with h
    injection h with _ h2
    injection h2 with h2 _
    subst h2
    exact statusStep_refl c
  | succ fuel ih =>
    intro c c2 buf buf2 ret hs h
    unfold HttpContext.RecvHttpHeadLoop at h
    cases hg : buf.GetLineAndPop with
    | error e => simp [hg, bind, Except.bind] at h
    | ok r =>
      obtain ⟨line, b1⟩ := r
      simp only [hg, bind, Except.bind, pure, Except.pure] at h
      by_cases h0 : line.length = 0
      · rw [if_pos h0] at h
        by_cases h1 : b1.ReadAbleSize > MAX_LINE
        · rw [if_pos h1] at h
          injection h with h
          injection h with _ h2
          injection h2 with h2 _
          subst h2
          exact statusStep_fail c 414 (Or.inr rfl)
        · rw [if_neg h1] at h
          injection h with h
          injection h with _ h2
          injection h2 with h2 _
          subst h2
          exact statusStep_refl c
      · rw [if_neg h0] at h
        by_cases h1 : line.length > MAX_LINE
        · rw [if_pos h1] at h
          injection h with h
          injection h with _ h2
          injection h2 with h2 _
          subst h2
          exact statusStep_fail c 414 (Or.inr rfl)
        · rw [if_neg h1] at h
          by_cases hb : line = [10] ∨ line = [13, 10]
          · rw [if_pos hb] at h
            injection h with h
            injection h with _ h2
            injection h2 with h2 _
            subst h2
            refine Or.inl ⟨rfl, ?_⟩
            rw [hs]
            simp
          · rw [if_neg hb] at h
            by_cases h2 : (c.ParseHttpHead line).1 = false
            · simp only [h2, if_true] at h
              injection h with h
              injection h with _ h3
              injection h3 with h3 _
              subst h3
              exact parseHttpHead_status c line
            · simp only [h2, if_false] at h
              have hst := (parseHttpHead_flag c line).2 h2
              exact statusStep_trans _ _ _ (parseHttpHead_status c line)
                (ih _ _ _ _ _ (by rw [hst, hs]) h)

theorem recvHttpHead_status (c c2 : HttpContext) (buf buf2 : Buffer) (ret : Bool)
    (h : c.RecvHttpHead buf = .ok (ret, c2, buf2)) : c.StatusStep c2 := by
  unfold HttpContext.RecvHttpHead at h
  by_cases hs : c._recv_statu ≠ RECV_HTTP_HEAD
  · rw [if_pos hs] at h
    injection h with h
    injection h with h1 h2
    injection h2 with h2 h3
    subst h2
    exact statusStep_refl c
  · rw [if_neg hs] at h
    exact headLoop_status _ _ _ _ _ _ (by simpa using hs) h

theorem recvHttpBody_status (c c2 : HttpContext) (buf buf2 : Buffer) (ret : Bool)
    (h : c.RecvHttpBody buf = .ok (ret, c2, buf2)) : c.StatusStep c2 := by
  unfold HttpContext.RecvHttpBody at h
  by_cases hs : c._recv_statu ≠ RECV_HTTP_BODY
  · rw [if_pos hs] at h
    injection h with h
    injection h with h1 h2
    injection h2 with h2 h3
    subst h2
    exact statusStep_refl c
  · rw [if_neg hs] at h
    have hs2 : c._recv_statu = RECV_HTTP_BODY := by simpa using hs
    have hover : ∀ r : HttpRequest, c.StatusStep
        { c with _request := r, _recv_statu := RECV_HTTP_OVER } := by
      intro r
      refine Or.inl ⟨rfl, ?_⟩
      rw [hs2]
      simp
    have hsame : ∀ r : HttpRequest, c.StatusStep { c with _request := r } :=
      fun r => Or.inl ⟨rfl, Iff.rfl⟩
    cases hcl : c._request.ContentLength with
    | error e => simp [hcl, bind, Except.bind] at h
    | ok n =>
      simp only [hcl, bind, Except.bind, pure, Except.pure] at h
      by_cases h0 : n = 0
      · rw [if_pos h0] at h
        injection h with h
        injection h with _ h2
        injection h2 with h2 _
        subst h2
        exact hover c._request
      · rw [if_neg h0] at h
        split at h
        · split at h
          · cases h
          · injection h with h
            injection h with _ h2
            injection h2 with h2 _
            subst h2
            exact hover _
        · split at h
          · cases h
          · injection h with h
            injection h with _ h2
            injection h2 with h2 _
            subst h2
            exact hsame _

theorem recvHttpRequest_status (c c2 : HttpContext) (buf buf2 : Buffer)
    (h : c.RecvHttpRequest buf = .ok (c2, buf2)) : c.StatusStep c2 := by
  rw [recvHttpRequest_chain] at h
  cases h1 : c.RecvHttpLine buf with
  | error e => rw [h1] at h; cases h
  | ok r1 =>
    obtain ⟨ret1, c1, b1⟩ := r1
    rw [h1] at h
    simp only [Except.bind] at h
    cases h2 : c1.RecvHttpHead b1 with
    | error e => rw [h2] at h; cases h
    | ok r2 =>
      obtain ⟨ret2, c3, b3⟩ := r2
      rw [h2] at h
      simp only at h
      cases h3 : c3.RecvHttpBody b3 with
      | error e => rw [h3] at h; cases h
      | ok r3 =>
        obtain ⟨ret3, c4, b4⟩ := r3
        rw [h3] at h
        simp only at h
        injection h with h
        injection h with h4 _
        subst h4
        exact statusStep_trans _ _ _ (recvHttpLine_status _ _ _ _ _ h1)
          (statusStep_trans _ _ _ (recvHttpHead_status _ _ _ _ _ h2)
            (recvHttpBody_status _ _ _ _ _ h3))

/-! ## The id-index holds exactly the ids of the objects that are alive -/

theorem lookup_filter (l : List (Nat × Nat)) (id k : Nat) :
    (l.filter (fun e => e.1 ≠ id)).lookup k = if k = id then none else l.lookup k := by
  by_cases h : k = id
  · rw [if_pos h]
    exact lookup_filter_none l id k (Or.inl h)
  · rw [if_neg h]
    induction l with
    | nil => rfl
    | cons p l ih =>
      obtain ⟨a, b⟩ := p
      by_cases ha : a = id
      · have hka : ¬ k = a := fun e => h (e.trans ha)
        have hkb : (k == a) = false := by simpa using hka
        rw [List.filter_cons_of_neg (by simp [ha]), List.lookup_cons, hkb]
        exact ih
      · rw [List.filter_cons_of_pos (by simp [ha]), List.lookup_cons, List.lookup_cons]
        cases hk : k == a
        · exact ih
        · rfl

theorem TimerWheel.release_lookup_some (slot : List Nat) : ∀ (w : TimerWheel) (k p : Nat),
    (w.release slot).1._timers.lookup k = some p → w._timers.lookup k = some p := by
  induction slot with
  | nil => intro w k p h; simpa [TimerWheel.release] using h
  | cons pt rest ih =>
    intro w k p h
    unfold TimerWheel.release at h
    split at h
    · exact ih w k p h
    · split at h
      · exact ih w k p h
      · rename_i t ht
        have h2 := ih (w.RemoveTimer t._id) k p h
        simp only [TimerWheel.RemoveTimer, lookup_filter] at h2
        split at h2
        · cases h2
        · exact h2

theorem TimerWheel.release_lookup_keep (slot : List Nat) : ∀ (w : TimerWheel) (k : Nat),
    (∀ pt ∈ slot, w.expired pt = true → ∀ t, w.heap[pt]? = some t → t._id ≠ k) →
    (w.release slot).1._timers.lookup k = w._timers.lookup k := by
  induction slot with
  | nil => intro w k _; simp [TimerWheel.release]
  | cons pt rest ih =>
    intro w k hk
    have hrest : ∀ x ∈ rest, w.expired x = true → ∀ t, w.heap[x]? = some t → t._id ≠ k :=
      fun x hx => hk x (List.mem_cons_of_mem _ hx)
    unfold TimerWheel.release
    split
    · exact ih w k hrest
    · rename_i hcond
      have hexp : w.expired pt = true := by
        cases he : w.expired pt
        · exact absurd (Or.inr he) hcond
        · rfl
      split
      · exact ih w k hrest
      · rename_i t ht
        have hne := hk pt (List.mem_cons_self _ _) hexp t ht
        have h2 := ih (w.RemoveTimer t._id) k hrest
        rw [h2]
        simp only [TimerWheel.RemoveTimer, lookup_filter]
        rw [if_neg (fun e => hne e.symm)]

theorem TimerWheel.indexed_new : TimerWheel.new.Indexed := by
  constructor
  · intro id pt h
    simp [TimerWheel.new] at h
  · intro pt t _ h
    simp [TimerWheel.new] at h

theorem TimerWheel.indexed_add (w : TimerWheel) (id delay : Nat) (hwf : w.WF)
    (hidx : w.Indexed) (hnew : w.HasTimer id = false) :
    (w.TimerAddInLoop id delay).Indexed := by
  obtain ⟨f1, f2, f3, f4, f5⟩ := TimerWheel.add_fields w id delay
  have hnone : w._timers.lookup id = none := by
    simp only [TimerWheel.HasTimer] at hnew
    cases h : w._timers.lookup id with
    | none => rfl
    | some x => rw [h] at hnew; cases hnew
  have hlook : ∀ k, (w.TimerAddInLoop id delay)._timers.lookup k =
      if k = id then some w.heap.length else w._timers.lookup k := by
    intro k
    simp only [TimerWheel.TimerAddInLoop, TimerWheel.push_back]
    rw [List.lookup_append, lookup_filter]
    by_cases hk : k = id
    · simp [hk, List.lookup]
    · have : (k == id) = false := by simpa using hk
      simp [hk, List.lookup, this]
  have hpos : (w._tick + delay) % 2 ^ 32 % w._capacity < w._wheel.length := by
    rw [hwf.1, hwf.2.1]
    exact Nat.mod_lt _ (by norm_num)
  have halive : ∀ x, w.expired x = false → (w.TimerAddInLoop id delay).expired x = false := by
    intro x hx
    obtain ⟨q, hq⟩ := (TimerWheel.expired_false_iff w x).1 hx
    exact (TimerWheel.expired_false_iff _ x).2 ⟨q, (f5 q x).2 (Or.inl hq)⟩
  constructor
  · intro k pt h
    rw [hlook] at h
    by_cases hk : k = id
    · rw [if_pos hk] at h
      injection h with h
      subst h
      refine ⟨(TimerWheel.expired_false_iff _ _).2 ⟨_, (f5 _ _).2 (Or.inr ⟨rfl, hpos, rfl⟩)⟩,
        { _id := id, _timeout := delay, _canceled := false }, by rw [f4]; simp, hk.symm⟩
    · rw [if_neg hk] at h
      obtain ⟨a, t, b, c⟩ := hidx.1 k pt h
      refine ⟨halive pt a, t, ?_, c⟩
      rw [f4, List.getElem?_append_left (heap_lt_of_some _ _ _ b)]
      exact b
  · intro pt t ha ht
    obtain ⟨q, hq⟩ := (TimerWheel.expired_false_iff _ pt).1 ha
    rw [hlook]
    rcases (f5 q pt).1 hq with hq | ⟨_, _, hq⟩
    · obtain ⟨t0, e0, _⟩ := hwf.2.2.2 q pt hq
      rw [f4, List.getElem?_append_left (heap_lt_of_some _ _ _ e0), e0] at ht
      injection ht with ht
      subst ht
      have hl := hidx.2 pt t0 ((TimerWheel.expired_false_iff w pt).2 ⟨q, hq⟩) e0
      have hne : ¬ t0._id = id := by
        intro e
        rw [e, hnone] at hl
        cases hl
      rw [if_neg hne]
      exact hl
    · subst hq
      rw [f4] at ht
      simp at ht
      subst ht
      simp

theorem TimerWheel.expired_push_back (w : TimerWheel) (pos pt x : Nat)
    (halive : w.expired pt = false) :
    (w.push_back pos pt).expired x = false ↔ w.expired x = false := by
  rw [TimerWheel.expired_false_iff, TimerWheel.expired_false_iff]
  constructor
  · rintro ⟨q, hq⟩
    rcases (TimerWheel.mem_push_back w pos pt q x).1 hq with h | ⟨_, _, h⟩
    · exact ⟨q, h⟩
    · subst h
      exact (TimerWheel.expired_false_iff w x).1 halive
  · rintro ⟨q, hq⟩
    exact ⟨q, (TimerWheel.mem_push_back w pos pt q x).2 (Or.inl hq)⟩

theorem TimerWheel.indexed_refresh (w w1 : TimerWheel) (id : Nat) (hwf : w.WF)
    (hidx : w.Indexed) (h : w.TimerRefreshInLoop id = .ok w1) : w1.Indexed := by
  obtain ⟨w2, e, _, _, g2, g3, hcase⟩ := TimerWheel.wf_refresh w id hwf
  rw [e] at h
  injection h with h
  subst h
  rcases hcase with rfl | ⟨pt, t, _, ha, _, hw⟩
  · exact hidx
  · have hexp : ∀ x, w2.expired x = false ↔ w.expired x = false := by
      intro x
      rw [hw]
      exact TimerWheel.expired_push_back w _ pt x ha
    constructor
    · intro k p hk
      rw [g3] at hk
      obtain ⟨a, t0, b, c⟩ := hidx.1 k p hk
      exact ⟨(hexp p).2 a, t0, by rw [g2]; exact b, c⟩
    · intro p t0 a b
      rw [g3]
      rw [g2] at b
      exact hidx.2 p t0 ((hexp p).1 a) b

theorem TimerWheel.indexed_cancel (w : TimerWheel) (id : Nat) (hidx : w.Indexed) :
    (w.TimerCancelInLoop id).Indexed := by
  obtain ⟨_, _, g3, g4, g5, g6⟩ := TimerWheel.cancel_fields w id
  have hexp : ∀ x, (w.TimerCancelInLoop id).expired x = w.expired x := by
    intro x
    unfold TimerWheel.expired
    rw [g3]
  constructor
  · intro k p hk
    rw [g4] at hk
    obtain ⟨a, t0, b, c⟩ := hidx.1 k p hk
    obtain ⟨t2, k1, k2, _⟩ := g6 p t0 b
    exact ⟨by rw [hexp]; exact a, t2, k1, by rw [k2]; exact c⟩
  · intro p t2 a b
    rw [hexp] at a
    rw [g4]
    have hlt := heap_lt_of_some _ _ _ b
    rw [g5] at hlt
    obtain ⟨t3, k1, k2, _⟩ := g6 p (w.heap[p]) (List.getElem?_eq_getElem hlt)
    rw [b] at k1
    injection k1 with k1
    subst k1
    rw [k2]
    exact hidx.2 p _ a (List.getElem?_eq_getElem hlt)

theorem TimerWheel.indexed_tick (w : TimerWheel) (hwf : w.WF) (hidx : w.Indexed) :
    w.RunTimerTask.1.Indexed := by
  obtain ⟨f1, f2, f3, f4⟩ := TimerWheel.tick_fields w
  have hlen : (w._tick + 1) % w._capacity < w._wheel.length := by
    rw [hwf.1, hwf.2.1]; omega
  have hbefore : ∀ x, w.RunTimerTask.1.expired x = false → w.expired x = false := by
    intro x hx
    obtain ⟨q, hq⟩ := (TimerWheel.expired_false_iff _ x).1 hx
    exact (TimerWheel.expired_false_iff w x).2 ⟨q, TimerWheel.mem_tick_before w q x hq⟩
  have hsame : ∀ x, w.RunTimerTask.1.expired x = w.cleared.expired x := by
    intro x
    unfold TimerWheel.expired
    rw [f3]
    rfl
  constructor
  · intro k p hk
    have hk0 : w._timers.lookup k = some p :=
      TimerWheel.release_lookup_some _ w.cleared k p hk
    obtain ⟨a, t, b, c⟩ := hidx.1 k p hk0
    refine ⟨?_, t, by rw [f4]; exact b, c⟩
    cases he : w.RunTimerTask.1.expired p with
    | false => rfl
    | true =>
      have hd := (TimerWheel.tick_drop w p t hwf a he b).1
      rw [c, hk] at hd
      cases hd
  · intro p t a b
    rw [f4] at b
    have a0 := hbefore p a
    have hl := hidx.2 p t a0 b
    have hkeep := TimerWheel.release_lookup_keep
      (w._wheel.getD ((w._tick + 1) % w._capacity) []) w.cleared t._id (by
        intro x hx hxe tx htx e
        have hxa : w.expired x = false := (TimerWheel.expired_false_iff w x).2 ⟨_, hx⟩
        have hlx := hidx.2 x tx hxa htx
        rw [e, hl] at hlx
        injection hlx with hlx
        subst hlx
        rw [← hsame, a] at hxe
        cases hxe)
    exact hkeep.trans hl

theorem TimerWheel.indexed_step (w w1 : TimerWheel) (op : TimerOp) (ran : List Nat)
    (hwf : w.WF) (hidx : w.Indexed) (ha : op.Allowed w) (h : w.step op = .ok (w1, ran)) :
    w1.Indexed := by
  cases op with
  | add id delay =>
    simp only [TimerWheel.step] at h
    injection h with h
    injection h with h1 _
    subst h1
    exact TimerWheel.indexed_add w id delay hwf hidx ha.1
  | refresh id =>
    simp only [TimerWheel.step] at h
    cases hr : w.TimerRefreshInLoop id with
    | error e => rw [hr] at h; cases h
    | ok w2 =>
      rw [hr] at h
      simp only [Except.map] at h
      injection h with h
      injection h with h1 _
      subst h1
      exact TimerWheel.indexed_refresh w w2 id hwf hidx hr
  | cancel id =>
    simp only [TimerWheel.step] at h
    injection h with h
    injection h with h1 _
    subst h1
    exact TimerWheel.indexed_cancel w id hidx
  | tick =>
    simp only [TimerWheel.step] at h
    injection h with h
    have h1 : w1 = w.RunTimerTask.1 := by rw [h]
    subst h1
    exact TimerWheel.indexed_tick w hwf hidx

theorem TimerWheel.run_indexed (ops : List TimerOp) : ∀ (w w1 : TimerWheel) (ran : List Nat),
    w.WF → w.Indexed → Admissible w ops → w.run ops = .ok (w1, ran) → w1.Indexed := by
  induction ops with
  | nil =>
    intro w w1 ran _ hidx _ h
    simp only [TimerWheel.run] at h
    injection h with h
    injection h with h1 _
    subst h1
    exact hidx
  | cons op ops ih =>
    intro w w1 ran hwf hidx ha h
    simp only [TimerWheel.run, bind, Except.bind] at h
    cases hs : w.step op with
    | error x => rw [hs] at h; cases h
    | ok r =>
      obtain ⟨wa, rana⟩ := r
      rw [hs] at h
      dsimp only at h
      cases hr : wa.run ops with
      | error x => rw [hr] at h; cases h
      | ok r2 =>
        obtain ⟨wb, ranb⟩ := r2
        rw [hr] at h
        simp only [pure, Except.pure] at h
        injection h with h
        injection h with h1 _
        subst h1
        obtain ⟨wa2, rana2, hs2, wfa⟩ := TimerWheel.wf_step w op hwf ha.1
        rw [hs] at hs2
        injection hs2 with hs2
        injection hs2 with e1 _
        subst e1
        exact ih wa wb ranb wfa (TimerWheel.indexed_step w wa op rana hwf hidx ha.1 hs)
          (ha.2 wa rana hs) hr

/-! ### Connection: the write path -/

theorem Channel.writeAble_enableWrite (c : Channel) : c.EnableWrite.WriteAble = true := by
  have h := (and_flag_ne_zero (c._events ||| EPOLLOUT) 2).2
    (by rw [Nat.testBit_or]; simp [EPOLLOUT]; right; decide)
  simpa [Channel.WriteAble, Channel.EnableWrite, EPOLLOUT] using h

theorem Channel.writeAble_disableWrite (c : Channel) : c.DisableWrite.WriteAble = false := by
  have h : ¬ ((c._events &&& (0xFFFFFFFF ^^^ EPOLLOUT)) &&& 2 ^ 2 ≠ 0) := by
    rw [and_flag_ne_zero, Nat.testBit_and]
    have : (0xFFFFFFFF ^^^ EPOLLOUT).testBit 2 = false := by decide
    simp [this]
  simpa [Channel.WriteAble, Channel.DisableWrite, EPOLLOUT] using h

theorem sentBytes_append (a b : List ConnEvent) : sentBytes (a ++ b) = sentBytes a ++ sentBytes b := by
  induction a with
  | nil => rfl
  | cons e a ih => cases e <;> simp [sentBytes, ih]

theorem Connection.send_spec (c : Connection) (data : Str) (hwf : c._out_buffer.WF)
    (hs : c._statu ≠ ConnStatu.DISCONNECTED) :
    ∃ c1, c.Send data = .ok c1 ∧ c1._out_buffer.WF ∧
      c1._out_buffer.readable = c._out_buffer.readable ++ data ∧
      c1._channel.WriteAble = true ∧ c1._statu = c._statu ∧ c1._in_buffer = c._in_buffer := by
  obtain ⟨buf, hbuf, _, hread⟩ := Buffer.writeAndPush_spec Buffer.new data Buffer.new_spec.1
  rw [Buffer.new_spec.2, List.nil_append] at hread
  obtain ⟨out, hout, hwf2, hread2⟩ := Buffer.writeAndPush_spec c._out_buffer data hwf
  have hpeek : buf.peek buf.ReadAbleSize = data := hread
  unfold Connection.Send Connection.SendInLoop
  simp only [hbuf, bind, Except.bind, if_neg hs, hpeek, hout, pure, Except.pure]
  by_cases hw : c._channel.WriteAble = false
  · rw [if_pos hw]
    exact ⟨_, rfl, hwf2, hread2, Channel.writeAble_enableWrite _, rfl, rfl⟩
  · rw [if_neg hw]
    exact ⟨_, rfl, hwf2, hread2, by simpa using hw, rfl, rfl⟩

theorem Connection.handleWrite_spec (cb : ConnCallbacks) (c : Connection) (n : Nat)
    (hwf : c._out_buffer.WF) (hn : n ≤ c._out_buffer.ReadAbleSize)
    (hmon : 0 < c._out_buffer.ReadAbleSize → c._channel.WriteAble = true) :
    ∃ c1 ev, c.HandleWrite cb (some n) = .ok (c1, ev) ∧ c1._out_buffer.WF ∧
      sentBytes ev = c._out_buffer.readable.take n ∧
      c1._out_buffer.readable = c._out_buffer.readable.drop n ∧
      (c1._channel.WriteAble = false ↔ c1._out_buffer.ReadAbleSize = 0) ∧
      c1._statu = c._statu ∧ c1._in_buffer = c._in_buffer := by
  have hret : (if c._out_buffer.ReadAbleSize = 0 then some 0 else some n) = some n := by
    by_cases h0 : c._out_buffer.ReadAbleSize = 0
    · rw [if_pos h0]; congr 1; omega
    · rw [if_neg h0]
  obtain ⟨hwf2, hread2⟩ := Buffer.advance_spec c._out_buffer n hwf hn
  unfold Connection.HandleWrite
  simp only [hret, Buffer.moveReadOffset_eq _ _ hn, bind, Except.bind, pure, Except.pure,
    Buffer.peek_eq_take _ _ hn]
  by_cases hz : (c._out_buffer.advance n).ReadAbleSize = 0
  · rw [if_pos hz]
    by_cases hd : c._statu = ConnStatu.DISCONNECTING
    · rw [if_pos hd]
      refine ⟨_, _, rfl, hwf2, by simp [sentBytes], hread2, ?_, rfl, rfl⟩
      simp [Channel.writeAble_disableWrite, hz]
    · rw [if_neg hd]
      refine ⟨_, _, rfl, hwf2, by simp [sentBytes], hread2, ?_, rfl, rfl⟩
      simp [Channel.writeAble_disableWrite, hz]
  · rw [if_neg hz]
    refine ⟨_, _, rfl, hwf2, by simp [sentBytes], hread2, ?_, rfl, rfl⟩
    have hpos : 0 < c._out_buffer.ReadAbleSize := by
      simp only [Buffer.advance, Buffer.ReadAbleSize] at hz ⊢
      omega
    simp [hmon hpos, hz]

theorem Connection.writeRun_spec (cb : ConnCallbacks) (ops : List WriteOp) :
    ∀ c : Connection, c._out_buffer.WF → c._statu ≠ ConnStatu.DISCONNECTED →
      (0 < c._out_buffer.ReadAbleSize → c._channel.WriteAble = true) →
      WriteOp.Accepted c._out_buffer.ReadAbleSize ops →
      ∃ c1 ev, c.writeRun cb ops = .ok (c1, ev) ∧ c1._out_buffer.WF ∧
        sentBytes ev ++ c1._out_buffer.readable = c._out_buffer.readable ++ WriteOp.sends ops ∧
        (0 < c1._out_buffer.ReadAbleSize → c1._channel.WriteAble = true) ∧
        (∀ n, ops.getLast? = some (WriteOp.writable n) →
          (c1._channel.WriteAble = false ↔ c1._out_buffer.ReadAbleSize = 0)) ∧
        (∀ data, ops.getLast? = some (WriteOp.send data) → c1._channel.WriteAble = true) ∧
        c1._statu = c._statu ∧ c1._in_buffer = c._in_buffer := by
  induction ops with
  | nil =>
    intro c hwf _ hmon _
    exact ⟨c, [], rfl, hwf, by simp [sentBytes, WriteOp.sends], hmon, by simp, by simp, rfl, rfl⟩
  | cons op ops ih =>
    intro c hwf hs hmon hacc
    have hstep : ∃ c1 ev1, c.writeStep cb op = .ok (c1, ev1) ∧ c1._out_buffer.WF ∧
        sentBytes ev1 ++ c1._out_buffer.readable = c._out_buffer.readable ++ WriteOp.sends [op] ∧
        (0 < c1._out_buffer.ReadAbleSize → c1._channel.WriteAble = true) ∧
        (∀ n, op = WriteOp.writable n →
          (c1._channel.WriteAble = false ↔ c1._out_buffer.ReadAbleSize = 0)) ∧
        (∀ data, op = WriteOp.send data → c1._channel.WriteAble = true) ∧
        c1._statu = c._statu ∧ c1._in_buffer = c._in_buffer ∧
        WriteOp.Accepted c1._out_buffer.ReadAbleSize ops := by
      cases op with
      | send data =>
        obtain ⟨c1, h1, hwf1, hr1, hw1, hs1, hi1⟩ := Connection.send_spec c data hwf hs
        refine ⟨c1, [], ?_, hwf1, ?_, fun _ => hw1, ?_, fun _ _ => hw1, hs1, hi1, ?_⟩
        · simp [Connection.writeStep, h1, bind, Except.bind, pure, Except.pure]
        · simp [sentBytes, WriteOp.sends, hr1]
        · intro n hn; cases hn
        · rw [Buffer.readAbleSize_eq _ hwf1, hr1, List.length_append,
            ← Buffer.readAbleSize_eq _ hwf]
          exact hacc
      | writable n =>
        obtain ⟨hn, hacc2⟩ := hacc
        obtain ⟨c1, ev1, h1, hwf1, hsent, hr1, hw1, hs1, hi1⟩ :=
          Connection.handleWrite_spec cb c n hwf hn hmon
        refine ⟨c1, ev1, h1, hwf1, ?_, ?_, fun _ _ => hw1, ?_, hs1, hi1, ?_⟩
        · simp [WriteOp.sends, hsent, hr1]
        · intro hpos
          by_contra hne
          have := hw1.1 (by simpa using hne)
          omega
        · intro data hd; cases hd
        · rw [Buffer.readAbleSize_eq _ hwf1, hr1, List.length_drop,
            ← Buffer.readAbleSize_eq _ hwf]
          exact hacc2
    obtain ⟨c1, ev1, h1, hwf1, hb1, hm1, hlw, hls, hs1, hi1, hacc1⟩ := hstep
    obtain ⟨c2, ev2, h2, hwf2, hb2, hm2, hlw2, hls2, hs2, hi2⟩ :=
      ih c1 hwf1 (by rw [hs1]; exact hs) hm1 hacc1
    refine ⟨c2, ev1 ++ ev2, ?_, hwf2, ?_, hm2, ?_, ?_, by rw [hs2, hs1], by rw [hi2, hi1]⟩
    · simp [Connection.writeRun, h1, h2, bind, Except.bind, pure, Except.pure]
    · have hsends : WriteOp.sends (op :: ops) = WriteOp.sends [op] ++ WriteOp.sends ops := by
        cases op <;> simp [WriteOp.sends]
      rw [sentBytes_append, List.append_assoc, hb2, ← List.append_assoc, hb1, hsends,
        List.append_assoc]
    · intro n hl
      cases ops with
      | nil =>
        simp only [List.getLast?_singleton, Option.some.injEq] at hl
        simp only [Connection.writeRun, Except.ok.injEq, Prod.mk.injEq] at h2
        rw [← h2.1]
        exact hlw n hl
      | cons op2 ops2 =>
        rw [List.getLast?_cons_cons] at hl
        exact hlw2 n hl
    · intro data hl
      cases ops with
      | nil =>
        simp only [List.getLast?_singleton, Option.some.injEq] at hl
        simp only [Connection.writeRun, Except.ok.injEq, Prod.mk.injEq] at h2
        rw [← h2.1]
        exact hls data hl
      | cons op2 ops2 =>
        rw [List.getLast?_cons_cons] at hl
        exact hls2 data hl

/-! ### Connection: shutdown and release -/

theorem Connection.shutdownInLoop_unset (c : Connection) :
    ∃ c1 ev, c.ShutdownInLoop ConnCallbacks.unset = .ok (c1, ev) ∧
      c1._statu = ConnStatu.DISCONNECTING ∧
      (c._out_buffer.ReadAbleSize = 0 → ev = [ConnEvent.Release]) := by
  unfold Connection.ShutdownInLoop
  simp only [ConnCallbacks.unset, Connection.callIf, bind, Except.bind, pure, Except.pure,
    ite_self]
  by_cases hz : c._out_buffer.ReadAbleSize = 0
  · have hn : ¬ c._out_buffer.ReadAbleSize > 0 := by omega
    simp only [if_neg hn, if_pos hz]
    exact ⟨_, _, rfl, rfl, fun _ => rfl⟩
  · have hp : c._out_buffer.ReadAbleSize > 0 := by omega
    simp only [if_pos hp]
    by_cases hw : c._channel.WriteAble = false
    · simp only [if_pos hw, if_neg hz]
      exact ⟨_, _, rfl, rfl, fun h => absurd h hz⟩
    · simp only [if_neg hw, if_neg hz]
      exact ⟨_, _, rfl, rfl, fun h => absurd h hz⟩

theorem ConnState.releaseTasks_closing ( has_timer : Bool) (n : Nat) :
    ∀ s : ConnState, ∃ s1, ConnState.releaseTasks ConnCallbacks.closing has_timer n s = .ok s1 ∧
      s1.trace.count ConnEvent.Closed = s.trace.count ConnEvent.Closed + n ∧
      s1.trace.count ConnEvent.ServerClosed = s.trace.count ConnEvent.ServerClosed + n ∧
      s1.queued = s.queued := by
  induction n with
  | zero => intro s; exact ⟨s, rfl, rfl, rfl, rfl⟩
  | succ n ih =>
    intro s
    have hrel : ∃ c1 ev, s.conn.ReleaseInLoop ConnCallbacks.closing has_timer = .ok (c1, ev) ∧
        ev.count ConnEvent.Closed = 1 ∧ ev.count ConnEvent.ServerClosed = 1 ∧
        ev.count ConnEvent.Release = 0 := by
      unfold Connection.ReleaseInLoop
      cases has_timer
      · simp [ConnCallbacks.closing, Connection.callIf, bind, Except.bind, pure, Except.pure]
        refine ⟨_, _, ⟨rfl, rfl⟩, ?_, ?_, ?_⟩ <;> decide
      · simp [ConnCallbacks.closing, Connection.callIf, Connection.CancelInactiveReleaseInLoop,
          bind, Except.bind, pure, Except.pure]
        refine ⟨_, _, ⟨rfl, rfl⟩, ?_, ?_, ?_⟩ <;> decide
    obtain ⟨c1, ev, h1, hc, hsc, hr⟩ := hrel
    obtain ⟨s1, h2, hc2, hsc2, hq2⟩ := ih (s.after (c1, ev))
    refine ⟨s1, ?_, ?_, ?_, ?_⟩
    · simp only [ConnState.releaseTasks, h1, bind, Except.bind]
      exact h2
    · rw [hc2]; simp only [ConnState.after, List.count_append, hc]; omega
    · rw [hsc2]; simp only [ConnState.after, List.count_append, hsc]; omega
    · rw [hq2]; simp only [ConnState.after, hr]; omega

/-! ### URL-decoding: the code against the specification -/

theorem hexValue_table : ∀ a : Byte,
    (match hexValue a with
      | some x => decide (schar (Util.HEXTOI a) = (x : Int) ∧ x < 16)
      | none => true) = true := by
  decide!

theorem hexValue_spec (a : Byte) (x : Nat) (h : hexValue a = some x) :
    schar (Util.HEXTOI a) = (x : Int) ∧ x < 16 := by
  have ht := hexValue_table a
  rw [h] at ht
  simpa using ht

theorem toChar_hex (x y : Nat) (hx : x < 16) (hy : y < 16) :
    toChar ((x : Int) * 16 + (y : Int)) = (Fin.ofNat (16 * x + y) : Byte) := by
  have h : ((x : Int) * 16 + (y : Int)) % 256 = ((16 * x + y : Nat) : Int) := by
    push_cast
    omega
  unfold toChar
  rw [h, Int.toNat_natCast]

theorem urlDecoded_spec (plus : Bool) : ∀ (n : Nat) (s : Str), s.length ≤ n → ∀ out,
    urlDecoded plus s = some out → Util.UrlDecode s plus = out := by
  intro n
  induction n with
  | zero =>
    intro s hs out h
    have : s = [] := List.length_eq_zero.1 (by omega)
    subst this
    simp only [urlDecoded, Option.some.injEq] at h
    rw [← h]
    rfl
  | succ n ih =>
    intro s hs out h
    rcases s with _ | ⟨c, rest⟩
    · simp only [urlDecoded, Option.some.injEq] at h
      rw [← h]
      rfl
    · simp only [List.length_cons] at hs
      by_cases hc : c = 37 ∧ 2 ≤ rest.length
      · obtain ⟨hc1, hc2⟩ := hc
        subst hc1
        rcases rest with _ | ⟨a, _ | ⟨b, rest2⟩⟩
        · simp at hc2
        · simp at hc2
        · simp only [urlDecoded, List.length_cons, Nat.le_add_left, and_self, if_true] at h
          cases hxa : hexValue a with
          | none => rw [hxa] at h; simp at h
          | some x =>
            cases hxb : hexValue b with
            | none => rw [hxa, hxb] at h; simp at h
            | some y =>
              have ha := hexValue_spec a x hxa
              have hb := hexValue_spec b y hxb
              rw [hxa, hxb] at h
              simp only [Option.map_eq_some'] at h
              obtain ⟨out2, h2, rfl⟩ := h
              have hrec := ih rest2 (by simp only [List.length_cons] at hs; omega) out2 h2
              rw [urlDecode_percent, ha.1, hb.1, toChar_hex x y ha.2 hb.2, hrec]
      · have hstep : urlDecoded plus (c :: rest) =
            if c = 43 ∧ plus = true then (urlDecoded plus rest).map (fun out => (32 : Byte) :: out)
            else (urlDecoded plus rest).map (fun out => c :: out) := by
          rcases rest with _ | ⟨a, _ | ⟨b, rest2⟩⟩ <;> simp [urlDecoded] at hc ⊢
          simp [hc]
        have hcode : Util.UrlDecode (c :: rest) plus =
            if c = 43 ∧ plus = true then (32 : Byte) :: Util.UrlDecode rest plus
            else c :: Util.UrlDecode rest plus := by
          rcases rest with _ | ⟨a, _ | ⟨b, rest2⟩⟩ <;> simp [Util.UrlDecode] at hc ⊢
          simp [hc]
        rw [hstep] at h
        rw [hcode]
        by_cases hp : c = 43 ∧ plus = true
        · rw [if_pos hp] at h ⊢
          simp only [Option.map_eq_some'] at h
          obtain ⟨out2, h2, rfl⟩ := h
          rw [ih rest (by omega) out2 h2]
        · rw [if_neg hp] at h ⊢
          simp only [Option.map_eq_some'] at h
          obtain ⟨out2, h2, rfl⟩ := h
          rw [ih rest (by omega) out2 h2]

theorem urlDecode_of_decoded (plus : Bool) (s out : Str) (h : urlDecoded plus s = some out) :
    Util.UrlDecode s plus = out :=
  urlDecoded_spec plus s.length s (Nat.le_refl _) out h

theorem decodedParams_of (q : Option Str) (params : List (Str × Str))
    (h : DecodedQuery (queryComponents q) params) : decodedParams q = params := by
  unfold decodedParams
  unfold DecodedQuery at h
  generalize queryComponents q = comps at h
  induction h with
  | nil => rfl
  | @cons comp kv comps kvs hd _ ih =>
    obtain ⟨k, v⟩ := kv
    simp only [List.map_cons, ih]
    rw [urlDecode_of_decoded true _ _ hd.1, urlDecode_of_decoded true _ _ hd.2]

theorem urlDecode_truncated (t : Str) (ht : t.length < 2) : ∀ s : Str, (37 : Byte) ∉ s →
    Util.UrlDecode (s ++ 37 :: t) false = s ++ 37 :: t := by
  have hend : Util.UrlDecode (37 :: t) false = 37 :: t := by
    rcases t with _ | ⟨a, _ | ⟨b, t2⟩⟩
    · simp [Util.UrlDecode]
    · rcases Decidable.em (a = 37) with e | e
      · subst e; simp [Util.UrlDecode]
      · simp [Util.UrlDecode, e]
    · simp only [List.length_cons] at ht
      omega
  intro s
  induction s with
  | nil => intro _; simpa using hend
  | cons c s ih =>
    intro hs
    have hc : c ≠ 37 := fun e => hs (by simp [e])
    have hs2 : (37 : Byte) ∉ s := fun e => hs (List.mem_cons_of_mem _ e)
    have hstep : Util.UrlDecode (c :: (s ++ 37 :: t)) false =
        c :: Util.UrlDecode (s ++ 37 :: t) false := by
      rcases hr : s ++ 37 :: t with _ | ⟨a, _ | ⟨b, r2⟩⟩ <;> simp [Util.UrlDecode, hc]
    rw [List.cons_append, hstep, ih hs2]

theorem toupper_of_tolower : ∀ x y : Byte, 65 ≤ y.val → y.val ≤ 90 → tolower x = tolower y →
    toupper x = y := by
  intro x y h1 h2 h
  have hy : tolower y = Fin.ofNat (y.val + 32) := by simp [tolower, h1, h2]
  rw [hy] at h
  have hxv := x.isLt
  have hyv := y.isLt
  unfold tolower at h
  unfold toupper
  split_ifs at h ⊢ with c1 c2 c3
  all_goals
    have hv := congrArg Fin.val h
    apply Fin.ext
    try simp only [Fin.ofNat, Fin.val_mk] at hv
    try simp only [Fin.ofNat, Fin.val_mk]
    omega

theorem map_toupper_of_eqIgnoreCase (w : Str) (hw : ∀ y ∈ w, 65 ≤ y.val ∧ y.val ≤ 90) :
    ∀ m : Str, eqIgnoreCase m w → m.map toupper = w := by
  induction w with
  | nil =>
    intro m h
    unfold eqIgnoreCase at h
    simp only [List.map_nil, List.map_eq_nil_iff] at h
    rw [h]; rfl
  | cons y w ih =>
    intro m h
    unfold eqIgnoreCase at h
    rcases m with _ | ⟨x, m⟩
    · simp at h
    · simp only [List.map_cons, List.cons.injEq] at h ⊢
      have hy := hw y (List.mem_cons_self _ _)
      exact ⟨toupper_of_tolower x y hy.1 hy.2 h.1,
        ih (fun z hz => hw z (List.mem_cons_of_mem _ hz)) m h.2⟩

theorem method_upper (m : Str)
    (h : eqIgnoreCase m (bytes "GET") ∨ eqIgnoreCase m (bytes "HEAD") ∨
      eqIgnoreCase m (bytes "POST") ∨ eqIgnoreCase m (bytes "PUT") ∨
      eqIgnoreCase m (bytes "DELETE")) :
    m.map toupper ∈ methodNames ∧ eqIgnoreCase m (m.map toupper) := by
  have hup : ∀ w ∈ methodNames, ∀ y ∈ w, 65 ≤ y.val ∧ y.val ≤ 90 := by decide!
  have key : ∀ w ∈ methodNames, eqIgnoreCase m w →
      m.map toupper ∈ methodNames ∧ eqIgnoreCase m (m.map toupper) := by
    intro w hw he
    have e := map_toupper_of_eqIgnoreCase w (hup w hw) m he
    rw [e]
    exact ⟨hw, he⟩
  rcases h with h | h | h | h | h
  · exact key _ (by decide) h
  · exact key _ (by decide) h
  · exact key _ (by decide) h
  · exact key _ (by decide) h
  · exact key _ (by decide) h
/-! ## The claims -/

/-- C1: for a complete line of at most 8192 bytes given to the parser in state Line (where
the tentative status is 200), the request-line step ends in state Error with status 400 if and
only if the line does not match the request-line pattern or some non-empty `&`-separated
component of its query contains no `=`; otherwise it ends in state Head with status 200. -/
theorem recvHttpLine_error_400_iff (c : HttpContext) (buf : Buffer) (line rest : Str)
    (hs : c._recv_statu = RECV_HTTP_LINE) (hst : c._resp_statu = 200) (hwf : buf.WF)
    (hr : buf.readable = line ++ rest) (hl : CompleteLine line) (hlen : line.length ≤ 8192) :
    ∃ ret c2 buf2, c.RecvHttpLine buf = .ok (ret, c2, buf2) ∧
      ((c2._recv_statu = RECV_HTTP_ERROR ∧ c2._resp_statu = 400) ↔
        (¬ MatchesRequestLine line ∨
          ∃ m p q v eol, RequestLineParts line m p q v eol ∧
            ∃ comp ∈ queryComponents q, (61 : Byte) ∉ comp)) ∧
      (¬ (c2._recv_statu = RECV_HTTP_ERROR ∧ c2._resp_statu = 400) →
        c2._recv_statu = RECV_HTTP_HEAD ∧ c2._resp_statu = 200) := by
  obtain ⟨h1, h2, h3⟩ := recvHttpLine_cases c buf line rest hs hwf hr hl hlen
  by_cases hm : MatchesRequestLine line
  · obtain ⟨m, p, q, v, eol, hp⟩ := hm
    by_cases hq : ∀ comp ∈ queryComponents q, (61 : Byte) ∈ comp
    · refine ⟨_, _, _, h3 m p q v eol hp hq, ?_, ?_⟩
      · constructor
        · intro h; simp at h
        · rintro (h | ⟨m2, p2, q2, v2, eol2, hp2, comp, hc, hn⟩)
          · exact absurd ⟨m, p, q, v, eol, hp⟩ h
          · obtain ⟨_, _, rfl, _, _⟩ := parts_unique _ _ _ _ _ _ _ _ _ _ _ hp hp2
            exact absurd (hq comp hc) hn
      · intro _
        exact ⟨rfl, by simpa [HttpContext.withLine] using hst⟩
    · have hq2 : ∃ comp ∈ queryComponents q, (61 : Byte) ∉ comp := by
        by_contra hcon
        apply hq
        intro comp hc
        by_contra hn
        exact hcon ⟨comp, hc, hn⟩
      obtain ⟨c2, e, s1, s2⟩ := h2 m p q v eol hp hq2
      refine ⟨_, _, _, e, ?_, ?_⟩
      · constructor
        · intro _; exact Or.inr ⟨m, p, q, v, eol, hp, hq2⟩
        · intro _; exact ⟨s1, s2⟩
      · intro h; exact absurd ⟨s1, s2⟩ h
  · refine ⟨_, _, _, h1 hm, ?_, ?_⟩
    · constructor
      · intro _; exact Or.inl hm
      · intro _; simp [HttpContext.fail]
    · intro h; simp [HttpContext.fail] at h

/-- C1, at the line `GOT / HTTP/1.1` of scenario S3. -/
theorem recvHttpLine_error_400_iff_witness :
    ∃ ret c2 buf2, HttpContext.new.RecvHttpLine (Buffer.received (bytes "GOT / HTTP/1.1\r\n")) =
        .ok (ret, c2, buf2) ∧
      ((c2._recv_statu = RECV_HTTP_ERROR ∧ c2._resp_statu = 400) ↔
        (¬ MatchesRequestLine (bytes "GOT / HTTP/1.1\r\n") ∨
          ∃ m p q v eol, RequestLineParts (bytes "GOT / HTTP/1.1\r\n") m p q v eol ∧
            ∃ comp ∈ queryComponents q, (61 : Byte) ∉ comp)) ∧
      (¬ (c2._recv_statu = RECV_HTTP_ERROR ∧ c2._resp_statu = 400) →
        c2._recv_statu = RECV_HTTP_HEAD ∧ c2._resp_statu = 200) :=
  recvHttpLine_error_400_iff HttpContext.new (Buffer.received (bytes "GOT / HTTP/1.1\r\n"))
    (bytes "GOT / HTTP/1.1\r\n") [] rfl rfl (Buffer.received_spec _).1
    (by simp [(Buffer.received_spec _).2])
    ⟨bytes "GOT / HTTP/1.1\r", by decide, by decide⟩ (by decide)


/-- C2, as stated, fails for a `+` among the two characters that follow a `%`: `UrlDecode`
turns a `%` and the two characters after it into one byte, whatever they are. The line
`GET /%+a?k=%+b HTTP/1.1` is accepted; the stored path is the two bytes `2F FA`, without the
`+` of the path text, and the parameter `k` is the byte `FB`, without a space. -/
theorem recvHttpLine_plus_after_percent :
    RequestLineParts (bytes "GET /%+a?k=%+b HTTP/1.1\r\n") (bytes "GET") (bytes "/%+a")
      (some (bytes "k=%+b")) (bytes "HTTP/1.1") [13, 10] ∧
    (HttpContext.new.RecvHttpLine
        (Buffer.received (bytes "GET /%+a?k=%+b HTTP/1.1\r\n"))).map
      (fun r => (r.1, r.2.1._recv_statu, r.2.1._request._path,
        r.2.1._request.GetParam (bytes "k"))) =
      .ok (true, RECV_HTTP_HEAD, [0x2F, 0xFA], [0xFB]) ∧
    (43 : Byte) ∈ bytes "/%+a" ∧ (43 : Byte) ∉ ([0x2F, 0xFA] : Str) ∧
    (43 : Byte) ∈ bytes "%+b" ∧ (32 : Byte) ∉ ([0xFB] : Str) :=
  ⟨⟨by decide, Or.inl rfl, by decide, by
      intro t ht
      cases ht
      exact ⟨by decide, by decide⟩, Or.inr rfl, Or.inr (Or.inr rfl)⟩,
    by decide!, by decide, by decide, by decide, by decide⟩

/-- C2, amended: take a request line that the parser accepts (state Line, no parameter stored
yet), with method token `m`, path text `p` (the text before the first `?`), query `q` and
version token `v`, in which every `%` of the path text and of the names and values of the
query that has two characters after it is followed by two hexadecimal digits: the path text
has the decoding `path` and the query components have the decoded names and values
`params`. Then the stored method is the one of `GET`, `HEAD`, `POST`, `PUT`, `DELETE` that
is `m` up to the case of the letters; the stored path is `path`, in which every `%HH` is the
byte of value `HH` and every other character, `+` included, is kept; the stored version is
`v`; every query component is `k=v`; and the parameter of a decoded name, in which `%HH` is
decoded and `+` is a space, has the decoded value of the first component with that name. -/
theorem recvHttpLine_stored_fields (c : HttpContext) (buf : Buffer) (line rest m p : Str)
    (q : Option Str) (v eol : Str) (c2 : HttpContext) (buf2 : Buffer) (path : Str)
    (params : List (Str × Str))
    (hs : c._recv_statu = RECV_HTTP_LINE) (hwf : buf.WF) (hr : buf.readable = line ++ rest)
    (hl : CompleteLine line) (hlen : line.length ≤ 8192)
    (hp : RequestLineParts line m p q v eol) (hpar : c._request._params = [])
    (hacc : c.RecvHttpLine buf = .ok (true, c2, buf2))
    (hpath : urlDecoded false p = some path)
    (hparams : DecodedQuery (queryComponents q) params) :
    c2._request._method ∈ methodNames ∧ eqIgnoreCase m c2._request._method ∧
    c2._request._path = path ∧
    c2._request._version = v ∧
    (∀ comp ∈ queryComponents q, comp = compKey comp ++ 61 :: compVal comp) ∧
    (∀ i (hi : i < params.length),
      (∀ j (hj : j < i), (params[j]).1 ≠ (params[i]).1) →
      c2._request.HasParam (params[i]).1 = true ∧
      c2._request.GetParam (params[i]).1 = (params[i]).2) := by
  obtain ⟨_, h2, h3⟩ := recvHttpLine_cases c buf line rest hs hwf hr hl hlen
  have hq : ∀ comp ∈ queryComponents q, (61 : Byte) ∈ comp := by
    intro comp hc
    by_contra hn
    obtain ⟨c3, e, _, _⟩ := h2 m p q v eol hp ⟨comp, hc, hn⟩
    rw [e] at hacc
    simp at hacc
  have e := h3 m p q v eol hp hq
  rw [e] at hacc
  simp only [Except.ok.injEq, Prod.mk.injEq, true_and] at hacc
  obtain ⟨rfl, _⟩ := hacc
  have hm := method_upper m hp.2.1
  refine ⟨hm.1, hm.2, urlDecode_of_decoded false p path hpath, rfl, ?_, ?_⟩
  · intro comp hc
    have h61 := hq comp hc
    obtain ⟨a, b, hab, hna⟩ : ∃ a b, comp = a ++ 61 :: b ∧ (61 : Byte) ∉ a := by
      cases hf : findFrom [61] comp with
      | none => exact absurd h61 ((findFrom_single_none 61 comp).1 hf)
      | some i =>
        obtain ⟨a, b, hab, hna, _⟩ := findFrom_single_some 61 comp i hf
        exact ⟨a, b, hab, hna⟩
    obtain ⟨k1, k2⟩ := compKey_compVal a b hna
    rw [hab, k1, k2]
  · intro i hi hfirst
    have hdp := decodedParams_of q params hparams
    have hlk := lookup_first params i hi hfirst
    have hfind : (({ c.withLine m p q v with _recv_statu := RECV_HTTP_HEAD } :
        HttpContext)._request._params).find (params[i]).1 = some (params[i]).2 := by
      simp only [HttpContext.withLine, hpar]
      rw [foldl_insert_find, hdp]
      simpa [StrMap.find] using hlk
    simp [HttpRequest.HasParam, HttpRequest.GetParam, hfind]

/-- C2 amended, at the request line `get /a+b%2Fc?k+1=v+%41&k%201=x HTTP/1.1`: the method
is `GET`, the path is `/a+b/c`, the version is `HTTP/1.1`, and the parameter `k 1` has the
value `v A` of the first of the two components of that name. -/
theorem recvHttpLine_stored_fields_witness :
    ∃ c2 buf2,
      HttpContext.new.RecvHttpLine
        (Buffer.received (bytes "get /a+b%2Fc?k+1=v+%41&k%201=x HTTP/1.1\r\n")) =
        .ok (true, c2, buf2) ∧
      c2._request._method = bytes "GET" ∧ c2._request._path = bytes "/a+b/c" ∧
      c2._request._version = bytes "HTTP/1.1" ∧
      c2._request.HasParam (bytes "k 1") = true ∧
      c2._request.GetParam (bytes "k 1") = bytes "v A" := by
  have hp : RequestLineParts (bytes "get /a+b%2Fc?k+1=v+%41&k%201=x HTTP/1.1\r\n")
      (bytes "get") (bytes "/a+b%2Fc") (some (bytes "k+1=v+%41&k%201=x")) (bytes "HTTP/1.1")
      [13, 10] :=
    ⟨by decide!, Or.inl (by unfold eqIgnoreCase; decide!), by decide!, by
      intro t ht
      cases ht
      exact ⟨by decide!, by decide!⟩, Or.inr rfl, Or.inr (Or.inr rfl)⟩
  have hq : queryComponents (some (bytes "k+1=v+%41&k%201=x")) =
      [bytes "k+1=v+%41", bytes "k%201=x"] := by
    decide!
  have hacc : HttpContext.new.RecvHttpLine
      (Buffer.received (bytes "get /a+b%2Fc?k+1=v+%41&k%201=x HTTP/1.1\r\n")) =
      .ok (true, { HttpContext.new.withLine (bytes "get") (bytes "/a+b%2Fc")
        (some (bytes "k+1=v+%41&k%201=x")) (bytes "HTTP/1.1") with
          _recv_statu := RECV_HTTP_HEAD },
        (Buffer.received (bytes "get /a+b%2Fc?k+1=v+%41&k%201=x HTTP/1.1\r\n")).advance 41) := by
    set_option maxRecDepth 100000 in decide!
  have hparams : DecodedQuery (queryComponents (some (bytes "k+1=v+%41&k%201=x")))
      [(bytes "k 1", bytes "v A"), (bytes "k 1", bytes "x")] := by
    rw [hq]
    exact List.Forall₂.cons ⟨by decide!, by decide!⟩
      (List.Forall₂.cons ⟨by decide!, by decide!⟩ List.Forall₂.nil)
  have h := recvHttpLine_stored_fields HttpContext.new
    (Buffer.received (bytes "get /a+b%2Fc?k+1=v+%41&k%201=x HTTP/1.1\r\n"))
    (bytes "get /a+b%2Fc?k+1=v+%41&k%201=x HTTP/1.1\r\n") [] (bytes "get") (bytes "/a+b%2Fc")
    (some (bytes "k+1=v+%41&k%201=x")) (bytes "HTTP/1.1") [13, 10] _ _ (bytes "/a+b/c")
    [(bytes "k 1", bytes "v A"), (bytes "k 1", bytes "x")] rfl
    (Buffer.received_spec _).1 (by simp [(Buffer.received_spec _).2])
    ⟨bytes "get /a+b%2Fc?k+1=v+%41&k%201=x HTTP/1.1\r", by decide!, by decide!⟩ (by decide!) hp
    rfl hacc (by decide!) hparams
  obtain ⟨h1, h1b, h2, h5, _, h7⟩ := h
  have h8 := h7 0 (by decide!) (by intro j hj; omega)
  refine ⟨_, _, hacc, ?_, h2, h5, h8.1, h8.2⟩
  show (bytes "get").map toupper = bytes "GET"
  decide
/-- C3: the head is complete (state Head, no body yet, the blank line is next in the buffer)
and the Content-Length is absent (`n = 0`) or a decimal numeral of `n`. After the call that
reads the blank line and any number of further calls, each after more bytes have arrived: the
state is Over exactly when the body has `n` bytes, the body is a prefix of the first `n`
bytes received after the blank line, body and unread bytes together are all the bytes
received after the blank line, and for `n = 0` the state is Over with no byte after the blank
line taken. When `n` fits a `long` (`n < 2^63`) every one of these calls returns. -/
theorem recvHttpRequest_body_length (c : HttpContext) (buf : Buffer) (blank after : Str)
    (n : Nat) (chunks : List Str)
    (hs : c._recv_statu = RECV_HTTP_HEAD) (hb : c._request._body = []) (hwf : buf.WF)
    (hr : buf.readable = blank ++ after) (hblank : blank = [10] ∨ blank = [13, 10])
    (hcl : ContentLengthIs c._request._headers n) :
    (n < 2 ^ 63 → ∃ s, recvThenFeed c buf chunks = .ok s) ∧
    ∀ c2 buf2, recvThenFeed c buf chunks = .ok (c2, buf2) →
      (c2._recv_statu = RECV_HTTP_OVER ↔ c2._request._body.length = n) ∧
      c2._request._body <+: (after ++ chunks.flatten).take n ∧
      c2._request._body ++ buf2.readable = after ++ chunks.flatten ∧
      (n = 0 → c2._recv_statu = RECV_HTTP_OVER ∧ buf2.readable = after ++ chunks.flatten) := by
  obtain ⟨w1, r1, hrec⟩ := recvHttpRequest_blank c buf blank after hs hwf hr hblank
  by_cases hn : n < 2 ^ 63
  · have hcl2 : ∀ r : HttpRequest, r._headers = c._request._headers →
        r.ContentLength = .ok n := by
      intro r hr2
      rw [contentLength_of r n (by rw [hr2]; exact hcl), if_neg (by omega)]
    obtain ⟨c1, b1, e1, hinv1⟩ := recvHttpBody_step
      ({ c with _recv_statu := RECV_HTTP_BODY } : HttpContext) (buf.advance blank.length) n rfl w1
      (hcl2 _ rfl) hn (by
        simp only [hb, List.length_nil]
        by_cases h0 : n = 0
        · exact Or.inr ⟨h0, trivial⟩
        · exact Or.inl (by omega))
    simp only [hb, List.nil_append, r1] at hinv1
    obtain ⟨s2, e2, hinv2⟩ := feedAll_inv c._request._headers n hcl2 hn chunks after (c1, b1) hinv1
    have hrun : recvThenFeed c buf chunks = .ok s2 := by
      unfold recvThenFeed
      simp only [hrec, e1, Except.map, bind, Except.bind, e2]
    refine ⟨fun _ => ⟨s2, hrun⟩, ?_⟩
    intro c2 buf2 hres
    rw [hrun] at hres
    cases hres
    obtain ⟨_, _, hst, hstate⟩ := hinv2
    simp only at hst hstate
    have hlen : c2._request._body.length ≤ n := by
      rcases hstate with ⟨_, h⟩ | ⟨_, h⟩ <;> omega
    refine ⟨?_, ?_, hst, ?_⟩
    · rcases hstate with ⟨h1, h2⟩ | ⟨h1, h2⟩
      · exact ⟨fun _ => h2, fun _ => h1⟩
      · constructor
        · intro h; rw [h1] at h; cases h
        · intro h; omega
    · rw [List.prefix_take_iff]
      exact ⟨⟨buf2.readable, hst⟩, hlen⟩
    · intro h0
      have hnil : c2._request._body = [] := List.length_eq_zero.1 (by omega)
      refine ⟨?_, by simpa [hnil] using hst⟩
      rcases hstate with ⟨h1, _⟩ | ⟨_, h2⟩
      · exact h1
      · omega
  · refine ⟨fun h => absurd h hn, ?_⟩
    intro c2 buf2 hres
    have herr : ({ c with _recv_statu := RECV_HTTP_BODY } : HttpContext).RecvHttpBody
        (buf.advance blank.length) = .error .out_of_range := by
      unfold HttpContext.RecvHttpBody
      simp only [ne_eq, not_true_eq_false, if_false]
      rw [contentLength_of _ n hcl, if_pos (by omega)]
      rfl
    unfold recvThenFeed at hres
    simp [hrec, herr, Except.map, bind, Except.bind] at hres

/-- C3 at scenario S4: after the blank line with `Content-Length: 5`, the bytes `ab` and later
`cdeXY` leave the parser in state Over with body `abcde` and `XY` unread. -/
theorem recvHttpRequest_body_length_witness :
    (∃ s, recvThenFeed
      { HttpContext.new with
        _recv_statu := RECV_HTTP_HEAD
        _request := HttpRequest.new.SetHeader (bytes "Content-Length") (bytes "5") }
      (Buffer.received (bytes "\r\nab")) [bytes "cdeXY"] = .ok s) ∧
    (recvThenFeed
      { HttpContext.new with
        _recv_statu := RECV_HTTP_HEAD
        _request := HttpRequest.new.SetHeader (bytes "Content-Length") (bytes "5") }
      (Buffer.received (bytes "\r\nab")) [bytes "cdeXY"]).map
        (fun s => (s.1._recv_statu, s.1._request._body, s.2.readable)) =
      .ok (RECV_HTTP_OVER, bytes "abcde", bytes "XY") :=
  ⟨(recvHttpRequest_body_length
      { HttpContext.new with
        _recv_statu := RECV_HTTP_HEAD
        _request := HttpRequest.new.SetHeader (bytes "Content-Length") (bytes "5") }
      (Buffer.received (bytes "\r\nab")) [13, 10] (bytes "ab") 5 [bytes "cdeXY"] rfl rfl
      (Buffer.received_spec _).1 (by rw [(Buffer.received_spec _).2]; decide) (Or.inr rfl)
      (Or.inr ⟨bytes "5", by decide, isDecimal_five⟩)).1 (by norm_num),
    by decide!⟩

/-- C4: in state Head, for a complete header line of at most 8192 bytes that is not the blank
line: a line without `: ` gives state Error with status 400; a line `key: value` followed by
its LF or CRLF, `key` being the text before the first `: `, is taken from the buffer and
stored by `SetHeader key value`, after which the key is present, its value is the one it
already had when an earlier line had stored that key (the first line wins) and `value`
otherwise, and the other keys are untouched; parsing goes on with the rest of the buffer. -/
theorem recvHttpHead_header_line (c : HttpContext) (buf : Buffer) (line rest : Str)
    (hs : c._recv_statu = RECV_HTTP_HEAD) (hwf : buf.WF) (hr : buf.readable = line ++ rest)
    (hl : CompleteLine line) (hlen : line.length ≤ 8192)
    (hnb : line ≠ [10] ∧ line ≠ [13, 10]) :
    (¬ bytes ": " <:+: line →
      ∃ c2 buf2, c.RecvHttpHead buf = .ok (false, c2, buf2) ∧
        c2._recv_statu = RECV_HTTP_ERROR ∧ c2._resp_statu = 400) ∧
    (∀ key val eol, line = key ++ bytes ": " ++ val ++ eol →
      ¬ bytes ": " <:+: key ++ [58] →
      (eol = [13, 10] ∨ (eol = [10] ∧ (key ++ bytes ": " ++ val).getLast? ≠ some 13)) →
      ∃ buf2, buf2.WF ∧ buf2.readable = rest ∧
        c.RecvHttpHead buf =
          ({ c with _request := c._request.SetHeader key val } : HttpContext).RecvHttpHead buf2 ∧
        (c._request.SetHeader key val).HasHeader key = true ∧
        (c._request.SetHeader key val).GetHeader key =
          (if c._request.HasHeader key = true then c._request.GetHeader key else val) ∧
        (∀ k, k ≠ key →
          (c._request.SetHeader key val)._headers.find k = c._request._headers.find k)) := by
  obtain ⟨w2, r2, hrec⟩ := recvHttpHead_line c buf line rest hs hwf hr hl
  have hnl : ¬ line.length > MAX_LINE := by simp [MAX_LINE]; omega
  have hnb2 : ¬ (line = [10] ∨ line = [13, 10]) := by
    rintro (h | h)
    · exact hnb.1 h
    · exact hnb.2 h
  simp only [hnl, hnb2, if_false] at hrec
  refine ⟨?_, ?_⟩
  · intro hno
    rw [parseHttpHead_no_sep c line hno] at hrec
    simp only [if_true] at hrec
    exact ⟨_, _, hrec, rfl, rfl⟩
  · intro key val eol hline hfirst heol
    rw [hline, parseHttpHead_sep c key val eol hfirst heol] at hrec
    simp only [Bool.true_eq_false, if_false] at hrec
    refine ⟨buf.advance line.length, w2, r2, ?_, ?_, ?_, ?_⟩
    · rw [hline, hrec]
      unfold HttpContext.RecvHttpHead
      simp [hs]
    · simp only [HttpRequest.HasHeader, HttpRequest.SetHeader, strMap_insert_find]
      cases c._request._headers.find key <;> simp
    · simp only [HttpRequest.HasHeader, HttpRequest.GetHeader, HttpRequest.SetHeader,
        strMap_insert_find]
      cases c._request._headers.find key <;> simp
    · intro k hk
      simp only [HttpRequest.SetHeader, strMap_insert_find, hk, if_false]
      cases c._request._headers.find k <;> simp

/-- C4 at the header lines `Host: x` and `Host: y`: the first is stored, the second leaves
the value `x` in place; and the line `Host` without separator gives Error with status 400. -/
theorem recvHttpHead_header_line_witness :
    (∃ buf2, buf2.WF ∧ buf2.readable = bytes "Host: y\r\n\r\n" ∧
      ({ HttpContext.new with _recv_statu := RECV_HTTP_HEAD } : HttpContext).RecvHttpHead
          (Buffer.received (bytes "Host: x\r\nHost: y\r\n\r\n")) =
        ({ ({ HttpContext.new with _recv_statu := RECV_HTTP_HEAD } : HttpContext) with
            _request := HttpRequest.new.SetHeader (bytes "Host") (bytes "x") } :
          HttpContext).RecvHttpHead buf2 ∧
      (HttpRequest.new.SetHeader (bytes "Host") (bytes "x")).HasHeader (bytes "Host") = true ∧
      (HttpRequest.new.SetHeader (bytes "Host") (bytes "x")).GetHeader (bytes "Host") =
        (if HttpRequest.new.HasHeader (bytes "Host") = true
          then HttpRequest.new.GetHeader (bytes "Host") else bytes "x") ∧
      (∀ k, k ≠ bytes "Host" →
        (HttpRequest.new.SetHeader (bytes "Host") (bytes "x"))._headers.find k =
          HttpRequest.new._headers.find k)) ∧
    (({ HttpContext.new with _recv_statu := RECV_HTTP_HEAD } : HttpContext).RecvHttpHead
        (Buffer.received (bytes "Host: x\r\nHost: y\r\n\r\n"))).map
      (fun r => (r.1, r.2.1._recv_statu, r.2.1._request._headers)) =
      .ok (true, RECV_HTTP_BODY, [(bytes "Host", bytes "x")]) ∧
    (({ HttpContext.new with _recv_statu := RECV_HTTP_HEAD } : HttpContext).RecvHttpHead
        (Buffer.received (bytes "Host\r\n\r\n"))).map
      (fun r => (r.1, r.2.1._recv_statu, r.2.1._resp_statu)) =
      .ok (false, RECV_HTTP_ERROR, 400) :=
  ⟨(recvHttpHead_header_line { HttpContext.new with _recv_statu := RECV_HTTP_HEAD }
      (Buffer.received (bytes "Host: x\r\nHost: y\r\n\r\n")) (bytes "Host: x\r\n")
      (bytes "Host: y\r\n\r\n") rfl (Buffer.received_spec _).1
      (by rw [(Buffer.received_spec _).2]; decide)
      ⟨bytes "Host: x\r", by decide, by decide⟩ (by decide) (by decide)).2
      (bytes "Host") (bytes "x") [13, 10] (by decide) (by decide) (Or.inl rfl),
    by decide!, by decide!⟩

/-- C5: in state Line, a well-formed request line of exactly `MAX_LINE` = 8192 bytes
(terminating newline included) is accepted: the parser goes to Head and the line is taken
from the buffer; a complete line of more than `MAX_LINE` bytes (so one of `MAX_LINE + 1`
bytes) gives state Error with status 414; more than 8192 buffered bytes without a newline
give Error with 414; at most 8192 such bytes leave the context and the buffer unchanged. -/
theorem recvHttpLine_max_line (c : HttpContext) (buf : Buffer)
    (hs : c._recv_statu = RECV_HTTP_LINE) (hwf : buf.WF) :
    MAX_LINE = 8192 ∧
    (∀ line rest m p q v eol, buf.readable = line ++ rest → CompleteLine line →
      line.length = MAX_LINE → RequestLineParts line m p q v eol →
      (∀ comp ∈ queryComponents q, (61 : Byte) ∈ comp) →
      ∃ c2 buf2, c.RecvHttpLine buf = .ok (true, c2, buf2) ∧
        c2._recv_statu = RECV_HTTP_HEAD ∧ c2._resp_statu = c._resp_statu ∧
        buf2.readable = rest) ∧
    (∀ line rest, buf.readable = line ++ rest → CompleteLine line →
      line.length > MAX_LINE →
      ∃ c2 buf2, c.RecvHttpLine buf = .ok (false, c2, buf2) ∧
        c2._recv_statu = RECV_HTTP_ERROR ∧ c2._resp_statu = 414) ∧
    ((10 : Byte) ∉ buf.readable → buf.readable.length > MAX_LINE →
      ∃ c2 buf2, c.RecvHttpLine buf = .ok (false, c2, buf2) ∧
        c2._recv_statu = RECV_HTTP_ERROR ∧ c2._resp_statu = 414) ∧
    ((10 : Byte) ∉ buf.readable → buf.readable.length ≤ MAX_LINE →
      c.RecvHttpLine buf = .ok (true, c, buf)) := by
  have hrl := Buffer.readable_length buf hwf
  refine ⟨rfl, ?_, ?_, ?_, ?_⟩
  · intro line rest m p q v eol hr hl hlen hp hq
    obtain ⟨_, _, h3⟩ := recvHttpLine_cases c buf line rest hs hwf hr hl
      (by rw [hlen]; decide)
    refine ⟨_, _, h3 m p q v eol hp hq, rfl, rfl, ?_⟩
    have hle : line.length ≤ buf.ReadAbleSize := by
      have := congrArg List.length hr
      simp only [List.length_append, hrl] at this
      simp only [Buffer.ReadAbleSize]; omega
    rw [(Buffer.advance_spec buf line.length hwf hle).2, hr]
    simp
  · intro line rest hr hl hlen
    have hrec := recvHttpLine_complete c buf line rest hs hwf hr hl
    simp only [hlen, if_true] at hrec
    exact ⟨_, _, hrec, rfl, rfl⟩
  · intro h10 hlen
    have hrec := recvHttpLine_incomplete c buf hs h10
    have : buf.ReadAbleSize > MAX_LINE := by
      simp only [Buffer.ReadAbleSize]; omega
    simp only [this, if_true] at hrec
    exact ⟨_, _, hrec, rfl, rfl⟩
  · intro h10 hlen
    have hrec := recvHttpLine_incomplete c buf hs h10
    have : ¬ buf.ReadAbleSize > MAX_LINE := by
      simp only [Buffer.ReadAbleSize]; omega
    simp only [this, if_false] at hrec
    exact hrec

/-- C5 at concrete buffers: a request line `GET /aa...a HTTP/1.1` of 8192 bytes is accepted,
one of 8193 bytes gives 414, 8193 letters without newline give 414, and `GET / HT` waits. -/
theorem recvHttpLine_max_line_witness :
    (∃ c2 buf2, HttpContext.new.RecvHttpLine (Buffer.received (longRequestLine 8177)) =
        .ok (true, c2, buf2) ∧ c2._recv_statu = RECV_HTTP_HEAD ∧
        c2._resp_statu = HttpContext.new._resp_statu ∧ buf2.readable = []) ∧
    (∃ c2 buf2, HttpContext.new.RecvHttpLine (Buffer.received (longRequestLine 8178)) =
        .ok (false, c2, buf2) ∧ c2._recv_statu = RECV_HTTP_ERROR ∧ c2._resp_statu = 414) ∧
    (∃ c2 buf2, HttpContext.new.RecvHttpLine (Buffer.received (List.replicate 8193 97)) =
        .ok (false, c2, buf2) ∧ c2._recv_statu = RECV_HTTP_ERROR ∧ c2._resp_statu = 414) ∧
    HttpContext.new.RecvHttpLine (Buffer.received (bytes "GET / HT")) =
      .ok (true, HttpContext.new, Buffer.received (bytes "GET / HT")) :=
  ⟨(recvHttpLine_max_line HttpContext.new (Buffer.received (longRequestLine 8177)) rfl
      (Buffer.received_spec _).1).2.1 (longRequestLine 8177) [] (bytes "GET")
      (47 :: List.replicate 8177 97) none (bytes "HTTP/1.1") [10]
      (by simp [(Buffer.received_spec _).2]) (longRequestLine_spec 8177).2.1
      (longRequestLine_spec 8177).2.2.1 (longRequestLine_spec 8177).1
      (longRequestLine_spec 8177).2.2.2,
    (recvHttpLine_max_line HttpContext.new (Buffer.received (longRequestLine 8178)) rfl
      (Buffer.received_spec _).1).2.2.1 (longRequestLine 8178) []
      (by simp [(Buffer.received_spec _).2]) (longRequestLine_spec 8178).2.1
      (by rw [(longRequestLine_spec 8178).2.2.1]; decide),
    (recvHttpLine_max_line HttpContext.new (Buffer.received (List.replicate 8193 97)) rfl
      (Buffer.received_spec _).1).2.2.2.1
      (by rw [(Buffer.received_spec _).2]; exact (replicate_letter_spec 8193).1)
      (by rw [(Buffer.received_spec _).2, (replicate_letter_spec 8193).2]; decide),
    (recvHttpLine_max_line HttpContext.new (Buffer.received (bytes "GET / HT")) rfl
      (Buffer.received_spec _).1).2.2.2.2
      (by rw [(Buffer.received_spec _).2]; decide)
      (by rw [(Buffer.received_spec _).2]; decide)⟩

/-- C6 fails in the code: `ContentLength` calls `std::stol` on the header value and nothing
catches what it throws, so `RecvHttpRequest` is left by an exception for the Content-Length
values `abc` and the empty string (`std::invalid_argument`) and for a number too large for a
`long` (`std::out_of_range`). -/
theorem recvHttpRequest_content_length_throws :
    HttpContext.new.RecvHttpRequest
        (Buffer.received (bytes "GET / HTTP/1.1\r\nContent-Length: abc\r\n\r\n")) =
      .error .invalid_argument ∧
    HttpContext.new.RecvHttpRequest
        (Buffer.received (bytes "GET / HTTP/1.1\r\nContent-Length: \r\n\r\n")) =
      .error .invalid_argument ∧
    HttpContext.new.RecvHttpRequest
        (Buffer.received (bytes "GET / HTTP/1.1\r\nContent-Length: 9223372036854775808\r\n\r\n")) =
      .error .out_of_range := by
  refine ⟨?_, ?_, ?_⟩ <;> decide!


/-- C7 (amended): a request line that matches the request-line pattern and whose path or query
contains a malformed URL escape is not rejected for the escape, since escapes are not
validated: the request-line step ends in Error with status 400 exactly when some non-empty
`&`-separated component of the query has no `=`, and otherwise the line is accepted, the
state becomes Head and the status is unchanged. A `%` with fewer than two characters after
it is copied: a path text whose only `%` is such a one is stored as it is. -/
theorem recvHttpLine_malformed_escape (c : HttpContext) (buf : Buffer) (line rest m p : Str)
    (q : Option Str) (v eol : Str)
    (hs : c._recv_statu = RECV_HTTP_LINE) (hwf : buf.WF) (hr : buf.readable = line ++ rest)
    (hl : CompleteLine line) (hlen : line.length ≤ 8192)
    (hp : RequestLineParts line m p q v eol)
    (_hmal : malformedEscape p ∨ ∃ t, q = some t ∧ malformedEscape t) :
    ∃ ret c2 buf2, c.RecvHttpLine buf = .ok (ret, c2, buf2) ∧
      ((c2._recv_statu = RECV_HTTP_ERROR ∧ c2._resp_statu = 400) ↔
        ∃ comp ∈ queryComponents q, (61 : Byte) ∉ comp) ∧
      ((∀ comp ∈ queryComponents q, (61 : Byte) ∈ comp) →
        ret = true ∧ c2._recv_statu = RECV_HTTP_HEAD ∧ c2._resp_statu = c._resp_statu ∧
        (∀ s t : Str, p = s ++ 37 :: t → (37 : Byte) ∉ s → t.length < 2 →
          c2._request._path = p)) := by
  obtain ⟨_, h2, h3⟩ := recvHttpLine_cases c buf line rest hs hwf hr hl hlen
  by_cases hq : ∀ comp ∈ queryComponents q, (61 : Byte) ∈ comp
  · refine ⟨_, _, _, h3 m p q v eol hp hq, ?_, ?_⟩
    · constructor
      · intro h; simp at h
      · rintro ⟨comp, hc, hn⟩
        exact absurd (hq comp hc) hn
    · intro _
      refine ⟨rfl, rfl, rfl, ?_⟩
      intro s t hst hs37 ht
      show Util.UrlDecode p false = p
      rw [hst]
      exact urlDecode_truncated t ht s hs37
  · have hq2 : ∃ comp ∈ queryComponents q, (61 : Byte) ∉ comp := by
      by_contra hcon
      apply hq
      intro comp hc
      by_contra hn
      exact hcon ⟨comp, hc, hn⟩
    obtain ⟨c2, e, s1, s2⟩ := h2 m p q v eol hp hq2
    refine ⟨_, _, _, e, ?_, ?_⟩
    · constructor
      · intro _; exact hq2
      · intro _; exact ⟨s1, s2⟩
    · intro h; exact absurd h hq

theorem malformedEscape_example : malformedEscape (bytes "/%4") := by
  refine ⟨1, by decide, ?_⟩
  rintro ⟨a, b, _, hb, _, _⟩
  have h3 : (bytes "/%4")[1 + 2]? = none := by decide
  rw [h3] at hb
  cases hb

/-- C7 as stated fails: the path of `GET /%4 HTTP/1.1` has a malformed escape, a `%` with
one character after it, and the parser accepts the line: state Head, status 200, and the
stored path is the path text `/%4`. -/
theorem recvHttpLine_malformed_escape_accepted :
    malformedEscape (bytes "/%4") ∧
    RequestLineParts (bytes "GET /%4 HTTP/1.1\r\n") (bytes "GET") (bytes "/%4") none
      (bytes "HTTP/1.1") [13, 10] ∧
    (HttpContext.new.RecvHttpLine (Buffer.received (bytes "GET /%4 HTTP/1.1\r\n"))).map
      (fun r => (r.1, r.2.1._recv_statu, r.2.1._resp_statu, r.2.1._request._path)) =
      .ok (true, RECV_HTTP_HEAD, 200, bytes "/%4") :=
  ⟨malformedEscape_example,
    ⟨by decide, Or.inl rfl, by decide, by simp, Or.inr rfl, Or.inr (Or.inr rfl)⟩, by decide!⟩

/-- C7 (amended) at the request line `GET /%4 HTTP/1.1`. -/
theorem recvHttpLine_malformed_escape_witness :
    ∃ ret c2 buf2,
      HttpContext.new.RecvHttpLine (Buffer.received (bytes "GET /%4 HTTP/1.1\r\n")) =
        .ok (ret, c2, buf2) ∧
      ((c2._recv_statu = RECV_HTTP_ERROR ∧ c2._resp_statu = 400) ↔
        ∃ comp ∈ queryComponents none, (61 : Byte) ∉ comp) ∧
      ((∀ comp ∈ queryComponents none, (61 : Byte) ∈ comp) →
        ret = true ∧ c2._recv_statu = RECV_HTTP_HEAD ∧
        c2._resp_statu = HttpContext.new._resp_statu ∧
        (∀ s t : Str, bytes "/%4" = s ++ 37 :: t → (37 : Byte) ∉ s → t.length < 2 →
          c2._request._path = bytes "/%4")) :=
  recvHttpLine_malformed_escape HttpContext.new
    (Buffer.received (bytes "GET /%4 HTTP/1.1\r\n")) (bytes "GET /%4 HTTP/1.1\r\n") []
    (bytes "GET") (bytes "/%4") none (bytes "HTTP/1.1") [13, 10] rfl
    (Buffer.received_spec _).1 (by simp [(Buffer.received_spec _).2])
    ⟨bytes "GET /%4 HTTP/1.1\r", by decide, by decide⟩ (by decide)
    ⟨by decide, Or.inl rfl, by decide, by simp, Or.inr rfl, Or.inr (Or.inr rfl)⟩
    (Or.inl malformedEscape_example)
/-- C8: for every context `c` and every buffer, `reset()` followed by `recv_http_request`
gives the same result (parse state, tentative status, request fields, remaining buffer, or
the same exception) as a freshly constructed context on the same buffer; `reset()` itself
gives the freshly constructed context. -/
theorem reSet_then_recv_eq_fresh (c : HttpContext) (buf : Buffer) :
    c.ReSet = HttpContext.new ∧
    c.ReSet.RecvHttpRequest buf = HttpContext.new.RecvHttpRequest buf := by
  have h : c.ReSet = HttpContext.new := rfl
  exact ⟨h, by rw [h]⟩

/-- C9 fails in the code for the bytes 0x80..0xFE: `UrlEncode` hands the signed `char` to
`snprintf("%%%02X")`, which prints the sign-extended value `FFFFFF80` and keeps `%FF`, so that
the byte 0x80 comes back as 0xFF, with either flag. -/
theorem urlDecode_urlEncode_high_byte :
    ∀ q : Bool, Util.UrlEncode [128] q = bytes "%FF" ∧
      Util.UrlDecode (Util.UrlEncode [128] q) q = [255] ∧
      Util.UrlDecode (Util.UrlEncode [128] q) q ≠ [128] := by
  decide

/-- C10: `valid_path` returns true exactly when, over the non-empty `/`-separated segments of
the path taken from left to right, the running depth (plus 1 for a segment other than `..`,
minus 1 for `..`) is never below 0; and it returns false for `/../etc/passwd`. -/
theorem validPath_iff_running_depth :
    (∀ path : Str, Util.ValidPath path = true ↔
      ∀ k, k ≤ (segments 47 path).length → 0 ≤ runningDepth ((segments 47 path).take k)) ∧
    Util.ValidPath (bytes "/../etc/passwd") = false := by
  refine ⟨?_, by decide⟩
  intro path
  unfold Util.ValidPath
  rw [split_single, validPathLoop_iff _ 0 (le_refl 0)]
  simp


/-- C11 fails at the path `/./../etc/passwd`: `ValidPath` counts the segment `.` as one
level down, so the `..` that follows brings the count back to 0 and the path is accepted,
while the walk from the base directory (`.` stays, `..` moves to the parent) is outside the
base directory at the second segment. With base directory `./www`, `Route` inspects and
reads `./www/./../etc/passwd`, the file `etc/passwd` beside `www`, and for the request
`GET /./../etc/passwd HTTP/1.1` `OnMessage` inspects and reads that file and sends what
`WriteReponse` makes of a response whose body is the content of the file, in whatever order
the headers are iterated. -/
theorem validPath_dot_segment_escapes :
    Util.ValidPath (bytes "/./../etc/passwd") = true ∧
    segments 47 (bytes "/./../etc/passwd") =
      [bytes ".", bytes "..", bytes "etc", bytes "passwd"] ∧
    resolve (segments 47 (bytes "/./../etc/passwd")) = none ∧
    ((HttpServer.static (bytes "./www")).Route
        (Env.singleFile (bytes "./www/./../etc/passwd") (bytes "root"))
        (HttpRequest.of (bytes "GET") (bytes "/./../etc/passwd")) (HttpResponse.new 200)).map
        (fun r => (r.2.1._body, r.2.2)) =
      .ok (bytes "root", [Event.IsRegular (bytes "./www/./../etc/passwd"),
        Event.ReadFile (bytes "./www/./../etc/passwd")]) ∧
    (∀ it : (m : StrMap) → { l : StrMap // l.Perm m },
      ((HttpServer.static (bytes "./www")).OnMessage
          { Env.singleFile (bytes "./www/./../etc/passwd") (bytes "root") with iterate := it }
          HttpContext.new
          (Buffer.received (bytes "GET /./../etc/passwd HTTP/1.1\r\n\r\n"))).map
          (fun r => r.2.2) =
        .ok [Event.IsRegular (bytes "./www/./../etc/passwd"),
          Event.ReadFile (bytes "./www/./../etc/passwd"),
          Event.Send (HttpServer.WriteReponse
            { Env.singleFile (bytes "./www/./../etc/passwd") (bytes "root") with iterate := it }
            { HttpRequest.of (bytes "GET") (bytes "/./../etc/passwd") with
              _version := bytes "HTTP/1.1" }
            ((HttpResponse.new 200).SetContent (bytes "root")
              (bytes "application/octet-stream"))).2,
          Event.Shutdown]) := by
  refine ⟨by decide, by decide, by decide, by decide, ?_⟩
  intro it
  set_option maxRecDepth 1000000 in rfl

/-- C12: for every server, environment, request and response: if no base directory is set,
or the method is neither GET nor HEAD, or `ValidPath` rejects the path, then `Route` returns
what `Dispatcher` returns on the table of the request's method (status 405 and nothing else
if the method has no table), and no file is inspected or read; and if `IsFileHandler`
answers true, `Route` returns with the request unchanged after the check of the file and
one file read, and no handler is run. -/
theorem route_static_file_conditions (srv : HttpServer) (env : Env) (req : HttpRequest)
    (rsp : HttpResponse) :
    ((srv._basedir = [] ∨ (req._method ≠ bytes "GET" ∧ req._method ≠ bytes "HEAD") ∨
        Util.ValidPath req._path = false) →
      ∃ r, srv.Route env req rsp = .ok r ∧
        r = (match srv.routeTable req._method with
          | some handlers => HttpServer.Dispatcher req rsp handlers
          | none => (req, { rsp with _statu := 405 }, [])) ∧
        ∀ f, Event.IsRegular f ∉ r.2.2 ∧ Event.ReadFile f ∉ r.2.2) ∧
    (∀ ev, srv.IsFileHandler env req = .ok (true, ev) →
      ∃ p rsp2, srv.req_path req = .ok p ∧
        srv.Route env req rsp = .ok (req, rsp2, [Event.IsRegular p, Event.ReadFile p]) ∧
        ∀ i, Event.Handler i ∉ [Event.IsRegular p, Event.ReadFile p]) := by
  constructor
  · intro h
    have h1 := route_not_file srv env req rsp [] (isFileHandler_early srv env req h)
    refine ⟨_, h1, ?_, ?_⟩
    · cases srv.routeTable req._method with
      | none => rfl
      | some handlers => simp [afterEvents]
    · intro f
      cases srv.routeTable req._method with
      | none => simp
      | some handlers =>
        simp only [afterEvents, List.nil_append]
        constructor
        · intro hm
          obtain ⟨i, hi⟩ := dispatcherLoop_events rsp handlers 0 req _ hm
          cases hi
        · intro hm
          obtain ⟨i, hi⟩ := dispatcherLoop_events rsp handlers 0 req _ hm
          cases hi
  · intro ev h
    obtain ⟨p, hp, _, hr⟩ := route_file srv env req rsp ev h
    exact ⟨p, _, hp, hr, by simp⟩

/-- C12, at the server of the scenarios: a POST request for `/` goes to the (empty) table of
POST and gets 404 without any file access; the GET request for `/` is served from
`./www/index.html` and runs no handler. -/
theorem route_static_file_conditions_witness :
    (∃ r, exampleServer.Route exampleEnv (HttpRequest.of (bytes "POST") (bytes "/"))
        (HttpResponse.new 200) = .ok r ∧
      r = (match exampleServer.routeTable (HttpRequest.of (bytes "POST") (bytes "/"))._method with
        | some handlers => HttpServer.Dispatcher (HttpRequest.of (bytes "POST") (bytes "/"))
            (HttpResponse.new 200) handlers
        | none => (HttpRequest.of (bytes "POST") (bytes "/"),
            { HttpResponse.new 200 with _statu := 405 }, [])) ∧
      ∀ f, Event.IsRegular f ∉ r.2.2 ∧ Event.ReadFile f ∉ r.2.2) ∧
    (∃ p rsp2, exampleServer.req_path (HttpRequest.of (bytes "GET") (bytes "/")) = .ok p ∧
      exampleServer.Route exampleEnv (HttpRequest.of (bytes "GET") (bytes "/"))
        (HttpResponse.new 200) =
        .ok (HttpRequest.of (bytes "GET") (bytes "/"), rsp2,
          [Event.IsRegular p, Event.ReadFile p]) ∧
      ∀ i, Event.Handler i ∉ [Event.IsRegular p, Event.ReadFile p]) :=
  ⟨(route_static_file_conditions exampleServer exampleEnv
      (HttpRequest.of (bytes "POST") (bytes "/")) (HttpResponse.new 200)).1
      (Or.inr (Or.inl (by decide))),
   (route_static_file_conditions exampleServer exampleEnv
      (HttpRequest.of (bytes "GET") (bytes "/")) (HttpResponse.new 200)).2
      [Event.IsRegular (bytes "./www/index.html")] (by decide)⟩

/-- C13: for every route table and every request, if entry `i` is the first whose pattern
matches the whole path, with sub-matches `m`, then `Dispatcher` stores `m` in the request and
runs the handler of entry `i` on it, and that is the one handler run; if no pattern matches,
no handler runs, the response is the one given with status 404, and the request keeps its
fields apart from the sub-matches, which a failed match leaves empty. -/
theorem dispatcher_first_match (req : HttpRequest) (rsp : HttpResponse) (handlers : Handlers) :
    (∀ (i : Nat) (h : i < handlers.length) (m : Caps),
      (handlers.get ⟨i, h⟩).1 req._path = some m →
      (∀ j (hj : j < i), (handlers.get ⟨j, Nat.lt_trans hj h⟩).1 req._path = none) →
      HttpServer.Dispatcher req rsp handlers =
        ({ req with _matches := m },
          (handlers.get ⟨i, h⟩).2 { req with _matches := m } rsp, [Event.Handler i])) ∧
    ((∀ e ∈ handlers, e.1 req._path = none) →
      HttpServer.Dispatcher req rsp handlers =
        (if handlers.isEmpty then req else { req with _matches := [] },
          { rsp with _statu := 404 }, [])) := by
  constructor
  · intro i h m hm hb
    have key := dispatcherLoop_first rsp handlers 0 req i h m hm hb
    simpa [HttpServer.Dispatcher] using key
  · intro h
    exact dispatcherLoop_none rsp handlers 0 req h

/-- C13, at a table of three routes of patterns `/a`, `/b`, `/b`: for the path `/b` the
handler of the second entry runs and no other, for the path `/c` none runs and the status
is 404. -/
theorem dispatcher_first_match_witness :
    HttpServer.Dispatcher (HttpRequest.of (bytes "GET") (bytes "/b")) (HttpResponse.new 200)
        exampleRoutes =
      ({ HttpRequest.of (bytes "GET") (bytes "/b") with _matches := [] },
        (exampleRoutes.get ⟨1, by decide⟩).2
          { HttpRequest.of (bytes "GET") (bytes "/b") with _matches := [] }
          (HttpResponse.new 200),
        [Event.Handler 1]) ∧
    HttpServer.Dispatcher (HttpRequest.of (bytes "GET") (bytes "/c")) (HttpResponse.new 200)
        exampleRoutes =
      (if exampleRoutes.isEmpty then HttpRequest.of (bytes "GET") (bytes "/c")
        else { HttpRequest.of (bytes "GET") (bytes "/c") with _matches := [] },
        { HttpResponse.new 200 with _statu := 404 }, []) :=
  ⟨(dispatcher_first_match (HttpRequest.of (bytes "GET") (bytes "/b")) (HttpResponse.new 200)
      exampleRoutes).1 1 (by decide) [] (by decide) (by decide),
   (dispatcher_first_match (HttpRequest.of (bytes "GET") (bytes "/c")) (HttpResponse.new 200)
      exampleRoutes).2 (by decide)⟩

/-- C14: for every request that the static-file check does not accept (`IsFileHandler`
answers false, after the events `ev`, which hold no handler), `Route` returns what
`Dispatcher` returns on `_get_route` for GET and for HEAD, on `_post_route` for POST, on
`_put_route` for PUT and on `_delete_route` for DELETE, so no other table has a part in the
result; for any other method the response gets status 405 and no handler is run. -/
theorem route_method_table (srv : HttpServer) (env : Env) (req : HttpRequest)
    (rsp : HttpResponse) (ev : List Event)
    (h : srv.IsFileHandler env req = .ok (false, ev)) :
    (∀ i, Event.Handler i ∉ ev) ∧
    ((req._method = bytes "GET" ∨ req._method = bytes "HEAD") →
      srv.Route env req rsp =
        .ok (afterEvents ev (HttpServer.Dispatcher req rsp srv._get_route))) ∧
    (req._method = bytes "POST" →
      srv.Route env req rsp =
        .ok (afterEvents ev (HttpServer.Dispatcher req rsp srv._post_route))) ∧
    (req._method = bytes "PUT" →
      srv.Route env req rsp =
        .ok (afterEvents ev (HttpServer.Dispatcher req rsp srv._put_route))) ∧
    (req._method = bytes "DELETE" →
      srv.Route env req rsp =
        .ok (afterEvents ev (HttpServer.Dispatcher req rsp srv._delete_route))) ∧
    ((req._method ≠ bytes "GET" ∧ req._method ≠ bytes "HEAD" ∧ req._method ≠ bytes "POST" ∧
        req._method ≠ bytes "PUT" ∧ req._method ≠ bytes "DELETE") →
      srv.Route env req rsp = .ok (req, { rsp with _statu := 405 }, ev)) := by
  have key := route_not_file srv env req rsp ev h
  refine ⟨?_, ?_, ?_, ?_, ?_, ?_⟩
  · intro i hi
    rcases isFileHandler_events srv env req false ev h with ⟨_, he⟩ | ⟨p, _, he, _⟩
    · rw [he] at hi; simp at hi
    · rw [he] at hi; simp at hi
  · intro hm
    rw [key]
    simp [HttpServer.routeTable, hm]
  · intro hm
    rw [key, hm]
    rfl
  · intro hm
    rw [key, hm]
    rfl
  · intro hm
    rw [key, hm]
    rfl
  · rintro ⟨h1, h2, h3, h4, h5⟩
    rw [key]
    simp [HttpServer.routeTable, h1, h2, h3, h4, h5]

/-- C14, at the server of the scenarios: the HEAD request for `/b`, which is no file, gets
what `Dispatcher` gives on the table of GET. -/
theorem route_method_table_witness :
    exampleServer.Route exampleEnv (HttpRequest.of (bytes "HEAD") (bytes "/b"))
        (HttpResponse.new 200) =
      .ok (afterEvents [Event.IsRegular (bytes "./www/b")]
        (HttpServer.Dispatcher (HttpRequest.of (bytes "HEAD") (bytes "/b"))
          (HttpResponse.new 200) exampleServer._get_route)) :=
  (route_method_table exampleServer exampleEnv (HttpRequest.of (bytes "HEAD") (bytes "/b"))
    (HttpResponse.new 200) [Event.IsRegular (bytes "./www/b")] (by decide)).2.1
    (Or.inr (by decide))

/-- C15, as stated, fails: `SetHeader` inserts, and `insert` keeps the value of a key that
is present. For a request with `Connection: keep-alive` and a response on which the handler
put `Connection: close`, the serialized response carries `Connection: close`. -/
theorem writeReponse_keeps_handler_connection :
    ((HttpRequest.of (bytes "GET") (bytes "/")).SetHeader (bytes "Connection")
        (bytes "keep-alive"))._headers.find (bytes "Connection") = some (bytes "keep-alive") ∧
    (HttpServer.WriteReponse exampleEnv
      ((HttpRequest.of (bytes "GET") (bytes "/")).SetHeader (bytes "Connection")
        (bytes "keep-alive"))
      ((HttpResponse.new 200).SetHeader (bytes "Connection") (bytes "close"))).2 =
      bytes "HTTP/1.1 200 Unknow\r\nConnection: close\r\n\r\n" := by
  decide

/-- C15, amended: for every request and every response handed to `WriteReponse` (its
header map holding one entry per name), the serialized response carries exactly one
Connection header; its value is the one the handler put on the response if the handler put
one, and otherwise `keep-alive` if the request has a Connection header of value
`keep-alive` and `close` if not. -/
theorem writeReponse_connection_header (env : Env) (req : HttpRequest) (rsp : HttpResponse)
    (hu : rsp._headers.Unique) :
    ∃ hdrs, (HttpServer.WriteReponse env req rsp).2 =
        serialized req._version rsp._statu (Util.StatuDesc env._statu_msg rsp._statu) hdrs
          rsp._body ∧
      hdrs.entries (bytes "Connection") =
        [(bytes "Connection", headerOr rsp._headers (bytes "Connection")
          (if req._headers.find (bytes "Connection") = some (bytes "keep-alive")
            then bytes "keep-alive" else bytes "close"))] := by
  refine ⟨_, writeReponse_out env req rsp, ?_⟩
  apply entries_iterate env _ _ _ (writeReponse_unique env req rsp hu)
  rw [writeReponse_connection, request_close_iff]

/-- C15 amended, at the keep-alive request of scenario S2 and a response without headers. -/
theorem writeReponse_connection_header_witness :
    ∃ hdrs, (HttpServer.WriteReponse exampleEnv
        ((HttpRequest.of (bytes "GET") (bytes "/echo")).SetHeader (bytes "Connection")
          (bytes "keep-alive")) (HttpResponse.new 200)).2 =
        serialized ((HttpRequest.of (bytes "GET") (bytes "/echo")).SetHeader
            (bytes "Connection") (bytes "keep-alive"))._version (HttpResponse.new 200)._statu
          (Util.StatuDesc exampleEnv._statu_msg (HttpResponse.new 200)._statu) hdrs
          (HttpResponse.new 200)._body ∧
      hdrs.entries (bytes "Connection") =
        [(bytes "Connection", headerOr (HttpResponse.new 200)._headers (bytes "Connection")
          (if ((HttpRequest.of (bytes "GET") (bytes "/echo")).SetHeader (bytes "Connection")
              (bytes "keep-alive"))._headers.find (bytes "Connection") =
              some (bytes "keep-alive")
            then bytes "keep-alive" else bytes "close"))] :=
  writeReponse_connection_header exampleEnv
    ((HttpRequest.of (bytes "GET") (bytes "/echo")).SetHeader (bytes "Connection")
      (bytes "keep-alive")) (HttpResponse.new 200)
    (by simp [StrMap.Unique, HttpResponse.new])

/-- C16, as stated, fails: `WriteReponse` sets Content-Length only if the response has none.
For every request, a response of body `abc` on which the handler put `Content-Length: 5` is
serialized with the one Content-Length header `Content-Length: 5`, whatever the order of the
headers, and the decimal length of the body is `3`. -/
theorem writeReponse_keeps_handler_content_length :
    to_string_unsigned (bytes "abc").length = bytes "3" ∧
    ∀ (env : Env) (req : HttpRequest),
      ∃ hdrs, (HttpServer.WriteReponse env req
          (((HttpResponse.new 200).SetContent (bytes "abc") (bytes "text/plain")).SetHeader
            (bytes "Content-Length") (bytes "5"))).2 =
          serialized req._version 200 (Util.StatuDesc env._statu_msg 200) hdrs (bytes "abc") ∧
        hdrs.entries (bytes "Content-Length") = [(bytes "Content-Length", bytes "5")] := by
  refine ⟨by decide, ?_⟩
  intro env req
  refine ⟨_, writeReponse_out env req _, ?_⟩
  apply entries_iterate env _ _ _
    (writeReponse_unique env req _ (by unfold StrMap.Unique; decide))
  apply writeReponse_find_kept
  decide

/-- C16, amended: for every response with a non-empty body handed to `WriteReponse` (its
header map holding one entry per name), the serialized response carries exactly one
Content-Length header, of the value the handler put if it put one and else the decimal
numeral of the length of the body, and exactly one Content-Type header, of the handler's
value if it put one and else `application/octet-stream`; when the redirect flag is set and
the response has no Location header yet, it carries exactly one Location header, of the
redirect URL. -/
theorem writeReponse_body_headers (env : Env) (req : HttpRequest) (rsp : HttpResponse)
    (hu : rsp._headers.Unique) (hb : rsp._body ≠ []) :
    ∃ hdrs, (HttpServer.WriteReponse env req rsp).2 =
        serialized req._version rsp._statu (Util.StatuDesc env._statu_msg rsp._statu) hdrs
          rsp._body ∧
      hdrs.entries (bytes "Content-Length") =
        [(bytes "Content-Length", headerOr rsp._headers (bytes "Content-Length")
          (to_string_unsigned rsp._body.length))] ∧
      IsDecimal (to_string_unsigned rsp._body.length) rsp._body.length ∧
      hdrs.entries (bytes "Content-Type") =
        [(bytes "Content-Type", headerOr rsp._headers (bytes "Content-Type")
          (bytes "application/octet-stream"))] ∧
      (rsp._redirect_flag = true → rsp._headers.find (bytes "Location") = none →
        hdrs.entries (bytes "Location") = [(bytes "Location", rsp._redirect_url)]) := by
  have hu2 := writeReponse_unique env req rsp hu
  refine ⟨_, writeReponse_out env req rsp, ?_, to_string_unsigned_spec _, ?_, ?_⟩
  · exact entries_iterate env _ _ _ hu2 (writeReponse_content_length env req rsp hb)
  · exact entries_iterate env _ _ _ hu2 (writeReponse_content_type env req rsp hb)
  · intro hf hnone
    have h := writeReponse_location env req rsp hf
    rw [headerOr, hnone] at h
    exact entries_iterate env _ _ _ hu2 h

/-- C16 amended, at a response of body `abc` without headers that redirects to `/new`:
Content-Length is `3`, Content-Type is `application/octet-stream`, Location is `/new`. -/
theorem writeReponse_body_headers_witness :
    ∃ hdrs, (HttpServer.WriteReponse exampleEnv (HttpRequest.of (bytes "GET") (bytes "/"))
        exampleRedirect).2 =
        serialized (HttpRequest.of (bytes "GET") (bytes "/"))._version exampleRedirect._statu
          (Util.StatuDesc exampleEnv._statu_msg exampleRedirect._statu) hdrs
          exampleRedirect._body ∧
      hdrs.entries (bytes "Content-Length") =
        [(bytes "Content-Length", headerOr exampleRedirect._headers (bytes "Content-Length")
          (to_string_unsigned exampleRedirect._body.length))] ∧
      IsDecimal (to_string_unsigned exampleRedirect._body.length) exampleRedirect._body.length ∧
      hdrs.entries (bytes "Content-Type") =
        [(bytes "Content-Type", headerOr exampleRedirect._headers (bytes "Content-Type")
          (bytes "application/octet-stream"))] ∧
      (exampleRedirect._redirect_flag = true →
        exampleRedirect._headers.find (bytes "Location") = none →
        hdrs.entries (bytes "Location") = [(bytes "Location", exampleRedirect._redirect_url)]) :=
  writeReponse_body_headers exampleEnv (HttpRequest.of (bytes "GET") (bytes "/"))
    exampleRedirect (by simp [StrMap.Unique, exampleRedirect, HttpResponse.SetRedirect,
      HttpResponse.new]) (by decide)

/-- C17 fails for a parse error that comes after the header `Connection: keep-alive`: the
error branch of `OnMessage` serializes the error page with the request parsed so far, so
`WriteReponse` mirrors that header. For every server and environment, on the input
`GET / HTTP/1.1`, `Connection: keep-alive`, `X` the parser reports status 400, and
`OnMessage` sends one response, of status 400 and the error page as body, whose one
Content-Type header has the value `text/html` and whose one Connection header has the value
`keep-alive`, whatever the order of the headers, and then requests the shutdown of the
connection. -/
theorem onMessage_error_response_keep_alive (srv : HttpServer) (env : Env) :
    (HttpContext.new.RecvHttpRequest (Buffer.received keepAliveThenBadLine)).map Prod.fst =
      .ok keepAliveThenBadLineContext ∧
    (∃ context buffer hdrs,
      srv.OnMessage env HttpContext.new (Buffer.received keepAliveThenBadLine) =
        .ok (context, buffer,
          [Event.Send (serialized (bytes "HTTP/1.1") 400 (Util.StatuDesc env._statu_msg 400)
            hdrs (HttpServer.ErrorHandler env HttpRequest.new (HttpResponse.new 400))._body),
           Event.Shutdown]) ∧
      hdrs.entries (bytes "Content-Type") = [(bytes "Content-Type", bytes "text/html")] ∧
      hdrs.entries (bytes "Connection") = [(bytes "Connection", bytes "keep-alive")]) := by
  have fact : (HttpContext.new.RecvHttpRequest (Buffer.received keepAliveThenBadLine)).map
      Prod.fst = .ok keepAliveThenBadLineContext := by decide!
  refine ⟨fact, ?_⟩
  cases hX : HttpContext.new.RecvHttpRequest (Buffer.received keepAliveThenBadLine) with
  | error e => rw [hX] at fact; cases fact
  | ok r =>
    obtain ⟨c, b⟩ := r
    rw [hX] at fact
    have hc : c = keepAliveThenBadLineContext := by
      simpa [Except.map] using fact
    subst hc
    have hr : 0 < (Buffer.received keepAliveThenBadLine).ReadAbleSize := by
      rw [Buffer.received_size]; decide
    have key := onMessage_error srv env HttpContext.new keepAliveThenBadLineContext
      (Buffer.received keepAliveThenBadLine) b hr hX (by decide)
    have hh := errorHandler_headers env keepAliveThenBadLineContext._request
      keepAliveThenBadLineContext._resp_statu
    have hu : (HttpServer.ErrorHandler env keepAliveThenBadLineContext._request
        (HttpResponse.new keepAliveThenBadLineContext._resp_statu))._headers.Unique := by
      rw [hh]; simp [StrMap.Unique]
    have hu2 := writeReponse_unique env keepAliveThenBadLineContext._request _ hu
    refine ⟨keepAliveThenBadLineContext.ReSet, b.advance b.ReadAbleSize,
      (env.iterate (HttpServer.WriteReponse env keepAliveThenBadLineContext._request
        (HttpServer.ErrorHandler env keepAliveThenBadLineContext._request
          (HttpResponse.new keepAliveThenBadLineContext._resp_statu))).1._headers).val,
      ?_, ?_, ?_⟩
    · rw [key, writeReponse_out]
      rfl
    · apply entries_iterate env _ _ _ hu2
      apply writeReponse_find_kept
      rw [hh]
      decide
    · apply entries_iterate env _ _ _ hu2
      rw [writeReponse_connection, hh]
      decide

/-- C18: for a buffer whose cursors satisfy read ≤ write ≤ storage size and every byte string
`x`, `WriteAndPush x` returns, keeps the cursors in order and makes the readable bytes the old
readable bytes followed by `x` (whichever branch `EnsureWriteSpace` takes: enough room at the
tail, compaction, or resize); and for every `n ≤ ReadAbleSize`, `ReadAndPop n` returns the
first `n` readable bytes and leaves exactly the others readable. -/
theorem buffer_writeAndPush_readAndPop (b : Buffer) (x : Str) (hwf : b.WF) :
    (∃ b2, b.WriteAndPush x = .ok b2 ∧ b2.WF ∧ b2.readable = b.readable ++ x) ∧
    (∀ n, n ≤ b.ReadAbleSize →
      ∃ b3, b.ReadAndPop n = .ok (b.readable.take n, b3) ∧ b3.WF ∧
        b3.readable = b.readable.drop n ∧ b.readable = b.readable.take n ++ b3.readable) := by
  refine ⟨Buffer.writeAndPush_spec b x hwf, ?_⟩
  intro n hn
  obtain ⟨w, r⟩ := Buffer.advance_spec b n hwf hn
  exact ⟨b.advance n, Buffer.readAndPop_spec b n hn, w, r, by rw [r, List.take_append_drop]⟩

/-- C18, at a buffer that received `ab`: writing `cd` makes `abcd` readable, and reading one
byte returns `a` and leaves `b`. -/
theorem buffer_writeAndPush_readAndPop_witness :
    (Buffer.received (bytes "ab")).WF ∧
    (∃ b2, (Buffer.received (bytes "ab")).WriteAndPush (bytes "cd") = .ok b2 ∧ b2.WF ∧
      b2.readable = (Buffer.received (bytes "ab")).readable ++ bytes "cd") ∧
    (∀ n, n ≤ (Buffer.received (bytes "ab")).ReadAbleSize →
      ∃ b3, (Buffer.received (bytes "ab")).ReadAndPop n =
          .ok ((Buffer.received (bytes "ab")).readable.take n, b3) ∧ b3.WF ∧
        b3.readable = (Buffer.received (bytes "ab")).readable.drop n ∧
        (Buffer.received (bytes "ab")).readable =
          (Buffer.received (bytes "ab")).readable.take n ++ b3.readable) :=
  ⟨(Buffer.received_spec _).1,
    buffer_writeAndPush_readAndPop (Buffer.received (bytes "ab")) (bytes "cd")
      (Buffer.received_spec _).1⟩

/-- C19, as stated, fails: `Write` copies the bytes and leaves the write cursor where it was, so
on a new buffer `Write` of one byte followed by `ReadAndPop 1` stops at the assertion
`len <= ReadAbleSize()`. -/
theorem write_then_readAndPop_asserts :
    (Buffer.new.Write (bytes "a")).ReadAbleSize = 0 ∧
    (Buffer.new.Write (bytes "a")).ReadAndPop (bytes "a").length = .error .assertion := by
  have h0 := Buffer.write_cursors Buffer.new (bytes "a") rfl
  refine ⟨h0, ?_⟩
  have hn : ¬ (bytes "a").length ≤ (Buffer.new.Write (bytes "a")).ReadAbleSize := by
    rw [h0]; decide
  simp [Buffer.ReadAndPop, hn]

/-- C19, amended: for every byte string `x` and every buffer with read cursor = write cursor ≤
storage size, `WriteAndPush x` followed by `ReadAndPop x.length` returns `x` and leaves the
read cursor equal to the write cursor; after `Write x`, which does not move the write cursor,
nothing is readable and `ReadAndPop x.length` fails its assertion whenever `x` is not empty. -/
theorem writeAndPush_readAndPop_roundtrip (b : Buffer) (x : Str) (hwf : b.WF)
    (h : b._reader_idx = b._writer_idx) :
    (∃ b2 b3, b.WriteAndPush x = .ok b2 ∧ b2.ReadAndPop x.length = .ok (x, b3) ∧
      b3._reader_idx = b3._writer_idx) ∧
    (b.Write x).ReadAbleSize = 0 ∧
    (x ≠ [] → (b.Write x).ReadAndPop x.length = .error .assertion) := by
  refine ⟨?_, Buffer.write_cursors b x h, ?_⟩
  · obtain ⟨b2, e, w2, r2⟩ := Buffer.writeAndPush_spec b x hwf
    have hb : b.readable = [] := by
      apply List.length_eq_zero.1
      rw [Buffer.readable_length b hwf]; omega
    rw [hb, List.nil_append] at r2
    have hlen := Buffer.readable_length b2 w2
    rw [r2] at hlen
    have hle : x.length ≤ b2.ReadAbleSize := by
      simp only [Buffer.ReadAbleSize]; omega
    refine ⟨b2, b2.advance x.length, e, ?_, ?_⟩
    · rw [Buffer.readAndPop_spec b2 x.length hle, r2, List.take_length]
    · obtain ⟨w1, _⟩ := w2
      simp only [Buffer.advance]; omega
  · intro hx
    have h0 := Buffer.write_cursors b x h
    have hpos : 0 < x.length := List.length_pos.2 hx
    have hn : ¬ x.length ≤ (b.Write x).ReadAbleSize := by omega
    simp [Buffer.ReadAndPop, hn]

/-- C19 amended, at a new buffer and the bytes `abc`. -/
theorem writeAndPush_readAndPop_roundtrip_witness :
    Buffer.new.WF ∧ Buffer.new._reader_idx = Buffer.new._writer_idx ∧
    (∃ b2 b3, Buffer.new.WriteAndPush (bytes "abc") = .ok b2 ∧
      b2.ReadAndPop (bytes "abc").length = .ok (bytes "abc", b3) ∧
      b3._reader_idx = b3._writer_idx) ∧
    (Buffer.new.Write (bytes "abc")).ReadAbleSize = 0 ∧
    (bytes "abc" ≠ [] →
      (Buffer.new.Write (bytes "abc")).ReadAndPop (bytes "abc").length = .error .assertion) :=
  ⟨by simp [Buffer.WF, Buffer.new], rfl,
    writeAndPush_readAndPop_roundtrip Buffer.new (bytes "abc")
      (by simp [Buffer.WF, Buffer.new]) rfl⟩

/-- C20: for a buffer whose cursors satisfy read ≤ write ≤ storage size: if the readable bytes
contain a line feed, `GetLineAndPop` returns the prefix `l0 ++ [10]` of the readable bytes in
which `l0` holds no line feed, and the readable bytes afterwards are the remainder; if they
contain none, it returns the empty string and the buffer (storage and both cursors) is
unchanged. -/
theorem getLineAndPop_first_line (b : Buffer) (hwf : b.WF) :
    ((10 : Byte) ∈ b.readable →
      ∃ l0 rest b2, b.readable = l0 ++ 10 :: rest ∧ (10 : Byte) ∉ l0 ∧
        b.GetLineAndPop = .ok (l0 ++ [10], b2) ∧ b2.WF ∧ b2.readable = rest) ∧
    ((10 : Byte) ∉ b.readable → b.GetLineAndPop = .ok ([], b)) := by
  refine ⟨?_, Buffer.getLineAndPop_none b⟩
  intro h
  obtain ⟨l0, rest, e, h10⟩ := split_at_newline b.readable h
  have hle : l0.length + 1 ≤ b.ReadAbleSize := by
    have hlen := Buffer.readable_length b hwf
    rw [e] at hlen
    simp at hlen
    simp only [Buffer.ReadAbleSize]; omega
  obtain ⟨w, r⟩ := Buffer.advance_spec b (l0.length + 1) hwf hle
  refine ⟨l0, rest, b.advance (l0.length + 1), e, h10,
    Buffer.getLineAndPop_line b l0 rest hwf e h10, w, ?_⟩
  rw [r, e]
  simp

/-- C20, at a buffer that received `a`, a line feed and `b`: the line is `a` and the line
feed, and `b` stays. -/
theorem getLineAndPop_first_line_witness :
    (Buffer.received (bytes "a\nb")).WF ∧
    (((10 : Byte) ∈ (Buffer.received (bytes "a\nb")).readable →
      ∃ l0 rest b2, (Buffer.received (bytes "a\nb")).readable = l0 ++ 10 :: rest ∧
        (10 : Byte) ∉ l0 ∧
        (Buffer.received (bytes "a\nb")).GetLineAndPop = .ok (l0 ++ [10], b2) ∧ b2.WF ∧
        b2.readable = rest) ∧
    ((10 : Byte) ∉ (Buffer.received (bytes "a\nb")).readable →
      (Buffer.received (bytes "a\nb")).GetLineAndPop =
        .ok ([], Buffer.received (bytes "a\nb")))) :=
  ⟨(Buffer.received_spec _).1,
    getLineAndPop_first_line (Buffer.received (bytes "a\nb")) (Buffer.received_spec _).1⟩

/-- C21: for every wheel that satisfies the invariant, every id and every delay `d` with
`0 < d ≤ 60`, `TimerAddInLoop` creates a timer object, indexed under the id, such that for
every sequence of operations that keeps to the contract of `add` and neither refreshes nor
cancels that object: with fewer than `d` tick advances in the sequence its task is not
called, and after `d - 1` of them the next tick advance calls its task, once. -/
theorem timer_add_fires_at_delay (w : TimerWheel) (id d : Nat) (ops : List TimerOp)
    (hwf : w.WF) (h0 : 0 < d) (h60 : d ≤ 60)
    (hq : Quiet w.heap.length (w.TimerAddInLoop id d) ops) (hk : ticks ops < d) :
    (w.TimerAddInLoop id d)._timers.lookup id = some w.heap.length ∧
    (w.TimerAddInLoop id d).heap[w.heap.length]? =
      some { _id := id, _timeout := d, _canceled := false } ∧
    ∃ w1 ran, (w.TimerAddInLoop id d).run ops = .ok (w1, ran) ∧ w.heap.length ∉ ran ∧
      (ticks ops = d - 1 → w1.RunTimerTask.2.count w.heap.length = 1) := by
  obtain ⟨f1, f2, f3, f4, f5⟩ := TimerWheel.add_fields w id d
  have hheap : (w.TimerAddInLoop id d).heap[w.heap.length]? =
      some { _id := id, _timeout := d, _canceled := false } := by
    rw [f4]; simp
  have hpos : (w._tick + d) % 2 ^ 32 % w._capacity = (w._tick + d) % 60 := by
    rw [hwf.1]
    have : (2 : Nat) ^ 32 = 4294967296 := by norm_num
    have h3 := hwf.2.2.1
    omega
  have hdue : (w.TimerAddInLoop id d).Due w.heap.length d := by
    refine ⟨h0, h60, ⟨_, hheap, rfl⟩, ?_, ?_⟩
    · intro q hx
      rw [f5] at hx
      rw [f1]
      rcases hx with hx | ⟨hq1, _, _⟩
      · obtain ⟨t, e1, _⟩ := hwf.2.2.2 q _ hx
        exact absurd (heap_lt_of_some _ _ _ e1) (Nat.lt_irrefl _)
      · exact ⟨d, h0, Nat.le_refl _, by rw [← hq1, hpos]⟩
    · rw [f5, f1]
      right
      refine ⟨hpos, ?_, rfl⟩
      rw [hpos, hwf.2.1]
      omega
  refine ⟨?_, hheap, ?_⟩
  · simp only [TimerWheel.TimerAddInLoop, TimerWheel.push_back]
    rw [List.lookup_append, lookup_filter_none _ _ _ (Or.inl rfl)]
    simp [List.lookup_cons]
  · obtain ⟨w1, ran, e, hn, wf1, d1⟩ := TimerWheel.quiet_run _ ops _ d
      (TimerWheel.wf_add w id d hwf h0 h60) hdue hq hk
    refine ⟨w1, ran, e, hn, ?_⟩
    intro hk2
    have : d - ticks ops = 1 := by omega
    rw [this] at d1
    exact (TimerWheel.due_tick_fire w1 _ wf1 d1).1

/-- C21, at a new wheel: a timer of id 7 and delay 3 is not run by two tick advances, and the
third runs its task. -/
theorem timer_add_fires_at_delay_witness :
    (TimerWheel.new.TimerAddInLoop 7 3)._timers.lookup 7 = some TimerWheel.new.heap.length ∧
    (TimerWheel.new.TimerAddInLoop 7 3).heap[TimerWheel.new.heap.length]? =
      some { _id := 7, _timeout := 3, _canceled := false } ∧
    ∃ w1 ran, (TimerWheel.new.TimerAddInLoop 7 3).run [TimerOp.tick, TimerOp.tick] =
        .ok (w1, ran) ∧ TimerWheel.new.heap.length ∉ ran ∧
      (ticks [TimerOp.tick, TimerOp.tick] = 3 - 1 →
        w1.RunTimerTask.2.count TimerWheel.new.heap.length = 1) :=
  timer_add_fires_at_delay TimerWheel.new 7 3 [TimerOp.tick, TimerOp.tick] TimerWheel.wf_new
    (by decide) (by decide)
    ⟨trivial, fun h => h, fun _ _ _ => ⟨trivial, fun h => h, fun _ _ _ => trivial⟩⟩
    (by decide)

/-- C22: for every wheel that satisfies the invariant and every timer object that is in the
index, alive and not canceled, its timeout `d` is one of 1 .. 60 and `TimerRefreshInLoop`
returns, and for every sequence of operations after it that keeps to the contract of `add`
and neither refreshes nor cancels the object: with fewer than `d` tick advances in the
sequence its task is not called, wherever its older `PtrTask`s sit and whenever they are
dropped, and after `d - 1` of them the next tick advance calls its task, once. -/
theorem timer_refresh_fires_at_delay (w : TimerWheel) (id pt : Nat) (t : TimerTask)
    (hwf : w.WF) (hidx : w._timers.lookup id = some pt) (halive : w.expired pt = false)
    (hheap : w.heap[pt]? = some t) (hnc : t._canceled = false) :
    0 < t._timeout ∧ t._timeout ≤ 60 ∧
    ∃ w0, w.TimerRefreshInLoop id = .ok w0 ∧
      ∀ ops, Quiet pt w0 ops → ticks ops < t._timeout →
        ∃ w1 ran, w0.run ops = .ok (w1, ran) ∧ pt ∉ ran ∧
          (ticks ops = t._timeout - 1 → w1.RunTimerTask.2.count pt = 1) := by
  obtain ⟨q0, hq0⟩ := (TimerWheel.expired_false_iff w pt).1 halive
  obtain ⟨t0, e1, e2, j0, j1, j2, _⟩ := hwf.2.2.2 q0 pt hq0
  rw [hheap] at e1
  injection e1 with e1
  subst e1
  obtain ⟨w0, e, wf0, g1, g2, _, _⟩ := TimerWheel.wf_refresh w id hwf
  refine ⟨by omega, e2, w0, e, ?_⟩
  have hw0 : w0 = w.push_back ((w._tick + t._timeout) % 60) pt := by
    have h2 := TimerWheel.refresh_alive w id pt t hwf hidx halive hheap
    rw [e] at h2
    injection h2
  have hdue : w0.Due pt t._timeout := by
    refine ⟨by omega, e2, ⟨t, by rw [g2]; exact hheap, hnc⟩, ?_, ?_⟩
    · intro q hq
      rw [g1]
      rw [hw0, TimerWheel.mem_push_back] at hq
      rcases hq with hq | ⟨hq, _, _⟩
      · obtain ⟨t1, a1, _, j, b1, b2, b3⟩ := hwf.2.2.2 q pt hq
        rw [hheap] at a1
        injection a1 with a1
        subst a1
        exact ⟨j, b1, b2, b3⟩
      · exact ⟨t._timeout, by omega, Nat.le_refl _, hq.symm⟩
    · rw [g1, hw0, TimerWheel.mem_push_back]
      right
      refine ⟨rfl, ?_, rfl⟩
      rw [hwf.2.1]
      omega
  intro ops hq hk
  obtain ⟨w1, ran, e3, hn, wf1, d1⟩ := TimerWheel.quiet_run pt ops w0 t._timeout wf0 hdue hq hk
  refine ⟨w1, ran, e3, hn, ?_⟩
  intro hk2
  have : t._timeout - ticks ops = 1 := by omega
  rw [this] at d1
  exact (TimerWheel.due_tick_fire w1 _ wf1 d1).1

/-- C22, at a wheel on which the timer of id 7 and timeout 3 was added one tick ago: after
its refresh, two tick advances do not run its task and the third does. -/
theorem timer_refresh_fires_at_delay_witness :
    0 < exampleTimer._timeout ∧ exampleTimer._timeout ≤ 60 ∧
    ∃ w0, exampleWheel.TimerRefreshInLoop 7 = .ok w0 ∧
      ∀ ops, Quiet 0 w0 ops → ticks ops < exampleTimer._timeout →
        ∃ w1 ran, w0.run ops = .ok (w1, ran) ∧ 0 ∉ ran ∧
          (ticks ops = exampleTimer._timeout - 1 → w1.RunTimerTask.2.count 0 = 1) :=
  timer_refresh_fires_at_delay exampleWheel 7 0 exampleTimer
    (TimerWheel.wf_tick _ (TimerWheel.wf_add _ 7 3 TimerWheel.wf_new (by decide) (by decide)))
    (by decide) (by decide) (by decide) rfl

/-- C23: for every wheel that satisfies the invariant and every timer object that is in the
index under its id and alive, after `TimerCancelInLoop` every sequence of operations that
keeps to the contract of `add`, refreshes of the same id included, returns and does not call
the task of the object, and the tick advance that drops its last `PtrTask` leaves the index
without an entry for the id; for every wheel and every id that is not in the index,
`TimerRefreshInLoop` and `TimerCancelInLoop` return the wheel as it was, tick and index
included. -/
theorem timer_cancel_never_runs (w : TimerWheel) (id pt : Nat) (t : TimerTask)
    (hwf : w.WF) (hidx : w._timers.lookup id = some pt) (halive : w.expired pt = false)
    (hheap : w.heap[pt]? = some t) (hid : t._id = id) :
    (∀ ops, Admissible (w.TimerCancelInLoop id) ops →
      ∃ w1 ran, (w.TimerCancelInLoop id).run ops = .ok (w1, ran) ∧ pt ∉ ran ∧
        (w1.expired pt = false → w1.RunTimerTask.1.expired pt = true →
          pt ∉ w1.RunTimerTask.2 ∧ w1.RunTimerTask.1._timers.lookup id = none)) ∧
    ∀ (v : TimerWheel) (k : Nat), v._timers.lookup k = none →
      v.TimerRefreshInLoop k = .ok v ∧ v.TimerCancelInLoop k = v := by
  constructor
  · intro ops hadm
    have hcan : ∃ t0, (w.TimerCancelInLoop id).heap[pt]? = some t0 ∧ t0._canceled = true ∧
        t0._id = id := by
      have e : w.TimerCancelInLoop id =
          { w with heap := w.heap.set pt { t with _canceled := true } } := by
        unfold TimerWheel.TimerCancelInLoop
        rw [hidx]
        dsimp only
        unfold TimerWheel.lock
        rw [halive]
        simp only [Bool.false_eq_true, if_false, hheap]
      rw [e]
      refine ⟨{ t with _canceled := true }, ?_, rfl, hid⟩
      simp only [List.getElem?_set, heap_lt_of_some _ _ _ hheap, if_true]
    obtain ⟨t0, c1, c2, c3⟩ := hcan
    obtain ⟨w1, ran, e, wf1, _, _⟩ := TimerWheel.run_inv ops _ (TimerWheel.wf_cancel w id hwf) hadm
    obtain ⟨⟨t1, d1, d2⟩, hn⟩ := TimerWheel.run_canceled ops _ w1 ran pt t0 e c1 c2
    obtain ⟨t2, g1, g2, _⟩ := TimerWheel.run_heap ops _ w1 ran pt t0 e c1
    rw [d1] at g1
    injection g1 with g1
    subst g1
    refine ⟨w1, ran, e, hn, ?_⟩
    intro a1 a2
    have hdrop := (TimerWheel.tick_drop w1 pt t1 wf1 a1 a2 d1).1
    rw [g2, c3] at hdrop
    refine ⟨?_, hdrop⟩
    intro hm
    obtain ⟨_, _, t3, k1, k2⟩ := TimerWheel.tick_ran w1 pt hm
    rw [d1] at k1
    injection k1 with k1
    subst k1
    rw [d2] at k2
    cases k2
  · intro v k hk
    constructor
    · unfold TimerWheel.TimerRefreshInLoop
      rw [hk]
    · unfold TimerWheel.TimerCancelInLoop
      rw [hk]

/-- C23, at a wheel on which the timer of id 7 and timeout 3 was added one tick ago: after
its cancel no sequence of operations calls its task. -/
theorem timer_cancel_never_runs_witness :
    (∀ ops, Admissible (exampleWheel.TimerCancelInLoop 7) ops →
      ∃ w1 ran, (exampleWheel.TimerCancelInLoop 7).run ops = .ok (w1, ran) ∧ 0 ∉ ran ∧
        (w1.expired 0 = false → w1.RunTimerTask.1.expired 0 = true →
          0 ∉ w1.RunTimerTask.2 ∧ w1.RunTimerTask.1._timers.lookup 7 = none)) ∧
    ∀ (v : TimerWheel) (k : Nat), v._timers.lookup k = none →
      v.TimerRefreshInLoop k = .ok v ∧ v.TimerCancelInLoop k = v :=
  timer_cancel_never_runs exampleWheel 7 0 exampleTimer
    (TimerWheel.wf_tick _ (TimerWheel.wf_add _ 7 3 TimerWheel.wf_new (by decide) (by decide)))
    (by decide) (by decide) (by decide) rfl

/-- C24: every sequence of operations on a new wheel that keeps to the contract of `add`
returns, and in the list of the objects whose task was called no object occurs twice; an
object that is canceled at the end is not in the list and no later sequence calls its task;
an object that is not canceled is in the list if it is dead, and if it is alive it is not
in the list and there is an `r` in 1 .. 60 such that every later sequence that neither
refreshes nor cancels it calls its task not at all with fewer than `r` tick advances and
once with `r` or more. -/
theorem timer_task_runs_once (ops : List TimerOp) (hadm : Admissible TimerWheel.new ops) :
    ∃ w1 ran, TimerWheel.new.run ops = .ok (w1, ran) ∧ ran.Nodup ∧
      ∀ pt t, w1.heap[pt]? = some t →
        (t._canceled = true → pt ∉ ran ∧ ∀ post, Admissible w1 post →
          ∃ w2 ran2, w1.run post = .ok (w2, ran2) ∧ pt ∉ ran2) ∧
        (t._canceled = false → w1.expired pt = true → pt ∈ ran) ∧
        (t._canceled = false → w1.expired pt = false → pt ∉ ran ∧
          ∃ r, 1 ≤ r ∧ r ≤ 60 ∧ ∀ post, Quiet pt w1 post →
            ∃ w2 ran2, w1.run post = .ok (w2, ran2) ∧
              (ran ++ ran2).count pt = if ticks post < r then 0 else 1) := by
  obtain ⟨w1, ran, e, wf1, nd, hran⟩ := TimerWheel.run_inv ops _ TimerWheel.wf_new hadm
  refine ⟨w1, ran, e, nd, ?_⟩
  intro pt t ht
  refine ⟨?_, ?_, ?_⟩
  · intro hc
    constructor
    · intro hm
      obtain ⟨_, t2, k1, k2⟩ := hran pt hm
      rw [ht] at k1
      injection k1 with k1
      subst k1
      rw [hc] at k2
      cases k2
    · intro post hp
      obtain ⟨w2, ran2, e2, _, _, _⟩ := TimerWheel.run_inv post w1 wf1 hp
      exact ⟨w2, ran2, e2, (TimerWheel.run_canceled post w1 w2 ran2 pt t e2 ht hc).2⟩
  · intro hc hd
    rcases TimerWheel.run_fired ops _ w1 ran pt t TimerWheel.wf_new hadm e ht hd hc with
      k | ⟨t0, k, _⟩
    · exact k
    · simp [TimerWheel.new] at k
  · intro hc ha
    have hn : pt ∉ ran := by
      intro hm
      rw [(hran pt hm).1] at ha
      cases ha
    refine ⟨hn, ?_⟩
    obtain ⟨r, hd⟩ := TimerWheel.due_exists w1 pt t wf1 ha ht hc
    refine ⟨r, hd.1, hd.2.1, ?_⟩
    intro post hq
    obtain ⟨w2, ran2, e2, hcount⟩ := TimerWheel.due_run pt post w1 r wf1 hd hq
    refine ⟨w2, ran2, e2, ?_⟩
    rw [List.count_append, List.count_eq_zero_of_not_mem hn, Nat.zero_add]
    exact hcount

/-- C24, for the sequence that adds a timer of id 7 and delay 3, refreshes it after one tick
advance and cancels it after another. -/
theorem timer_task_runs_once_witness :
    ∃ w1 ran, TimerWheel.new.run [TimerOp.add 7 3, TimerOp.tick, TimerOp.refresh 7,
        TimerOp.tick, TimerOp.cancel 7] = .ok (w1, ran) ∧ ran.Nodup ∧
      ∀ pt t, w1.heap[pt]? = some t →
        (t._canceled = true → pt ∉ ran ∧ ∀ post, Admissible w1 post →
          ∃ w2 ran2, w1.run post = .ok (w2, ran2) ∧ pt ∉ ran2) ∧
        (t._canceled = false → w1.expired pt = true → pt ∈ ran) ∧
        (t._canceled = false → w1.expired pt = false → pt ∉ ran ∧
          ∃ r, 1 ≤ r ∧ r ≤ 60 ∧ ∀ post, Quiet pt w1 post →
            ∃ w2 ran2, w1.run post = .ok (w2, ran2) ∧
              (ran ++ ran2).count pt = if ticks post < r then 0 else 1) :=
  timer_task_runs_once [TimerOp.add 7 3, TimerOp.tick, TimerOp.refresh 7, TimerOp.tick,
      TimerOp.cancel 7]
    ⟨⟨by decide, by decide, by decide⟩, fun _ _ _ => ⟨trivial, fun _ _ _ => ⟨trivial, fun _ _ _ =>
      ⟨trivial, fun _ _ _ => ⟨trivial, fun _ _ _ => trivial⟩⟩⟩⟩⟩

/-- C25: for a channel whose five callbacks are set and every fired-event mask,
`HandleEvent` calls, in this order: the read callback exactly if Readable, PeerHalfClose or
Priority is set; then the write callback if Writable is set, otherwise the error callback if
Error is set, otherwise the close callback if Hangup is set, otherwise none of the three;
and last the any-event callback, once for every mask. -/
theorem handleEvent_order (c : Channel) (hset : c.AllSet) :
    c.HandleEvent =
      (if Fired.Readable c._revents = true ∨ Fired.PeerHalfClose c._revents = true ∨
          Fired.Priority c._revents = true then [Callback.read] else []) ++
      (if Fired.Writable c._revents = true then [Callback.write]
        else if Fired.Error c._revents = true then [Callback.error]
        else if Fired.Hangup c._revents = true then [Callback.close]
        else []) ++
      [Callback.event] := by
  obtain ⟨h1, h2, h3, h4, h5⟩ := hset
  obtain ⟨e1, e2, e3, e4, e5, e6⟩ := epoll_flags c._revents
  unfold Channel.HandleEvent
  simp only [h1, h2, h3, h4, h5, if_true, e1, e2, e3, e4, e5, e6]

/-- C25, at a channel with all callbacks set and the fired mask Error + Hangup: the error
callback and then the any-event callback are called. -/
theorem handleEvent_order_witness :
    (⟨7, 0, EPOLLERR ||| EPOLLHUP, true, true, true, true, true⟩ : Channel).HandleEvent =
      (if Fired.Readable (EPOLLERR ||| EPOLLHUP) = true ∨
          Fired.PeerHalfClose (EPOLLERR ||| EPOLLHUP) = true ∨
          Fired.Priority (EPOLLERR ||| EPOLLHUP) = true then [Callback.read] else []) ++
      (if Fired.Writable (EPOLLERR ||| EPOLLHUP) = true then [Callback.write]
        else if Fired.Error (EPOLLERR ||| EPOLLHUP) = true then [Callback.error]
        else if Fired.Hangup (EPOLLERR ||| EPOLLHUP) = true then [Callback.close]
        else []) ++
      [Callback.event] :=
  handleEvent_order ⟨7, 0, EPOLLERR ||| EPOLLHUP, true, true, true, true, true⟩
    ⟨rfl, rfl, rfl, rfl, rfl⟩

/-- C26: with thread count 0, `NextLoop` returns the base loop and leaves the pool as it is;
`Create` with thread count `N > 0` gives a pool with `N` created workers; and for every pool
with `N > 0` created workers, a call of `NextLoop` returns one of the `N` loops and leaves
`N` created workers (index in `0 .. N - 1`), and `N` calls in a row return a permutation of
the `N` loops, each worker once, and bring the index back to where it was. -/
theorem nextLoop_round_robin (N : Nat) (hmax : N ≤ 2 ^ 31 - 1) :
    (∀ p : LoopThreadPool, p._thread_count = 0 → p.NextLoop = .ok (p, p._baseloop)) ∧
    (∀ (baseloop : Nat) (GetLoop : Nat → Nat), 0 < N →
      (((LoopThreadPool.new baseloop).SetThreadCount N).Create GetLoop).Created N ∧
      (((LoopThreadPool.new baseloop).SetThreadCount N).Create GetLoop)._loops =
        (List.range N).map GetLoop) ∧
    (∀ p : LoopThreadPool, 0 < N → p.Created N →
      (∃ p2 loop, p.NextLoop = .ok (p2, loop) ∧ loop ∈ p._loops ∧ p2.Created N ∧
        p2._loops = p._loops) ∧
      (∃ p2 loops, p.nextLoops N = .ok (p2, loops) ∧ loops.Perm p._loops ∧ p2.Created N ∧
        p2._loops = p._loops ∧ p2._next_idx = p._next_idx)) := by
  refine ⟨?_, ?_, ?_⟩
  · intro p h
    simp [LoopThreadPool.NextLoop, h]
  · intro baseloop GetLoop hN
    have hpos : (0 : Int) < (N : Int) := by exact_mod_cast hN
    simp [LoopThreadPool.Create, LoopThreadPool.SetThreadCount, LoopThreadPool.new,
      LoopThreadPool.Created, hpos]
  · intro p hN h
    constructor
    · refine ⟨_, _, nextLoop_created p N hN hmax h, ?_, nextLoop_created_inv p N hN h, rfl⟩
      have hlt : (p._next_idx.toNat + 1) % N < p._loops.length := by
        rw [h.2.1]; exact Nat.mod_lt _ hN
      rw [List.getD_eq_getElem?_getD, List.getElem?_eq_getElem hlt]
      exact List.getElem_mem _
    · obtain ⟨p2, e, c2, l2, _, i2⟩ := nextLoops_created N hN hmax N p h
      have hlen := h.2.1
      refine ⟨p2, _, e, ?_, c2, l2, ?_⟩
      · have := rotation_eq p._loops p._next_idx.toNat
        rw [hlen] at this
        rw [this]
        exact List.rotate_perm _ _
      · obtain ⟨_, _, a3, a4⟩ := h
        obtain ⟨_, _, b3, b4⟩ := c2
        have hi : p._next_idx.toNat < N := by omega
        rw [Nat.add_mod_right, Nat.mod_eq_of_lt hi] at i2
        omega

/-- C26, at a pool of three workers created from a new pool: three calls in a row return
the loops of the three workers, each once. -/
theorem nextLoop_round_robin_witness :
    (∃ p2 loop, (((LoopThreadPool.new 0).SetThreadCount (3 : Nat)).Create (· + 1)).NextLoop =
        .ok (p2, loop) ∧
      loop ∈ (((LoopThreadPool.new 0).SetThreadCount (3 : Nat)).Create (· + 1))._loops ∧
      p2.Created 3 ∧
      p2._loops = (((LoopThreadPool.new 0).SetThreadCount (3 : Nat)).Create (· + 1))._loops) ∧
    (∃ p2 loops, (((LoopThreadPool.new 0).SetThreadCount (3 : Nat)).Create (· + 1)).nextLoops 3 =
        .ok (p2, loops) ∧
      loops.Perm (((LoopThreadPool.new 0).SetThreadCount (3 : Nat)).Create (· + 1))._loops ∧
      p2.Created 3 ∧
      p2._loops = (((LoopThreadPool.new 0).SetThreadCount (3 : Nat)).Create (· + 1))._loops ∧
      p2._next_idx =
        (((LoopThreadPool.new 0).SetThreadCount (3 : Nat)).Create (· + 1))._next_idx) :=
  (nextLoop_round_robin 3 (by decide)).2.2
    (((LoopThreadPool.new 0).SetThreadCount (3 : Nat)).Create (· + 1)) (by decide)
    (((nextLoop_round_robin 3 (by decide)).2.1 0 (· + 1) (by decide)).1)

/-- C27: for every loop and every sequence of `QueueInLoop` calls, the queue holds the tasks
in the order of the calls; `RunAllTask` runs exactly the tasks that are in the queue when it
starts, each once and in that order, and the tasks queued while it runs are not run by it:
afterwards the queue holds exactly them, in the order in which they were queued. -/
theorem runAllTask_fifo (queued : Nat → List Nat) (l : EventLoop) (cbs : List Nat) :
    (cbs.foldl EventLoop.QueueInLoop l)._tasks = l._tasks ++ cbs ∧
    (EventLoop.RunAllTask queued l).2 = l._tasks ∧
    (EventLoop.RunAllTask queued l).1._tasks = (l._tasks.map queued).flatten := by
  refine ⟨foldl_queueInLoop cbs l, ?_, ?_⟩
  · simp [EventLoop.RunAllTask, runFunctors_spec]
  · simp [EventLoop.RunAllTask, runFunctors_spec]

/-- C28: the bytes `stream`, appended in one piece to the buffer of a new connection and
parsed by one call of `RecvHttpRequest` on a new context, give state Over. Then for every
way of cutting `stream` into chunks, appending the chunks one at a time with a call of
`RecvHttpRequest` after each returns, with the same context (state, status and request) and
the same unread bytes as the single call; and after any first chunks that hold fewer bytes
than the single call took from the buffer, the state is neither Over nor Error. -/
theorem recvHttpRequest_chunked (stream : Str) (chunks : List Str) (c : HttpContext)
    (b : Buffer) (hcut : chunks.flatten = stream)
    (hone : feed (HttpContext.new, Buffer.new) stream = .ok (c, b))
    (hover : c._recv_statu = RECV_HTTP_OVER) :
    (∃ b2, feedAll (HttpContext.new, Buffer.new) chunks = .ok (c, b2) ∧
      b2.readable = b.readable) ∧
    ∀ pre post, chunks = pre ++ post →
      pre.flatten.length + b.readable.length < stream.length →
      ∃ c1 b1, feedAll (HttpContext.new, Buffer.new) pre = .ok (c1, b1) ∧
        c1._recv_statu ≠ RECV_HTTP_OVER ∧ c1._recv_statu ≠ RECV_HTTP_ERROR := by
  have hT := feed_new_stream stream c b hone
  have hne : c._recv_statu ≠ RECV_HTTP_ERROR := by rw [hover]; simp
  have hid : HttpContext.new.recvStep Buffer.new.readable =
      .ok (HttpContext.new, Buffer.new.readable) := by
    rw [Buffer.new_spec.2]; exact recvStep_new_nil
  constructor
  · obtain ⟨b2, f, _, r⟩ := feedAll_stream chunks HttpContext.new c Buffer.new b.readable
      Buffer.new_spec.1 hid (by rw [Buffer.new_spec.2, List.nil_append, hcut]; exact hT) hne
    exact ⟨b2, f, r⟩
  · intro pre post hsplit hlen
    have hs : stream = pre.flatten ++ post.flatten := by
      rw [← hcut, hsplit, List.flatten_append]
    rw [hs] at hT
    obtain ⟨c1, s1, e1, ne1⟩ := recvStep_prefix HttpContext.new c _ _ _ hT hne
    obtain ⟨b1, f, _, _⟩ := feedAll_stream pre HttpContext.new c1 Buffer.new s1
      Buffer.new_spec.1 hid (by rw [Buffer.new_spec.2, List.nil_append]; exact e1) ne1
    refine ⟨c1, b1, f, ?_, ne1⟩
    intro hov
    have hres := recvStep_resume HttpContext.new c1 _ s1 post.flatten e1 ne1
    rw [hT, recvStep_over c1 _ hov] at hres
    injection hres with hres
    injection hres with _ h2
    have hl := congrArg List.length h2
    rw [hs] at hlen
    simp only [List.length_append] at hl hlen
    omega

/-- C28, for the request `GET / HTTP/1.1` with an empty header block, followed by `XY`, cut
in the middle of the request line and before the blank line. -/
theorem recvHttpRequest_chunked_witness :
    (∃ b2, feedAll (HttpContext.new, Buffer.new)
        [bytes "GET / HT", bytes "TP/1.1\n", bytes "\nXY"] =
        .ok ({ HttpContext.new with
            _recv_statu := RECV_HTTP_OVER
            _request := { HttpRequest.new with _method := bytes "GET", _path := bytes "/" } },
          b2) ∧
      b2.readable = ((Buffer.received (bytes "GET / HTTP/1.1\n\nXY")).advance 16).readable) ∧
    ∀ pre post, [bytes "GET / HT", bytes "TP/1.1\n", bytes "\nXY"] = pre ++ post →
      pre.flatten.length +
          ((Buffer.received (bytes "GET / HTTP/1.1\n\nXY")).advance 16).readable.length <
        (bytes "GET / HTTP/1.1\n\nXY").length →
      ∃ c1 b1, feedAll (HttpContext.new, Buffer.new) pre = .ok (c1, b1) ∧
        c1._recv_statu ≠ RECV_HTTP_OVER ∧ c1._recv_statu ≠ RECV_HTTP_ERROR :=
  recvHttpRequest_chunked (bytes "GET / HTTP/1.1\n\nXY")
    [bytes "GET / HT", bytes "TP/1.1\n", bytes "\nXY"]
    { HttpContext.new with
      _recv_statu := RECV_HTTP_OVER
      _request := { HttpRequest.new with _method := bytes "GET", _path := bytes "/" } }
    ((Buffer.received (bytes "GET / HTTP/1.1\n\nXY")).advance 16)
    (by decide) (by decide!) rfl

/-- C29: a request made of an accepted request line (complete, at most 8192 bytes, matching
the pattern, every query component with an `=`), header lines `key: value` of at most 8192
bytes each, a blank line, and a body of exactly `n` bytes, `n` being the Content-Length of
the stored headers (0 when absent, below `2^63`), is followed by any bytes `t`. Appended to
the buffer of a new connection and parsed by one call of `RecvHttpRequest` on a new context,
it gives state Over, the body and the headers of the request are stored, and the unread
bytes of the buffer are exactly `t`. -/
theorem recvHttpRequest_consumes_request (line m p : Str) (q : Option Str) (v eol : Str)
    (hs : List Str) (kvs : List (Str × Str)) (blank body t : Str) (n : Nat)
    (hline : CompleteLine line) (hlen : line.length ≤ 8192)
    (hparts : RequestLineParts line m p q v eol)
    (hq : ∀ comp ∈ queryComponents q, (61 : Byte) ∈ comp)
    (hhs : List.Forall₂ (fun h kv => RequestHeaderLine h kv.1 kv.2 ∧ h.length ≤ 8192) hs kvs)
    (hblank : blank = [10] ∨ blank = [13, 10])
    (hcl : ContentLengthIs (headersOf kvs) n) (hn : n < 2 ^ 63) (hbody : body.length = n) :
    ∃ c b, feed (HttpContext.new, Buffer.new) (line ++ hs.flatten ++ blank ++ body ++ t) =
        .ok (c, b) ∧
      c._recv_statu = RECV_HTTP_OVER ∧ c._resp_statu = 200 ∧ b.readable = t ∧
      c._request._body = body ∧ c._request._headers = headersOf kvs := by
  have e1 := lineStep_accept HttpContext.new line (hs.flatten ++ (blank ++ (body ++ t))) m p q v
    eol rfl hline hlen hparts hq
  have e2 := headStep_headers hs kvs hhs
    { HttpContext.new.withLine m p q v with _recv_statu := RECV_HTTP_HEAD }
    (blank ++ (body ++ t)) rfl
  rw [headStep_blank _ blank (body ++ t) rfl hblank] at e2
  have e3 := bodyStep_exact
    ({ ({ ({ HttpContext.new.withLine m p q v with _recv_statu := RECV_HTTP_HEAD } :
          HttpContext) with
        _request :=
          { (HttpContext.new.withLine m p q v)._request with
            _headers := headersOf kvs } } : HttpContext) with
      _recv_statu := RECV_HTTP_BODY }) body t n rfl rfl hcl hn hbody
  have hrec : HttpContext.new.recvStep (line ++ hs.flatten ++ blank ++ body ++ t) =
      .ok ({ _resp_statu := 200, _recv_statu := RECV_HTTP_OVER,
             _request := { (HttpContext.new.withLine m p q v)._request with
               _headers := headersOf kvs, _body := body } }, t) := by
    rw [recvStep_eq]
    simp only [List.append_assoc]
    rw [e1]
    dsimp only
    rw [e2]
    exact e3
  obtain ⟨b, f, _, r⟩ := (feed_stream HttpContext.new Buffer.new _ Buffer.new_spec.1).2 _ _
    (by rw [Buffer.new_spec.2, List.nil_append]; exact hrec)
  exact ⟨_, b, f, rfl, rfl, r, rfl, rfl⟩

/-- C29, for the request `POST /a?x=1 HTTP/1.1` with the header `Content-Length: 5` and the
body `hello`, followed by the first bytes `GET` of the next request. -/
theorem recvHttpRequest_consumes_request_witness :
    ∃ c b, feed (HttpContext.new, Buffer.new)
        (bytes "POST /a?x=1 HTTP/1.1\r\n" ++ [bytes "Content-Length: 5\r\n"].flatten ++
          bytes "\r\n" ++ bytes "hello" ++ bytes "GET") = .ok (c, b) ∧
      c._recv_statu = RECV_HTTP_OVER ∧ c._resp_statu = 200 ∧ b.readable = bytes "GET" ∧
      c._request._body = bytes "hello" ∧
      c._request._headers = headersOf [(bytes "Content-Length", bytes "5")] :=
  recvHttpRequest_consumes_request (bytes "POST /a?x=1 HTTP/1.1\r\n") (bytes "POST")
    (bytes "/a") (some (bytes "x=1")) (bytes "HTTP/1.1") [13, 10]
    [bytes "Content-Length: 5\r\n"] [(bytes "Content-Length", bytes "5")] (bytes "\r\n")
    (bytes "hello") (bytes "GET") 5
    ⟨bytes "POST /a?x=1 HTTP/1.1\r", by decide, by decide⟩ (by decide)
    ⟨by decide, Or.inr (Or.inr (Or.inl rfl)), by decide,
      fun t ht => by cases ht; exact ⟨by decide, by decide⟩, Or.inr rfl, Or.inr (Or.inr rfl)⟩
    (by decide)
    (List.Forall₂.cons
      ⟨⟨[13, 10], by decide, by decide, by decide, by decide, Or.inl rfl⟩, by decide⟩
      List.Forall₂.nil)
    (Or.inr rfl) (Or.inr ⟨bytes "5", by decide, isDecimal_five⟩) (by norm_num) (by decide)

/-- C30: for every context and every buffer, a call of `RecvHttpRequest` that returns leaves
the parse state where it was on the chain Line → Head → Body → Over or further along it, or
in Error; and in state Error, and in state Over, the call returns and changes neither the
context (state, status, request) nor the buffer, so it stays so after any number of calls. -/
theorem recvHttpRequest_forward (c : HttpContext) (buf : Buffer) :
    (∀ c2 buf2, c.RecvHttpRequest buf = .ok (c2, buf2) →
      c2._recv_statu = RECV_HTTP_ERROR ∨
        c._recv_statu.chainPos ≤ c2._recv_statu.chainPos) ∧
    (c._recv_statu = RECV_HTTP_ERROR ∨ c._recv_statu = RECV_HTTP_OVER →
      c.RecvHttpRequest buf = .ok (c, buf) ∧
      ∀ n : Nat, recvTimes n (c, buf) = .ok (c, buf)) := by
  refine ⟨fun c2 buf2 h => recvHttpRequest_state c c2 buf buf2 h, ?_⟩
  intro hs
  have h1 : c.RecvHttpRequest buf = .ok (c, buf) := by
    unfold HttpContext.RecvHttpRequest
    rcases hs with hs | hs <;> rw [hs] <;> rfl
  refine ⟨h1, ?_⟩
  intro n
  induction n with
  | zero => rfl
  | succ n ih => simp only [recvTimes, h1, bind, Except.bind]; exact ih

/-- C30, at the context that the request line `GOT / HTTP/1.1` leaves in state Error: a
further call changes nothing. -/
theorem recvHttpRequest_forward_witness :
    (HttpContext.new.fail 400).RecvHttpRequest (Buffer.received (bytes "abc")) =
        .ok (HttpContext.new.fail 400, Buffer.received (bytes "abc")) ∧
      ∀ n : Nat, recvTimes n (HttpContext.new.fail 400, Buffer.received (bytes "abc")) =
        .ok (HttpContext.new.fail 400, Buffer.received (bytes "abc")) :=
  (recvHttpRequest_forward (HttpContext.new.fail 400) (Buffer.received (bytes "abc"))).2
    (Or.inl rfl)

/-- C31: in every context reached from a new context, or from one on which `ReSet` was
called, by calls of `RecvHttpRequest`, the status is 200, 400 or 414, and it is 400 or more
exactly if the parse state is Error. -/
theorem recv_status_iff_error (c : HttpContext) (h : c.Reachable) :
    (c._resp_statu = 200 ∨ c._resp_statu = 400 ∨ c._resp_statu = 414) ∧
    (c._resp_statu ≥ 400 ↔ c._recv_statu = RECV_HTTP_ERROR) := by
  have hok : c.StatusOK := by
    induction h with
    | fresh => exact Or.inl ⟨by decide, rfl⟩
    | reset c0 => exact Or.inl ⟨by simp [HttpContext.ReSet], rfl⟩
    | recv c1 c2 buf buf2 _ hr ih => exact statusOK_step c1 c2 ih (recvHttpRequest_status _ _ _ _ hr)
  rcases hok with ⟨a, b⟩ | ⟨a, b | b⟩
  · refine ⟨Or.inl b, ?_⟩
    rw [b]
    exact ⟨fun x => absurd x (by decide), fun x => absurd x a⟩
  · refine ⟨Or.inr (Or.inl b), ?_⟩
    rw [b]
    exact ⟨fun _ => a, fun _ => by decide⟩
  · refine ⟨Or.inr (Or.inr b), ?_⟩
    rw [b]
    exact ⟨fun _ => a, fun _ => by decide⟩

/-- C31, at the context that a new context reaches on the input `GOT / HTTP/1.1`: state
Error, status 400. -/
theorem recv_status_iff_error_witness :
    ((HttpContext.new.fail 400)._resp_statu = 200 ∨ (HttpContext.new.fail 400)._resp_statu = 400 ∨
      (HttpContext.new.fail 400)._resp_statu = 414) ∧
    ((HttpContext.new.fail 400)._resp_statu ≥ 400 ↔
      (HttpContext.new.fail 400)._recv_statu = RECV_HTTP_ERROR) :=
  recv_status_iff_error (HttpContext.new.fail 400)
    (HttpContext.Reachable.recv HttpContext.new (HttpContext.new.fail 400)
      (Buffer.received (bytes "GOT / HTTP/1.1\n"))
      ((Buffer.received (bytes "GOT / HTTP/1.1\n")).advance 15)
      HttpContext.Reachable.fresh (by decide!))

/-- C32: `OnMessage`, or any later iteration of its loop, finds bytes in the input buffer and
the call of `RecvHttpRequest` returns with a status of 400 or more. Then it returns, and what
it does to the connection is exactly: one `Send`, of the serialized error response, and then
`Shutdown`; no route handler runs, no file is read and nothing else is sent. Afterwards the
context is equal to a new one (state Line, status 200, the request of the constructor) and
the input buffer has no readable bytes. -/
theorem onMessage_error_resets (srv : HttpServer) (env : Env) (fuel : Nat)
    (context c : HttpContext) (buffer b : Buffer) (hr : 0 < buffer.ReadAbleSize)
    (h : context.RecvHttpRequest buffer = .ok (c, b)) (h400 : c._resp_statu ≥ 400) :
    (srv.OnMessageLoop env (fuel + 1) context buffer =
      .ok (HttpContext.new, b.advance b.ReadAbleSize,
        [Event.Send (HttpServer.WriteReponse env c._request
          (HttpServer.ErrorHandler env c._request (HttpResponse.new c._resp_statu))).2,
         Event.Shutdown])) ∧
    (srv.OnMessage env context buffer =
      .ok (HttpContext.new, b.advance b.ReadAbleSize,
        [Event.Send (HttpServer.WriteReponse env c._request
          (HttpServer.ErrorHandler env c._request (HttpResponse.new c._resp_statu))).2,
         Event.Shutdown])) ∧
    (b.advance b.ReadAbleSize).ReadAbleSize = 0 ∧ (b.advance b.ReadAbleSize).readable = [] ∧
    HttpContext.new._recv_statu = RECV_HTTP_LINE ∧ HttpContext.new._resp_statu = 200 ∧
    HttpContext.new._request = HttpRequest.new := by
  have hreset : c.ReSet = HttpContext.new := rfl
  have h0 := Buffer.advance_all b
  refine ⟨?_, ?_, h0, ?_, rfl, rfl, rfl⟩
  · rw [onMessageLoop_error srv env fuel context c buffer b hr h h400, hreset]
  · rw [onMessage_error srv env context c buffer b hr h h400, hreset]
  · simp only [Buffer.readable, h0, Buffer.peek, List.take_zero]

/-- C32, at a new context and the input `GOT / HTTP/1.1`, whose request line does not match
the pattern (status 400). -/
theorem onMessage_error_resets_witness :
    (exampleServer.OnMessageLoop exampleEnv (0 + 1) HttpContext.new
        (Buffer.received (bytes "GOT / HTTP/1.1\n")) =
      .ok (HttpContext.new,
        ((Buffer.received (bytes "GOT / HTTP/1.1\n")).advance 15).advance
          ((Buffer.received (bytes "GOT / HTTP/1.1\n")).advance 15).ReadAbleSize,
        [Event.Send (HttpServer.WriteReponse exampleEnv (HttpContext.new.fail 400)._request
          (HttpServer.ErrorHandler exampleEnv (HttpContext.new.fail 400)._request
            (HttpResponse.new (HttpContext.new.fail 400)._resp_statu))).2,
         Event.Shutdown])) ∧
    (exampleServer.OnMessage exampleEnv HttpContext.new
        (Buffer.received (bytes "GOT / HTTP/1.1\n")) =
      .ok (HttpContext.new,
        ((Buffer.received (bytes "GOT / HTTP/1.1\n")).advance 15).advance
          ((Buffer.received (bytes "GOT / HTTP/1.1\n")).advance 15).ReadAbleSize,
        [Event.Send (HttpServer.WriteReponse exampleEnv (HttpContext.new.fail 400)._request
          (HttpServer.ErrorHandler exampleEnv (HttpContext.new.fail 400)._request
            (HttpResponse.new (HttpContext.new.fail 400)._resp_statu))).2,
         Event.Shutdown])) ∧
    (((Buffer.received (bytes "GOT / HTTP/1.1\n")).advance 15).advance
      ((Buffer.received (bytes "GOT / HTTP/1.1\n")).advance 15).ReadAbleSize).ReadAbleSize = 0 ∧
    (((Buffer.received (bytes "GOT / HTTP/1.1\n")).advance 15).advance
      ((Buffer.received (bytes "GOT / HTTP/1.1\n")).advance 15).ReadAbleSize).readable = [] ∧
    HttpContext.new._recv_statu = RECV_HTTP_LINE ∧ HttpContext.new._resp_statu = 200 ∧
    HttpContext.new._request = HttpRequest.new :=
  onMessage_error_resets exampleServer exampleEnv 0 HttpContext.new (HttpContext.new.fail 400)
    (Buffer.received (bytes "GOT / HTTP/1.1\n"))
    ((Buffer.received (bytes "GOT / HTTP/1.1\n")).advance 15)
    (by rw [Buffer.received_size]; decide) (by decide!) (by decide)

/-- C33 fails: the path part `([^?]*)` of the request-line pattern matches the empty text.
Every line whose parts are a method, a space, an empty path, an optional query, a space and
a version is accepted with an empty stored path, as is `GET  HTTP/1.1` (two spaces): the line
step succeeds with state Head, method `GET` and path empty. For a request of method `GET`
with an empty path, a server with the base directory `./www` passes the three tests of
`IsFileHandler` (`ValidPath` of the empty path is true) and reaches `req._path.back()` on an
empty string, which is undefined; so is `OnMessage` on the request `GET  HTTP/1.1` with an
empty header block, whatever the file system. -/
theorem parseHttpLine_empty_path (env : Env) :
    (∀ (c : HttpContext) (line m : Str) (q : Option Str) (v eol : Str),
      (RequestLineParts line m [] q v eol ∧ ∀ comp ∈ queryComponents q, (61 : Byte) ∈ comp) →
      (c.ParseHttpLine line).1 = true ∧ (c.ParseHttpLine line).2._request._path = []) ∧
    (HttpContext.new.RecvHttpLine (Buffer.received (bytes "GET  HTTP/1.1\n"))).map
        (fun r => (r.1, r.2.1._recv_statu, r.2.1._request._method, r.2.1._request._path)) =
      .ok (true, RECV_HTTP_HEAD, bytes "GET", []) ∧
    (∀ req : HttpRequest, (req._method = bytes "GET" ∧ req._path = []) →
      (HttpServer.static (bytes "./www")).IsFileHandler env req = .error .undefined) ∧
    (HttpServer.static (bytes "./www")).OnMessage env HttpContext.new
        (Buffer.received (bytes "GET  HTTP/1.1\n\n")) = .error .undefined := by
  have hfile : ∀ req : HttpRequest, (req._method = bytes "GET" ∧ req._path = []) →
      (HttpServer.static (bytes "./www")).IsFileHandler env req = .error .undefined := by
    intro req h
    have hb : (HttpServer.static (bytes "./www"))._basedir.isEmpty = false := by decide
    have hv : Util.ValidPath ([] : Str) = true := by decide
    simp only [HttpServer.IsFileHandler, hb, h.1, h.2, hv, HttpServer.req_path]
    simp [bind, Except.bind]
  refine ⟨?_, by decide!, hfile, ?_⟩
  · intro c line m q v eol h
    rw [parseHttpLine_ok c line m [] q v eol h.1 h.2]
    exact ⟨rfl, by simp only [HttpContext.withLine]; decide⟩
  · have hrecv : HttpContext.new.RecvHttpRequest (Buffer.received (bytes "GET  HTTP/1.1\n\n")) =
        .ok ({ HttpContext.new with
            _recv_statu := RECV_HTTP_OVER
            _request := { HttpRequest.new with _method := bytes "GET" } },
          (Buffer.received (bytes "GET  HTTP/1.1\n\n")).advance 15) := by decide!
    have hr : 0 < (Buffer.received (bytes "GET  HTTP/1.1\n\n")).ReadAbleSize := by
      rw [Buffer.received_size]; decide
    have hf0 := hfile ({ HttpRequest.new with _method := bytes "GET" }) ⟨rfl, rfl⟩
    exact onMessageLoop_route_error _ env _ HttpContext.new _ _ _ Exn.undefined hr hrecv
      (by decide) rfl (by unfold HttpServer.Route; rw [hf0]; rfl)

/-- C34: for every buffer with read offset ≤ write offset ≤ size of the storage and every
length `n` (lengths are natural numbers, the sum `_writer_idx + n` does not wrap), after
`EnsureWriteSpace(n)` the tail idle size is at least `n`, the readable bytes are the same and
the invariant holds; with `n ≤ TailIdleSize()` the buffer is untouched; with
`TailIdleSize() < n ≤ TailIdleSize() + HeadIdleSize()` the read offset is 0, the write offset
is the readable size and the size of the storage is the same; otherwise the storage has
exactly `_writer_idx + n` bytes, of which the old ones are kept, and both offsets are the
same; in all cases the storage does not become smaller. -/
theorem ensureWriteSpace_cases (b : Buffer) (n : Nat) (hwf : b.WF) :
    n ≤ (b.EnsureWriteSpace n).TailIdleSize ∧
    (b.EnsureWriteSpace n).readable = b.readable ∧
    (b.EnsureWriteSpace n).WF ∧
    (n ≤ b.TailIdleSize → b.EnsureWriteSpace n = b) ∧
    (b.TailIdleSize < n → n ≤ b.TailIdleSize + b.HeadIdleSize →
      (b.EnsureWriteSpace n)._reader_idx = 0 ∧
      (b.EnsureWriteSpace n)._writer_idx = b.ReadAbleSize ∧
      (b.EnsureWriteSpace n)._buffer.length = b._buffer.length) ∧
    (b.TailIdleSize + b.HeadIdleSize < n →
      (b.EnsureWriteSpace n)._buffer.length = b._writer_idx + n ∧
      (b.EnsureWriteSpace n)._reader_idx = b._reader_idx ∧
      (b.EnsureWriteSpace n)._writer_idx = b._writer_idx ∧
      (b.EnsureWriteSpace n)._buffer.take b._buffer.length = b._buffer) ∧
    b._buffer.length ≤ (b.EnsureWriteSpace n)._buffer.length := by
  obtain ⟨w, r, t⟩ := Buffer.ensureWriteSpace_spec b n hwf
  obtain ⟨h1, h2⟩ := hwf
  have hpl : (b.peek b.ReadAbleSize).length = b._writer_idx - b._reader_idx := by
    simp [Buffer.peek, Buffer.ReadAbleSize]; omega
  have hcl : (copyInto b._buffer 0 (b.peek b.ReadAbleSize)).length = b._buffer.length := by
    simp [copyInto, hpl]; omega
  refine ⟨t, r, w, ?_, ?_, ?_, ?_⟩
  · intro h
    simp only [Buffer.EnsureWriteSpace, ge_iff_le, h, if_true]
  · intro ha hb
    have ha2 : ¬ b.TailIdleSize ≥ n := by omega
    simp only [Buffer.EnsureWriteSpace, ha2, hb, if_true, if_false]
    exact ⟨trivial, trivial, hcl⟩
  · intro ha
    have ha2 : ¬ b.TailIdleSize ≥ n := by omega
    have hb2 : ¬ n ≤ b.TailIdleSize + b.HeadIdleSize := by omega
    simp only [Buffer.TailIdleSize, Buffer.HeadIdleSize] at ha
    simp only [Buffer.EnsureWriteSpace, ha2, hb2, if_false, vectorResize]
    rw [List.take_of_length_le (by omega)]
    refine ⟨by simp; omega, trivial, trivial, by simp⟩
  · by_cases ha : b.TailIdleSize ≥ n
    · simp only [Buffer.EnsureWriteSpace, ha, if_true]
      exact Nat.le_refl _
    · by_cases hb : n ≤ b.TailIdleSize + b.HeadIdleSize
      · simp only [Buffer.EnsureWriteSpace, ha, hb, if_true, if_false]
        rw [hcl]
      · simp only [Buffer.TailIdleSize, Buffer.HeadIdleSize] at ha hb
        simp only [Buffer.EnsureWriteSpace, Buffer.TailIdleSize, Buffer.HeadIdleSize, ha, hb,
          if_false, vectorResize]
        rw [List.take_of_length_le (by omega)]
        simp

/-- C34, at a new buffer (1024 bytes of storage, nothing written) and `n = 2000`: the
storage grows to 2000 bytes. -/
theorem ensureWriteSpace_cases_witness :
    2000 ≤ (Buffer.new.EnsureWriteSpace 2000).TailIdleSize ∧
    (Buffer.new.EnsureWriteSpace 2000).readable = Buffer.new.readable ∧
    (Buffer.new.EnsureWriteSpace 2000).WF ∧
    (2000 ≤ Buffer.new.TailIdleSize → Buffer.new.EnsureWriteSpace 2000 = Buffer.new) ∧
    (Buffer.new.TailIdleSize < 2000 → 2000 ≤ Buffer.new.TailIdleSize + Buffer.new.HeadIdleSize →
      (Buffer.new.EnsureWriteSpace 2000)._reader_idx = 0 ∧
      (Buffer.new.EnsureWriteSpace 2000)._writer_idx = Buffer.new.ReadAbleSize ∧
      (Buffer.new.EnsureWriteSpace 2000)._buffer.length = Buffer.new._buffer.length) ∧
    (Buffer.new.TailIdleSize + Buffer.new.HeadIdleSize < 2000 →
      (Buffer.new.EnsureWriteSpace 2000)._buffer.length = Buffer.new._writer_idx + 2000 ∧
      (Buffer.new.EnsureWriteSpace 2000)._reader_idx = Buffer.new._reader_idx ∧
      (Buffer.new.EnsureWriteSpace 2000)._writer_idx = Buffer.new._writer_idx ∧
      (Buffer.new.EnsureWriteSpace 2000)._buffer.take Buffer.new._buffer.length =
        Buffer.new._buffer) ∧
    Buffer.new._buffer.length ≤ (Buffer.new.EnsureWriteSpace 2000)._buffer.length :=
  ensureWriteSpace_cases Buffer.new 2000 Buffer.new_spec.1

/-- C35: the buffer of the constructor has both offsets 0 and 1024 bytes of storage, and
satisfies read offset ≤ write offset ≤ size of the storage. For every buffer that satisfies
it and each of `MoveReadOffset`, `MoveWriteOffset`, `EnsureWriteSpace`, `Write`,
`WriteAndPush`, `Read`, `ReadAndPop`, `GetLine`, `GetLineAndPop`, `Clear`: a call within the
asserted precondition returns, and every call that returns leaves a buffer that satisfies
it; so does every sequence of calls made on a new buffer. -/
theorem buffer_ops_keep_invariant (b : Buffer) (op : BufferOp) (hwf : b.WF) :
    (op.Pre b → ∃ b2, b.apply op = .ok b2) ∧
    (∀ b2, b.apply op = .ok b2 → b2.WF) ∧
    (Buffer.new._reader_idx = 0 ∧ Buffer.new._writer_idx = 0 ∧
      Buffer.new._buffer.length = 1024 ∧ Buffer.new.WF) ∧
    ∀ ops : List BufferOp,
      (Buffer.Within Buffer.new ops → ∃ b2, Buffer.new.applyAll ops = .ok b2) ∧
      (∀ b2, Buffer.new.applyAll ops = .ok b2 → b2.WF) :=
  ⟨Buffer.apply_returns b op hwf, fun b2 h => Buffer.apply_wf b b2 op hwf h,
    ⟨rfl, rfl, List.length_replicate _ _, Buffer.new_spec.1⟩,
    fun ops => ⟨(Buffer.applyAll_wf ops Buffer.new Buffer.new_spec.1).2,
      (Buffer.applyAll_wf ops Buffer.new Buffer.new_spec.1).1⟩⟩

/-- C35, at the buffer that holds `abc` and the call `ReadAndPop(2)`. -/
theorem buffer_ops_keep_invariant_witness :
    (BufferOp.Pre (Buffer.received (bytes "abc")) (BufferOp.ReadAndPop 2) →
      ∃ b2, (Buffer.received (bytes "abc")).apply (BufferOp.ReadAndPop 2) = .ok b2) ∧
    (∀ b2, (Buffer.received (bytes "abc")).apply (BufferOp.ReadAndPop 2) = .ok b2 → b2.WF) ∧
    (Buffer.new._reader_idx = 0 ∧ Buffer.new._writer_idx = 0 ∧
      Buffer.new._buffer.length = 1024 ∧ Buffer.new.WF) ∧
    ∀ ops : List BufferOp,
      (Buffer.Within Buffer.new ops → ∃ b2, Buffer.new.applyAll ops = .ok b2) ∧
      (∀ b2, Buffer.new.applyAll ops = .ok b2 → b2.WF) :=
  buffer_ops_keep_invariant (Buffer.received (bytes "abc")) (BufferOp.ReadAndPop 2)
    (Buffer.received_spec _).1

/-- C36: every sequence of `TimerAddInLoop` (with an id that is not in the id-index and a
delay in 1 .. 60), `TimerRefreshInLoop`, `TimerCancelInLoop` and tick advances on a new
wheel returns, and in the wheel it reaches: `HasTimer(id)` is true exactly if some vector of
the wheel holds a `PtrTask` to a timer object of that id; every entry of the id-index points
to an object that some vector still holds; and the tick is below 60. -/
theorem hasTimer_iff_in_wheel (ops : List TimerOp) (hadm : Admissible TimerWheel.new ops) :
    ∃ w1 ran, TimerWheel.new.run ops = .ok (w1, ran) ∧
      (∀ id, w1.HasTimer id = true ↔
        ∃ pt t q, pt ∈ w1._wheel.getD q [] ∧ w1.heap[pt]? = some t ∧ t._id = id) ∧
      (∀ id pt, w1._timers.lookup id = some pt → ∃ q, pt ∈ w1._wheel.getD q []) ∧
      w1._tick < 60 := by
  obtain ⟨w1, ran, e, wf1, _, _⟩ := TimerWheel.run_inv ops _ TimerWheel.wf_new hadm
  have hidx := TimerWheel.run_indexed ops _ w1 ran TimerWheel.wf_new TimerWheel.indexed_new
    hadm e
  refine ⟨w1, ran, e, ?_, ?_, wf1.2.2.1⟩
  · intro id
    constructor
    · intro h
      simp only [TimerWheel.HasTimer] at h
      cases hl : w1._timers.lookup id with
      | none => rw [hl] at h; cases h
      | some pt =>
        obtain ⟨a, t, b, c⟩ := hidx.1 id pt hl
        obtain ⟨q, hq⟩ := (TimerWheel.expired_false_iff w1 pt).1 a
        exact ⟨pt, t, q, hq, b, c⟩
    · rintro ⟨pt, t, q, hq, b, c⟩
      have hl := hidx.2 pt t ((TimerWheel.expired_false_iff w1 pt).2 ⟨q, hq⟩) b
      simp only [TimerWheel.HasTimer, ← c, hl, Option.isSome_some]
  · intro id pt hl
    exact (TimerWheel.expired_false_iff w1 pt).1 (hidx.1 id pt hl).1

/-- C36, for the sequence that adds a timer of id 7 and delay 1, cancels it and advances
the tick once: the object is dropped and the index has no entry left. -/
theorem hasTimer_iff_in_wheel_witness :
    ∃ w1 ran, TimerWheel.new.run [TimerOp.add 7 1, TimerOp.cancel 7, TimerOp.tick] =
        .ok (w1, ran) ∧
      (∀ id, w1.HasTimer id = true ↔
        ∃ pt t q, pt ∈ w1._wheel.getD q [] ∧ w1.heap[pt]? = some t ∧ t._id = id) ∧
      (∀ id pt, w1._timers.lookup id = some pt → ∃ q, pt ∈ w1._wheel.getD q []) ∧
      w1._tick < 60 :=
  hasTimer_iff_in_wheel [TimerOp.add 7 1, TimerOp.cancel 7, TimerOp.tick]
    ⟨⟨by decide, by decide, by decide⟩, fun _ _ _ => ⟨trivial, fun _ _ _ =>
      ⟨trivial, fun _ _ _ => trivial⟩⟩⟩

/-- C37, as stated, fails after a `Send` of no bytes: `SendInLoop` enables write monitoring
without a look at the length of what it appends. On a new connection `Send` of the empty
string leaves the output buffer empty and write monitoring on; after `Send` of `ab` and a
write-ready event in which the socket takes both bytes the output buffer is empty and
write monitoring is off, and a `Send` of the empty string then turns it on again, the
output buffer still being empty. -/
theorem send_nothing_enables_write :
    ((Connection.new 1 5).writeRun ConnCallbacks.unset [.send []]).map
      (fun r => (r.1._out_buffer.ReadAbleSize, r.1._channel.WriteAble, sentBytes r.2)) =
      .ok (0, true, []) ∧
    ((Connection.new 1 5).writeRun ConnCallbacks.unset
        [.send (bytes "ab"), .writable 2]).map
      (fun r => (r.1._out_buffer.ReadAbleSize, r.1._channel.WriteAble, sentBytes r.2)) =
      .ok (0, false, bytes "ab") ∧
    ((Connection.new 1 5).writeRun ConnCallbacks.unset
        [.send (bytes "ab"), .writable 2, .send []]).map
      (fun r => (r.1._out_buffer.ReadAbleSize, r.1._channel.WriteAble, sentBytes r.2)) =
      .ok (0, true, bytes "ab") := by
  refine ⟨by decide!, by decide!, by decide!⟩

/-- C37, amended: take a connection that is not Disconnected and whose output buffer is
empty, and a sequence of `Send` calls and write-ready events in each of which the socket
takes between 0 bytes and the number offered (`Send` runs `SendInLoop` in the thread of the
loop, where the task queue keeps the order of the calls). Every call returns. The bytes
handed to the socket, in order, followed by the bytes still in the output buffer are the
concatenation of the byte strings sent: what the socket got is a prefix of it, nothing lost,
doubled or reordered. While bytes wait in the output buffer write monitoring is on; after a
write-ready event it is off exactly when the output buffer is empty; after a `Send`, also one
of no bytes, it is on until the next write-ready event. -/
theorem send_bytes_reach_socket_in_order (cb : ConnCallbacks) (c : Connection)
    (ops : List WriteOp) (hwf : c._out_buffer.WF) (hempty : c._out_buffer.ReadAbleSize = 0)
    (hs : c._statu ≠ ConnStatu.DISCONNECTED) (hacc : WriteOp.Accepted 0 ops) :
    ∃ c1 ev, c.writeRun cb ops = .ok (c1, ev) ∧
      sentBytes ev ++ c1._out_buffer.readable = WriteOp.sends ops ∧
      sentBytes ev <+: WriteOp.sends ops ∧
      (0 < c1._out_buffer.ReadAbleSize → c1._channel.WriteAble = true) ∧
      (∀ n, ops.getLast? = some (WriteOp.writable n) →
        (c1._channel.WriteAble = false ↔ c1._out_buffer.ReadAbleSize = 0)) ∧
      (∀ data, ops.getLast? = some (WriteOp.send data) → c1._channel.WriteAble = true) ∧
      c1._statu = c._statu := by
  have hread : c._out_buffer.readable = [] := by
    simp [Buffer.readable, Buffer.peek, hempty]
  obtain ⟨c1, ev, h1, _, hb, hm, hlw, hls, hs1, _⟩ :=
    Connection.writeRun_spec cb ops c hwf hs (by intro h; omega) (by rw [hempty]; exact hacc)
  rw [hread, List.nil_append] at hb
  exact ⟨c1, ev, h1, hb, ⟨_, hb⟩, hm, hlw, hls, hs1⟩

theorem send_bytes_reach_socket_in_order_witness :
    (Connection.new 1 5)._out_buffer.WF ∧ (Connection.new 1 5)._out_buffer.ReadAbleSize = 0 ∧
    (Connection.new 1 5)._statu ≠ ConnStatu.DISCONNECTED ∧
    WriteOp.Accepted 0 [.send (bytes "ab"), .writable 1, .send (bytes "c"), .writable 2] ∧
    ∃ c1 ev, (Connection.new 1 5).writeRun ConnCallbacks.unset
        [.send (bytes "ab"), .writable 1, .send (bytes "c"), .writable 2] = .ok (c1, ev) ∧
      sentBytes ev ++ c1._out_buffer.readable =
        WriteOp.sends [.send (bytes "ab"), .writable 1, .send (bytes "c"), .writable 2] ∧
      sentBytes ev <+: WriteOp.sends [.send (bytes "ab"), .writable 1, .send (bytes "c"),
        .writable 2] ∧
      (0 < c1._out_buffer.ReadAbleSize → c1._channel.WriteAble = true) ∧
      (∀ n, [WriteOp.send (bytes "ab"), .writable 1, .send (bytes "c"),
          .writable 2].getLast? = some (WriteOp.writable n) →
        (c1._channel.WriteAble = false ↔ c1._out_buffer.ReadAbleSize = 0)) ∧
      (∀ data, [WriteOp.send (bytes "ab"), .writable 1, .send (bytes "c"),
          .writable 2].getLast? = some (WriteOp.send data) → c1._channel.WriteAble = true) ∧
      c1._statu = (Connection.new 1 5)._statu :=
  ⟨Buffer.new_spec.1, by decide!, by decide, ⟨by decide, by decide, trivial⟩,
    send_bytes_reach_socket_in_order ConnCallbacks.unset (Connection.new 1 5)
      [.send (bytes "ab"), .writable 1, .send (bytes "c"), .writable 2] Buffer.new_spec.1
      (by decide!) (by decide) ⟨by decide, by decide, trivial⟩⟩

/-- C38 fails at `ShutdownInLoop`, which writes `DISCONNECTING` whatever the state is, while
`SendInLoop` returns at once on a Disconnected connection. With no callback set the call
returns for every connection, a Disconnected one included, and leaves it Disconnecting; when
the output buffer is empty it also calls `Release` again. On a new connection the sequence
`Established`, `Release`, the tasks of the loop, `Shutdown`, the tasks of the loop goes
through Connecting, Connected, Connected, Disconnected, Disconnecting, Disconnected, and the
channel is removed and the socket closed twice. A failed `recv` in `HandleRead`, which
calls `ShutdownInLoop`, moves a Disconnected connection to Disconnecting as well. -/
theorem shutdown_reopens_disconnected :
    (∀ c : Connection, ∃ c1 ev, c.ShutdownInLoop ConnCallbacks.unset = .ok (c1, ev) ∧
      c1._statu = ConnStatu.DISCONNECTING) ∧
    ConnState.statuses ConnCallbacks.unset (ConnState.start 1 5)
        [.established, .release, .tasks false, .shutdown, .tasks false] =
      some [.CONNECTING, .CONNECTED, .CONNECTED, .DISCONNECTED, .DISCONNECTING,
        .DISCONNECTED] ∧
    (ConnState.run ConnCallbacks.unset (ConnState.start 1 5)
        [.established, .release, .tasks false, .shutdown, .tasks false]).map
          (fun s => s.trace) =
      .ok [.Release, .ChannelRemove, .SocketClose, .Release, .ChannelRemove, .SocketClose] ∧
    ConnState.statuses ConnCallbacks.unset (ConnState.start 1 5)
        [.established, .release, .tasks false, .readable none] =
      some [.CONNECTING, .CONNECTED, .CONNECTED, .DISCONNECTED, .DISCONNECTING] := by
  refine ⟨?_, by decide!, by decide!, by decide!⟩
  intro c
  obtain ⟨c1, ev, h, hs, _⟩ := Connection.shutdownInLoop_unset c
  exact ⟨c1, ev, h, hs⟩

/-- C39 fails: `ReleaseInLoop` does not look at the state, so it runs once for every queued
`Release`. Take callbacks that return at once. On an established connection one wake-up with
the mask `EPOLLIN | EPOLLHUP` (or `EPOLLIN | EPOLLERR`) in which `recv` fails calls
`HandleRead`, whose `ShutdownInLoop` calls `Release`, and then `HandleClose` (or
`HandleError`), which calls `Release` again: two `ReleaseInLoop` calls are queued, and
`RunAllTask` removes the channel, closes the socket and calls the closed callback and the
close hook of the server twice each. An idle timer that fires before a close event gives the
same. For every state, the tasks of the loop call the closed callback and the close hook of
the server once for every queued `Release`. -/
theorem release_calls_closed_callbacks_twice :
    (ConnState.run ConnCallbacks.closing (ConnState.start 1 5)
        [.established, .wakeup (EPOLLIN ||| EPOLLHUP) none none]).map
          (fun s => (s.queued, s.trace)) = .ok (2, [.Release, .Release]) ∧
    (ConnState.run ConnCallbacks.closing (ConnState.start 1 5)
        [.established, .wakeup (EPOLLIN ||| EPOLLHUP) none none, .tasks false]).map
          (fun s => s.trace) =
      .ok [.Release, .Release, .ChannelRemove, .SocketClose, .Closed, .ServerClosed,
        .ChannelRemove, .SocketClose, .Closed, .ServerClosed] ∧
    (ConnState.run ConnCallbacks.closing (ConnState.start 1 5)
        [.established, .wakeup (EPOLLIN ||| EPOLLERR) none none, .tasks false]).map
          (fun s => (s.trace.count ConnEvent.Closed, s.trace.count ConnEvent.ServerClosed)) =
      .ok (2, 2) ∧
    (ConnState.run ConnCallbacks.closing (ConnState.start 1 5)
        [.established, .timer, .close, .tasks true]).map
          (fun s => (s.trace.count ConnEvent.Closed, s.trace.count ConnEvent.ServerClosed)) =
      .ok (2, 2) ∧
    (∀ (s : ConnState) ( has_timer : Bool),
      ∃ s1, ConnState.step ConnCallbacks.closing s (.tasks has_timer) = .ok s1 ∧
        s1.trace.count ConnEvent.Closed = s.trace.count ConnEvent.Closed + s.queued ∧
        s1.trace.count ConnEvent.ServerClosed =
          s.trace.count ConnEvent.ServerClosed + s.queued) := by
  refine ⟨by decide!, by decide!, by decide!, by decide!, ?_⟩
  intro s has_timer
  obtain ⟨s1, h, hc, hsc, _⟩ :=
    ConnState.releaseTasks_closing has_timer s.queued { s with queued := 0 }
  exact ⟨s1, h, hc, hsc⟩
